import Mathlib

/-!
# Spreadsheet engine: a shallow embedding of `src/spreadsheet`

The sheet (`sheet.cpp`), its cells (`cell.cpp`) and the formula wrapper
(`formula.cpp`) are embedded as state-passing functions over an explicit
`Sheet` value.  The formula parser and evaluator (`FormulaAST`) and the
declarations of `common.h` are not part of the sources; the former is taken as
a parameter (`FormulaLib`), the latter is modelled from the specification.

Conventions of the embedding:
* `std::unordered_map` / `std::unordered_set` are lists; iteration follows the
  list order and mutation of an entry happens in place;
* a C++ `throw` is `Outcome.raise e s`, carrying the sheet as the exception
  leaves it;
* `assert` failures and null dereferences are exceptions of their own kind;
* recursion between `SetCell`, `ClearCell` and the cell methods is bounded by a
  depth counter computed from the sheet; running out of depth is reported as
  `Exn.DepthExhausted`.
-/

namespace Spreadsheet

/-! ## Data model -/

/-- Position of a cell: zero-based row and column (`int` fields). -/
structure Position where
  row : Int
  col : Int
deriving DecidableEq, Repr

/-- Size of the printable area. -/
structure Size where
  rows : Int
  cols : Int
deriving DecidableEq, Repr

/-- Modelled from the spec: `Position::MAX_ROWS` of `common.h` (not in the sources). -/
def MAX_ROWS : Int := 16384

/-- Modelled from the spec: `Position::MAX_COLS` of `common.h` (not in the sources). -/
def MAX_COLS : Int := 16384

/-- Modelled from the spec: `Position::IsValid` of `common.h` (not in the sources):
`0 ≤ row < MAX_ROWS ∧ 0 ≤ col < MAX_COLS`. -/
def Position.IsValid (p : Position) : Bool :=
  decide (0 ≤ p.row) && decide (p.row < MAX_ROWS) && decide (0 ≤ p.col) && decide (p.col < MAX_COLS)

/-- Modelled from the spec: `Position::operator<` of `common.h` (not in the sources),
the lexicographic order on `(row, col)` used by `std::set<Position>`. -/
def Position.lt (a b : Position) : Bool :=
  decide (a.row < b.row) || (decide (a.row = b.row) && decide (a.col < b.col))

/-- Modelled from the spec: `FORMULA_SIGN` of `common.h` (not in the sources). -/
def FORMULA_SIGN : Char := Char.ofNat 61

/-- Modelled from the spec: `ESCAPE_SIGN` of `common.h` (not in the sources), the apostrophe. -/
def ESCAPE_SIGN : Char := Char.ofNat 39

/-- Modelled from the spec: the enumeration `FormulaError::Category` of `common.h` (not in the
sources); `FormulaError::ToString` in `formula.cpp` names its values `Ref`, `Value` and
`Arithmetic`.  A `FormulaError` holds one field, its category, and is identified with it. -/
inductive Category where
  | Ref
  | Value
  | Arithmetic
deriving DecidableEq, Repr

/-- The variant `CellInterface::Value = std::variant<std::string, double, FormulaError>`;
`D` stands for `double`. -/
inductive Value (D : Type) where
  | num (d : D)
  | str (s : String)
  | err (e : Category)
deriving DecidableEq, Repr

/-- The three implementations of `Impl`: `EmptyImpl`, `TextImpl`, `FormulaImpl`.
`A` is the type of parsed formulas (`FormulaAST`). -/
inductive Impl (A : Type) where
  | EmptyImpl
  | TextImpl (value_ : String)
  | FormulaImpl (formula_ : A)
deriving DecidableEq, Repr

/-- The fields of `class Cell` (`sheet_` and `pos_` are the sheet and the key under which
the cell is stored). `impl_` is `none` for a null `unique_ptr`. -/
structure Cell (A D : Type) where
  impl_ : Option (Impl A)
  cached_value_ : Option (Value D)
  cells_required_ : List Position
  cells_dependent_ : List Position
deriving DecidableEq, Repr

/-- The fields of `class Sheet`. -/
structure Sheet (A D : Type) where
  cells_ : List (Position × Cell A D)
  size_ : Size
deriving DecidableEq, Repr

/-- What an evaluation ends with when it does not return a number: a thrown `FormulaError`, or
the failed assertion `cached_value_.has_value()` of `Cell::GetValue` on a referenced cell. -/
inductive Thrown where
  | formulaError (category : Category)
  | assertion
deriving DecidableEq, Repr

/-- The formula library the cell code is compiled against (`FormulaAST.h`, `<string>`),
which is not part of the sources: parsing, printing, the list of referenced cells,
evaluation, `std::stod`, and the `double` literal `0.0`.

`Execute a view` evaluates the parsed formula; `view q` is `none` when `GetCell(q)` is null
and `some c` when a cell exists whose cache is `c`. It returns a `double`, throws a
`FormulaError`, or trips the assertion of `Cell::GetValue` on a cell whose cache is empty.
`stod t` is `none` when `std::stod` throws, otherwise the value and the number of characters
consumed. -/
structure FormulaLib (A D : Type) where
  zero : D
  stod : String → Option (D × Nat)
  ParseFormulaAST : String → Option A
  GetCells : A → List Position
  PrintFormula : A → String
  Execute : A → (Position → Option (Option (Value D))) → Except Thrown D

/-- Exceptions and abnormal terminations. `AssertionFailed` is a failed non-null assertion
(`assert(cell != nullptr)`, `assert(impl_ != nullptr)`); `ValueAssertionFailed` is the failed
assertion `cached_value_.has_value()` of `Cell::GetValue`. -/
inductive Exn where
  | InvalidPositionException
  | FormulaException
  | CircularDependencyException
  | FormulaErrorThrown
  | AssertionFailed
  | ValueAssertionFailed
  | NullDereference
  | DepthExhausted
deriving DecidableEq, Repr

/-- The abnormal terminations: after them the program does not go on. -/
def Exn.isAbort : Exn → Bool
  | .AssertionFailed => true
  | .ValueAssertionFailed => true
  | .NullDereference => true
  | .DepthExhausted => true
  | _ => false

/-- Result of a mutating call: normal return with the new state, or an exception together
with the state it leaves behind. -/
inductive Outcome (σ : Type) where
  | ok (s : σ)
  | raise (e : Exn) (s : σ)
deriving DecidableEq, Repr

/-- Sequencing: an exception propagates. -/
def Outcome.bind {σ : Type} (o : Outcome σ) (f : σ → Outcome σ) : Outcome σ :=
  match o with
  | .ok s => f s
  | .raise e s => .raise e s

/-- The state an outcome leaves behind. -/
def Outcome.state {σ : Type} : Outcome σ → σ
  | .ok s => s
  | .raise _ s => s

/-- The exception of an outcome, if any. -/
def Outcome.exn {σ : Type} : Outcome σ → Option Exn
  | .ok _ => none
  | .raise e _ => some e

/-- A range-based `for` loop over a container: the body runs for each element in turn, and an
exception leaves the loop. -/
def Outcome.forEach {σ α : Type} (f : σ → α → Outcome σ) : List α → σ → Outcome σ
  | [], s => .ok s
  | x :: l, s => (f s x).bind (Outcome.forEach f l)

/-- The call returned or raised an exception the caller can handle. -/
def Outcome.continues {σ : Type} : Outcome σ → Bool
  | .ok _ => true
  | .raise e _ => !e.isAbort

/-- A nested call made through the sheet reference held by a cell. -/
inductive Call where
  | set (pos : Position) (text : String)
  | clear (pos : Position)
deriving DecidableEq, Repr

/-! ## Containers -/

/-- Insertion into a `std::unordered_set<Position>`. -/
def setInsert (q : Position) (l : List Position) : List Position :=
  if q ∈ l then l else l ++ [q]

/-- Removal from a `std::unordered_set<Position>` (`erase(key)`). -/
def setErase (q : Position) (l : List Position) : List Position :=
  l.filter (fun x => decide (x ≠ q))

/-- Insertion into a `std::set<Position>`, kept in ascending order without duplicates. -/
def orderedInsert (a : Position) : List Position → List Position
  | [] => [a]
  | b :: l =>
    if a.lt b then a :: b :: l
    else if b.lt a then b :: orderedInsert a l
    else b :: l

variable {A D : Type}

/-- Search of a key among the entries of the map. -/
def lookup (pos : Position) : List (Position × Cell A D) → Option (Cell A D)
  | [] => none
  | e :: l => if e.1 = pos then some e.2 else lookup pos l

/-- Lookup `cells_.find(pos)`: the cell stored under `pos`, if any. -/
def Sheet.find (s : Sheet A D) (pos : Position) : Option (Cell A D) :=
  lookup pos s.cells_

/-- In-place mutation of the cell stored under `pos` (no effect when there is none). -/
def Sheet.modify (s : Sheet A D) (pos : Position) (f : Cell A D → Cell A D) : Sheet A D :=
  { s with cells_ := s.cells_.map (fun e => if e.1 = pos then (e.1, f e.2) else e) }

/-- Removal `cells_.erase(pos)`. -/
def Sheet.erase (s : Sheet A D) (pos : Position) : Sheet A D :=
  { s with cells_ := s.cells_.filter (fun e => decide (e.1 ≠ pos)) }

/-- Creation `cells_[pos] = std::make_unique<Cell>(...)` for a key that is absent. -/
def Sheet.emplace (s : Sheet A D) (pos : Position) (c : Cell A D) : Sheet A D :=
  { s with cells_ := s.cells_ ++ [(pos, c)] }

/-- The sheet right after construction. -/
def Sheet.empty : Sheet A D := { cells_ := [], size_ := { rows := 0, cols := 0 } }

/-! ## `formula.cpp` -/

/-- Method `Formula::GetReferencedCells`: the cells of the AST passed through a `std::set`. -/
def Formula.GetReferencedCells (lib : FormulaLib A D) (a : A) : List Position :=
  (lib.GetCells a).foldl (fun acc q => orderedInsert q acc) []

/-- Method `Formula::GetExpression`. -/
def Formula.GetExpression (lib : FormulaLib A D) (a : A) : String :=
  lib.PrintFormula a

/-- Method `Formula::Evaluate`: a thrown `FormulaError` is returned as a value; a failed
assertion ends the run. -/
def Formula.Evaluate (lib : FormulaLib A D) (a : A)
    (view : Position → Option (Option (Value D))) : Except Exn (Value D) :=
  match lib.Execute a view with
  | .ok d => .ok (Value.num d)
  | .error (Thrown.formulaError fe) => .ok (Value.err fe)
  | .error Thrown.assertion => .error Exn.ValueAssertionFailed

/-- Method `FormulaError::ToString`. -/
def FormulaError.ToString : Category → String
  | .Ref => "#REF!"
  | .Value => "#VALUE!"
  | .Arithmetic => "#ARITHM!"

/-- Method `FormulaError::GetCategory`. -/
def FormulaError.GetCategory (category_ : Category) : Category := category_

/-- Method `FormulaError::operator==`: the comparison of the two `category_` fields. -/
def FormulaError.opEq (lhs rhs : Category) : Bool :=
  decide (FormulaError.GetCategory lhs = FormulaError.GetCategory rhs)

/-! ## `cell.cpp`: the implementations -/

/-- What the evaluator sees of the sheet: for each position, whether a cell exists and
what its cache holds (`GetCell(q)->GetValue()`). -/
def Sheet.view (s : Sheet A D) : Position → Option (Option (Value D)) :=
  fun q => (s.find q).map (fun c => c.cached_value_)

/-- Method `TextImpl::GetValue`: the text without a leading escape sign. -/
def TextImpl.GetValue (value_ : String) : Value D :=
  if value_.front = ESCAPE_SIGN then Value.str (value_.drop 1) else Value.str value_

/-- Virtual `Impl::GetValue`. -/
def Impl.GetValue (lib : FormulaLib A D) (s : Sheet A D) : Impl A → Except Exn (Value D)
  | .EmptyImpl => .ok (Value.num lib.zero)
  | .TextImpl value_ => .ok (TextImpl.GetValue value_)
  | .FormulaImpl formula_ => Formula.Evaluate lib formula_ s.view

/-- Virtual `Impl::GetText`. -/
def Impl.GetText (lib : FormulaLib A D) : Impl A → String
  | .EmptyImpl => ""
  | .TextImpl value_ => value_
  | .FormulaImpl formula_ => String.singleton FORMULA_SIGN ++ Formula.GetExpression lib formula_

/-- Virtual `Impl::GetReferencedCells`. -/
def Impl.GetReferencedCells (lib : FormulaLib A D) : Impl A → List Position
  | .EmptyImpl => []
  | .TextImpl _ => []
  | .FormulaImpl formula_ => Formula.GetReferencedCells lib formula_

/-- Constructor `Cell::Cell`: an `EmptyImpl`, no cached value, no edges. -/
def Cell.new : Cell A D :=
  { impl_ := some Impl.EmptyImpl, cached_value_ := none,
    cells_required_ := [], cells_dependent_ := [] }

/-- Method `Cell::IsReferenced`. -/
def Cell.IsReferenced (c : Cell A D) : Bool := !c.cells_dependent_.isEmpty

/-- Method `Cell::GetText`; `none` when `impl_` is null. -/
def Cell.GetText (lib : FormulaLib A D) (c : Cell A D) : Option String :=
  c.impl_.map (Impl.GetText lib)

/-- Method `Cell::GetReferencedCells`; `none` when `impl_` is null. -/
def Cell.GetReferencedCells (lib : FormulaLib A D) (c : Cell A D) : Option (List Position) :=
  c.impl_.map (Impl.GetReferencedCells lib)

/-- Method `Cell::GetValue`; `none` when the assertion `cached_value_.has_value()` fails. -/
def Cell.GetValue (c : Cell A D) : Option (Value D) := c.cached_value_

/-! ## `sheet.cpp`: positions, lookup, size -/

/-- Method `Sheet::CheckSetPosition`. -/
def Sheet.CheckSetPosition (pos : Position) : Except Exn Unit :=
  if !pos.IsValid then .error Exn.InvalidPositionException else .ok ()

/-- Method `Sheet::CheckGetPosition`. -/
def Sheet.CheckGetPosition (s : Sheet A D) (pos : Position) : Except Exn Bool :=
  match Sheet.CheckSetPosition pos with
  | .error e => .error e
  | .ok _ => .ok (s.find pos).isSome

/-- Method `Sheet::GetCell`: the cell, null (`none`), or `InvalidPositionException`. -/
def Sheet.GetCell (s : Sheet A D) (pos : Position) : Except Exn (Option (Cell A D)) :=
  match s.CheckGetPosition pos with
  | .error e => .error e
  | .ok true => .ok (s.find pos)
  | .ok false => .ok none

/-- Method `Sheet::GetPrintableSize`. -/
def Sheet.GetPrintableSize (s : Sheet A D) : Size := s.size_

/-- Method `Sheet::UpdateSize`. -/
def Sheet.UpdateSize (s : Sheet A D) (pos : Position) : Sheet A D :=
  let s1 := if pos.row + 1 > s.size_.rows then { s with size_ := { s.size_ with rows := pos.row + 1 } } else s
  if pos.col + 1 > s1.size_.cols then { s1 with size_ := { s1.size_ with cols := pos.col + 1 } } else s1

/-- Method `Sheet::RecalculateSize`; every stored pointer is non-null, so each entry counts. -/
def Sheet.RecalculateSize (s : Sheet A D) : Sheet A D :=
  let max_row := s.cells_.foldl (fun m e => max m e.1.row) 0
  let max_col := s.cells_.foldl (fun m e => max m e.1.col) 0
  let cells_not_null := s.cells_.length
  if cells_not_null = 0 then { s with size_ := { rows := 0, cols := 0 } }
  else { s with size_ := { rows := max_row + 1, cols := max_col + 1 } }

/-! ## `Sheet::HasCircularDependency` -/

/-- The `while` loop of `Sheet::HasCircularDependency`. The vector `refs` is kept reversed:
the head of `stack` is `refs.back()`. -/
def Sheet.HasCircularDependency.loop (lib : FormulaLib A D) (s : Sheet A D) (start : Position) :
    Nat → List Position → List Position → Except Exn Bool
  | 0, _, _ => .error Exn.DepthExhausted
  | _ + 1, _, [] => .ok false
  | n + 1, visited, current :: stack =>
    if current = start then .ok true
    else if current ∈ visited then Sheet.HasCircularDependency.loop lib s start n visited stack
    else
      match s.GetCell current with
      | .error e => .error e
      | .ok none => Sheet.HasCircularDependency.loop lib s start n (current :: visited) stack
      | .ok (some cell) =>
        match cell.GetReferencedCells lib with
        | none => .error Exn.NullDereference
        | some cell_refs =>
          Sheet.HasCircularDependency.loop lib s start n (current :: visited) (cell_refs.reverse ++ stack)

/-- Number of loop iterations that always suffices: every iteration pops one position, and
positions are pushed only from `refs` and from the referenced cells of a cell visited once. -/
def Sheet.HasCircularDependency.bound (lib : FormulaLib A D) (s : Sheet A D) (refs : List Position) : Nat :=
  refs.length + (s.cells_.map (fun e => ((e.2.GetReferencedCells lib).getD []).length)).sum + 1

/-- Method `Sheet::HasCircularDependency`. -/
def Sheet.HasCircularDependency (lib : FormulaLib A D) (s : Sheet A D) (start : Position)
    (refs : List Position) : Except Exn Bool :=
  Sheet.HasCircularDependency.loop lib s start (Sheet.HasCircularDependency.bound lib s refs) [] refs.reverse

/-! ## `cell.cpp`: caches -/

/-- Method `Cell::SetEmptyImpl` of the cell stored under `pos_`. -/
def Cell.SetEmptyImpl (lib : FormulaLib A D) (s : Sheet A D) (pos_ : Position) : Sheet A D :=
  s.modify pos_ (fun c => { c with impl_ := some Impl.EmptyImpl, cached_value_ := some (Value.num lib.zero) })

/-- Method `Cell::RecalculateCurrentCache` applied to the cell stored under `pos`: the cache is
reset, then (the implementation being non-null) recomputed against the sheet. -/
def Cell.RecalculateCurrentCache (lib : FormulaLib A D) (s : Sheet A D) (pos : Position) : Outcome (Sheet A D) :=
  let s1 := s.modify pos (fun c => { c with cached_value_ := none })
  match s1.find pos with
  | none => .raise Exn.AssertionFailed s1
  | some cell =>
    match cell.impl_ with
    | none => .raise Exn.AssertionFailed s1
    | some impl =>
      match impl.GetValue lib s1 with
      | .error e => .raise e s1
      | .ok value => .ok (s1.modify pos (fun c => { c with cached_value_ := some value }))

/-- Method `Cell::UpdateDependentCache` of the cell stored under `pos_`, with the recursion
depth bounded by the first argument. -/
def Cell.UpdateDependentCache.go (lib : FormulaLib A D) : Nat → Sheet A D → Position → Outcome (Sheet A D)
  | 0, s, _ => .raise Exn.DepthExhausted s
  | n + 1, s, pos_ =>
    match s.find pos_ with
    | none => .raise Exn.NullDereference s
    | some self =>
      Outcome.forEach (fun s1 dependent_pos =>
        match s1.GetCell dependent_pos with
        | .error e => .raise e s1
        | .ok none => .raise Exn.AssertionFailed s1
        | .ok (some _) =>
          (Cell.RecalculateCurrentCache lib s1 dependent_pos).bind (fun s2 =>
            Cell.UpdateDependentCache.go lib n s2 dependent_pos)) self.cells_dependent_ s

/-- Method `Cell::UpdateDependentCache`. In a sheet without a cycle of dependents the recursion
is never deeper than the number of cells. -/
def Cell.UpdateDependentCache (lib : FormulaLib A D) (s : Sheet A D) (pos_ : Position) : Outcome (Sheet A D) :=
  Cell.UpdateDependentCache.go lib (s.cells_.length + 1) s pos_

/-- The statement `cached_value_ = impl_->GetValue();` of the cell stored under `pos_`. -/
def Cell.CacheImplValue (lib : FormulaLib A D) (s : Sheet A D) (pos_ : Position) : Outcome (Sheet A D) :=
  match s.find pos_ with
  | none => .raise Exn.NullDereference s
  | some self =>
    match self.impl_ with
    | none => .raise Exn.NullDereference s
    | some impl =>
      match impl.GetValue lib s with
      | .error e => .raise e s
      | .ok value => .ok (s.modify pos_ (fun c => { c with cached_value_ := some value }))

/-- Method `Cell::TryConvertTextDouble` of the cell stored under `pos_`. -/
def Cell.TryConvertTextDouble (lib : FormulaLib A D) (s : Sheet A D) (pos_ : Position) (text : String) : Outcome (Sheet A D) :=
  match lib.stod text with
  | some (value, pos) =>
    if pos = text.length then
      .ok (s.modify pos_ (fun c => { c with cached_value_ := some (Value.num value) }))
    else Cell.CacheImplValue lib s pos_
  | none => Cell.CacheImplValue lib s pos_

/-! ## `cell.cpp`: edges -/

/-- Body of the first loop of `Cell::UpdateDependencies` for one `old_ref`. -/
def Cell.UpdateDependencies.clearOld (lib : FormulaLib A D) (nested : Sheet A D → Call → Outcome (Sheet A D))
    (s : Sheet A D) (pos_ old_ref : Position) : Outcome (Sheet A D) :=
  match s.GetCell old_ref with
  | .error e => .raise e s
  | .ok none => .raise Exn.AssertionFailed s
  | .ok (some _) =>
    let s1 := s.modify old_ref (fun c => { c with cells_dependent_ := setErase pos_ c.cells_dependent_ })
    match s1.find old_ref with
    | none => .raise Exn.NullDereference s1
    | some cell_cast =>
      if cell_cast.cells_dependent_.isEmpty then
        match cell_cast.GetText lib with
        | none => .raise Exn.NullDereference s1
        | some text => if text.isEmpty then nested s1 (Call.clear old_ref) else .ok s1
      else .ok s1

/-- Body of the second loop of `Cell::UpdateDependencies` for one `new_ref`. -/
def Cell.UpdateDependencies.addNew (nested : Sheet A D → Call → Outcome (Sheet A D))
    (s : Sheet A D) (pos_ new_ref : Position) : Outcome (Sheet A D) :=
  if new_ref.IsValid then
    let s1 := s.modify pos_ (fun c => { c with cells_required_ := setInsert new_ref c.cells_required_ })
    match s1.GetCell new_ref with
    | .error e => .raise e s1
    | .ok (some _) =>
      .ok (s1.modify new_ref (fun c => { c with cells_dependent_ := setInsert pos_ c.cells_dependent_ }))
    | .ok none =>
      (nested s1 (Call.set new_ref "")).bind (fun s2 =>
        match s2.GetCell new_ref with
        | .error e => .raise e s2
        | .ok (some _) =>
          .ok (s2.modify new_ref (fun c => { c with cells_dependent_ := setInsert pos_ c.cells_dependent_ }))
        | .ok none => .ok s2)
  else .raise Exn.FormulaErrorThrown s

/-- Method `Cell::UpdateDependencies` of the cell stored under `pos_`. The first loop runs over
the required cells as they are when the loop starts. -/
def Cell.UpdateDependencies (lib : FormulaLib A D) (nested : Sheet A D → Call → Outcome (Sheet A D))
    (s : Sheet A D) (pos_ : Position) (new_refs : List Position) : Outcome (Sheet A D) :=
  match s.find pos_ with
  | none => .raise Exn.NullDereference s
  | some self =>
    (Outcome.forEach (fun s1 old_ref => Cell.UpdateDependencies.clearOld lib nested s1 pos_ old_ref)
        self.cells_required_ s).bind (fun s2 =>
      Outcome.forEach (fun s3 new_ref => Cell.UpdateDependencies.addNew nested s3 pos_ new_ref)
        new_refs (s2.modify pos_ (fun c => { c with cells_required_ := [] })))

/-- Method `Cell::Clear` of the cell stored under `pos_`. -/
def Cell.Clear (lib : FormulaLib A D) (nested : Sheet A D → Call → Outcome (Sheet A D))
    (s : Sheet A D) (pos_ : Position) : Outcome (Sheet A D) :=
  match s.find pos_ with
  | none => .raise Exn.NullDereference s
  | some self =>
    if self.impl_.isNone then .raise Exn.AssertionFailed s
    else
      (Cell.UpdateDependencies lib nested s pos_ []).bind (fun s1 =>
        match s1.find pos_ with
        | none => .raise Exn.NullDereference s1
        | some self1 =>
          if self1.IsReferenced then
            Cell.UpdateDependentCache lib (Cell.SetEmptyImpl lib s1 pos_) pos_
          else .ok (s1.modify pos_ (fun c => { c with impl_ := none })))

/-- Method `Cell::Set` of the cell stored under `pos_`. The tests `text.size() > 1 &&
text.front() == FORMULA_SIGN` and `text.substr(1)` read the same on bytes and on characters,
the formula sign being a one-byte character. -/
def Cell.Set (lib : FormulaLib A D) (nested : Sheet A D → Call → Outcome (Sheet A D))
    (s : Sheet A D) (pos_ : Position) (text : String) : Outcome (Sheet A D) :=
  if text.isEmpty then
    ((Cell.Clear lib nested s pos_).bind (fun s1 => .ok (Cell.SetEmptyImpl lib s1 pos_))).bind
      (fun s2 => Cell.UpdateDependentCache lib s2 pos_)
  else if text.length > 1 ∧ text.front = FORMULA_SIGN then
    match lib.ParseFormulaAST (text.drop 1) with
    | none => .raise Exn.FormulaException s
    | some formula_ =>
      let new_impl : Impl A := Impl.FormulaImpl formula_
      match Sheet.HasCircularDependency lib s pos_ (new_impl.GetReferencedCells lib) with
      | .error e => .raise e s
      | .ok true => .raise Exn.CircularDependencyException s
      | .ok false =>
        ((((Cell.Clear lib nested s pos_).bind (fun s1 =>
          .ok (s1.modify pos_ (fun c => { c with impl_ := some new_impl })))).bind (fun s2 =>
          Cell.UpdateDependencies lib nested s2 pos_ (new_impl.GetReferencedCells lib))).bind (fun s3 =>
          Cell.RecalculateCurrentCache lib s3 pos_)).bind (fun s4 =>
          Cell.UpdateDependentCache lib s4 pos_)
  else
    (((Cell.Clear lib nested s pos_).bind (fun s1 =>
      .ok (s1.modify pos_ (fun c => { c with impl_ := some (Impl.TextImpl text) })))).bind (fun s2 =>
      Cell.TryConvertTextDouble lib s2 pos_ text)).bind (fun s3 =>
      Cell.UpdateDependentCache lib s3 pos_)

/-! ## `sheet.cpp`: `SetCell` and `ClearCell` -/

/-- Body of `Sheet::SetCell`; `nested` performs the calls the cell makes back into the sheet. -/
def Sheet.SetCell.body (lib : FormulaLib A D) (nested : Sheet A D → Call → Outcome (Sheet A D))
    (s : Sheet A D) (pos : Position) (text : String) : Outcome (Sheet A D) :=
  match Sheet.CheckSetPosition pos with
  | .error e => .raise e s
  | .ok _ =>
    let s1 := s.UpdateSize pos
    let s2 := if (s1.find pos).isNone then s1.emplace pos Cell.new else s1
    Cell.Set lib nested s2 pos text

/-- Body of `Sheet::ClearCell`; `nested` performs the calls the cell makes back into the sheet. -/
def Sheet.ClearCell.body (lib : FormulaLib A D) (nested : Sheet A D → Call → Outcome (Sheet A D))
    (s : Sheet A D) (pos : Position) : Outcome (Sheet A D) :=
  match s.CheckGetPosition pos with
  | .error e => .raise e s
  | .ok false => .ok s
  | .ok true =>
    (Cell.Clear lib nested s pos).bind (fun s1 =>
      match s1.find pos with
      | none => .raise Exn.NullDereference s1
      | some cell =>
        if !cell.IsReferenced then
          let s2 := s1.erase pos
          if pos.row + 1 = s2.size_.rows ∨ pos.col + 1 = s2.size_.cols then .ok s2.RecalculateSize
          else .ok s2
        else .ok s1)

/-- A call into the sheet with at most `depth` nested calls below it. -/
def Sheet.call (lib : FormulaLib A D) : Nat → Sheet A D → Call → Outcome (Sheet A D)
  | 0, s, _ => .raise Exn.DepthExhausted s
  | n + 1, s, Call.set pos text => Sheet.SetCell.body lib (Sheet.call lib n) s pos text
  | n + 1, s, Call.clear pos => Sheet.ClearCell.body lib (Sheet.call lib n) s pos

/-- Nesting depth granted to a top-level call: a chain of nested `ClearCell` calls visits
distinct cells. -/
def Sheet.depth (s : Sheet A D) : Nat := s.cells_.length + 3

/-- Method `Sheet::SetCell`. -/
def Sheet.SetCell (lib : FormulaLib A D) (s : Sheet A D) (pos : Position) (text : String) : Outcome (Sheet A D) :=
  Sheet.call lib s.depth s (Call.set pos text)

/-- Method `Sheet::ClearCell`. -/
def Sheet.ClearCell (lib : FormulaLib A D) (s : Sheet A D) (pos : Position) : Outcome (Sheet A D) :=
  Sheet.call lib s.depth s (Call.clear pos)

/-! ## Graphs and predicates used by the statements -/

/-- Edge of the graph the cycle check walks: `b` is among the referenced cells of the cell at `a`. -/
def Sheet.Refs (lib : FormulaLib A D) (s : Sheet A D) (a b : Position) : Prop :=
  ∃ c refs, s.find a = some c ∧ c.GetReferencedCells lib = some refs ∧ b ∈ refs

/-- Pushes still possible: the referenced cells of the entries not yet visited. -/
def Sheet.HasCircularDependency.potential (lib : FormulaLib A D) (visited : List Position) :
    List (Position × Cell A D) → Nat
  | [] => 0
  | e :: l => (if e.1 ∈ visited then 0 else ((e.2.GetReferencedCells lib).getD []).length)
      + Sheet.HasCircularDependency.potential lib visited l

/-- What the cycle check needs of a sheet to run without an exception: every cell has an
implementation and references valid positions only. -/
def Sheet.Walkable (lib : FormulaLib A D) (s : Sheet A D) : Prop :=
  ∀ a c, s.find a = some c → ∃ refs, c.GetReferencedCells lib = some refs ∧ ∀ b ∈ refs, b.IsValid = true

/-! ## A small formula library for concrete runs -/

/-- Column letter of the small grammar: `A`, `B` or `C`. -/
def Demo.column (c : Char) : Option Int :=
  if c = 'A' then some 0 else if c = 'B' then some 1 else if c = 'C' then some 2 else none

/-- Row digit of the small grammar: `1`, `2` or `3`. -/
def Demo.row (d : Char) : Option Int :=
  if d = '1' then some 0 else if d = '2' then some 1 else if d = '3' then some 2 else none

/-- Cell reference of the small grammar, such as `B2`. -/
def Demo.cellOf (c d : Char) : Option Position :=
  match Demo.column c, Demo.row d with
  | some x, some y => some { row := y, col := x }
  | _, _ => none

/-- Sums of cell references and one-digit numbers, such as `A1+B2+3`: the referenced
positions in order of occurrence and the sum of the numbers. -/
def Demo.parseChars : List Char → Option (List Position × Int)
  | [] => none
  | [d] => if d.isDigit then some ([], (d.toNat : Int) - 48) else none
  | c :: d :: rest =>
    match Demo.cellOf c d with
    | some q =>
      match rest with
      | [] => some ([q], 0)
      | p :: rest1 =>
        if p = '+' then (Demo.parseChars rest1).map (fun r => (q :: r.1, r.2)) else none
    | none =>
      if c.isDigit ∧ d = '+' then
        (Demo.parseChars rest).map (fun r => (r.1, r.2 + ((c.toNat : Int) - 48)))
      else none

/-- Decimal value of a string of digits. -/
def Demo.digits : List Char → Option Int
  | [] => none
  | [d] => if d.isDigit then some ((d.toNat : Int) - 48) else none
  | d :: rest => if d.isDigit then (Demo.digits rest).map (fun r => ((d.toNat : Int) - 48) * 10 ^ rest.length + r) else none

/-- Value a reference contributes: `0` for an absent cell, the number of a numeric cache, an
error for a text or an error; the read of an empty cache trips the assertion. -/
def Demo.read (view : Position → Option (Option (Value Int))) (q : Position) : Except Thrown Int :=
  match view q with
  | none => .ok 0
  | some none => .error Thrown.assertion
  | some (some (Value.num d)) => .ok d
  | some (some (Value.str _)) => .error (Thrown.formulaError Category.Value)
  | some (some (Value.err e)) => .error (Thrown.formulaError e)

/-- Evaluation of a sum. -/
def Demo.execute (a : List Position × Int) (view : Position → Option (Option (Value Int))) : Except Thrown Int :=
  a.1.foldr (fun q acc => match Demo.read view q, acc with
    | .ok x, .ok y => .ok (x + y)
    | .error e, _ => .error e
    | .ok _, .error e => .error e) (.ok a.2)

/-- Name of a cell of the small grammar. -/
def Demo.cellName (q : Position) : String :=
  (if q.col = 0 then "A" else if q.col = 1 then "B" else "C") ++
  (if q.row = 0 then "1" else if q.row = 1 then "2" else "3")

/-- A number printed as a sum of one-digit numbers. -/
def Demo.printNat : Nat → String
  | 0 => "0"
  | 1 => "1"
  | 2 => "2"
  | 3 => "3"
  | 4 => "4"
  | 5 => "5"
  | 6 => "6"
  | 7 => "7"
  | 8 => "8"
  | 9 => "9"
  | n + 10 => "9+" ++ Demo.printNat (n + 1)

/-- Canonical text of a sum: the references in order, then the number. -/
def Demo.print (a : List Position × Int) : String :=
  a.1.foldr (fun q acc => Demo.cellName q ++ "+" ++ acc) (Demo.printNat a.2.toNat)

/-- Conversion of the longest prefix of digits, as `std::stod` converts the longest prefix
that is a number: the value and the number of characters consumed, `none` without a digit. -/
def Demo.stod (t : String) : Option (Int × Nat) :=
  (Demo.digits (t.data.takeWhile Char.isDigit)).map
    (fun d => (d, (t.data.takeWhile Char.isDigit).length))

/-- The library: integers stand for `double`. -/
def Demo.lib : FormulaLib (List Position × Int) Int where
  zero := 0
  stod := Demo.stod
  ParseFormulaAST := fun e => Demo.parseChars e.data
  GetCells := fun a => a.1
  PrintFormula := Demo.print
  Execute := Demo.execute


/-- Cell `A1`. -/
def Demo.A1 : Position := { row := 0, col := 0 }

/-- Cell `B1`. -/
def Demo.B1 : Position := { row := 0, col := 1 }

/-- Cell `A2`. -/
def Demo.A2 : Position := { row := 1, col := 0 }

/-- Cell `C3`. -/
def Demo.C3 : Position := { row := 2, col := 2 }

/-- The empty sheet over the small library. -/
def Demo.sheet0 : Sheet (List Position × Int) Int := Sheet.empty

/-- Edge of the requires graph: `q` is in `cells_required_` of the cell at `p`. -/
def Sheet.Requires (s : Sheet A D) (p q : Position) : Prop :=
  ∃ c, s.find p = some c ∧ q ∈ c.cells_required_

/-- Reverse edge: `d` is in `cells_dependent_` of the cell at `p`. -/
def Sheet.Dependent (s : Sheet A D) (p d : Position) : Prop :=
  ∃ c, s.find p = some c ∧ d ∈ c.cells_dependent_

/-- The requires graph has no cycle. -/
def Sheet.Acyclic (s : Sheet A D) : Prop :=
  ∀ p, ¬ Relation.TransGen s.Requires p p

/-- A cell without its cache. -/
def Cell.strip (c : Cell A D) : Cell A D := { c with cached_value_ := none }

/-- Two sheets that differ in cached values only. -/
def Sheet.SameShape (s s' : Sheet A D) : Prop :=
  s'.size_ = s.size_ ∧ s'.cells_.length = s.cells_.length ∧
    ∀ q, (s'.find q).map Cell.strip = (s.find q).map Cell.strip

/-- A chain of `n` edges of a relation starting at a given node. -/
inductive HasChain {α : Type} (r : α → α → Prop) : Nat → α → Prop where
  | zero (a : α) : HasChain r 0 a
  | succ (n : Nat) (a b : α) : r a b → HasChain r n b → HasChain r (n + 1) a

/-- What the cache update relies on below `p`: every transitive dependent is a valid position
holding a formula cell that is not its own dependent and is registered as a dependent of every
cell its formula reads. -/
def Sheet.DescOK (lib : FormulaLib A D) (s : Sheet A D) (p : Position) : Prop :=
  ∀ d, Relation.TransGen s.Dependent p d →
    d.IsValid = true ∧ ¬ Relation.TransGen s.Dependent d d ∧
    ∃ c a, s.find d = some c ∧ c.impl_ = some (Impl.FormulaImpl a) ∧
      ∀ x ∈ lib.GetCells a, s.Dependent x d

/-- Evaluation reads the sheet only at the cells the formula lists. -/
def FormulaLib.Local (lib : FormulaLib A D) : Prop :=
  ∀ a v1 v2, (∀ q ∈ lib.GetCells a, v1 q = v2 q) → lib.Execute a v1 = lib.Execute a v2

/-- The parser accepts references to valid positions only. -/
def FormulaLib.ParsesValid (lib : FormulaLib A D) : Prop :=
  ∀ e a, lib.ParseFormulaAST e = some a → ∀ q ∈ lib.GetCells a, q.IsValid = true

/-- The cell at `q` is a formula cell whose cache holds the value of its formula evaluated
against the sheet as it is. -/
def Sheet.FormulaFresh (lib : FormulaLib A D) (s : Sheet A D) (q : Position) : Prop :=
  ∃ c a v, s.find q = some c ∧ c.impl_ = some (Impl.FormulaImpl a) ∧
    Formula.Evaluate lib a s.view = .ok v ∧ c.cached_value_ = some v

/-- The printable size is the bounding box of the cells of the map, plus one: every cell lies
inside, an empty map has size zero, and otherwise some cell lies on the last row and some
cell on the last column. -/
def Sheet.Boxed (s : Sheet A D) : Prop :=
  (∀ a c, s.find a = some c → a.row + 1 ≤ s.size_.rows ∧ a.col + 1 ≤ s.size_.cols) ∧
  ((∀ a, s.find a = none) → s.size_ = { rows := 0, cols := 0 }) ∧
  (∀ a c, s.find a = some c →
    (∃ b, (s.find b).isSome = true ∧ b.row + 1 = s.size_.rows) ∧
    (∃ b, (s.find b).isSome = true ∧ b.col + 1 = s.size_.cols))

/-- The value `Cell::TryConvertTextDouble` stores for a text cell: the number when `std::stod`
consumes the whole text, the value of the `TextImpl` otherwise. -/
def Cell.textCache (lib : FormulaLib A D) (text : String) : Value D :=
  match lib.stod text with
  | some (value, pos) => if pos = text.length then Value.num value else TextImpl.GetValue text
  | none => TextImpl.GetValue text

/-- The cache of a cell agrees with its body: an empty cell caches nothing or `0.0`, a text
cell what `TryConvertTextDouble` stores, a formula cell the value of its formula on the sheet. -/
def Sheet.CellCached (lib : FormulaLib A D) (s : Sheet A D) (c : Cell A D) : Prop :=
  match c.impl_ with
  | none => True
  | some Impl.EmptyImpl => c.cached_value_ = none ∨ c.cached_value_ = some (Value.num lib.zero)
  | some (Impl.TextImpl text) => c.cached_value_ = some (Cell.textCache lib text)
  | some (Impl.FormulaImpl a) =>
    ∃ v, Formula.Evaluate lib a s.view = .ok v ∧ c.cached_value_ = some v

/-- Edges of the requires graph that do not start at `p`. -/
def Sheet.RequiresOff (s : Sheet A D) (p : Position) (x y : Position) : Prop :=
  x ≠ p ∧ s.Requires x y

/-- State of the sheet while the cell at `p` is being edited. All cells but `p` are in order;
the cell at `p` exists, its implementation and cache are arbitrary, its outgoing edges lie in
`R`, and those to positions of `X` have already been removed on the far side. No position of
`R` reaches `p`. Caches are in order except at `p` and its transitive dependents. -/
structure Sheet.Hole (lib : FormulaLib A D) (s : Sheet A D) (p : Position) (X R : List Position) : Prop where
  valid : ∀ a c, s.find a = some c → a.IsValid = true
  here : (s.find p).isSome = true
  impl : ∀ a c, s.find a = some c → a ≠ p →
    ∃ i, c.impl_ = some i ∧ ∀ q, q ∈ c.cells_required_ ↔ q ∈ i.GetReferencedCells lib
  nodup : ∀ a c, s.find a = some c → c.cells_required_.Nodup
  out : ∀ c q, s.find p = some c → q ∈ c.cells_required_ → q ∈ R
  sym1 : ∀ a c q, s.find a = some c → q ∈ c.cells_required_ →
    (a = p ∧ q ∈ X) ∨ ∃ d, s.find q = some d ∧ a ∈ d.cells_dependent_
  sym2 : ∀ q d a, s.find q = some d → a ∈ d.cells_dependent_ →
    (∃ c, s.find a = some c ∧ q ∈ c.cells_required_) ∧ ¬ (a = p ∧ q ∈ X)
  acyclic : ∀ a, ¬ Relation.TransGen (s.RequiresOff p) a a
  noreach : ∀ r ∈ R, ¬ Relation.ReflTransGen (s.RequiresOff p) r p
  size : s.Boxed
  cache : lib.Local → ∀ a c, s.find a = some c → a ≠ p →
    ¬ Relation.TransGen s.Dependent p a → s.CellCached lib c

/-- Invariant of the sheet between calls. -/
structure Sheet.Inv (lib : FormulaLib A D) (s : Sheet A D) : Prop where
  valid : ∀ a c, s.find a = some c → a.IsValid = true
  impl : ∀ a c, s.find a = some c →
    ∃ i, c.impl_ = some i ∧ ∀ q, q ∈ c.cells_required_ ↔ q ∈ i.GetReferencedCells lib
  nodup : ∀ a c, s.find a = some c → c.cells_required_.Nodup
  sym1 : ∀ a c q, s.find a = some c → q ∈ c.cells_required_ →
    ∃ d, s.find q = some d ∧ a ∈ d.cells_dependent_
  sym2 : ∀ q d a, s.find q = some d → a ∈ d.cells_dependent_ →
    ∃ c, s.find a = some c ∧ q ∈ c.cells_required_
  acyclic : s.Acyclic
  size : s.Boxed
  cache : lib.Local → ∀ a c, s.find a = some c → s.CellCached lib c

/-- Sheets reachable from the empty sheet by `SetCell` and `ClearCell` calls, whether they
return or raise an exception; a run that ends in a failed assertion is not continued. -/
inductive Sheet.Reachable (lib : FormulaLib A D) : Sheet A D → Prop where
  | empty : Sheet.Reachable lib Sheet.empty
  | setCell (s : Sheet A D) (pos : Position) (text : String) :
      Sheet.Reachable lib s → (Sheet.SetCell lib s pos text).continues = true →
      Sheet.Reachable lib (Sheet.SetCell lib s pos text).state
  | clearCell (s : Sheet A D) (pos : Position) :
      Sheet.Reachable lib s → (Sheet.ClearCell lib s pos).continues = true →
      Sheet.Reachable lib (Sheet.ClearCell lib s pos).state

/-- The cell a nested `SetCell(q, "")` creates. -/
def Cell.blank (lib : FormulaLib A D) : Cell A D :=
  { impl_ := some Impl.EmptyImpl, cached_value_ := some (Value.num lib.zero),
    cells_required_ := [], cells_dependent_ := [] }

/-- The sheet as `Sheet::SetCell` hands it to `Cell::Set`: the size covers `pos` and a cell
exists there. -/
def Sheet.prepared (s : Sheet A D) (pos : Position) : Sheet A D :=
  if ((s.UpdateSize pos).find pos).isNone then (s.UpdateSize pos).emplace pos Cell.new
  else s.UpdateSize pos

/-- The sheet after `A1 = "1"`. -/
def Demo.sheet1 : Sheet (List Position × Int) Int :=
  (Sheet.SetCell Demo.lib Demo.sheet0 Demo.A1 "1").state

/-- The sheet after `A1 = "1"`, `A2 = "=A1+1"`. -/
def Demo.sheet2 : Sheet (List Position × Int) Int :=
  (Sheet.SetCell Demo.lib Demo.sheet1 Demo.A2 "=A1+1").state

/-- The sheet after `A1 = "1"`, `A2 = "=A1+1"`, `A1 = "2"`. -/
def Demo.sheet3 : Sheet (List Position × Int) Int :=
  (Sheet.SetCell Demo.lib Demo.sheet2 Demo.A1 "2").state

/-- The sheet after `A1 = "=B1"`. -/
def Demo.sheetRef : Sheet (List Position × Int) Int :=
  (Sheet.SetCell Demo.lib Demo.sheet0 Demo.A1 "=B1").state

/-- The sheet after `A1 = "=B1"` and the refused `B1 = "=A1"`. -/
def Demo.sheetRefused : Sheet (List Position × Int) Int :=
  (Sheet.SetCell Demo.lib Demo.sheetRef Demo.B1 "=A1").state

/-- The cell at `A2` of `Demo.sheet3`: the formula `A1+1` with value 3. -/
def Demo.cellA2 : Cell (List Position × Int) Int :=
  { impl_ := some (Impl.FormulaImpl ([Demo.A1], 1)), cached_value_ := some (Value.num 3),
    cells_required_ := [Demo.A1], cells_dependent_ := [] }

/-- The sheet after the refused `A1 = "=A1"` on the empty sheet. -/
def Demo.sheetLeft : Sheet (List Position × Int) Int :=
  (Sheet.SetCell Demo.lib Demo.sheet0 Demo.A1 "=A1").state

/-- The cell at `A1` of `Demo.sheet3`: the text `2` with the number 2 as value. -/
def Demo.cellA1 : Cell (List Position × Int) Int :=
  { impl_ := some (Impl.TextImpl "2"), cached_value_ := some (Value.num 2),
    cells_required_ := [], cells_dependent_ := [Demo.A2] }

/-- Two sheets that hold the same cells at the same positions and have the same printable
size: no call of the interface tells them apart. -/
def Sheet.Same (s s' : Sheet A D) : Prop :=
  s'.size_ = s.size_ ∧ ∀ q, s'.find q = s.find q

/-- Every transitive dependent of `p` is a formula cell at a valid position that does not read
itself and whose cache holds the value of its formula on the sheet. -/
def Sheet.DescCurrent (lib : FormulaLib A D) (s : Sheet A D) (p : Position) : Prop :=
  ∀ d, Relation.TransGen s.Dependent p d →
    d.IsValid = true ∧ ∃ c a v, s.find d = some c ∧ c.impl_ = some (Impl.FormulaImpl a) ∧
      d ∉ lib.GetCells a ∧ Formula.Evaluate lib a s.view = .ok v ∧ c.cached_value_ = some v

/-- Position a call into the sheet is made for. -/
def Call.pos : Call → Position
  | .set pos _ => pos
  | .clear pos => pos

/-- What a call does to the cell at a position other than its own, `o` before and `o'` after:
a cell is removed only if its text is empty; a cell is created only empty, referenced and with
a cached value; a body changes only from an empty text to the empty body; a cache is never
emptied; and a cell that is empty and unreferenced afterwards was so before. -/
def CellStep (lib : FormulaLib A D) : Option (Cell A D) → Option (Cell A D) → Prop
  | none, none => True
  | some c, none => c.GetText lib = some ""
  | none, some c' =>
    c'.impl_ = some Impl.EmptyImpl ∧ c'.cells_dependent_ ≠ [] ∧ c'.cached_value_ ≠ none
  | some c, some c' =>
    (c'.impl_ = c.impl_ ∨ (c.GetText lib = some "" ∧ c'.impl_ = some Impl.EmptyImpl)) ∧
    (c'.cached_value_ = none → c.cached_value_ = none) ∧
    (c'.impl_ = some Impl.EmptyImpl → c'.cells_dependent_ = [] →
      c.impl_ = some Impl.EmptyImpl ∧ c.cells_dependent_ = [])

/-- The cells of `s'` come from those of `s` by steps a call allows. -/
def Sheet.Steps (lib : FormulaLib A D) (s s' : Sheet A D) : Prop :=
  ∀ q, CellStep lib (s.find q) (s'.find q)

/-- What is known of a call that returns: the cells at other positions took an allowed step;
after `ClearCell` the position holds no cell or an empty, referenced cell with a cached
value; after `SetCell` with the empty text a cell at the position is empty with a cached
value. -/
def Framed (lib : FormulaLib A D) (nested : Sheet A D → Call → Outcome (Sheet A D)) : Prop :=
  ∀ s c s', nested s c = .ok s' →
    (∀ q, q ≠ c.pos → CellStep lib (s.find q) (s'.find q)) ∧
    (∀ pos, c = Call.clear pos → s'.find pos = none ∨
      ∃ c', s'.find pos = some c' ∧ c'.impl_ = some Impl.EmptyImpl ∧
        c'.cells_dependent_ ≠ [] ∧ c'.cached_value_ ≠ none) ∧
    (∀ pos, c = Call.set pos "" → ∀ c', s'.find pos = some c' →
      c'.impl_ = some Impl.EmptyImpl ∧ c'.cached_value_ ≠ none)

/-- The position holds a default cell: empty body, no dependents. -/
def Sheet.Default (s : Sheet A D) (q : Position) : Prop :=
  ∃ c, s.find q = some c ∧ c.impl_ = some Impl.EmptyImpl ∧ c.cells_dependent_ = []

/-- Every text cell holds a text that `Cell::Set` stores as a text: not empty and not
recognised as a formula. -/
def Sheet.TextOK (s : Sheet A D) : Prop :=
  ∀ q c t, s.find q = some c → c.impl_ = some (Impl.TextImpl t) →
    t.isEmpty = false ∧ ¬ (t.length > 1 ∧ t.front = FORMULA_SIGN)

/-- Sheets reached from the empty sheet by `ClearCell` calls that return and by `SetCell`
calls that return and whose text is not empty. -/
inductive Sheet.ReachableNonEmpty (lib : FormulaLib A D) : Sheet A D → Prop where
  | empty : Sheet.ReachableNonEmpty lib Sheet.empty
  | setCell (s : Sheet A D) (pos : Position) (text : String) (s' : Sheet A D) :
      Sheet.ReachableNonEmpty lib s → text ≠ "" → Sheet.SetCell lib s pos text = .ok s' →
      Sheet.ReachableNonEmpty lib s'
  | clearCell (s : Sheet A D) (pos : Position) (s' : Sheet A D) :
      Sheet.ReachableNonEmpty lib s → Sheet.ClearCell lib s pos = .ok s' →
      Sheet.ReachableNonEmpty lib s'

/-- Body read at a position, a position without a cell reading as an empty body. -/
def Sheet.body (s : Sheet A D) (q : Position) : Impl A :=
  match s.find q with
  | some c => c.impl_.getD Impl.EmptyImpl
  | none => Impl.EmptyImpl

/-- The sheet after `A1 = "x"`. -/
def Demo.sheetText : Sheet (List Position × Int) Int :=
  (Sheet.SetCell Demo.lib Demo.sheet0 Demo.A1 "x").state

/-- The sheet after `A1 = "x"`, `A2 = "=A1"`. -/
def Demo.sheetErr : Sheet (List Position × Int) Int :=
  (Sheet.SetCell Demo.lib Demo.sheetText Demo.A2 "=A1").state

/-- The cell at `A2` of `Demo.sheetErr`: the formula `A1` with the error `#VALUE!` as value. -/
def Demo.cellErr : Cell (List Position × Int) Int :=
  { impl_ := some (Impl.FormulaImpl ([Demo.A1], 0)),
    cached_value_ := some (Value.err Category.Value),
    cells_required_ := [Demo.A1], cells_dependent_ := [] }

/-- The sheet after `A1 = "=B1"`, `A1 = "1"`. -/
def Demo.sheetDrop : Sheet (List Position × Int) Int :=
  (Sheet.SetCell Demo.lib Demo.sheetRef Demo.A1 "1").state

/-- The cell at `A1` of `Demo.sheetRef`: the formula `B1` with value 0. -/
def Demo.cellRef : Cell (List Position × Int) Int :=
  { impl_ := some (Impl.FormulaImpl ([Demo.B1], 0)), cached_value_ := some (Value.num 0),
    cells_required_ := [Demo.B1], cells_dependent_ := [] }

/-- A sheet built by hand whose requires graph has a cycle: `A1` holds the formula `B1` and
`B1` the formula `A1`. -/
def Demo.sheetCycle : Sheet (List Position × Int) Int :=
  { cells_ := [(Demo.A1, { impl_ := some (Impl.FormulaImpl ([Demo.B1], 0)),
                           cached_value_ := some (Value.num 0),
                           cells_required_ := [Demo.B1], cells_dependent_ := [Demo.B1] }),
               (Demo.B1, { impl_ := some (Impl.FormulaImpl ([Demo.A1], 0)),
                           cached_value_ := some (Value.num 0),
                           cells_required_ := [Demo.A1], cells_dependent_ := [Demo.A1] })],
    size_ := { rows := 1, cols := 2 } }

/-- The evaluator trips the assertion of `Cell::GetValue` only at a cell the formula lists
whose cache is empty. -/
def FormulaLib.AssertsOnEmpty (lib : FormulaLib A D) : Prop :=
  ∀ a v, lib.Execute a v = .error Thrown.assertion → ∃ q ∈ lib.GetCells a, v q = some none

/-- Two sheets that differ in cached values only, no cache that was filled being empty in the
second. -/
def Sheet.Kept (s s' : Sheet A D) : Prop :=
  s.SameShape s' ∧ ∀ q c c', s.find q = some c → s'.find q = some c' →
    c.cached_value_ ≠ none → c'.cached_value_ ≠ none

/-- The sheet `s'` is what a cache update started on `s` leaves when the evaluation of the
formula cell at `d` trips the assertion: the cache of `d` is reset, the evaluation of its
formula against `s'` trips the assertion, and no other cache that was filled is empty. -/
def Sheet.AbortedAt (lib : FormulaLib A D) (s s' : Sheet A D) (d : Position) : Prop :=
  s.SameShape s' ∧
  (∀ q c c', q ≠ d → s.find q = some c → s'.find q = some c' →
    c.cached_value_ ≠ none → c'.cached_value_ ≠ none) ∧
  ∃ c a, s'.find d = some c ∧ c.impl_ = some (Impl.FormulaImpl a) ∧ c.cached_value_ = none ∧
    lib.Execute a s'.view = .error Thrown.assertion

/-- Every cell that the formula of a transitive dependent of `p` lists holds a cached value. -/
def Sheet.InputsCached (lib : FormulaLib A D) (s : Sheet A D) (p : Position) : Prop :=
  ∀ d c a x cx, Relation.TransGen s.Dependent p d → s.find d = some c →
    c.impl_ = some (Impl.FormulaImpl a) → x ∈ lib.GetCells a → s.find x = some cx →
    cx.cached_value_ ≠ none

/-- The cell at `q`, if `s` holds one, is still there in `s'` with its body, and with its
cached value when the body is empty. -/
def Sheet.Stays (s s' : Sheet A D) (q : Position) : Prop :=
  ∀ c, s.find q = some c → ∃ c', s'.find q = some c' ∧ c'.impl_ = c.impl_ ∧
    (c.impl_ = some Impl.EmptyImpl → c'.cached_value_ = c.cached_value_)

/-- The sheet after the refused `B1 = "=B1"` on the empty sheet. -/
def Demo.sheetLeftB1 : Sheet (List Position × Int) Int :=
  (Sheet.SetCell Demo.lib Demo.sheet0 Demo.B1 "=B1").state

/-- The sheet after `A1 = ""`, `B1 = "x"`. -/
def Demo.sheetBlankA1 : Sheet (List Position × Int) Int :=
  (Sheet.SetCell Demo.lib (Sheet.SetCell Demo.lib Demo.sheet0 Demo.A1 "").state Demo.B1 "x").state

/-- The sheet after the refused `C3 = "=C3"`, then `B1 = "x"`, `A2 = "=B1+C3"`. -/
def Demo.sheetMasked : Sheet (List Position × Int) Int :=
  (Sheet.SetCell Demo.lib (Sheet.SetCell Demo.lib
    (Sheet.SetCell Demo.lib Demo.sheet0 Demo.C3 "=C3").state Demo.B1 "x").state
    Demo.A2 "=B1+C3").state

/-- The sheet after `A1 = "1"`, `A2 = "x"`, `C3 = ""`. -/
def Demo.sheetMixed : Sheet (List Position × Int) Int :=
  (Sheet.SetCell Demo.lib (Sheet.SetCell Demo.lib Demo.sheet1 Demo.A2 "x").state Demo.C3 "").state

/-- The cell at `A2` of `Demo.sheetMixed`: the text `x`. -/
def Demo.cellTextX : Cell (List Position × Int) Int :=
  { impl_ := some (Impl.TextImpl "x"), cached_value_ := some (Value.str "x"),
    cells_required_ := [], cells_dependent_ := [] }

/-- The sheet after `SetCell(p, "=A1")` followed by `SetCell(p, text)`. -/
def Demo.setAndBack (s : Sheet (List Position × Int) Int) (p : Position) (text : String) :
    Sheet (List Position × Int) Int :=
  (Sheet.SetCell Demo.lib (Sheet.SetCell Demo.lib s p "=A1").state p text).state

end Spreadsheet

/-!
# Containers: a shallow embedding of `src/simple-vector` and `src/advanced-vector`

The class `SimpleVector<Type>` (`simple_vector.h`) over `ArrayPtr<Type>` (`array_ptr.h`), and
the class `Vector<T>` over `RawMemory<T>` (`vector.h`), whose buffer cells are raw or hold an
object.
The heap array is the list of all its cells, those behind the elements included; an iterator
`begin() + i` is the index `i`; values of type `size_t` are natural numbers, products that can
leave the range being reduced modulo `SIZE_MODULUS`; an `assert` is evaluated. An argument
passed by reference is an object outside the vector or a cell of its array. Of the accesses
whose behaviour C++ leaves undefined, a read through the null pointer and a write outside the
array end the call with `Fault.InvalidAccess`, and a read behind the last cell of an array or
of an array already released returns whatever lies there. A moved element is stored like a
copied one, and `new` always succeeds.
-/

namespace Containers

/-! ## Data model of `simple_vector.h` and `array_ptr.h` -/

/-- One more than the largest value of `size_t` (64 bits). -/
def SIZE_MODULUS : Nat := 2 ^ 64

/-- What ends a call other than a return: the exception `std::out_of_range`, a failed
`assert`, or an access that cannot return: a read through the null pointer, or a write outside
the allocated array. -/
inductive Fault where
  | out_of_range
  | AssertionFailed
  | InvalidAccess
deriving DecidableEq, Repr

/-- What the vector uses of its element type `Type` and of the memory around its array: the
value `Type()`, the content of the cells of an array just made by `new Type[n]` (the value
`Type()` for a class, anything for a scalar), `operator==`, what a read finds behind the last
cell of an array, and what a read finds in a cell of an array that `delete[]` has released;
C++ leaves the last two undefined, so nothing is assumed of them. -/
structure TypeOps (T : Type) where
  dflt : T
  fresh : Nat → T
  eq : T → T → Bool
  outside : Nat → T
  released : Nat → T

/-- An argument passed by reference, `const Type&` or `Type&&`: an object that is no part of
the vector, given by its value, or the cell `index` of the array of the vector itself, as in
`v.PushBack(v[2])`. -/
inductive Ref (T : Type) where
  | value (x : T)
  | elem (index : Nat)
deriving DecidableEq, Repr

variable {T : Type}

/-- Constructor `ArrayPtr(size)`: the array `new Type[size]`, and the null pointer, read as
the array without cells, when `size == 0`. -/
def ArrayPtr.make (ops : TypeOps T) (size : Nat) : List T :=
  (List.range size).map ops.fresh

/-- Read through `ArrayPtr::operator[]`, which checks nothing: a cell of the array gives its
content, the null pointer cannot be read, and behind the array the read gives what lies
there. -/
def ArrayPtr.read (ops : TypeOps T) (a : List T) (index : Nat) : Except Fault T :=
  match a[index]? with
  | some x => .ok x
  | none => if a.isEmpty then .error Fault.InvalidAccess else .ok (ops.outside index)

/-- Read of an argument passed by reference; `a` is the array the vector had when the call
began, and `live` tells whether the vector still holds it, no cell written since: a reference
to a cell of an array released in between is dangling. -/
def Ref.read (ops : TypeOps T) (a : List T) (live : Bool) : Ref T → Except Fault T
  | .value x => .ok x
  | .elem index =>
    if live then ArrayPtr.read ops a index
    else if a.isEmpty then .error Fault.InvalidAccess else .ok (ops.released index)

/-- Assignment through `ArrayPtr::operator[]`. -/
def ArrayPtr.write (a : List T) (index : Nat) (x : T) : Except Fault (List T) :=
  if index < a.length then .ok (a.set index x) else .error Fault.InvalidAccess

/-- The reads of the source range `[first, last)` of a `std::copy` or `std::move`: as with
`ArrayPtr.read`, the null pointer cannot be read and the cells behind the array give what lies
there. -/
def ArrayPtr.load (ops : TypeOps T) (a : List T) (first last : Nat) : Except Fault (List T) :=
  if last ≤ a.length then .ok ((a.take last).drop first)
  else if a.isEmpty then .error Fault.InvalidAccess
  else .ok ((a ++ ((List.range last).drop a.length).map ops.outside).drop first)

/-- The writes of a `std::copy` or `std::move` to the cells from index `k` on, one element
after the other. -/
def ArrayPtr.store : List T → List T → Nat → Except Fault (List T)
  | [], dst, _ => .ok dst
  | x :: src, dst, k =>
    match ArrayPtr.write dst k x with
    | .error e => .error e
    | .ok dst1 => ArrayPtr.store src dst1 (k + 1)

/-- The class `SimpleVector<Type>`: the heap array behind `ptr_data_` with all its cells, and
the fields `size_` and `capacity_`. -/
structure SimpleVector (T : Type) where
  ptr_data_ : List T
  size_ : Nat
  capacity_ : Nat
deriving DecidableEq, Repr

/-- Constructor `SimpleVector()`. -/
def SimpleVector.empty : SimpleVector T :=
  { ptr_data_ := [], size_ := 0, capacity_ := 0 }

/-- Method `GetSize`. -/
def SimpleVector.GetSize (v : SimpleVector T) : Nat := v.size_

/-- Method `GetCapacity`. -/
def SimpleVector.GetCapacity (v : SimpleVector T) : Nat := v.capacity_

/-- The elements from `begin()` to `end()`. -/
def SimpleVector.elems (v : SimpleVector T) : List T := v.ptr_data_.take v.size_

/-- Method `operator[]`. -/
def SimpleVector.opIndex (ops : TypeOps T) (v : SimpleVector T) (index : Nat) :
    Except Fault T :=
  if index < v.size_ then ArrayPtr.read ops v.ptr_data_ index else .error Fault.AssertionFailed

/-- Method `At`. -/
def SimpleVector.At (ops : TypeOps T) (v : SimpleVector T) (index : Nat) : Except Fault T :=
  if index ≥ v.size_ then .error Fault.out_of_range else ArrayPtr.read ops v.ptr_data_ index

/-- Method `Initialize`: all three fields are assigned, the old array is released. -/
def SimpleVector.Initialize (ops : TypeOps T) (size : Nat) : SimpleVector T :=
  { size_ := size, capacity_ := size, ptr_data_ := ArrayPtr.make ops size }

/-- Constructor `SimpleVector(size_t size)`. -/
def SimpleVector.ofSize (ops : TypeOps T) (size : Nat) : Except Fault (SimpleVector T) :=
  let v := SimpleVector.Initialize ops size
  match ArrayPtr.store (List.replicate v.size_ ops.dflt) v.ptr_data_ 0 with
  | .error e => .error e
  | .ok a => .ok { v with ptr_data_ := a }

/-- Method `SizeCapacityCheck`. -/
def SimpleVector.SizeCapacityCheck (v : SimpleVector T) (new_size new_capacity : Nat) :
    SimpleVector T :=
  let v1 := if v.size_ ≠ new_size then { v with size_ := new_size } else v
  if v1.capacity_ ≠ new_capacity ∧ new_capacity ≥ new_size then
    { v1 with capacity_ := new_capacity }
  else v1

/-- Method `ResizeAndFill`: the elements move to a new array of `new_capacity` cells, the
loop assigns `Type()` to the cells `size_ .. new_size - 1`, the fields are updated, and with
`push_back` the cell at the new `size_` gets `Type()` as well. -/
def SimpleVector.ResizeAndFill (ops : TypeOps T) (v : SimpleVector T)
    (new_size new_capacity : Nat) (push_back : Bool) : Except Fault (SimpleVector T) :=
  let temp := ArrayPtr.make ops new_capacity
  match ArrayPtr.load ops v.ptr_data_ 0 v.size_ with
  | .error e => .error e
  | .ok src =>
    match ArrayPtr.store src temp 0 with
    | .error e => .error e
    | .ok temp1 =>
      match ArrayPtr.store (List.replicate (new_size - v.size_) ops.dflt) temp1 v.size_ with
      | .error e => .error e
      | .ok temp2 =>
        let v1 := v.SizeCapacityCheck new_size new_capacity
        match (if push_back then ArrayPtr.write temp2 v1.size_ ops.dflt else .ok temp2) with
        | .error e => .error e
        | .ok temp3 => .ok { v1 with ptr_data_ := temp3 }

/-- Method `Resize`. -/
def SimpleVector.Resize (ops : TypeOps T) (v : SimpleVector T) (new_size : Nat) :
    Except Fault (SimpleVector T) :=
  if new_size < v.size_ then .ok { v with size_ := new_size }
  else if new_size ≤ v.capacity_ then v.ResizeAndFill ops new_size new_size false
  else
    let new_capacity := max new_size (v.capacity_ * 2 % SIZE_MODULUS)
    v.ResizeAndFill ops new_size new_capacity false

/-- Method `PushBack`, both overloads: a moved value is stored like a copied one. The
argument is a reference and is read in the assignment `ptr_data_[...] = item`, after
`Initialize` or `ResizeAndFill` has released the array the vector had. -/
def SimpleVector.PushBack (ops : TypeOps T) (v : SimpleVector T) (item : Ref T) :
    Except Fault (SimpleVector T) :=
  if v.size_ = 0 ∧ v.capacity_ = 0 then
    let v1 := SimpleVector.Initialize ops 1
    match item.read ops v.ptr_data_ false with
    | .error e => .error e
    | .ok x =>
      match ArrayPtr.write v1.ptr_data_ 0 x with
      | .error e => .error e
      | .ok a => .ok { v1 with ptr_data_ := a }
  else
    match (if v.size_ = v.capacity_ then
        v.ResizeAndFill ops v.size_ (2 * v.capacity_ % SIZE_MODULUS) true else .ok v) with
    | .error e => .error e
    | .ok v1 =>
      match item.read ops v.ptr_data_ (decide (v.size_ ≠ v.capacity_)) with
      | .error e => .error e
      | .ok x =>
        match ArrayPtr.write v1.ptr_data_ v1.size_ x with
        | .error e => .error e
        | .ok a => .ok { v1 with ptr_data_ := a, size_ := (v1.size_ + 1) % SIZE_MODULUS }

/-- The part `Insert(ConstIterator, const Type&)` and `Insert(ConstIterator, Type&&)` have in
common after the assertions and the making of `temp`; the iterator `pos` is `begin() + pos`,
and the iterator returned is given by its index. The reference `value` is read in the
assignment `ptr_data_[count_before] = value`, after `ResizeAndFill` has released the array of
a full vector. -/
def SimpleVector.Insert.shift (ops : TypeOps T) (v : SimpleVector T) (pos : Nat)
    (value : Ref T) (temp : SimpleVector T) : Except Fault (SimpleVector T × Nat) :=
  let count_before := pos
  match ArrayPtr.load ops v.ptr_data_ count_before v.size_ with
  | .error e => .error e
  | .ok src =>
    match ArrayPtr.store src temp.ptr_data_ 0 with
    | .error e => .error e
    | .ok tdata =>
      match (if v.size_ = v.capacity_ then
          v.ResizeAndFill ops v.size_ (v.capacity_ * 2 % SIZE_MODULUS) false else .ok v) with
      | .error e => .error e
      | .ok v1 =>
        match value.read ops v.ptr_data_ (decide (v.size_ ≠ v.capacity_)) with
        | .error e => .error e
        | .ok x =>
          match ArrayPtr.write v1.ptr_data_ count_before x with
          | .error e => .error e
          | .ok a =>
            let v2 := { v1 with ptr_data_ := a, size_ := (v1.size_ + 1) % SIZE_MODULUS }
            match ArrayPtr.load ops tdata 0 temp.size_ with
            | .error e => .error e
            | .ok back =>
              match ArrayPtr.store back v2.ptr_data_ (count_before + 1) with
              | .error e => .error e
              | .ok a2 => .ok ({ v2 with ptr_data_ := a2 }, count_before)

/-- Method `Insert(ConstIterator pos, const Type& value)`; its second assertion reads the
cell at `pos` twice, through `ptr_data_[pos - begin()]` and through `*pos`. -/
def SimpleVector.Insert (ops : TypeOps T) (v : SimpleVector T) (pos : Nat) (value : Ref T) :
    Except Fault (SimpleVector T × Nat) :=
  if ¬ pos ≤ v.size_ then .error Fault.AssertionFailed
  else
    match ArrayPtr.read ops v.ptr_data_ pos, ArrayPtr.read ops v.ptr_data_ pos with
    | .error e, _ => .error e
    | .ok _, .error e => .error e
    | .ok x, .ok y =>
      if ops.eq x y = false then .error Fault.AssertionFailed
      else if v.size_ = 0 ∨ pos = v.size_ then
        match v.PushBack ops value with
        | .error e => .error e
        | .ok v1 => .ok (v1, v1.size_ - 1)
      else
        let count_after := v.size_ - pos
        match SimpleVector.ofSize ops count_after with
        | .error e => .error e
        | .ok temp => SimpleVector.Insert.shift ops v pos value temp

/-- Method `Insert(ConstIterator pos, Type&& value)`. -/
def SimpleVector.InsertMove (ops : TypeOps T) (v : SimpleVector T) (pos : Nat)
    (value : Ref T) :
    Except Fault (SimpleVector T × Nat) :=
  if ¬ pos ≤ v.size_ then .error Fault.AssertionFailed
  else if v.size_ = 0 ∨ pos = v.size_ then
    match v.PushBack ops value with
    | .error e => .error e
    | .ok v1 => .ok (v1, v1.size_ - 1)
  else
    let count_after := v.size_ - pos
    match SimpleVector.empty.ResizeAndFill ops count_after count_after false with
    | .error e => .error e
    | .ok temp => SimpleVector.Insert.shift ops v pos value temp

/-- The array has `capacity_` cells and the elements fit in it. -/
def SimpleVector.WF (v : SimpleVector T) : Prop :=
  v.ptr_data_.length = v.capacity_ ∧ v.size_ ≤ v.capacity_

instance (v : SimpleVector T) : Decidable v.WF := by
  unfold SimpleVector.WF
  infer_instance

/-- Elements of type `int`, a new array, the memory behind an array and a released array
holding whatever the index dictates. -/
def Demo.intOps : TypeOps Int :=
  { dflt := 0, fresh := fun i => 100 + i, eq := fun x y => decide (x = y),
    outside := fun i => 1000 + i, released := fun i => -1 - i }

/-! ## Data model of `vector.h` -/

/-- The class `RawMemory<T>`: the cells of the buffer, each raw (`none`) or holding an object,
and the field `capacity_`. -/
structure RawMemory (T : Type) where
  buffer_ : List (Option T)
  capacity_ : Nat
deriving DecidableEq, Repr

/-- Constructor `RawMemory(size_t capacity)`: raw memory for `capacity` objects. -/
def RawMemory.make (capacity : Nat) : RawMemory T :=
  { buffer_ := List.replicate capacity none, capacity_ := capacity }

/-- Method `RawMemory::Capacity`. -/
def RawMemory.Capacity (m : RawMemory T) : Nat := m.capacity_

/-- Method `RawMemory::operator+`: the address of the cell `offset`, given by its index. -/
def RawMemory.opAdd (m : RawMemory T) (offset : Nat) : Except Fault Nat :=
  if offset ≤ m.capacity_ then .ok offset else .error Fault.AssertionFailed

/-- Placement `new (p) T(x)` at the cell `index` of the buffer. -/
def RawMemory.construct (m : RawMemory T) (index : Nat) (x : T) : Except Fault (RawMemory T) :=
  if index < m.buffer_.length then .ok { m with buffer_ := m.buffer_.set index (some x) }
  else .error Fault.InvalidAccess

/-- Read through `RawMemory::operator[]`; the cell has to hold an object. -/
def RawMemory.opIndex (m : RawMemory T) (index : Nat) : Except Fault T :=
  if index < m.capacity_ then
    match m.buffer_[index]? with
    | some (some x) => .ok x
    | _ => .error Fault.InvalidAccess
  else .error Fault.AssertionFailed

/-- Assignment through `RawMemory::operator[]` to the object in the cell `index`. -/
def RawMemory.assign (m : RawMemory T) (index : Nat) (x : T) : Except Fault (RawMemory T) :=
  if index < m.capacity_ then
    match m.buffer_[index]? with
    | some (some _) => .ok { m with buffer_ := m.buffer_.set index (some x) }
    | _ => .error Fault.InvalidAccess
  else .error Fault.AssertionFailed

/-- The objects of a list of cells, if every cell holds one. -/
def collect : List (Option T) → Option (List T)
  | [] => some []
  | none :: _ => none
  | some x :: l => (collect l).map (fun r => x :: r)

/-- The objects in the cells `first .. first + n - 1` of a buffer, as the source of a move or
copy: every cell has to lie in the buffer and hold an object. -/
def objects (buf : List (Option T)) (first n : Nat) : Except Fault (List T) :=
  if first + n ≤ buf.length then
    match collect ((buf.drop first).take n) with
    | some xs => .ok xs
    | none => .error Fault.InvalidAccess
  else .error Fault.InvalidAccess

/-- The calls `std::uninitialized_move_n(first, n, d_first)` and
`std::uninitialized_copy_n(first, n, d_first)`: objects are constructed in the cells from
`d_first` on of the destination from the objects of the source. -/
def uninitialized_move_n (src : List (Option T)) (first n : Nat) (dst : List (Option T))
    (d_first : Nat) : Except Fault (List (Option T)) :=
  match objects src first n with
  | .error e => .error e
  | .ok xs => ArrayPtr.store (xs.map some) dst d_first

/-- The call `std::move_backward(first, last, d_last)` inside one buffer, for a destination
range that ends behind the source range: the objects of `[first, last)` are assigned, the
last one first, to the objects in the cells ending at `d_last`. -/
def move_backward (buf : List (Option T)) (first last d_last : Nat) :
    Except Fault (List (Option T)) :=
  match objects buf first (last - first) with
  | .error e => .error e
  | .ok xs =>
    if d_last < xs.length then .error Fault.InvalidAccess
    else
      match objects buf (d_last - xs.length) xs.length with
      | .error e => .error e
      | .ok _ => ArrayPtr.store (xs.map some) buf (d_last - xs.length)

/-- The class `Vector<T>`. -/
structure Vector (T : Type) where
  data_ : RawMemory T
  size_ : Nat
deriving DecidableEq, Repr

/-- Constructor `Vector()`. -/
def Vector.empty : Vector T :=
  { data_ := { buffer_ := [], capacity_ := 0 }, size_ := 0 }

/-- Method `Vector::Size`. -/
def Vector.Size (v : Vector T) : Nat := v.size_

/-- Method `Vector::Capacity`. -/
def Vector.Capacity (v : Vector T) : Nat := v.data_.Capacity

/-- The reallocating branch of `Vector::Emplace`, up to `data_.Swap(new_data)`. -/
def Vector.Emplace.reallocate (v : Vector T) (offset : Nat) (value : T) :
    Except Fault (RawMemory T) :=
  let new_capacity := if v.size_ = 0 then 1 else v.size_ * 2 % SIZE_MODULUS
  let new_data : RawMemory T := RawMemory.make new_capacity
  match new_data.opAdd offset with
  | .error e => .error e
  | .ok p =>
    match new_data.construct p value with
    | .error e => .error e
    | .ok new_data1 =>
      match uninitialized_move_n v.data_.buffer_ 0 offset new_data1.buffer_ 0 with
      | .error e => .error e
      | .ok buf1 =>
        match uninitialized_move_n v.data_.buffer_ offset (v.size_ - offset) buf1
            (offset + 1) with
        | .error e => .error e
        | .ok buf2 => .ok { new_data1 with buffer_ := buf2 }

/-- The branch of `Vector::Emplace` without reallocation. -/
def Vector.Emplace.inPlace (v : Vector T) (offset : Nat) (value : T) :
    Except Fault (RawMemory T) :=
  if offset = v.size_ then
    match v.data_.opAdd v.size_ with
    | .error e => .error e
    | .ok p => v.data_.construct p value
  else
    let temp := value
    match v.data_.opIndex (v.size_ - 1) with
    | .error e => .error e
    | .ok last =>
      match v.data_.opAdd v.size_ with
      | .error e => .error e
      | .ok p =>
        match v.data_.construct p last with
        | .error e => .error e
        | .ok data1 =>
          match move_backward data1.buffer_ offset (v.size_ - 1) v.size_ with
          | .error e => .error e
          | .ok buf => ({ data1 with buffer_ := buf } : RawMemory T).assign offset temp

/-- Method `Vector::Emplace` for one argument, the value to construct the element from; the
iterator `pos` is `begin() + pos`, and the iterator returned is given by its index. -/
def Vector.Emplace (v : Vector T) (pos : Nat) (value : T) : Except Fault (Vector T × Nat) :=
  if ¬ pos ≤ v.size_ then .error Fault.AssertionFailed
  else
    let offset := pos
    match (if v.size_ = v.data_.Capacity then Vector.Emplace.reallocate v offset value
        else Vector.Emplace.inPlace v offset value) with
    | .error e => .error e
    | .ok data => .ok ({ data_ := data, size_ := (v.size_ + 1) % SIZE_MODULUS }, offset)

/-- The vector holds the elements `xs`: its first `size_` cells hold them, and the buffer has
`capacity_` cells. -/
def Vector.Holds (v : Vector T) (xs : List T) : Prop :=
  v.size_ = xs.length ∧ v.data_.buffer_.take v.size_ = xs.map some ∧
    v.data_.buffer_.length = v.data_.capacity_

instance (v : Vector T) (xs : List T) [DecidableEq T] : Decidable (v.Holds xs) := by
  unfold Vector.Holds
  infer_instance

end Containers

/-!
# JSON: a shallow embedding of `json.cpp` and `json_builder.cpp` of `src/transport-catalogue`

The builder `json::Builder` is a record of its fields, its methods are functions on this
record; a `throw` is `Step.raise`, carrying the builder as the exception leaves it. The classes
of `compile_check` only forward to the builder and restrict, at compile time, which method may
follow which; they are not part of the state. An input stream is the list of the characters
left in it.
-/

namespace Json

/-! ## Data model of `json.h` -/

/-- The class `Node`, a `std::variant<std::nullptr_t, int, double, std::string, bool, Array,
Dict>`; `R` stands for `double`, and a `Dict` is the list of its entries in key order. -/
inductive Node (R : Type) where
  | null
  | int (value : Int)
  | double (value : R)
  | string (value : String)
  | bool (value : Bool)
  | array (items : List (Node R))
  | dict (items : List (String × Node R))

/-- The enumeration `ValueType`. -/
inductive ValueType where
  | NULLPTR
  | INTEGER
  | DOUBLE
  | STRING
  | BOOL
  | ARRAY
  | DICTIONARY
deriving DecidableEq, Repr

/-- What ends a call other than a return: the exceptions `std::logic_error` and
`ParsingError`, or the access to the top of an empty stack, whose behaviour is undefined. -/
inductive Error where
  | logic_error
  | ParsingError
  | InvalidAccess
deriving DecidableEq, Repr

/-- Result of a method of the builder: return with the new state, or an exception together
with the state it leaves behind. -/
inductive Step (σ : Type) where
  | ok (s : σ)
  | raise (e : Error) (s : σ)

/-- Sequencing: an exception propagates. -/
def Step.bind {σ : Type} (o : Step σ) (f : σ → Step σ) : Step σ :=
  match o with
  | .ok s => f s
  | .raise e s => .raise e s

/-- The state a step leaves behind. -/
def Step.state {σ : Type} : Step σ → σ
  | .ok s => s
  | .raise _ s => s

/-- The exception of a step, if any. -/
def Step.exn {σ : Type} : Step σ → Option Error
  | .ok _ => none
  | .raise e _ => some e

variable {R : Type}

/-- The call `emplace(key, node)` of a `std::map<std::string, Node>`: the entry is inserted at
its place in key order unless the key is present. -/
def Dict.emplace (key : String) (node : Node R) :
    List (String × Node R) → List (String × Node R)
  | [] => [(key, node)]
  | e :: rest =>
    if key < e.1 then (key, node) :: e :: rest
    else if key = e.1 then e :: rest
    else e :: Dict.emplace key node rest

/-- Methods `Node::AsArray`, which throws on a node of another type. -/
def Node.AsArray : Node R → Option (List (Node R))
  | .array items => some items
  | _ => none

/-- Method `Node::AsMap`, which throws on a node of another type. -/
def Node.AsMap : Node R → Option (List (String × Node R))
  | .dict items => some items
  | _ => none

/-! ## `json_builder.cpp` -/

/-- The type `StructureValue = std::variant<json::Array, json::Dict>`. -/
inductive StructureValue (R : Type) where
  | array (items : List (Node R))
  | dict (items : List (String × Node R))

/-- The class `json::Builder`; the stacks have their top at the head. -/
structure Builder (R : Type) where
  root_ : Node R
  opened_structures_ : List (StructureValue R)
  dict_keys_ : List String
  root_value_type_ : ValueType
  root_started_ : Bool
  single_value_input_ : Bool
  dict_key_expected_ : Bool

/-- The builder `json::Builder{}`: an empty variant holds `nullptr`, and the field without an
initialiser is zero, which is `NULLPTR`. -/
def Builder.init : Builder R :=
  { root_ := Node.null, opened_structures_ := [], dict_keys_ := [],
    root_value_type_ := ValueType.NULLPTR, root_started_ := false,
    single_value_input_ := false, dict_key_expected_ := false }

/-- Method `Builder::CheckInput`. -/
def Builder.CheckInput : Node R → ValueType
  | .null => ValueType.NULLPTR
  | .int _ => ValueType.INTEGER
  | .double _ => ValueType.DOUBLE
  | .string _ => ValueType.STRING
  | .bool _ => ValueType.BOOL
  | .array _ => ValueType.ARRAY
  | .dict _ => ValueType.DICTIONARY

/-- Method `Builder::CreateNodeFromValue`: the node holding the alternative of the variant. -/
def Builder.CreateNodeFromValue (value : Node R) : Node R :=
  match Builder.CheckInput value with
  | ValueType.NULLPTR => value
  | ValueType.INTEGER => value
  | ValueType.DOUBLE => value
  | ValueType.STRING => value
  | ValueType.BOOL => value
  | ValueType.ARRAY => value
  | ValueType.DICTIONARY => value

/-- Method `Builder::CheckSingleValue`. -/
def Builder.CheckSingleValue (b : Builder R) : Step (Builder R) :=
  if b.single_value_input_ then .raise Error.logic_error b else .ok b

/-- Method `Builder::CheckKeyInput`. -/
def Builder.CheckKeyInput (b : Builder R) : Step (Builder R) :=
  if b.dict_key_expected_ then .raise Error.logic_error b else .ok b

/-- Method `Builder::RegisterRootStart`. -/
def Builder.RegisterRootStart (b : Builder R) : Builder R :=
  { b with root_started_ := true }

/-- Method `Builder::AddElementDictionary`, called with a dictionary on top of the opened
structures. -/
def Builder.AddElementDictionary (b : Builder R) (input : Node R) : Step (Builder R) :=
  match b.opened_structures_, b.dict_keys_ with
  | StructureValue.dict d :: rest, key :: keys =>
    .ok { b with
      opened_structures_ :=
        StructureValue.dict (Dict.emplace key (Builder.CreateNodeFromValue input) d) :: rest,
      dict_keys_ := keys, dict_key_expected_ := true }
  | _, _ => .raise Error.InvalidAccess b

/-- Method `Builder::Value`. -/
def Builder.Value (b : Builder R) (input : Node R) : Step (Builder R) :=
  (b.CheckSingleValue.bind Builder.CheckKeyInput).bind (fun b =>
    if !b.root_started_ then
      .ok { (Builder.RegisterRootStart { b with root_value_type_ := Builder.CheckInput input })
            with root_ := input, single_value_input_ := true }
    else
      match b.opened_structures_ with
      | [] => .raise Error.logic_error b
      | top :: rest =>
        let b1 : Builder R :=
          match top with
          | StructureValue.array a =>
            { b with opened_structures_ :=
                StructureValue.array (a ++ [Builder.CreateNodeFromValue input]) :: rest }
          | StructureValue.dict _ => b
        match b1.opened_structures_ with
        | StructureValue.dict _ :: _ => b1.AddElementDictionary input
        | _ => .ok b1)

/-- Method `Builder::StartDict`. -/
def Builder.StartDict (b : Builder R) : Step (Builder R) :=
  (b.CheckSingleValue.bind Builder.CheckKeyInput).bind (fun b =>
    let b1 : Builder R :=
      if !b.root_started_ then
        Builder.RegisterRootStart { b with root_value_type_ := ValueType.DICTIONARY }
      else b
    .ok { b1 with opened_structures_ := StructureValue.dict [] :: b1.opened_structures_,
                  dict_key_expected_ := true })

/-- Method `Builder::Key`. -/
def Builder.Key (b : Builder R) (key : String) : Step (Builder R) :=
  b.CheckSingleValue.bind (fun b =>
    if b.dict_key_expected_ then
      .ok { b with dict_key_expected_ := false, dict_keys_ := key :: b.dict_keys_ }
    else .raise Error.logic_error b)

/-- Method `Builder::ProcessNestedStructure`, called with an opened structure left. -/
def Builder.ProcessNestedStructure (b : Builder R) (node : Node R) : Step (Builder R) :=
  match b.opened_structures_ with
  | [] => .raise Error.logic_error b
  | top :: rest =>
    let b1 : Builder R :=
      match top with
      | StructureValue.array a =>
        { b with opened_structures_ := StructureValue.array (a ++ [node]) :: rest }
      | StructureValue.dict _ => b
    match b1.opened_structures_ with
    | StructureValue.dict _ :: _ => b1.AddElementDictionary node
    | _ => .ok b1

/-- Method `Builder::ProcessRootStructure`. -/
def Builder.ProcessRootStructure (b : Builder R) (node : Node R) : Step (Builder R) :=
  (if b.root_value_type_ = ValueType.ARRAY then
      match node.AsArray with
      | some a => Step.ok { b with root_ := Node.array a }
      | none => Step.raise Error.logic_error b
    else Step.ok b).bind (fun b =>
    if b.root_value_type_ = ValueType.DICTIONARY then
      match node.AsMap with
      | some d => .ok { b with root_ := Node.dict d }
      | none => .raise Error.logic_error b
    else .ok b)

/-- Method `Builder::ProcessEndStructure`. -/
def Builder.ProcessEndStructure (b : Builder R) (node : Node R) : Step (Builder R) :=
  let b1 : Builder R := { b with opened_structures_ := b.opened_structures_.tail }
  if b1.opened_structures_.length ≥ 1 then b1.ProcessNestedStructure node
  else b1.ProcessRootStructure node

/-- Method `Builder::EndDict`. -/
def Builder.EndDict (b : Builder R) : Step (Builder R) :=
  b.CheckSingleValue.bind (fun b =>
    match b.opened_structures_ with
    | StructureValue.dict d :: _ =>
      (b.ProcessEndStructure (Node.dict d)).bind (fun b1 =>
        match b1.opened_structures_ with
        | StructureValue.array _ :: _ => .ok { b1 with dict_key_expected_ := false }
        | StructureValue.dict _ :: _ => .ok b1
        | [] =>
          if b1.root_value_type_ = ValueType.DICTIONARY then
            .ok { b1 with dict_key_expected_ := false }
          else .ok b1)
    | _ => .raise Error.logic_error b)

/-- Method `Builder::StartArray`. -/
def Builder.StartArray (b : Builder R) : Step (Builder R) :=
  (b.CheckSingleValue.bind Builder.CheckKeyInput).bind (fun b =>
    let b1 : Builder R :=
      if !b.root_started_ then
        Builder.RegisterRootStart { b with root_value_type_ := ValueType.ARRAY }
      else b
    .ok { b1 with opened_structures_ := StructureValue.array [] :: b1.opened_structures_ })

/-- Method `Builder::EndArray`. -/
def Builder.EndArray (b : Builder R) : Step (Builder R) :=
  (b.CheckSingleValue.bind Builder.CheckKeyInput).bind (fun b =>
    match b.opened_structures_ with
    | StructureValue.array a :: _ => b.ProcessEndStructure (Node.array a)
    | _ => .raise Error.logic_error b)

/-- Method `Builder::Build`: the node built, or the exception. -/
def Builder.Build (b : Builder R) : Except Error (Node R) :=
  match b.CheckKeyInput with
  | .raise e _ => .error e
  | .ok b =>
    if !b.root_started_ then .error Error.logic_error
    else .ok (Builder.CreateNodeFromValue b.root_)

/-! ## `json.cpp`: string literals -/

/-- The double quote. -/
def QUOTE : Char := Char.ofNat 34

/-- The backslash. -/
def BACKSLASH : Char := Char.ofNat 92

/-- The line feed. -/
def LF : Char := Char.ofNat 10

/-- The carriage return. -/
def CR : Char := Char.ofNat 13

/-- The tabulator. -/
def TAB : Char := Char.ofNat 9

/-- What the `switch` of `PrintNodeString` writes for one character. -/
def PrintNodeString.put (out : List Char) (c : Char) : List Char :=
  if c = CR then out ++ [BACKSLASH, 'r']
  else if c = LF then out ++ [BACKSLASH, 'n']
  else if c = TAB then out ++ [BACKSLASH, 't']
  else if c = QUOTE then out ++ [BACKSLASH, QUOTE]
  else if c = BACKSLASH then out ++ [BACKSLASH, BACKSLASH]
  else out ++ [c]

/-- Function `PrintNodeString`: the stream `out` after the call; a `std::string` is the list of
its characters. -/
def PrintNodeString (input : List Char) (out : List Char) : List Char :=
  (input.foldl PrintNodeString.put (out ++ [QUOTE])) ++ [QUOTE]

/-- The `while (true)` loop of `LoadStringFromInput`: the characters left in the stream and
the string read so far. -/
def LoadStringFromInput.loop : List Char → List Char → Except Error (List Char × List Char)
  | [], _ => .error Error.ParsingError
  | ch :: it, s =>
    if ch = QUOTE then .ok (s, it)
    else if ch = BACKSLASH then
      match it with
      | [] => .error Error.ParsingError
      | escaped_char :: it1 =>
        if escaped_char = 'n' then LoadStringFromInput.loop it1 (s ++ [LF])
        else if escaped_char = 't' then LoadStringFromInput.loop it1 (s ++ [TAB])
        else if escaped_char = 'r' then LoadStringFromInput.loop it1 (s ++ [CR])
        else if escaped_char = QUOTE then LoadStringFromInput.loop it1 (s ++ [QUOTE])
        else if escaped_char = BACKSLASH then LoadStringFromInput.loop it1 (s ++ [BACKSLASH])
        else .error Error.ParsingError
    else if ch = LF ∨ ch = CR then .error Error.ParsingError
    else LoadStringFromInput.loop it (s ++ [ch])

/-- Function `LoadStringFromInput`: the string read and the characters left in the stream. -/
def LoadStringFromInput (input : List Char) : Except Error (List Char × List Char) :=
  LoadStringFromInput.loop input []

/-! ## Builders for concrete runs -/

/-- The builder after `StartArray().Value(1).EndArray()`: the root array `[1]` is complete. -/
def Demo.closedArray : Builder Int :=
  { root_ := Node.array [Node.int 1], opened_structures_ := [], dict_keys_ := [],
    root_value_type_ := ValueType.ARRAY, root_started_ := true,
    single_value_input_ := false, dict_key_expected_ := false }

/-- The builder `Demo.closedArray` after a further `StartArray()`. -/
def Demo.reopenedArray : Builder Int :=
  { Demo.closedArray with opened_structures_ := [StructureValue.array []] }

/-- The builder `Demo.closedArray` after a further `StartDict()`. -/
def Demo.reopenedDict : Builder Int :=
  { Demo.closedArray with opened_structures_ := [StructureValue.dict []],
                          dict_key_expected_ := true }

/-- The builder `Demo.closedArray` after a further `StartArray().EndArray()`: the root is the
empty array. -/
def Demo.replacedRoot : Builder Int :=
  { Demo.closedArray with root_ := Node.array [] }

/-- The builder after `StartArray().StartArray().EndArray()`: the inner array is closed, the
root array is still open and holds it. -/
def Demo.openArray : Builder Int :=
  { root_ := Node.null, opened_structures_ := [StructureValue.array [Node.array []]],
    dict_keys_ := [], root_value_type_ := ValueType.ARRAY, root_started_ := true,
    single_value_input_ := false, dict_key_expected_ := false }

/-- The builder after `StartDict().Key("a").Value(1).EndDict()`. -/
def Demo.closedDict : Builder Int :=
  { root_ := Node.dict [("a", Node.int 1)], opened_structures_ := [], dict_keys_ := [],
    root_value_type_ := ValueType.DICTIONARY, root_started_ := true,
    single_value_input_ := false, dict_key_expected_ := false }

end Json

/-!
# Transport catalogue: a shallow embedding of `transport_catalogue.cpp`

The maps `stops_` and `stops_real_dist_` of `TransportCatalogue` are lists of entries with
distinct keys; a `std::string_view` key is the string it views; `G` stands for
`geo::Coordinates`. The methods embedded read and write these two maps only.
-/

namespace Transport

/-! ## Data model of `transport_catalogue.h` -/

/-- What ends a call other than a return: the exception `std::logic_error`, or the dereference
of the null pointer `GetStop` returns for an unknown stop. -/
inductive Fault where
  | logic_error
  | NullDereference
deriving DecidableEq, Repr

/-- Lookup `find(key)` in a `std::unordered_map`. -/
def Map.find {K V : Type} [DecidableEq K] (key : K) : List (K × V) → Option V
  | [] => none
  | e :: rest => if e.1 = key then some e.2 else Map.find key rest

/-- The statement `map[key] = value`: the entry is overwritten, or created. -/
def Map.assign {K V : Type} [DecidableEq K] (key : K) (value : V) : List (K × V) → List (K × V)
  | [] => [(key, value)]
  | e :: rest => if e.1 = key then (key, value) :: rest else e :: Map.assign key value rest

/-- The call `map.insert({key, value})`: nothing happens when the key is present. -/
def Map.insert {K V : Type} [DecidableEq K] (key : K) (value : V) (m : List (K × V)) :
    List (K × V) :=
  match Map.find key m with
  | some _ => m
  | none => m ++ [(key, value)]

/-- The struct `Stop`. -/
structure Stop (G : Type) where
  name : String
  position : G
  buses : List String

/-- The class `TransportCatalogue`, its fields `stops_` and `stops_real_dist_`. -/
structure TransportCatalogue (G : Type) where
  stops_ : List (String × Stop G)
  stops_real_dist_ : List ((String × String) × Int)

variable {G : Type}

/-- The catalogue `TransportCatalogue()`. -/
def TransportCatalogue.empty : TransportCatalogue G :=
  { stops_ := [], stops_real_dist_ := [] }

/-- Method `TransportCatalogue::AddStop`. -/
def TransportCatalogue.AddStop (tc : TransportCatalogue G) (stop : Stop G) :
    TransportCatalogue G :=
  { tc with stops_ := Map.assign stop.name stop tc.stops_ }

/-- Method `TransportCatalogue::GetStop`; `none` is the null pointer. -/
def TransportCatalogue.GetStop (tc : TransportCatalogue G) (name : String) : Option (Stop G) :=
  Map.find name tc.stops_

/-- Method `TransportCatalogue::SetRealDistanceForStop`. -/
def TransportCatalogue.SetRealDistanceForStop (tc : TransportCatalogue G)
    (stop_name_start stop_name_end : String) (distance : Int) :
    Except Fault (TransportCatalogue G) :=
  match tc.GetStop stop_name_start with
  | none => .error Fault.NullDereference
  | some stop_from =>
    match tc.GetStop stop_name_end with
    | none => .error Fault.NullDereference
    | some stop_to =>
      let stop_pair := (stop_from.name, stop_to.name)
      let stop_pair_reverse := (stop_to.name, stop_from.name)
      let forward := Map.assign stop_pair distance tc.stops_real_dist_
      .ok { tc with stops_real_dist_ := Map.insert stop_pair_reverse distance forward }

/-- Method `TransportCatalogue::GetRealDistanceForStop`. -/
def TransportCatalogue.GetRealDistanceForStop (tc : TransportCatalogue G)
    (stop_start stop_end : String) : Except Fault Int :=
  match Map.find (stop_start, stop_end) tc.stops_real_dist_ with
  | none => .error Fault.logic_error
  | some distance => .ok distance

/-- Every stop is stored under its name, as `AddStop` stores it. -/
def TransportCatalogue.Named (tc : TransportCatalogue G) : Prop :=
  ∀ key stop, tc.GetStop key = some stop → stop.name = key

/-- A catalogue with the stop `A` and the distance 5 from `A` to `A`. -/
def Demo.loop5 : TransportCatalogue Unit :=
  { stops_ := [("A", { name := "A", position := (), buses := [] })],
    stops_real_dist_ := [(("A", "A"), 5)] }

/-- A catalogue with the stops `A` and `B` and the distance 5 from `B` to `A`. -/
def Demo.two : TransportCatalogue Unit :=
  { stops_ := [("A", { name := "A", position := (), buses := [] }),
               ("B", { name := "B", position := (), buses := [] })],
    stops_real_dist_ := [(("B", "A"), 5)] }

end Transport

/-! # Theorems -/

namespace Spreadsheet

variable {A D : Type}

/-! ## Lookup after an elementary mutation -/

theorem lookup_eq_none_iff (l : List (Position × Cell A D)) (q : Position) :
    lookup q l = none ↔ ∀ e ∈ l, e.1 ≠ q := by
  induction l with
  | nil => simp [lookup]
  | cons e l ih =>
    by_cases he : e.1 = q
    · simp [lookup, he]
    · simp [lookup, he, ih]

theorem lookup_mem (l : List (Position × Cell A D)) (q : Position) (c : Cell A D)
    (h : lookup q l = some c) : (q, c) ∈ l := by
  induction l with
  | nil => simp [lookup] at h
  | cons e l ih =>
    by_cases he : e.1 = q
    · simp only [lookup, he, if_true, Option.some.injEq] at h
      subst he; subst h
      exact List.mem_cons_self _ _
    · simp only [lookup, he, if_false] at h
      exact List.mem_cons_of_mem _ (ih h)

theorem find_eq_none_iff (s : Sheet A D) (q : Position) :
    s.find q = none ↔ ∀ e ∈ s.cells_, e.1 ≠ q := lookup_eq_none_iff _ _

theorem find_eq_some_mem (s : Sheet A D) (q : Position) (c : Cell A D) (h : s.find q = some c) :
    (q, c) ∈ s.cells_ := lookup_mem _ _ _ h

theorem mem_cells_find_isSome (s : Sheet A D) (e : Position × Cell A D) (h : e ∈ s.cells_) :
    (s.find e.1).isSome = true := by
  cases hf : s.find e.1 with
  | some c => rfl
  | none => exact absurd rfl ((find_eq_none_iff s e.1).1 hf e h)

theorem find_modify (s : Sheet A D) (p q : Position) (f : Cell A D → Cell A D) :
    (s.modify p f).find q = if q = p then (s.find p).map f else s.find q := by
  unfold Sheet.find Sheet.modify
  simp only
  induction s.cells_ with
  | nil => simp [lookup]
  | cons e l ih =>
    by_cases he : e.1 = p <;> by_cases hq : q = p <;> by_cases heq : e.1 = q <;>
      simp_all [lookup]

theorem find_erase (s : Sheet A D) (p q : Position) :
    (s.erase p).find q = if q = p then none else s.find q := by
  unfold Sheet.find Sheet.erase
  simp only
  induction s.cells_ with
  | nil => simp [lookup]
  | cons e l ih =>
    by_cases he : e.1 = p <;> by_cases hq : q = p <;> by_cases heq : e.1 = q <;>
      simp_all [lookup, List.filter_cons]

theorem lookup_append (l1 l2 : List (Position × Cell A D)) (q : Position) :
    lookup q (l1 ++ l2) = (lookup q l1).orElse (fun _ => lookup q l2) := by
  induction l1 with
  | nil => simp [lookup]
  | cons e l ih =>
    by_cases he : e.1 = q <;> simp [lookup, he, ih]

theorem find_emplace (s : Sheet A D) (p q : Position) (c : Cell A D) (h : s.find p = none) :
    (s.emplace p c).find q = if q = p then some c else s.find q := by
  unfold Sheet.find Sheet.emplace at *
  simp only [lookup_append]
  by_cases hq : q = p
  · subst hq
    simp [h, lookup]
  · have hpq : ¬ p = q := fun h => hq h.symm
    cases hl : lookup q s.cells_ <;> simp [hq, hpq, lookup]

@[simp] theorem find_UpdateSize (s : Sheet A D) (p q : Position) :
    (s.UpdateSize p).find q = s.find q := by
  unfold Sheet.UpdateSize Sheet.find
  simp only
  split <;> split <;> rfl

@[simp] theorem find_RecalculateSize (s : Sheet A D) (q : Position) :
    s.RecalculateSize.find q = s.find q := by
  unfold Sheet.RecalculateSize Sheet.find
  simp only
  split <;> rfl

@[simp] theorem size_modify (s : Sheet A D) (p : Position) (f : Cell A D → Cell A D) :
    (s.modify p f).size_ = s.size_ := rfl

@[simp] theorem size_erase (s : Sheet A D) (p : Position) : (s.erase p).size_ = s.size_ := rfl

@[simp] theorem size_emplace (s : Sheet A D) (p : Position) (c : Cell A D) :
    (s.emplace p c).size_ = s.size_ := rfl

@[simp] theorem length_modify (s : Sheet A D) (p : Position) (f : Cell A D → Cell A D) :
    (s.modify p f).cells_.length = s.cells_.length := by
  simp [Sheet.modify]

theorem find_empty (q : Position) : (Sheet.empty : Sheet A D).find q = none := rfl

/-! ## The cycle check -/

theorem potential_mono (lib : FormulaLib A D) (visited : List Position) (x : Position)
    (l : List (Position × Cell A D)) :
    Sheet.HasCircularDependency.potential lib (x :: visited) l
      ≤ Sheet.HasCircularDependency.potential lib visited l := by
  induction l with
  | nil => simp [Sheet.HasCircularDependency.potential]
  | cons e l ih =>
    simp only [Sheet.HasCircularDependency.potential, List.mem_cons]
    by_cases h1 : e.1 ∈ visited
    · simp [h1]; exact ih
    · by_cases h2 : e.1 = x
      · simp [h1, h2]; omega
      · simp [h1, h2]; exact ih

theorem potential_visit (lib : FormulaLib A D) (visited : List Position) (x : Position)
    (l : List (Position × Cell A D)) (c : Cell A D) (refs : List Position)
    (hx : x ∉ visited) (hf : lookup x l = some c) (hr : c.GetReferencedCells lib = some refs) :
    Sheet.HasCircularDependency.potential lib (x :: visited) l + refs.length
      ≤ Sheet.HasCircularDependency.potential lib visited l := by
  induction l with
  | nil => simp [lookup] at hf
  | cons e l ih =>
    simp only [Sheet.HasCircularDependency.potential, List.mem_cons]
    by_cases h2 : e.1 = x
    · simp only [lookup, h2, if_true, Option.some.injEq] at hf
      subst hf
      have := potential_mono lib visited x l
      simp [h2, hx, hr]; omega
    · simp only [lookup, h2, if_false] at hf
      have := ih hf
      by_cases h1 : e.1 ∈ visited
      · simp [h1]; exact this
      · simp [h1, h2]; omega

theorem potential_nil (lib : FormulaLib A D) (l : List (Position × Cell A D)) :
    Sheet.HasCircularDependency.potential lib [] l
      = (l.map (fun e => ((e.2.GetReferencedCells lib).getD []).length)).sum := by
  induction l with
  | nil => rfl
  | cons e l ih => simp [Sheet.HasCircularDependency.potential, ih]

theorem GetCell_valid (s : Sheet A D) (q : Position) (h : q.IsValid = true) :
    s.GetCell q = .ok (s.find q) := by
  unfold Sheet.GetCell Sheet.CheckGetPosition Sheet.CheckSetPosition
  simp only [h, Bool.not_true]
  cases hf : s.find q <;> simp

theorem GetCell_invalid (s : Sheet A D) (q : Position) (h : q.IsValid = false) :
    s.GetCell q = .error Exn.InvalidPositionException := by
  unfold Sheet.GetCell Sheet.CheckGetPosition Sheet.CheckSetPosition
  simp [h]

/-- The loop returns: enough iterations are granted. -/
theorem loop_returns (lib : FormulaLib A D) (s : Sheet A D) (start : Position) (hs : s.Walkable lib) :
    ∀ (n : Nat) (visited stack : List Position),
      (∀ x ∈ stack, x.IsValid = true) →
      stack.length + Sheet.HasCircularDependency.potential lib visited s.cells_ < n →
      ∃ b, Sheet.HasCircularDependency.loop lib s start n visited stack = .ok b := by
  intro n
  induction n with
  | zero => intro visited stack _ h; omega
  | succ n ih =>
    intro visited stack hv hn
    cases stack with
    | nil => exact ⟨false, rfl⟩
    | cons current stack =>
      simp only [Sheet.HasCircularDependency.loop]
      by_cases h1 : current = start
      · exact ⟨true, by simp [h1]⟩
      · simp only [h1, if_false]
        have hv' : ∀ x ∈ stack, x.IsValid = true := fun x hx => hv x (List.mem_cons_of_mem _ hx)
        simp only [List.length_cons] at hn
        by_cases h2 : current ∈ visited
        · simp only [h2, if_true]
          exact ih visited stack hv' (by omega)
        · simp only [h2, if_false]
          rw [GetCell_valid s current (hv current (List.mem_cons_self _ _))]
          cases hf : s.find current with
          | none =>
            simp only
            have := potential_mono lib visited current s.cells_
            exact ih (current :: visited) stack hv' (by omega)
          | some cell =>
            obtain ⟨refs, hr, hrv⟩ := hs current cell hf
            simp only [hr]
            have := potential_visit lib visited current s.cells_ cell refs h2 hf hr
            apply ih
            · intro x hx
              rcases List.mem_append.1 hx with h | h
              · exact hrv x (List.mem_reverse.1 h)
              · exact hv' x h
            · simp only [List.length_append, List.length_reverse]; omega

/-- A `true` result comes from a position of the stack that reaches `start`. -/
theorem loop_true (lib : FormulaLib A D) (s : Sheet A D) (start : Position) :
    ∀ (n : Nat) (visited stack : List Position),
      Sheet.HasCircularDependency.loop lib s start n visited stack = .ok true →
      ∃ x ∈ stack, Relation.ReflTransGen (s.Refs lib) x start := by
  intro n
  induction n with
  | zero => intro visited stack h; simp [Sheet.HasCircularDependency.loop] at h
  | succ n ih =>
    intro visited stack h
    cases stack with
    | nil => simp [Sheet.HasCircularDependency.loop] at h
    | cons current stack =>
      simp only [Sheet.HasCircularDependency.loop] at h
      by_cases h1 : current = start
      · exact ⟨current, List.mem_cons_self _ _, h1 ▸ Relation.ReflTransGen.refl⟩
      · simp only [h1, if_false] at h
        by_cases h2 : current ∈ visited
        · simp only [h2, if_true] at h
          obtain ⟨x, hx, hr⟩ := ih _ _ h
          exact ⟨x, List.mem_cons_of_mem _ hx, hr⟩
        · simp only [h2, if_false] at h
          cases hg : s.GetCell current with
          | error e => simp [hg] at h
          | ok oc =>
            have hfind : oc = none ∨ oc = s.find current := by
              unfold Sheet.GetCell at hg
              split at hg <;> simp_all
            cases oc with
            | none =>
              simp only [hg] at h
              obtain ⟨x, hx, hr⟩ := ih _ _ h
              exact ⟨x, List.mem_cons_of_mem _ hx, hr⟩
            | some cell =>
              simp only [hg] at h
              cases hr : cell.GetReferencedCells lib with
              | none => simp [hr] at h
              | some refs =>
                simp only [hr] at h
                obtain ⟨x, hx, hreach⟩ := ih _ _ h
                rcases List.mem_append.1 hx with hx | hx
                · refine ⟨current, List.mem_cons_self _ _, Relation.ReflTransGen.head ?_ hreach⟩
                  have : s.find current = some cell := by
                    rcases hfind with h | h
                    · cases h
                    · exact h.symm
                  exact ⟨cell, refs, this, hr, List.mem_reverse.1 hx⟩
                · exact ⟨x, List.mem_cons_of_mem _ hx, hreach⟩

/-- A `false` result: nothing visited or stacked reaches `start`. -/
theorem loop_false (lib : FormulaLib A D) (s : Sheet A D) (start : Position) :
    ∀ (n : Nat) (visited stack : List Position),
      (∀ v ∈ visited, v ≠ start ∧ ∀ w, s.Refs lib v w → w ∈ visited ∨ w ∈ stack) →
      Sheet.HasCircularDependency.loop lib s start n visited stack = .ok false →
      ∀ x, x ∈ visited ∨ x ∈ stack → ¬ Relation.ReflTransGen (s.Refs lib) x start := by
  intro n
  induction n with
  | zero => intro visited stack _ h; simp [Sheet.HasCircularDependency.loop] at h
  | succ n ih =>
    intro visited stack hinv h
    cases stack with
    | nil =>
      intro x hx hreach
      have hxv : x ∈ visited := by simpa using hx
      have : ∀ y, Relation.ReflTransGen (s.Refs lib) x y → y ∈ visited := by
        intro y hy
        induction hy with
        | refl => exact hxv
        | tail _ hbc ihb =>
          rcases (hinv _ ihb).2 _ hbc with h | h
          · exact h
          · simp at h
      exact (hinv _ (this _ hreach)).1 rfl
    | cons current stack =>
      simp only [Sheet.HasCircularDependency.loop] at h
      by_cases h1 : current = start
      · simp [h1] at h
      · simp only [h1, if_false] at h
        by_cases h2 : current ∈ visited
        · simp only [h2, if_true] at h
          have hinv' : ∀ v ∈ visited, v ≠ start ∧ ∀ w, s.Refs lib v w → w ∈ visited ∨ w ∈ stack := by
            intro v hv
            refine ⟨(hinv v hv).1, fun w hw => ?_⟩
            rcases (hinv v hv).2 w hw with h | h
            · exact Or.inl h
            · rcases List.mem_cons.1 h with h | h
              · exact Or.inl (h ▸ h2)
              · exact Or.inr h
          intro x hx
          apply ih _ _ hinv' h
          rcases hx with hx | hx
          · exact Or.inl hx
          · rcases List.mem_cons.1 hx with hx | hx
            · exact Or.inl (hx ▸ h2)
            · exact Or.inr hx
        · simp only [h2, if_false] at h
          cases hg : s.GetCell current with
          | error e => simp [hg] at h
          | ok oc =>
            have hfind : oc = none ∨ oc = s.find current := by
              unfold Sheet.GetCell at hg
              split at hg <;> simp_all
            have hnone : oc = none → s.find current = none := by
              intro ho
              unfold Sheet.GetCell Sheet.CheckGetPosition at hg
              split at hg
              · cases hg
              · cases hg; cases hc : s.find current <;> simp_all
              · rename_i heq
                split at heq
                · cases heq
                · cases hc : s.find current <;> simp_all
            cases oc with
            | none =>
              simp only [hg] at h
              have hfn := hnone rfl
              have hinv' : ∀ v ∈ current :: visited,
                  v ≠ start ∧ ∀ w, s.Refs lib v w → w ∈ current :: visited ∨ w ∈ stack := by
                intro v hv
                rcases List.mem_cons.1 hv with hv | hv
                · subst hv
                  refine ⟨h1, fun w hw => ?_⟩
                  obtain ⟨c, refs, hc, _, _⟩ := hw
                  rw [hfn] at hc; cases hc
                · refine ⟨(hinv v hv).1, fun w hw => ?_⟩
                  rcases (hinv v hv).2 w hw with h | h
                  · exact Or.inl (List.mem_cons_of_mem _ h)
                  · rcases List.mem_cons.1 h with h | h
                    · exact Or.inl (h ▸ List.mem_cons_self _ _)
                    · exact Or.inr h
              intro x hx
              apply ih _ _ hinv' h
              rcases hx with hx | hx
              · exact Or.inl (List.mem_cons_of_mem _ hx)
              · rcases List.mem_cons.1 hx with hx | hx
                · exact Or.inl (hx ▸ List.mem_cons_self _ _)
                · exact Or.inr hx
            | some cell =>
              simp only [hg] at h
              have hfc : s.find current = some cell := by
                rcases hfind with h | h
                · cases h
                · exact h.symm
              cases hr : cell.GetReferencedCells lib with
              | none => simp [hr] at h
              | some refs =>
                simp only [hr] at h
                have hinv' : ∀ v ∈ current :: visited,
                    v ≠ start ∧ ∀ w, s.Refs lib v w → w ∈ current :: visited ∨ w ∈ refs.reverse ++ stack := by
                  intro v hv
                  rcases List.mem_cons.1 hv with hv | hv
                  · subst hv
                    refine ⟨h1, fun w hw => ?_⟩
                    obtain ⟨c, refs1, hc, hr1, hw⟩ := hw
                    rw [hfc] at hc; cases hc
                    rw [hr] at hr1; cases hr1
                    exact Or.inr (List.mem_append_left _ (List.mem_reverse.2 hw))
                  · refine ⟨(hinv v hv).1, fun w hw => ?_⟩
                    rcases (hinv v hv).2 w hw with h | h
                    · exact Or.inl (List.mem_cons_of_mem _ h)
                    · rcases List.mem_cons.1 h with h | h
                      · exact Or.inl (h ▸ List.mem_cons_self _ _)
                      · exact Or.inr (List.mem_append_right _ h)
                intro x hx
                apply ih _ _ hinv' h
                rcases hx with hx | hx
                · exact Or.inl (List.mem_cons_of_mem _ hx)
                · rcases List.mem_cons.1 hx with hx | hx
                  · exact Or.inl (hx ▸ List.mem_cons_self _ _)
                  · exact Or.inr (List.mem_append_right _ hx)

theorem reflTransGen_iff_eq_or_transGen {α : Type} (r : α → α → Prop) (a b : α) :
    Relation.ReflTransGen r a b ↔ a = b ∨ Relation.TransGen r a b := by
  constructor
  · intro h
    rcases Relation.reflTransGen_iff_eq_or_transGen.1 h with h | h
    · exact Or.inl h.symm
    · exact Or.inr h
  · rintro (h | h)
    · exact h ▸ Relation.ReflTransGen.refl
    · exact h.to_reflTransGen

/-- The cycle check on a walkable sheet: it returns, and the result tells whether some position
of `refs` reaches `start` along zero or more edges. -/
theorem HasCircularDependency_reach (lib : FormulaLib A D) (s : Sheet A D) (start : Position)
    (refs : List Position) (hs : s.Walkable lib) (hv : ∀ r ∈ refs, r.IsValid = true) :
    ∃ b, Sheet.HasCircularDependency lib s start refs = .ok b ∧
      (b = true ↔ ∃ r ∈ refs, Relation.ReflTransGen (s.Refs lib) r start) := by
  have hret := loop_returns lib s start hs (Sheet.HasCircularDependency.bound lib s refs) [] refs.reverse
    (fun x hx => hv x (List.mem_reverse.1 hx))
    (by simp only [Sheet.HasCircularDependency.bound, potential_nil, List.length_reverse]; omega)
  obtain ⟨b, hb⟩ := hret
  refine ⟨b, hb, ?_⟩
  cases b with
  | true =>
    simp only [true_iff]
    obtain ⟨x, hx, hr⟩ := loop_true lib s start _ _ _ hb
    exact ⟨x, List.mem_reverse.1 hx, hr⟩
  | false =>
    simp only [Bool.false_eq_true, false_iff]
    rintro ⟨r, hr, hreach⟩
    exact loop_false lib s start _ _ _ (by simp) hb r (Or.inr (List.mem_reverse.2 hr)) hreach

/-- C4 (amended): on a sheet whose cells have an implementation and reference valid positions,
and for a list `refs` of valid positions, `Sheet::HasCircularDependency(start, refs)` returns,
and it returns `true` exactly when `start` is in `refs` or some position of `refs` reaches
`start` along the edges given by the referenced cells of existing cells; a position without a
cell has no outgoing edge. -/
theorem HasCircularDependency_iff (lib : FormulaLib A D) (s : Sheet A D) (start : Position)
    (refs : List Position) (hs : s.Walkable lib) (hv : ∀ r ∈ refs, r.IsValid = true) :
    (∃ b, Sheet.HasCircularDependency lib s start refs = .ok b ∧
      (b = true ↔ start ∈ refs ∨ ∃ r ∈ refs, Relation.TransGen (s.Refs lib) r start)) ∧
    (∀ a b, s.find a = none → ¬ s.Refs lib a b) := by
  refine ⟨?_, ?_⟩
  · obtain ⟨b, hb, hiff⟩ := HasCircularDependency_reach lib s start refs hs hv
    refine ⟨b, hb, hiff.trans ?_⟩
    constructor
    · rintro ⟨r, hr, hreach⟩
      rcases (reflTransGen_iff_eq_or_transGen _ _ _).1 hreach with h | h
      · exact Or.inl (h ▸ hr)
      · exact Or.inr ⟨r, hr, h⟩
    · rintro (h | ⟨r, hr, h⟩)
      · exact ⟨start, h, Relation.ReflTransGen.refl⟩
      · exact ⟨r, hr, h.to_reflTransGen⟩
  · rintro a b ha ⟨c, refs, hc, _, _⟩
    rw [ha] at hc; cases hc

/-- C4, witness: the check of `A1` against `[B1]` on the sheet holding `A1 = "=B1"`. -/
theorem HasCircularDependency_iff_witness :
    (∃ b, Sheet.HasCircularDependency Demo.lib (Sheet.SetCell Demo.lib Demo.sheet0 Demo.A1 "=B1").state
        Demo.B1 [Demo.A1] = .ok b ∧
      (b = true ↔ Demo.B1 ∈ [Demo.A1] ∨ ∃ r ∈ [Demo.A1], Relation.TransGen
        (Sheet.Refs Demo.lib (Sheet.SetCell Demo.lib Demo.sheet0 Demo.A1 "=B1").state) r Demo.B1)) ∧
    (∀ a b, (Sheet.SetCell Demo.lib Demo.sheet0 Demo.A1 "=B1").state.find a = none →
      ¬ Sheet.Refs Demo.lib (Sheet.SetCell Demo.lib Demo.sheet0 Demo.A1 "=B1").state a b) :=
  HasCircularDependency_iff Demo.lib _ Demo.B1 [Demo.A1]
    (by
      intro a c h
      have hm := find_eq_some_mem _ _ _ h
      have hcells : (Sheet.SetCell Demo.lib Demo.sheet0 Demo.A1 "=B1").state.cells_ =
          [(Demo.A1, { impl_ := some (Impl.FormulaImpl ([Demo.B1], 0)), cached_value_ := some (Value.num 0),
                       cells_required_ := [Demo.B1], cells_dependent_ := [] }),
           (Demo.B1, { impl_ := some Impl.EmptyImpl, cached_value_ := some (Value.num 0),
                       cells_required_ := [], cells_dependent_ := [Demo.A1] })] := by decide
      rw [hcells] at hm
      simp only [List.mem_cons, Prod.mk.injEq, List.mem_singleton, List.not_mem_nil, or_false] at hm
      rcases hm with ⟨_, rfl⟩ | ⟨_, rfl⟩
      · exact ⟨[Demo.B1], by decide, by decide⟩
      · exact ⟨[], by decide, by decide⟩)
    (by decide)

/-- C4, counterexample: with an invalid position in `refs` the check raises
`InvalidPositionException` although `start` itself is in `refs`. -/
theorem HasCircularDependency_invalid_ref :
    ¬ (Sheet.HasCircularDependency Demo.lib Demo.sheet0 Demo.A1 [Demo.A1, { row := -1, col := 0 }] = .ok true ↔
      (Demo.A1 ∈ [Demo.A1, { row := -1, col := 0 }] ∨
        ∃ r ∈ [Demo.A1, { row := -1, col := 0 }], Relation.TransGen (Sheet.Refs Demo.lib Demo.sheet0) r Demo.A1)) := by
  intro h
  have h1 : Sheet.HasCircularDependency Demo.lib Demo.sheet0 Demo.A1 [Demo.A1, { row := -1, col := 0 }]
      = .error Exn.InvalidPositionException := rfl
  have h2 := h.2 (Or.inl (by decide))
  rw [h1] at h2
  cases h2

/-- C8: with an invalid position, `SetCell`, `GetCell` and `ClearCell` raise
`InvalidPositionException` and the sheet is the one before the call. -/
theorem invalid_position_raises (lib : FormulaLib A D) (s : Sheet A D) (p : Position) (t : String)
    (hp : p.IsValid = false) :
    Sheet.SetCell lib s p t = .raise Exn.InvalidPositionException s ∧
    s.GetCell p = .error Exn.InvalidPositionException ∧
    Sheet.ClearCell lib s p = .raise Exn.InvalidPositionException s := by
  refine ⟨?_, GetCell_invalid s p hp, ?_⟩
  · simp [Sheet.SetCell, Sheet.depth, Sheet.call, Sheet.SetCell.body, Sheet.CheckSetPosition, hp]
  · simp [Sheet.ClearCell, Sheet.depth, Sheet.call, Sheet.ClearCell.body, Sheet.CheckGetPosition,
      Sheet.CheckSetPosition, hp]

/-- C8, witness: row `-1` on the sheet holding `A1 = "=B1"`. -/
theorem invalid_position_raises_witness :
    ({ row := -1, col := 0 } : Position).IsValid = false ∧
    Sheet.SetCell Demo.lib (Sheet.SetCell Demo.lib Demo.sheet0 Demo.A1 "=B1").state { row := -1, col := 0 } "1"
      = .raise Exn.InvalidPositionException (Sheet.SetCell Demo.lib Demo.sheet0 Demo.A1 "=B1").state ∧
    (Sheet.SetCell Demo.lib Demo.sheet0 Demo.A1 "=B1").state.GetCell { row := -1, col := 0 }
      = .error Exn.InvalidPositionException ∧
    Sheet.ClearCell Demo.lib (Sheet.SetCell Demo.lib Demo.sheet0 Demo.A1 "=B1").state { row := -1, col := 0 }
      = .raise Exn.InvalidPositionException (Sheet.SetCell Demo.lib Demo.sheet0 Demo.A1 "=B1").state :=
  ⟨by decide, invalid_position_raises Demo.lib _ _ "1" (by decide)⟩

/-- C1, the code at the failing input: on the empty sheet `SetCell(A1, "=A1")` raises
`CircularDependencyException` and `SetCell(A1, "=A1+")` raises `FormulaException`; either call
leaves a new cell at `A1` (empty, without a cached value) and a printable size of 1 x 1, where
before there was no cell and the size was 0 x 0. -/
theorem SetCell_raise_changes_sheet :
    Demo.sheet0.find Demo.A1 = none ∧ Demo.sheet0.GetPrintableSize = { rows := 0, cols := 0 } ∧
    (Sheet.SetCell Demo.lib Demo.sheet0 Demo.A1 "=A1").exn = some Exn.CircularDependencyException ∧
    (Sheet.SetCell Demo.lib Demo.sheet0 Demo.A1 "=A1").state.find Demo.A1 = some Cell.new ∧
    (Sheet.SetCell Demo.lib Demo.sheet0 Demo.A1 "=A1").state.GetPrintableSize = { rows := 1, cols := 1 } ∧
    (Sheet.SetCell Demo.lib Demo.sheet0 Demo.A1 "=A1+").exn = some Exn.FormulaException ∧
    (Sheet.SetCell Demo.lib Demo.sheet0 Demo.A1 "=A1+").state.find Demo.A1 = some Cell.new ∧
    (Sheet.SetCell Demo.lib Demo.sheet0 Demo.A1 "=A1+").state.GetPrintableSize = { rows := 1, cols := 1 } := by
  decide

/-! ## Sheets of the same shape -/

theorem Sheet.SameShape.refl (s : Sheet A D) : s.SameShape s := ⟨rfl, rfl, fun _ => rfl⟩

theorem Sheet.SameShape.trans {s1 s2 s3 : Sheet A D} (h1 : s1.SameShape s2) (h2 : s2.SameShape s3) :
    s1.SameShape s3 :=
  ⟨h2.1.trans h1.1, h2.2.1.trans h1.2.1, fun q => (h2.2.2 q).trans (h1.2.2 q)⟩

theorem Sheet.SameShape.find_some {s s' : Sheet A D} (h : s.SameShape s') {q : Position} {c : Cell A D}
    (hc : s.find q = some c) : ∃ c', s'.find q = some c' ∧ c'.strip = c.strip := by
  have := h.2.2 q
  rw [hc] at this
  cases hc' : s'.find q with
  | none => rw [hc'] at this; simp at this
  | some c' => rw [hc'] at this; exact ⟨c', rfl, by simpa using this⟩

theorem Sheet.SameShape.find_some' {s s' : Sheet A D} (h : s.SameShape s') {q : Position} {c' : Cell A D}
    (hc : s'.find q = some c') : ∃ c, s.find q = some c ∧ c'.strip = c.strip := by
  have := h.2.2 q
  rw [hc] at this
  cases hc' : s.find q with
  | none => rw [hc'] at this; simp at this
  | some c => rw [hc'] at this; exact ⟨c, rfl, by simpa using this⟩

theorem strip_eq_fields {c c' : Cell A D} (h : c'.strip = c.strip) :
    c'.impl_ = c.impl_ ∧ c'.cells_required_ = c.cells_required_ ∧
      c'.cells_dependent_ = c.cells_dependent_ := by
  unfold Cell.strip at h
  injection h with h1 h2 h3 h4
  exact ⟨h1, h3, h4⟩

theorem Sheet.SameShape.dependent_eq {s s' : Sheet A D} (h : s.SameShape s') :
    s'.Dependent = s.Dependent := by
  funext p d
  apply propext
  constructor
  · rintro ⟨c', hc', hd⟩
    obtain ⟨c, hc, hs⟩ := h.find_some' hc'
    exact ⟨c, hc, (strip_eq_fields hs).2.2 ▸ hd⟩
  · rintro ⟨c, hc, hd⟩
    obtain ⟨c', hc', hs⟩ := h.find_some hc
    exact ⟨c', hc', (strip_eq_fields hs).2.2.symm ▸ hd⟩

theorem Sheet.SameShape.requires_eq {s s' : Sheet A D} (h : s.SameShape s') :
    s'.Requires = s.Requires := by
  funext p d
  apply propext
  constructor
  · rintro ⟨c', hc', hd⟩
    obtain ⟨c, hc, hs⟩ := h.find_some' hc'
    exact ⟨c, hc, (strip_eq_fields hs).2.1 ▸ hd⟩
  · rintro ⟨c, hc, hd⟩
    obtain ⟨c', hc', hs⟩ := h.find_some hc
    exact ⟨c', hc', (strip_eq_fields hs).2.1.symm ▸ hd⟩

theorem Sheet.SameShape.descOK {s s' : Sheet A D} (lib : FormulaLib A D) (h : s.SameShape s')
    {p : Position} (hd : s.DescOK lib p) : s'.DescOK lib p := by
  intro d hpd
  rw [h.dependent_eq] at hpd ⊢
  obtain ⟨hv, hac, c, a, hc, hi, hx⟩ := hd d hpd
  obtain ⟨c', hc', hs⟩ := h.find_some hc
  exact ⟨hv, hac, c', a, hc', (strip_eq_fields hs).1.trans hi, hx⟩

/-- Writing a cache keeps the shape. -/
theorem sameShape_modify_cache (s : Sheet A D) (q : Position) (v : Option (Value D)) :
    s.SameShape (s.modify q (fun c => { c with cached_value_ := v })) := by
  refine ⟨rfl, length_modify _ _ _, fun x => ?_⟩
  rw [find_modify]
  by_cases hx : x = q
  · subst hx
    cases s.find x <;> simp [Cell.strip]
  · simp [hx]

theorem Sheet.DescOK.step {lib : FormulaLib A D} {s : Sheet A D} {p d : Position}
    (h : s.DescOK lib p) (hd : Relation.TransGen s.Dependent p d) : s.DescOK lib d :=
  fun x hx => h x (hd.trans hx)

/-! ## Chains -/

theorem HasChain.of_edge {α : Type} {r : α → α → Prop} {n : Nat} {a b : α}
    (hab : r a b) (h : ¬ HasChain r (n + 1) a) : ¬ HasChain r n b :=
  fun hb => h (HasChain.succ n a b hab hb)

/-- The nodes of a chain, as a list. -/
theorem HasChain.nodes {α : Type} {r : α → α → Prop} {n : Nat} {a : α} (h : HasChain r n a) :
    ∃ l : List α, l.length = n ∧ List.Chain r a l := by
  induction h with
  | zero a => exact ⟨[], rfl, List.Chain.nil⟩
  | succ n a b hab _ ih =>
    obtain ⟨l, hl, hc⟩ := ih
    exact ⟨b :: l, by simp [hl], List.Chain.cons hab hc⟩

/-- In a relation without cycles whose nodes all lie in a finite list, chains are shorter than
the list. -/
theorem HasChain.bounded {α : Type} {r : α → α → Prop} (keys : List α)
    (hac : ∀ a, ¬ Relation.TransGen r a a) (hk : ∀ a b, r a b → a ∈ keys ∧ b ∈ keys)
    {n : Nat} {a : α} (h : HasChain r n a) (ha : a ∈ keys) : n + 1 ≤ keys.length := by
  obtain ⟨l, hl, hc⟩ := h.nodes
  have hc' : List.Chain (Relation.TransGen r) a l :=
    List.Chain.imp (fun _ _ h => Relation.TransGen.single h) hc
  have hp : List.Pairwise (Relation.TransGen r) (a :: l) := by
    have := (List.chain_iff_pairwise (R := Relation.TransGen r)).1 hc'
    exact this
  have hnd : (a :: l).Nodup := by
    refine List.Pairwise.imp ?_ hp
    intro x y hxy hEq
    exact hac x (hEq ▸ hxy)
  have hsub : (a :: l) ⊆ keys := by
    intro x hx
    rcases List.mem_cons.1 hx with hx | hx
    · exact hx ▸ ha
    · have : ∀ (b : α) (l : List α), List.Chain r b l → ∀ y ∈ l, y ∈ keys := by
        intro b l hbl
        induction hbl with
        | nil => intro y hy; cases hy
        | cons hab _ ih =>
          intro y hy
          rcases List.mem_cons.1 hy with hy | hy
          · exact hy ▸ (hk _ _ hab).2
          · exact ih y hy
      exact this a l hc x hx
  have := (List.Nodup.subperm hnd hsub).length_le
  simp only [List.length_cons] at this
  omega

/-! ## The recursive cache update -/

theorem view_congr {s s' : Sheet A D} {x : Position} (h : s'.find x = s.find x) :
    s'.view x = s.view x := by
  simp [Sheet.view, h]

theorem evaluate_congr {lib : FormulaLib A D} (hl : lib.Local) (a : A) {s s' : Sheet A D}
    (h : ∀ x ∈ lib.GetCells a, s'.view x = s.view x) :
    Formula.Evaluate lib a s'.view = Formula.Evaluate lib a s.view := by
  unfold Formula.Evaluate
  rw [hl a s'.view s.view h]

theorem Sheet.FormulaFresh.stable {lib : FormulaLib A D} (hl : lib.Local) {s s' : Sheet A D}
    {q : Position} (h : s.FormulaFresh lib q) (hq : s'.find q = s.find q)
    (hx : ∀ c a, s.find q = some c → c.impl_ = some (Impl.FormulaImpl a) →
      ∀ x ∈ lib.GetCells a, s'.view x = s.view x) :
    s'.FormulaFresh lib q := by
  obtain ⟨c, a, v, hc, hi, hev, hv⟩ := h
  exact ⟨c, a, v, hq.trans hc, hi, (evaluate_congr hl a (hx c a hc hi)).trans hev, hv⟩

/-- The only exception an implementation raises when asked for its value is the failed
assertion of an evaluation. -/
theorem GetValue_error (lib : FormulaLib A D) (s : Sheet A D) (i : Impl A) (e : Exn)
    (h : i.GetValue lib s = .error e) : e = Exn.ValueAssertionFailed := by
  cases i with
  | EmptyImpl => cases h
  | TextImpl t => cases h
  | FormulaImpl a =>
    simp only [Impl.GetValue, Formula.Evaluate] at h
    split at h
    · cases h
    · cases h
    · cases h; rfl

/-- Effect of `Cell::RecalculateCurrentCache` on a cell that has an implementation: either the
evaluation trips an assertion, or only the cache of that cell changes; it receives the value
of the implementation on a sheet that differs from the given one at that cell only. -/
theorem RecalculateCurrentCache_spec (lib : FormulaLib A D) (s : Sheet A D) (d : Position)
    (c : Cell A D) (i : Impl A) (hc : s.find d = some c) (hi : c.impl_ = some i) :
    (∃ s2 v s1, Cell.RecalculateCurrentCache lib s d = .ok s2 ∧ s.SameShape s2 ∧
      (∀ q, q ≠ d → s2.find q = s.find q) ∧ (∀ q, q ≠ d → s1.find q = s.find q) ∧
      i.GetValue lib s1 = .ok v ∧ s2.find d = some { c with cached_value_ := some v }) ∨
    (∃ s2, Cell.RecalculateCurrentCache lib s d = .raise Exn.ValueAssertionFailed s2) := by
  cases hg : i.GetValue lib (s.modify d (fun c => { c with cached_value_ := none })) with
  | error e =>
    right
    have he := GetValue_error lib _ i e hg
    subst he
    refine ⟨s.modify d (fun c => { c with cached_value_ := none }), ?_⟩
    unfold Cell.RecalculateCurrentCache
    simp only [find_modify, if_true, hc, Option.map_some', hi, hg]
  | ok v =>
    left
    refine ⟨(s.modify d (fun c => { c with cached_value_ := none })).modify d (fun c => { c with cached_value_ := some v }),
      v, s.modify d (fun c => { c with cached_value_ := none }), ?_, ?_, ?_, ?_, hg, ?_⟩
    · unfold Cell.RecalculateCurrentCache
      simp only [find_modify, if_true, hc, Option.map_some', hi, hg]
    · exact (sameShape_modify_cache s d none).trans (sameShape_modify_cache _ d _)
    · intro q hq
      simp [find_modify, hq]
    · intro q hq
      simp [find_modify, hq]
    · simp [find_modify, hc]

theorem forEach_nil {σ α : Type} (f : σ → α → Outcome σ) (s : σ) :
    Outcome.forEach f [] s = .ok s := rfl

theorem forEach_cons {σ α : Type} (f : σ → α → Outcome σ) (x : α) (l : List α) (s : σ) :
    Outcome.forEach f (x :: l) s = (f s x).bind (Outcome.forEach f l) := rfl

theorem bind_ok {σ : Type} (s : σ) (f : σ → Outcome σ) : (Outcome.ok s).bind f = f s := rfl

/-- Specification of `Cell::UpdateDependentCache` when no chain of dependents is as long as
the depth granted: unless an evaluation trips an assertion, it returns, changes cached values
only, leaves every cell that is not a transitive dependent untouched and leaves every
transitive dependent freshly evaluated. -/
theorem UpdateDependentCache_go_spec (lib : FormulaLib A D) :
    ∀ (n : Nat) (s : Sheet A D) (p : Position), s.DescOK lib p → ¬ HasChain s.Dependent n p →
      (s.find p).isSome = true →
      (∃ s', Cell.UpdateDependentCache.go lib n s p = .ok s' ∧ s.SameShape s' ∧
        (∀ q, ¬ Relation.TransGen s.Dependent p q → s'.find q = s.find q) ∧
        (lib.Local → ∀ q, Relation.TransGen s.Dependent p q → s'.FormulaFresh lib q)) ∨
      (∃ s', Cell.UpdateDependentCache.go lib n s p = .raise Exn.ValueAssertionFailed s') := by
  intro n
  induction n with
  | zero => intro s p _ h _; exact absurd (HasChain.zero p) h
  | succ n ih =>
    intro s p hd hch hp
    obtain ⟨self, hself⟩ := Option.isSome_iff_exists.1 hp
    have key : ∀ (L : List Position) (s1 : Sheet A D), s.SameShape s1 →
        (∀ d ∈ L, s.Dependent p d) →
        (∃ s', Outcome.forEach (fun s1 dependent_pos =>
            match s1.GetCell dependent_pos with
            | .error e => .raise e s1
            | .ok none => .raise Exn.AssertionFailed s1
            | .ok (some _) =>
              (Cell.RecalculateCurrentCache lib s1 dependent_pos).bind (fun s2 =>
                Cell.UpdateDependentCache.go lib n s2 dependent_pos)) L s1 = .ok s' ∧
          s1.SameShape s' ∧
          (∀ q, (∀ d ∈ L, q ≠ d ∧ ¬ Relation.TransGen s.Dependent d q) → s'.find q = s1.find q) ∧
          (lib.Local → ∀ d ∈ L, ∀ q, (q = d ∨ Relation.TransGen s.Dependent d q) →
            s'.FormulaFresh lib q)) ∨
        (∃ s', Outcome.forEach (fun s1 dependent_pos =>
            match s1.GetCell dependent_pos with
            | .error e => .raise e s1
            | .ok none => .raise Exn.AssertionFailed s1
            | .ok (some _) =>
              (Cell.RecalculateCurrentCache lib s1 dependent_pos).bind (fun s2 =>
                Cell.UpdateDependentCache.go lib n s2 dependent_pos)) L s1
            = .raise Exn.ValueAssertionFailed s') := by
      intro L
      induction L with
      | nil =>
        intro s1 _ _
        exact Or.inl ⟨s1, rfl, Sheet.SameShape.refl s1, fun _ _ => rfl, fun _ d hd => by cases hd⟩
      | cons d L ihL =>
        intro s1 hs1 hL
        have hpd : s.Dependent p d := hL d (List.mem_cons_self _ _)
        have htd : Relation.TransGen s.Dependent p d := Relation.TransGen.single hpd
        obtain ⟨hvalid, hacd, c, a, hc, hi, hrefs⟩ := hd d htd
        obtain ⟨c1, hc1, hst1⟩ := hs1.find_some hc
        have hi1 : c1.impl_ = some (Impl.FormulaImpl a) := (strip_eq_fields hst1).1.trans hi
        -- the recomputation of `d`
        have hstart : ∀ (o : Outcome (Sheet A D)), Outcome.forEach (fun s1 dependent_pos =>
            match s1.GetCell dependent_pos with
            | .error e => .raise e s1
            | .ok none => .raise Exn.AssertionFailed s1
            | .ok (some _) =>
              (Cell.RecalculateCurrentCache lib s1 dependent_pos).bind (fun s2 =>
                Cell.UpdateDependentCache.go lib n s2 dependent_pos)) (d :: L) s1
            = ((Cell.RecalculateCurrentCache lib s1 d).bind (fun s2 =>
                Cell.UpdateDependentCache.go lib n s2 d)).bind (Outcome.forEach (fun s1 dependent_pos =>
            match s1.GetCell dependent_pos with
            | .error e => .raise e s1
            | .ok none => .raise Exn.AssertionFailed s1
            | .ok (some _) =>
              (Cell.RecalculateCurrentCache lib s1 dependent_pos).bind (fun s2 =>
                Cell.UpdateDependentCache.go lib n s2 dependent_pos)) L) := by
          intro _
          rw [forEach_cons, GetCell_valid s1 d hvalid, hc1]
        rcases RecalculateCurrentCache_spec lib s1 d c1 _ hc1 hi1 with
          ⟨s2, v2, s1', hrec, hshape12, hfind2, hfind1', hval2, hc2⟩ | ⟨s2, hrec⟩
        swap
        · exact Or.inr ⟨s2, by rw [hstart (.ok s1), hrec]; rfl⟩
        have hnotself : ∀ x ∈ lib.GetCells a, x ≠ d := by
          intro x hx hxd
          exact hacd (Relation.TransGen.single (hxd ▸ hrefs x hx))
        have hfresh2 : lib.Local → s2.FormulaFresh lib d := by
          intro hl
          refine ⟨_, a, v2, hc2, hi1, ?_, rfl⟩
          simp only [Impl.GetValue] at hval2
          rw [← hval2]
          apply evaluate_congr hl a
          intro x hx
          apply view_congr
          rw [hfind2 x (hnotself x hx), hfind1' x (hnotself x hx)]
        -- the recursive call on `d`
        have hs02 : s.SameShape s2 := hs1.trans hshape12
        have hdep2 : s2.Dependent = s.Dependent := hs02.dependent_eq
        have hd2 : s2.DescOK lib d := hs02.descOK lib (hd.step htd)
        have hch2 : ¬ HasChain s2.Dependent n d := by
          rw [hdep2]; exact HasChain.of_edge hpd hch
        have hp2 : (s2.find d).isSome = true := by
          obtain ⟨c2, hc2, _⟩ := hshape12.find_some hc1
          simp [hc2]
        rcases ih s2 d hd2 hch2 hp2 with ⟨s3, hgo, hshape23, hsame3, hfresh3⟩ | ⟨s3, hgo⟩
        swap
        · exact Or.inr ⟨s3, by rw [hstart (.ok s1), hrec, bind_ok, hgo]; rfl⟩
        rw [hdep2] at hsame3 hfresh3
        have hs03 : s.SameShape s3 := hs02.trans hshape23
        rcases ihL s3 hs03 (fun d' hd' => hL d' (List.mem_cons_of_mem _ hd')) with
          ⟨s', hfe, hshape3', hsame', hfresh'⟩ | ⟨s', hfe⟩
        swap
        · exact Or.inr ⟨s', by rw [hstart (.ok s1), hrec, bind_ok, hgo, bind_ok, hfe]⟩
        left
        refine ⟨s', ?_, (hshape12.trans hshape23).trans hshape3', ?_, ?_⟩
        · rw [hstart (.ok s1), hrec, bind_ok, hgo, bind_ok]
          exact hfe
        · intro q hq
          have hq1 := hq d (List.mem_cons_self _ _)
          rw [hsame' q (fun d' hd' => hq d' (List.mem_cons_of_mem _ hd')), hsame3 q hq1.2,
            hfind2 q hq1.1]
        · intro hl d' hd' q hq
          -- every cell below `d` is fresh once the call on `d` returns
          have hfreshD : ∀ q, (q = d ∨ Relation.TransGen s.Dependent d q) → s3.FormulaFresh lib q := by
            intro q hq
            rcases hq with hq | hq
            · subst hq
              refine (hfresh2 hl).stable hl (hsame3 q hacd) ?_
              intro cc a2 hcc hi2 x hx
              apply view_congr
              apply hsame3
              intro hqx
              rw [hc2] at hcc
              cases hcc
              have : a2 = a := by
                have hi2' : c1.impl_ = some (Impl.FormulaImpl a2) := hi2
                have := hi1.symm.trans hi2'
                simpa using this.symm
              subst this
              exact hacd (hqx.tail (hrefs x hx))
            · exact hfresh3 hl q hq
          by_cases hex : ∃ d'' ∈ L, q = d'' ∨ Relation.TransGen s.Dependent d'' q
          · obtain ⟨d'', hd'', hq''⟩ := hex
            exact hfresh' hl d'' hd'' q hq''
          · have hnot : ∀ d'' ∈ L, q ≠ d'' ∧ ¬ Relation.TransGen s.Dependent d'' q := by
              intro d'' hd''
              constructor
              · intro h; exact hex ⟨d'', hd'', Or.inl h⟩
              · intro h; exact hex ⟨d'', hd'', Or.inr h⟩
            rcases List.mem_cons.1 hd' with hd'e | hd'L
            · subst hd'e
              have hq3 := hfreshD q hq
              have hpq : Relation.TransGen s.Dependent p q := by
                rcases hq with hq | hq
                · exact hq ▸ htd
                · exact htd.trans hq
              obtain ⟨_, _, cq, aq, hcq, hiq, hrefsq⟩ := hd q hpq
              refine hq3.stable hl (hsame' q hnot) ?_
              intro c3 a3 hc3 hi3 x hx
              apply view_congr
              apply hsame'
              obtain ⟨cq3, hcq3, hstq⟩ := hs03.find_some hcq
              rw [hcq3] at hc3
              cases hc3
              have : a3 = aq := by
                have := ((strip_eq_fields hstq).1.trans hiq).symm.trans hi3
                simpa using this.symm
              subst this
              intro d'' hd''
              constructor
              · intro h
                exact (hnot d'' hd'').2 (Relation.TransGen.single (h ▸ hrefsq x hx))
              · intro h
                exact (hnot d'' hd'').2 (h.tail (hrefsq x hx))
            · exact absurd ⟨d', hd'L, hq⟩ hex
    rcases key self.cells_dependent_ s (Sheet.SameShape.refl s)
      (fun d hd => ⟨self, hself, hd⟩) with ⟨s', hfe, hshape, hsame, hfresh⟩ | ⟨s', hfe⟩
    swap
    · right
      refine ⟨s', ?_⟩
      simp only [Cell.UpdateDependentCache.go, hself]
      exact hfe
    left
    refine ⟨s', ?_, hshape, ?_, ?_⟩
    · simp only [Cell.UpdateDependentCache.go, hself]
      exact hfe
    · intro q hq
      apply hsame
      intro d hd
      have hpd : s.Dependent p d := ⟨self, hself, hd⟩
      exact ⟨fun h => hq (h ▸ Relation.TransGen.single hpd),
        fun h => hq (Relation.TransGen.head hpd h)⟩
    · intro hl q hq
      obtain ⟨d, hpd, hdq⟩ := Relation.TransGen.head'_iff.1 hq
      obtain ⟨c, hc, hdc⟩ := hpd
      rw [hself] at hc
      cases hc
      refine hfresh hl d hdc q ?_
      rcases (reflTransGen_iff_eq_or_transGen _ _ _).1 hdq with h | h
      · exact Or.inl h.symm
      · exact Or.inr h

/-! ## Referenced cells of a formula -/

theorem Position.lt_total (a b : Position) (h1 : a.lt b = false) (h2 : b.lt a = false) : a = b := by
  unfold Position.lt at h1 h2
  simp only [Bool.or_eq_false_iff, decide_eq_false_iff_not, Bool.and_eq_false_imp,
    decide_eq_true_eq] at h1 h2
  have hr : a.row = b.row := by omega
  have hc : a.col = b.col := by
    have := h1.2 hr
    have := h2.2 hr.symm
    omega
  cases a; cases b; simp_all

theorem mem_orderedInsert (a x : Position) (l : List Position) :
    x ∈ orderedInsert a l ↔ x = a ∨ x ∈ l := by
  induction l with
  | nil => simp [orderedInsert]
  | cons b l ih =>
    unfold orderedInsert
    by_cases h1 : a.lt b = true
    · simp [h1]
    · by_cases h2 : b.lt a = true
      · have h1' : a.lt b = false := by simpa using h1
        simp only [h1', h2, if_true, Bool.false_eq_true, if_false, List.mem_cons, ih]
        tauto
      · have hab : a = b := Position.lt_total a b (by simpa using h1) (by simpa using h2)
        subst hab
        simp [h1]

theorem mem_GetReferencedCells (lib : FormulaLib A D) (a : A) (x : Position) :
    x ∈ Formula.GetReferencedCells lib a ↔ x ∈ lib.GetCells a := by
  unfold Formula.GetReferencedCells
  have : ∀ (l acc : List Position),
      x ∈ l.foldl (fun acc q => orderedInsert q acc) acc ↔ x ∈ l ∨ x ∈ acc := by
    intro l
    induction l with
    | nil => intro acc; simp
    | cons b l ih =>
      intro acc
      simp only [List.foldl_cons, ih, mem_orderedInsert, List.mem_cons]
      tauto
  simpa using this (lib.GetCells a) []

/-! ## Graph facts -/

theorem reach_off_of_reach (s : Sheet A D) (p x : Position)
    (h : Relation.ReflTransGen s.Requires x p) : Relation.ReflTransGen (s.RequiresOff p) x p := by
  induction h using Relation.ReflTransGen.head_induction_on with
  | refl => exact Relation.ReflTransGen.refl
  | @head x0 y hxy _ ih =>
    by_cases hx : x0 = p
    · rw [hx]
    · exact Relation.ReflTransGen.head ⟨hx, hxy⟩ ih

theorem transGen_split (s : Sheet A D) (p a b : Position) (h : Relation.TransGen s.Requires a b) :
    Relation.TransGen (s.RequiresOff p) a b ∨
      (Relation.ReflTransGen s.Requires a p ∧ Relation.TransGen s.Requires p b) := by
  induction h with
  | single hab =>
    rename_i b
    by_cases ha : a = p
    · subst ha; exact Or.inr ⟨Relation.ReflTransGen.refl, Relation.TransGen.single hab⟩
    · exact Or.inl (Relation.TransGen.single ⟨ha, hab⟩)
  | tail hab hbc ih =>
    rename_i b c
    rcases ih with ih | ⟨h1, h2⟩
    · by_cases hb : b = p
      · subst hb
        refine Or.inr ⟨?_, Relation.TransGen.single hbc⟩
        exact (Relation.TransGen.mono (fun _ _ h => h.2) ih).to_reflTransGen
      · exact Or.inl (ih.tail ⟨hb, hbc⟩)
    · exact Or.inr ⟨h1, h2.tail hbc⟩

/-- No cycle at all, when the edges away from `p` form no cycle and no successor of `p`
reaches `p`. -/
theorem acyclic_of_off (s : Sheet A D) (p : Position) (R : List Position)
    (hac : ∀ a, ¬ Relation.TransGen (s.RequiresOff p) a a)
    (hnr : ∀ r ∈ R, ¬ Relation.ReflTransGen (s.RequiresOff p) r p)
    (hout : ∀ c q, s.find p = some c → q ∈ c.cells_required_ → q ∈ R) : s.Acyclic := by
  intro a h
  rcases transGen_split s p a a h with h | ⟨h1, h2⟩
  · exact hac a h
  · have hpp : Relation.TransGen s.Requires p p := Relation.TransGen.trans_left h2 h1
    obtain ⟨r, hpr, hrp⟩ := Relation.TransGen.head'_iff.1 hpp
    obtain ⟨c, hc, hq⟩ := hpr
    exact hnr r (hout c r hc hq) (reach_off_of_reach s p r hrp)

theorem Sheet.Hole.acyclicFull {lib : FormulaLib A D} {s : Sheet A D} {p : Position}
    {X R : List Position} (h : s.Hole lib p X R) : s.Acyclic :=
  acyclic_of_off s p R h.acyclic h.noreach h.out

theorem Sheet.Hole.dependent_iff {lib : FormulaLib A D} {s : Sheet A D} {p : Position}
    {R : List Position} (h : s.Hole lib p [] R) (x d : Position) :
    s.Dependent x d ↔ s.Requires d x := by
  constructor
  · rintro ⟨c, hc, hd⟩
    exact (h.sym2 x c d hc hd).1
  · rintro ⟨c, hc, hx⟩
    rcases h.sym1 d c x hc hx with ⟨_, hX⟩ | h'
    · cases hX
    · exact h'

theorem Sheet.Hole.transGen_dependent_iff {lib : FormulaLib A D} {s : Sheet A D} {p : Position}
    {R : List Position} (h : s.Hole lib p [] R) (a b : Position) :
    Relation.TransGen s.Dependent a b ↔ Relation.TransGen s.Requires b a := by
  have : s.Dependent = Function.swap s.Requires := by
    funext x d
    exact propext (h.dependent_iff x d)
  rw [this]
  exact Relation.transGen_swap

theorem find_some_mem_keys (s : Sheet A D) (a : Position) (c : Cell A D) (h : s.find a = some c) :
    a ∈ s.cells_.map Prod.fst :=
  List.mem_map.2 ⟨(a, c), find_eq_some_mem s a c h, rfl⟩

/-! ## The invariant under a change of caches -/

theorem Sheet.CellCached.congr {lib : FormulaLib A D} (hl : lib.Local) {s s' : Sheet A D}
    {c : Cell A D}
    (h : ∀ a, c.impl_ = some (Impl.FormulaImpl a) → ∀ x ∈ lib.GetCells a, s'.view x = s.view x)
    (hc : s.CellCached lib c) : s'.CellCached lib c := by
  unfold Sheet.CellCached at hc ⊢
  cases hi : c.impl_ with
  | none => simp
  | some i =>
    cases i with
    | EmptyImpl => simpa [hi] using hc
    | TextImpl t => simpa [hi] using hc
    | FormulaImpl a =>
      simp only [hi] at hc ⊢
      obtain ⟨v, hev, hv⟩ := hc
      exact ⟨v, (evaluate_congr hl a (h a hi)).trans hev, hv⟩

theorem Sheet.FormulaFresh.cellCached {lib : FormulaLib A D} {s : Sheet A D} {q : Position}
    {c : Cell A D} (h : s.FormulaFresh lib q) (hc : s.find q = some c) : s.CellCached lib c := by
  obtain ⟨c', a, v, hc', hi, hev, hv⟩ := h
  rw [hc] at hc'
  cases hc'
  simp only [Sheet.CellCached, hi]
  exact ⟨v, hev, hv⟩

theorem Sheet.Boxed.transferBox {s s' : Sheet A D} (h : s.Boxed) (hsz : s'.size_ = s.size_)
    (hf : ∀ a, (s'.find a).isSome = (s.find a).isSome) : s'.Boxed := by
  have hsome : ∀ a c', s'.find a = some c' → ∃ c, s.find a = some c := by
    intro a c' hc'
    have := hf a
    rw [hc'] at this
    exact Option.isSome_iff_exists.1 this.symm
  refine ⟨?_, ?_, ?_⟩
  · intro a c' hc'
    obtain ⟨c, hc⟩ := hsome a c' hc'
    rw [hsz]
    exact h.1 a c hc
  · intro hnone
    rw [hsz]
    apply h.2.1
    intro a
    have := hf a
    rw [hnone a] at this
    cases hs : s.find a with
    | none => rfl
    | some c => rw [hs] at this; simp at this
  · intro a c' hc'
    obtain ⟨c, hc⟩ := hsome a c' hc'
    obtain ⟨⟨b1, hb1, hr⟩, ⟨b2, hb2, hcl⟩⟩ := h.2.2 a c hc
    rw [hsz]
    exact ⟨⟨b1, (hf b1).trans hb1, hr⟩, ⟨b2, (hf b2).trans hb2, hcl⟩⟩

theorem Sheet.SameShape.isSome_eq {s s' : Sheet A D} (h : s.SameShape s') (a : Position) :
    (s'.find a).isSome = (s.find a).isSome := by
  have := congrArg Option.isSome (h.2.2 a)
  simpa using this

theorem Sheet.Hole.transfer {lib : FormulaLib A D} {s s' : Sheet A D} {p : Position}
    {X R : List Position} (h : s.Hole lib p X R) (hs : s.SameShape s')
    (hcache : lib.Local → ∀ a c, s'.find a = some c → a ≠ p →
      ¬ Relation.TransGen s'.Dependent p a → s'.CellCached lib c) : s'.Hole lib p X R := by
  have hreq : s'.Requires = s.Requires := hs.requires_eq
  have hoff : s'.RequiresOff p = s.RequiresOff p := by
    funext x y
    simp only [Sheet.RequiresOff, hreq]
  refine ⟨?_, ?_, ?_, ?_, ?_, ?_, ?_, ?_, ?_, ?_, hcache⟩
  · intro a c' hc'
    obtain ⟨c, hc, _⟩ := hs.find_some' hc'
    exact h.valid a c hc
  · rw [hs.isSome_eq]; exact h.here
  · intro a c' hc' ha
    obtain ⟨c, hc, hst⟩ := hs.find_some' hc'
    obtain ⟨i, hi, hq⟩ := h.impl a c hc ha
    obtain ⟨h1, h2, _⟩ := strip_eq_fields hst
    exact ⟨i, h1.trans hi, fun q => h2 ▸ hq q⟩
  · intro a c' hc'
    obtain ⟨c, hc, hst⟩ := hs.find_some' hc'
    exact (strip_eq_fields hst).2.1 ▸ h.nodup a c hc
  · intro c' q hc' hq
    obtain ⟨c, hc, hst⟩ := hs.find_some' hc'
    exact h.out c q hc ((strip_eq_fields hst).2.1 ▸ hq)
  · intro a c' q hc' hq
    obtain ⟨c, hc, hst⟩ := hs.find_some' hc'
    rcases h.sym1 a c q hc ((strip_eq_fields hst).2.1 ▸ hq) with h1 | ⟨d, hd, had⟩
    · exact Or.inl h1
    · obtain ⟨d', hd', hst'⟩ := hs.find_some hd
      exact Or.inr ⟨d', hd', (strip_eq_fields hst').2.2.symm ▸ had⟩
  · intro q d' a hd' ha
    obtain ⟨d, hd, hst⟩ := hs.find_some' hd'
    obtain ⟨⟨c, hc, hq⟩, hX⟩ := h.sym2 q d a hd ((strip_eq_fields hst).2.2 ▸ ha)
    obtain ⟨c', hc', hst'⟩ := hs.find_some hc
    exact ⟨⟨c', hc', (strip_eq_fields hst').2.1.symm ▸ hq⟩, hX⟩
  · rw [hoff]; exact h.acyclic
  · rw [hoff]; exact h.noreach
  · exact h.size.transferBox hs.1 hs.isSome_eq

/-- The cache update on a sheet whose cell at `p` is being edited and has no dangling edge:
unless an evaluation trips an assertion, it returns, changes caches only, keeps the cell at
`p`, and leaves the cache of every other cell in order. -/
theorem Sheet.Hole.updateDependentCache {lib : FormulaLib A D} {s : Sheet A D} {p : Position}
    {R : List Position} (h : s.Hole lib p [] R) :
    (∃ s', Cell.UpdateDependentCache lib s p = .ok s' ∧ s.SameShape s' ∧ s'.find p = s.find p ∧
      s'.Hole lib p [] R ∧
      (lib.Local → ∀ a c, s'.find a = some c → a ≠ p → s'.CellCached lib c) ∧
      (∀ q, ¬ Relation.TransGen s.Dependent p q → s'.find q = s.find q)) ∨
    (∃ s', Cell.UpdateDependentCache lib s p = .raise Exn.ValueAssertionFailed s') := by
  have hacf := h.acyclicFull
  have hdepac : ∀ a, ¬ Relation.TransGen s.Dependent a a := fun a ha =>
    hacf a ((h.transGen_dependent_iff a a).1 ha)
  have hdesc : s.DescOK lib p := by
    intro d hpd
    obtain ⟨x, _, hxd⟩ := Relation.TransGen.tail'_iff.1 hpd
    have hdp : d ≠ p := fun hd => hdepac p (hd ▸ hpd)
    obtain ⟨cx, hcx, hdx⟩ := hxd
    obtain ⟨⟨c, hc, hxc⟩, _⟩ := h.sym2 x cx d hcx hdx
    obtain ⟨i, hi, hreq⟩ := h.impl d c hc hdp
    refine ⟨h.valid d c hc, hdepac d, c, ?_⟩
    cases i with
    | EmptyImpl => exact absurd ((hreq x).1 hxc) (by simp [Impl.GetReferencedCells])
    | TextImpl t => exact absurd ((hreq x).1 hxc) (by simp [Impl.GetReferencedCells])
    | FormulaImpl a =>
      refine ⟨a, hc, hi, fun y hy => ?_⟩
      have hy' : y ∈ c.cells_required_ :=
        (hreq y).2 ((mem_GetReferencedCells lib a y).2 hy)
      rcases h.sym1 d c y hc hy' with ⟨hd, _⟩ | ⟨e, he, hde⟩
      · exact absurd hd hdp
      · exact ⟨e, he, hde⟩
  have hchain : ¬ HasChain s.Dependent (s.cells_.length + 1) p := by
    intro hch
    obtain ⟨cp, hcp⟩ := Option.isSome_iff_exists.1 h.here
    have := HasChain.bounded (s.cells_.map Prod.fst) hdepac
      (fun a b hab => by
        obtain ⟨c, hc, hb⟩ := hab
        obtain ⟨⟨cb, hcb, _⟩, _⟩ := h.sym2 a c b hc hb
        exact ⟨find_some_mem_keys s a c hc, find_some_mem_keys s b cb hcb⟩)
      hch (find_some_mem_keys s p cp hcp)
    simp only [List.length_map] at this
    omega
  rcases UpdateDependentCache_go_spec lib _ s p hdesc hchain h.here with
    ⟨s', hgo, hshape, hsame, hfresh⟩ | ⟨s', hgo⟩
  swap
  · exact Or.inr ⟨s', hgo⟩
  left
  have hstrong : lib.Local → ∀ a c, s'.find a = some c → a ≠ p → s'.CellCached lib c := by
    intro hl a c hc hap
    by_cases hpa : Relation.TransGen s.Dependent p a
    · exact (hfresh hl a hpa).cellCached hc
    · have hca : s.find a = some c := (hsame a hpa).symm.trans hc
      refine Sheet.CellCached.congr hl ?_ (h.cache hl a c hca hap hpa)
      intro f hf x hx
      apply view_congr
      apply hsame
      intro hpx
      obtain ⟨i, hi, hreq⟩ := h.impl a c hca hap
      rw [hf] at hi
      cases hi
      have hx' : x ∈ c.cells_required_ :=
        (hreq x).2 ((mem_GetReferencedCells lib f x).2 hx)
      rcases h.sym1 a c x hca hx' with ⟨ha, _⟩ | ⟨e, he, hae⟩
      · exact hap ha
      · exact hpa (hpx.tail ⟨e, he, hae⟩)
  refine ⟨s', hgo, hshape, hsame p (hdepac p), h.transfer hshape ?_, hstrong, hsame⟩
  intro hl a c hc hap _
  exact hstrong hl a c hc hap

/-! ## Elementary mutations and the invariant -/

theorem find_modify_some {s : Sheet A D} {r a : Position} {f : Cell A D → Cell A D} {c' : Cell A D}
    (h : (s.modify r f).find a = some c') :
    ∃ c, s.find a = some c ∧ c' = if a = r then f c else c := by
  rw [find_modify] at h
  by_cases ha : a = r
  · subst ha
    simp only [if_true] at h ⊢
    cases hs : s.find a with
    | none => rw [hs] at h; cases h
    | some c => rw [hs] at h; exact ⟨c, rfl, by simpa using h.symm⟩
  · simp only [ha, if_false] at h ⊢
    exact ⟨c', h, rfl⟩

theorem find_modify_of_some {s : Sheet A D} {r a : Position} (f : Cell A D → Cell A D) {c : Cell A D}
    (h : s.find a = some c) : (s.modify r f).find a = some (if a = r then f c else c) := by
  rw [find_modify]
  by_cases ha : a = r
  · subst ha; simp [h]
  · simp [ha, h]

theorem isSome_find_modify (s : Sheet A D) (r a : Position) (f : Cell A D → Cell A D) :
    ((s.modify r f).find a).isSome = (s.find a).isSome := by
  rw [find_modify]
  by_cases ha : a = r
  · subst ha; cases s.find a <;> simp
  · simp [ha]

theorem view_modify (s : Sheet A D) (r : Position) (f : Cell A D → Cell A D)
    (hf : ∀ c, (f c).cached_value_ = c.cached_value_) : (s.modify r f).view = s.view := by
  funext x
  simp only [Sheet.view, find_modify]
  by_cases hx : x = r
  · subst hx; cases s.find x <;> simp [hf]
  · simp [hx]

theorem view_modify_ne (s : Sheet A D) (r x : Position) (f : Cell A D → Cell A D) (hx : x ≠ r) :
    (s.modify r f).view x = s.view x := by
  simp [Sheet.view, find_modify, hx]

/-- A cell whose implementation and cache are kept stays in order when the evaluator sees the
same sheet at the cells its formula reads. -/
theorem Sheet.CellCached.congr' {lib : FormulaLib A D} (hl : lib.Local) {s s' : Sheet A D}
    {c c' : Cell A D} (hi : c'.impl_ = c.impl_) (hv : c'.cached_value_ = c.cached_value_)
    (h : ∀ a, c.impl_ = some (Impl.FormulaImpl a) → ∀ x ∈ lib.GetCells a, s'.view x = s.view x)
    (hc : s.CellCached lib c) : s'.CellCached lib c' := by
  have h1 : s'.CellCached lib c := Sheet.CellCached.congr hl h hc
  unfold Sheet.CellCached at h1 ⊢
  rw [hi, hv]
  exact h1

theorem requires_modify (s : Sheet A D) (r : Position) (f : Cell A D → Cell A D)
    (hf : ∀ c, (f c).cells_required_ = c.cells_required_) :
    (s.modify r f).Requires = s.Requires := by
  funext x y
  apply propext
  constructor
  · rintro ⟨c', hc', hy⟩
    obtain ⟨c, hc, rfl⟩ := find_modify_some hc'
    refine ⟨c, hc, ?_⟩
    by_cases hx : x = r
    · simpa [hx, hf] using hy
    · simpa [hx] using hy
  · rintro ⟨c, hc, hy⟩
    refine ⟨_, find_modify_of_some f hc, ?_⟩
    by_cases hx : x = r
    · simpa [hx, hf] using hy
    · simpa [hx] using hy

theorem requiresOff_modify (s : Sheet A D) (p r : Position) (f : Cell A D → Cell A D)
    (hf : ∀ c, (f c).cells_required_ = c.cells_required_) :
    (s.modify r f).RequiresOff p = s.RequiresOff p := by
  funext x y
  simp only [Sheet.RequiresOff, requires_modify s r f hf]

/-- Changing the cell at `p` itself does not touch the edges away from `p`. -/
theorem requiresOff_modify_self (s : Sheet A D) (p : Position) (f : Cell A D → Cell A D) :
    (s.modify p f).RequiresOff p = s.RequiresOff p := by
  funext x y
  apply propext
  constructor
  · rintro ⟨hx, c', hc', hy⟩
    obtain ⟨c, hc, rfl⟩ := find_modify_some hc'
    exact ⟨hx, c, hc, by simpa [hx] using hy⟩
  · rintro ⟨hx, c, hc, hy⟩
    exact ⟨hx, _, find_modify_of_some f hc, by simpa [hx] using hy⟩

theorem dependent_modify (s : Sheet A D) (r : Position) (f : Cell A D → Cell A D)
    (hf : ∀ c, (f c).cells_dependent_ = c.cells_dependent_) :
    (s.modify r f).Dependent = s.Dependent := by
  funext x y
  apply propext
  constructor
  · rintro ⟨c', hc', hy⟩
    obtain ⟨c, hc, rfl⟩ := find_modify_some hc'
    refine ⟨c, hc, ?_⟩
    by_cases hx : x = r
    · simpa [hx, hf] using hy
    · simpa [hx] using hy
  · rintro ⟨c, hc, hy⟩
    refine ⟨_, find_modify_of_some f hc, ?_⟩
    by_cases hx : x = r
    · simpa [hx, hf] using hy
    · simpa [hx] using hy

theorem mem_setErase (p x : Position) (l : List Position) : x ∈ setErase p l ↔ x ∈ l ∧ x ≠ p := by
  simp [setErase]

theorem mem_setInsert (p x : Position) (l : List Position) : x ∈ setInsert p l ↔ x ∈ l ∨ x = p := by
  unfold setInsert
  by_cases h : p ∈ l
  · simp only [h, if_true]
    constructor
    · exact Or.inl
    · rintro (h1 | h1)
      · exact h1
      · exact h1 ▸ h
  · simp [h]

theorem nodup_setInsert (p : Position) (l : List Position) (h : l.Nodup) : (setInsert p l).Nodup := by
  unfold setInsert
  by_cases hp : p ∈ l
  · simp [hp, h]
  · simp only [hp, if_false]
    exact List.Nodup.append h (List.nodup_singleton p) (by simpa using hp)

/-- A dependents edge is the reverse of a requires edge. -/
theorem Sheet.Hole.requires_of_dependent {lib : FormulaLib A D} {s : Sheet A D} {p : Position}
    {X R : List Position} (h : s.Hole lib p X R) {x d : Position} (hd : s.Dependent x d) :
    s.Requires d x := by
  obtain ⟨c, hc, hd⟩ := hd
  exact (h.sym2 x c d hc hd).1

theorem Sheet.Hole.transGen_requires_of_dependent {lib : FormulaLib A D} {s : Sheet A D}
    {p : Position} {X R : List Position} (h : s.Hole lib p X R) {a b : Position}
    (hab : Relation.TransGen s.Dependent a b) : Relation.TransGen s.Requires b a := by
  have : Relation.TransGen (Function.swap s.Requires) a b :=
    Relation.TransGen.mono (fun x d hd => h.requires_of_dependent hd) hab
  exact Relation.transGen_swap.1 this

/-- First half of the loop body over the old references: `p` is removed from the dependents
of `r`; the edge from `p` to `r` is now dangling. -/
theorem Sheet.Hole.dropDependent {lib : FormulaLib A D} {s : Sheet A D} {p r : Position}
    {X R : List Position} (h : s.Hole lib p X R) (hr : r ≠ p) :
    (s.modify r (fun c => { c with cells_dependent_ := setErase p c.cells_dependent_ })).Hole
      lib p (r :: X) R := by
  have hoff := requiresOff_modify s p r
    (fun c => { c with cells_dependent_ := setErase p c.cells_dependent_ }) (fun _ => rfl)
  have hview := view_modify s r
    (fun c => { c with cells_dependent_ := setErase p c.cells_dependent_ }) (fun _ => rfl)
  refine ⟨?_, ?_, ?_, ?_, ?_, ?_, ?_, ?_, ?_, ?_, ?_⟩
  · intro a c' hc'
    obtain ⟨c, hc, _⟩ := find_modify_some hc'
    exact h.valid a c hc
  · rw [isSome_find_modify]; exact h.here
  · intro a c' hc' ha
    obtain ⟨c, hc, rfl⟩ := find_modify_some hc'
    obtain ⟨i, hi, hq⟩ := h.impl a c hc ha
    refine ⟨i, ?_, ?_⟩
    · split <;> simpa using hi
    · intro q; split <;> simpa using hq q
  · intro a c' hc'
    obtain ⟨c, hc, rfl⟩ := find_modify_some hc'
    split <;> simpa using h.nodup a c hc
  · intro c' q hc' hq
    obtain ⟨c, hc, rfl⟩ := find_modify_some hc'
    refine h.out c q hc ?_
    split at hq <;> simpa using hq
  · intro a c' q hc' hq
    obtain ⟨c, hc, rfl⟩ := find_modify_some hc'
    have hq' : q ∈ c.cells_required_ := by split at hq <;> simpa using hq
    rcases h.sym1 a c q hc hq' with ⟨ha, hX⟩ | ⟨d, hd, had⟩
    · exact Or.inl ⟨ha, List.mem_cons_of_mem _ hX⟩
    · by_cases hqr : q = r
      · by_cases hap : a = p
        · exact Or.inl ⟨hap, hqr ▸ List.mem_cons_self _ _⟩
        · refine Or.inr ⟨_, find_modify_of_some _ hd, ?_⟩
          simp only [hqr, if_true]
          exact (mem_setErase p a _).2 ⟨had, hap⟩
      · refine Or.inr ⟨_, find_modify_of_some _ hd, ?_⟩
        simpa [hqr] using had
  · intro q d' a hd' ha
    obtain ⟨d, hd, rfl⟩ := find_modify_some hd'
    by_cases hqr : q = r
    · simp only [hqr, if_true] at ha
      obtain ⟨ha1, ha2⟩ := (mem_setErase p a _).1 ha
      obtain ⟨⟨c, hc, hq⟩, _⟩ := h.sym2 q d a hd ha1
      refine ⟨⟨_, find_modify_of_some _ hc, ?_⟩, fun hh => ha2 hh.1⟩
      split <;> simpa using hq
    · simp only [hqr, if_false] at ha
      obtain ⟨⟨c, hc, hq⟩, hX⟩ := h.sym2 q d a hd ha
      refine ⟨⟨_, find_modify_of_some _ hc, ?_⟩, ?_⟩
      · split <;> simpa using hq
      · rintro ⟨hap, hqX⟩
        rcases List.mem_cons.1 hqX with h1 | h1
        · exact hqr h1
        · exact hX ⟨hap, h1⟩
  · rw [hoff]; exact h.acyclic
  · rw [hoff]; exact h.noreach
  · exact h.size.transferBox rfl (fun a => isSome_find_modify s r a _)
  · intro hl a c' hc' hap hnot
    obtain ⟨c, hc, rfl⟩ := find_modify_some hc'
    have hold : ¬ Relation.TransGen s.Dependent p a := by
      intro hpa
      apply hnot
      -- a path of dependents from `p` never uses the removed edge, which would close a cycle
      have : ∀ b, Relation.TransGen s.Dependent p b →
          Relation.TransGen (s.modify r
            (fun c => { c with cells_dependent_ := setErase p c.cells_dependent_ })).Dependent p b := by
        intro b hpb
        induction hpb with
        | single hpb =>
          rename_i b
          obtain ⟨cp, hcp, hb⟩ := hpb
          refine Relation.TransGen.single ⟨_, find_modify_of_some _ hcp, ?_⟩
          have hpr : ¬ p = r := fun h => hr h.symm
          simpa [hpr] using hb
        | tail hpb hbc ih =>
          rename_i b c0
          obtain ⟨cb, hcb, hc0⟩ := hbc
          refine ih.tail ⟨_, find_modify_of_some _ hcb, ?_⟩
          by_cases hbr : b = r
          · simp only [hbr, if_true]
            refine (mem_setErase p c0 _).2 ⟨hc0, ?_⟩
            intro hc0p
            subst hc0p
            exact h.acyclicFull c0
              (h.transGen_requires_of_dependent (hpb.tail ⟨cb, hcb, hc0⟩))
          · simpa [hbr] using hc0
      exact this a hpa
    refine Sheet.CellCached.congr' hl ?_ ?_ ?_ (h.cache hl a c hc hap hold)
    · split <;> rfl
    · split <;> rfl
    · intro f _ x _
      rw [hview]

theorem find_some_of_ite_none {s s' : Sheet A D} {r : Position}
    (hf : ∀ q, s'.find q = if q = r then none else s.find q) {a : Position} {c : Cell A D}
    (hc : s'.find a = some c) : a ≠ r ∧ s.find a = some c := by
  rw [hf] at hc
  by_cases ha : a = r
  · simp [ha] at hc
  · simp only [ha, if_false] at hc
    exact ⟨ha, hc⟩

/-- Removal of a cell other than `p` that has no edges. -/
theorem Sheet.Hole.eraseCell {lib : FormulaLib A D} {s s' : Sheet A D} {p r : Position}
    {X R : List Position} (h : s.Hole lib p X R) (hr : r ≠ p) (d : Cell A D)
    (hd : s.find r = some d) (hreq : d.cells_required_ = []) (hdep : d.cells_dependent_ = [])
    (hf : ∀ q, s'.find q = if q = r then none else s.find q) (hb : s'.Boxed) :
    s'.Hole lib p X R := by
  have hkeep : ∀ a c, s.find a = some c → a ≠ r → s'.find a = some c := by
    intro a c hc ha
    rw [hf]; simp [ha, hc]
  have hreqrel : s'.Requires = s.Requires := by
    funext x y
    apply propext
    constructor
    · rintro ⟨c, hc, hy⟩
      exact ⟨c, (find_some_of_ite_none hf hc).2, hy⟩
    · rintro ⟨c, hc, hy⟩
      refine ⟨c, hkeep x c hc ?_, hy⟩
      intro hx
      subst hx
      rw [hd] at hc
      cases hc
      rw [hreq] at hy
      cases hy
  have hdeprel : s'.Dependent = s.Dependent := by
    funext x y
    apply propext
    constructor
    · rintro ⟨c, hc, hy⟩
      exact ⟨c, (find_some_of_ite_none hf hc).2, hy⟩
    · rintro ⟨c, hc, hy⟩
      refine ⟨c, hkeep x c hc ?_, hy⟩
      intro hx
      subst hx
      rw [hd] at hc
      cases hc
      rw [hdep] at hy
      cases hy
  have hoff : s'.RequiresOff p = s.RequiresOff p := by
    funext x y
    simp only [Sheet.RequiresOff, hreqrel]
  refine ⟨?_, ?_, ?_, ?_, ?_, ?_, ?_, ?_, ?_, hb, ?_⟩
  · intro a c hc
    exact h.valid a c (find_some_of_ite_none hf hc).2
  · obtain ⟨cp, hcp⟩ := Option.isSome_iff_exists.1 h.here
    rw [hkeep p cp hcp (fun hpr => hr hpr.symm)]
    rfl
  · intro a c hc ha
    exact h.impl a c (find_some_of_ite_none hf hc).2 ha
  · intro a c hc
    exact h.nodup a c (find_some_of_ite_none hf hc).2
  · intro c q hc hq
    exact h.out c q (find_some_of_ite_none hf hc).2 hq
  · intro a c q hc hq
    rcases h.sym1 a c q (find_some_of_ite_none hf hc).2 hq with h1 | ⟨e, he, hae⟩
    · exact Or.inl h1
    · refine Or.inr ⟨e, hkeep q e he ?_, hae⟩
      intro hqr
      subst hqr
      rw [hd] at he
      cases he
      rw [hdep] at hae
      cases hae
  · intro q e a he ha
    obtain ⟨⟨c, hc, hq⟩, hX⟩ := h.sym2 q e a (find_some_of_ite_none hf he).2 ha
    refine ⟨⟨c, hkeep a c hc ?_, hq⟩, hX⟩
    intro har
    subst har
    rw [hd] at hc
    cases hc
    rw [hreq] at hq
    cases hq
  · rw [hoff]; exact h.acyclic
  · rw [hoff]; exact h.noreach
  · intro hl a c hc hap hnot
    obtain ⟨har, hc0⟩ := find_some_of_ite_none hf hc
    rw [hdeprel] at hnot
    refine Sheet.CellCached.congr hl ?_ (h.cache hl a c hc0 hap hnot)
    intro f hfi x hx
    apply view_congr
    rw [hf]
    have hxr : x ≠ r := by
      intro hxr
      subst hxr
      obtain ⟨i, hi, hq⟩ := h.impl a c hc0 hap
      rw [hfi] at hi
      cases hi
      have hx' : x ∈ c.cells_required_ := (hq x).2 ((mem_GetReferencedCells lib f x).2 hx)
      rcases h.sym1 a c x hc0 hx' with ⟨ha, _⟩ | ⟨e, he, hae⟩
      · exact hap ha
      · rw [hd] at he
        cases he
        rw [hdep] at hae
        cases hae
    simp [hxr]

/-! ## The printable size -/

theorem foldl_max_le (f : Position × Cell A D → Int) (l : List (Position × Cell A D)) (m : Int) :
    m ≤ l.foldl (fun m e => max m (f e)) m ∧ ∀ e ∈ l, f e ≤ l.foldl (fun m e => max m (f e)) m := by
  induction l generalizing m with
  | nil => simp
  | cons e l ih =>
    simp only [List.foldl_cons, List.mem_cons]
    obtain ⟨h1, h2⟩ := ih (max m (f e))
    refine ⟨le_trans (le_max_left _ _) h1, ?_⟩
    rintro x (hx | hx)
    · subst hx; exact le_trans (le_max_right _ _) h1
    · exact h2 x hx

theorem foldl_max_attained (f : Position × Cell A D → Int) (l : List (Position × Cell A D)) (m : Int) :
    l.foldl (fun m e => max m (f e)) m = m ∨ ∃ e ∈ l, l.foldl (fun m e => max m (f e)) m = f e := by
  induction l generalizing m with
  | nil => simp
  | cons e l ih =>
    simp only [List.foldl_cons, List.mem_cons]
    rcases ih (max m (f e)) with h | ⟨x, hx, h⟩
    · rcases max_choice m (f e) with hm | hm
      · left; rw [h, hm]
      · right; exact ⟨e, Or.inl rfl, by rw [h, hm]⟩
    · right; exact ⟨x, Or.inr hx, h⟩

/-- A full recomputation yields the bounding box, the keys being valid positions. -/
theorem RecalculateSize_boxed (s : Sheet A D) (hv : ∀ a c, s.find a = some c → a.IsValid = true) :
    s.RecalculateSize.Boxed := by
  have hrow : ∀ e ∈ s.cells_, 0 ≤ e.1.row ∧ 0 ≤ e.1.col := by
    intro e he
    have hs := mem_cells_find_isSome s e he
    obtain ⟨c, hc⟩ := Option.isSome_iff_exists.1 hs
    have := hv e.1 c hc
    simp only [Position.IsValid, Bool.and_eq_true, decide_eq_true_eq] at this
    omega
  unfold Sheet.Boxed
  simp only [find_RecalculateSize]
  unfold Sheet.RecalculateSize
  simp only
  by_cases hl : s.cells_.length = 0
  · have hnil : s.cells_ = [] := List.length_eq_zero.1 hl
    simp only [hl, if_true]
    refine ⟨?_, fun _ => trivial, ?_⟩
    · intro a c hc
      have := find_eq_some_mem s a c hc
      rw [hnil] at this; cases this
    · intro a c hc
      have := find_eq_some_mem s a c hc
      rw [hnil] at this; cases this
  · simp only [hl, if_false]
    have hne : s.cells_ ≠ [] := fun h => hl (by simp [h])
    obtain ⟨e0, he0⟩ := List.exists_mem_of_ne_nil _ hne
    refine ⟨?_, ?_, ?_⟩
    · intro a c hc
      have hm := find_eq_some_mem s a c hc
      have h1 := (foldl_max_le (fun e => e.1.row) s.cells_ 0).2 (a, c) hm
      have h2 := (foldl_max_le (fun e => e.1.col) s.cells_ 0).2 (a, c) hm
      simp only at h1 h2
      constructor <;> omega
    · intro hnone
      have := mem_cells_find_isSome s e0 he0
      rw [hnone] at this
      cases this
    · intro _ _ _
      constructor
      · rcases foldl_max_attained (fun e => e.1.row) s.cells_ 0 with h | ⟨e, he, h⟩
        · have h1 := (foldl_max_le (fun e => e.1.row) s.cells_ 0).2 e0 he0
          have h2 := (hrow e0 he0).1
          simp only at h1
          refine ⟨e0.1, mem_cells_find_isSome s e0 he0, ?_⟩
          simp only [h] at h1 ⊢
          omega
        · exact ⟨e.1, mem_cells_find_isSome s e he, by simp only [h]⟩
      · rcases foldl_max_attained (fun e => e.1.col) s.cells_ 0 with h | ⟨e, he, h⟩
        · have h1 := (foldl_max_le (fun e => e.1.col) s.cells_ 0).2 e0 he0
          have h2 := (hrow e0 he0).2
          simp only at h1
          refine ⟨e0.1, mem_cells_find_isSome s e0 he0, ?_⟩
          simp only [h] at h1 ⊢
          omega
        · exact ⟨e.1, mem_cells_find_isSome s e he, by simp only [h]⟩

/-- Removal of a cell that touches neither the last row nor the last column keeps the box. -/
theorem Sheet.Boxed.erase_inner {s s' : Sheet A D} {r : Position} (h : s.Boxed)
    (hf : ∀ q, s'.find q = if q = r then none else s.find q) (hsz : s'.size_ = s.size_)
    (hd : (s.find r).isSome = true)
    (hin : ¬ (r.row + 1 = s.size_.rows ∨ r.col + 1 = s.size_.cols)) : s'.Boxed := by
  obtain ⟨d, hd⟩ := Option.isSome_iff_exists.1 hd
  obtain ⟨⟨b1, hb1, hr1⟩, ⟨b2, hb2, hc2⟩⟩ := h.2.2 r d hd
  have hb1r : b1 ≠ r := fun hh => hin (Or.inl (hh ▸ hr1))
  have hb2r : b2 ≠ r := fun hh => hin (Or.inr (hh ▸ hc2))
  have hb1' : (s'.find b1).isSome = true := by rw [hf]; simpa [hb1r] using hb1
  have hb2' : (s'.find b2).isSome = true := by rw [hf]; simpa [hb2r] using hb2
  refine ⟨?_, ?_, ?_⟩
  · intro a c hc
    rw [hsz]
    exact h.1 a c (find_some_of_ite_none hf hc).2
  · intro hnone
    rw [hnone b1] at hb1'
    cases hb1'
  · intro _ _ _
    rw [hsz]
    exact ⟨⟨b1, hb1', hr1⟩, ⟨b2, hb2', hc2⟩⟩

/-! ## The nested calls made by `Cell::UpdateDependencies` -/

theorem CheckGetPosition_valid (s : Sheet A D) (q : Position) (h : q.IsValid = true) :
    s.CheckGetPosition q = .ok (s.find q).isSome := by
  simp [Sheet.CheckGetPosition, Sheet.CheckSetPosition, h]

/-- `Cell::Clear` on a cell that has an implementation and no edges: the implementation is
reset. -/
theorem Clear_noedges (lib : FormulaLib A D) (nested : Sheet A D → Call → Outcome (Sheet A D))
    (s : Sheet A D) (r : Position) (d : Cell A D) (i : Impl A) (hd : s.find r = some d)
    (hi : d.impl_ = some i) (hreq : d.cells_required_ = []) (hdep : d.cells_dependent_ = []) :
    Cell.Clear lib nested s r =
      .ok ((s.modify r (fun c => { c with cells_required_ := [] })).modify r
        (fun c => { c with impl_ := none })) := by
  simp only [Cell.Clear, hd, hi, Option.isNone_some, Bool.false_eq_true, if_false,
    Cell.UpdateDependencies, hreq, forEach_nil, bind_ok, find_modify, if_true, Option.map_some',
    Cell.IsReferenced, hdep, List.isEmpty_nil, Bool.not_true]

/-- `Cell::UpdateDependentCache` on a cell without dependents does nothing. -/
theorem UpdateDependentCache_nodeps (lib : FormulaLib A D) (s : Sheet A D) (r : Position)
    (d : Cell A D) (hd : s.find r = some d) (hdep : d.cells_dependent_ = []) :
    Cell.UpdateDependentCache lib s r = .ok s := by
  simp only [Cell.UpdateDependentCache, Cell.UpdateDependentCache.go, hd, hdep, forEach_nil]

/-- The nested `ClearCell` on a cell that has an implementation and no edges: the cell is
removed and the size recomputed if the cell touched the border. -/
theorem nested_clear (lib : FormulaLib A D) (m : Nat) (s : Sheet A D) (r : Position)
    (d : Cell A D) (i : Impl A) (hv : r.IsValid = true) (hd : s.find r = some d)
    (hi : d.impl_ = some i) (hreq : d.cells_required_ = []) (hdep : d.cells_dependent_ = []) :
    ∃ s', Sheet.call lib (m + 1) s (Call.clear r) = .ok s' ∧
      (∀ q, s'.find q = if q = r then none else s.find q) ∧
      (s.Boxed → (∀ a c, s.find a = some c → a.IsValid = true) → s'.Boxed) := by
  have hcall : Sheet.call lib (m + 1) s (Call.clear r) =
      .ok (if r.row + 1 = s.size_.rows ∨ r.col + 1 = s.size_.cols then
        (((s.modify r (fun c => { c with cells_required_ := [] })).modify r
          (fun c => { c with impl_ := none })).erase r).RecalculateSize
        else (((s.modify r (fun c => { c with cells_required_ := [] })).modify r
          (fun c => { c with impl_ := none })).erase r)) := by
    simp only [Sheet.call, Sheet.ClearCell.body, CheckGetPosition_valid s r hv, hd,
      Option.isSome_some, Clear_noedges lib _ s r d i hd hi hreq hdep, bind_ok, find_modify,
      if_true, Option.map_some', Cell.IsReferenced, hdep, List.isEmpty_nil, Bool.not_true,
      Bool.not_false, size_erase, size_modify]
    split <;> rfl
  have hfind : ∀ q, (((s.modify r (fun c => { c with cells_required_ := [] })).modify r
      (fun c => { c with impl_ := none })).erase r).find q = if q = r then none else s.find q := by
    intro q
    rw [find_erase]
    by_cases hq : q = r
    · simp [hq]
    · simp [hq, find_modify]
  refine ⟨_, hcall, ?_, ?_⟩
  · intro q
    split
    · rw [find_RecalculateSize]; exact hfind q
    · exact hfind q
  · intro hb hvalid
    split
    · apply RecalculateSize_boxed
      intro a c hc
      rw [hfind] at hc
      by_cases ha : a = r
      · simp [ha] at hc
      · simp only [ha, if_false] at hc
        exact hvalid a c hc
    · rename_i hin
      exact hb.erase_inner hfind rfl (by simp [hd]) hin

theorem Sheet.Boxed.insert {s s' : Sheet A D} {r : Position} {c : Cell A D} (h : s.Boxed)
    (hv : r.IsValid = true) (hf : ∀ q, s'.find q = if q = r then some c else s.find q)
    (hsz : s'.size_ = (s.UpdateSize r).size_) : s'.Boxed := by
  have hr : (s'.find r).isSome = true := by rw [hf]; simp
  have hold : ∀ b, (s.find b).isSome = true → (s'.find b).isSome = true := by
    intro b hb
    rw [hf]
    by_cases hbr : b = r
    · simp [hbr]
    · simpa [hbr] using hb
  have hvr : 0 ≤ r.row ∧ 0 ≤ r.col := by
    simp only [Position.IsValid, Bool.and_eq_true, decide_eq_true_eq] at hv
    omega
  have hrows : s'.size_.rows = max s.size_.rows (r.row + 1) := by
    rw [hsz]
    unfold Sheet.UpdateSize
    simp only
    split <;> split <;> simp_all <;> omega
  have hcols : s'.size_.cols = max s.size_.cols (r.col + 1) := by
    rw [hsz]
    unfold Sheet.UpdateSize
    simp only
    split <;> split <;> simp_all <;> omega
  have hcase : ∀ a c0, s'.find a = some c0 → a = r ∨ s.find a = some c0 := by
    intro a c0 hc0
    rw [hf] at hc0
    by_cases ha : a = r
    · exact Or.inl ha
    · simp only [ha, if_false] at hc0
      exact Or.inr hc0
  refine ⟨?_, ?_, ?_⟩
  · intro a c0 hc0
    rw [hrows, hcols]
    rcases hcase a c0 hc0 with ha | ha
    · subst ha
      exact ⟨le_max_right _ _, le_max_right _ _⟩
    · have := h.1 a c0 ha
      exact ⟨le_trans this.1 (le_max_left _ _), le_trans this.2 (le_max_left _ _)⟩
  · intro hnone
    rw [hnone r] at hr
    cases hr
  · intro _ _ _
    rw [hrows, hcols]
    constructor
    · by_cases hgt : s.size_.rows < r.row + 1
      · exact ⟨r, hr, by rw [max_eq_right (le_of_lt hgt)]⟩
      · have hle : r.row + 1 ≤ s.size_.rows := not_lt.1 hgt
        rw [max_eq_left hle]
        by_cases hex : ∃ b, (s.find b).isSome = true
        · obtain ⟨b, hb⟩ := hex
          obtain ⟨cb, hcb⟩ := Option.isSome_iff_exists.1 hb
          obtain ⟨⟨b1, hb1, hr1⟩, _⟩ := h.2.2 b cb hcb
          exact ⟨b1, hold b1 hb1, hr1⟩
        · have hz := h.2.1 (fun a => by
            cases ha : s.find a with
            | none => rfl
            | some c => exact absurd ⟨a, by simp [ha]⟩ hex)
          rw [hz] at hle
          simp only at hle
          omega
    · by_cases hgt : s.size_.cols < r.col + 1
      · exact ⟨r, hr, by rw [max_eq_right (le_of_lt hgt)]⟩
      · have hle : r.col + 1 ≤ s.size_.cols := not_lt.1 hgt
        rw [max_eq_left hle]
        by_cases hex : ∃ b, (s.find b).isSome = true
        · obtain ⟨b, hb⟩ := hex
          obtain ⟨cb, hcb⟩ := Option.isSome_iff_exists.1 hb
          obtain ⟨_, ⟨b2, hb2, hc2⟩⟩ := h.2.2 b cb hcb
          exact ⟨b2, hold b2 hb2, hc2⟩
        · have hz := h.2.1 (fun a => by
            cases ha : s.find a with
            | none => rfl
            | some c => exact absurd ⟨a, by simp [ha]⟩ hex)
          rw [hz] at hle
          simp only at hle
          omega

theorem CheckSetPosition_valid (q : Position) (h : q.IsValid = true) :
    Sheet.CheckSetPosition q = .ok () := by
  simp [Sheet.CheckSetPosition, h]

/-- The nested `SetCell(r, "")` on a position without a cell: an empty cell with cache `0.0`
appears and the size grows to cover it. -/
theorem nested_set (lib : FormulaLib A D) (m : Nat) (s : Sheet A D) (r : Position)
    (hv : r.IsValid = true) (hd : s.find r = none) :
    ∃ s', Sheet.call lib (m + 1) s (Call.set r "") = .ok s' ∧
      (∀ q, s'.find q = if q = r then some (Cell.blank lib) else s.find q) ∧
      s'.size_ = (s.UpdateSize r).size_ := by
  have hnew : ∀ q, ((s.UpdateSize r).emplace r Cell.new).find q
      = if q = r then some (Cell.new : Cell A D) else s.find q := by
    intro q
    rw [find_emplace _ _ _ _ (by simpa using hd)]
    simp
  have hr := hnew r
  simp only [if_true] at hr
  refine ⟨Cell.SetEmptyImpl lib ((((s.UpdateSize r).emplace r Cell.new).modify r
      (fun c => { c with cells_required_ := [] })).modify r (fun c => { c with impl_ := none })) r,
    ?_, ?_, rfl⟩
  · simp only [Sheet.call, Sheet.SetCell.body, CheckSetPosition_valid r hv, find_UpdateSize, hd,
      Option.isNone_none, if_true, Cell.Set, String.isEmpty]
    have hempty : ("" : String).endPos = 0 := rfl
    simp only [hempty, beq_self_eq_true, if_true]
    rw [Clear_noedges lib _ _ r Cell.new Impl.EmptyImpl hr rfl rfl rfl, bind_ok, bind_ok]
    apply UpdateDependentCache_nodeps lib _ r (Cell.blank lib)
    · simp only [Cell.SetEmptyImpl, find_modify, hr, if_true, Option.map_some']
      rfl
    · rfl
  · intro q
    simp only [Cell.SetEmptyImpl, find_modify]
    by_cases hq : q = r
    · subst hq
      simp only [hr, if_true, Option.map_some']
      rfl
    · simp [hq, hnew q]

/-! ## The loop over the old references -/

theorem formula_text_nonempty (lib : FormulaLib A D) (a : A) :
    ((Impl.FormulaImpl a).GetText lib).isEmpty = false := by
  cases h : ((Impl.FormulaImpl a).GetText lib).isEmpty with
  | false => rfl
  | true =>
    have h1 := (String.isEmpty_iff _).1 h
    have h2 := congrArg String.data h1
    simp [Impl.GetText, String.singleton] at h2

/-- An implementation whose text is empty references no cell. -/
theorem refs_nil_of_text_empty (lib : FormulaLib A D) (i : Impl A)
    (h : (i.GetText lib).isEmpty = true) : i.GetReferencedCells lib = [] := by
  cases i with
  | EmptyImpl => rfl
  | TextImpl t => rfl
  | FormulaImpl a => rw [formula_text_nonempty] at h; cases h

/-- One turn of the loop over the old references of the cell at `p`. -/
theorem Sheet.Hole.clearOld {lib : FormulaLib A D} {s : Sheet A D} {p : Position}
    {X R : List Position} (h : s.Hole lib p X R) (m : Nat) (r : Position) (hr : r ≠ p)
    (cp : Cell A D) (hcp : s.find p = some cp) (hrp : r ∈ cp.cells_required_) (hrX : r ∉ X) :
    ∃ s', Cell.UpdateDependencies.clearOld lib (Sheet.call lib (m + 1)) s p r = .ok s' ∧
      s'.Hole lib p (r :: X) R ∧ s'.find p = s.find p := by
  rcases h.sym1 p cp r hcp hrp with ⟨_, hX⟩ | ⟨d, hd, _⟩
  · exact absurd hX hrX
  have hv : r.IsValid = true := h.valid r d hd
  have h1 := h.dropDependent hr
  have hd1 := find_modify_of_some (r := r)
    (fun c => { c with cells_dependent_ := setErase p c.cells_dependent_ }) hd
  simp only [if_true] at hd1
  have hp1 : (s.modify r (fun c => { c with cells_dependent_ := setErase p c.cells_dependent_ })).find p
      = s.find p := by
    rw [find_modify]
    have hpr : ¬ p = r := fun hh => hr hh.symm
    simp [hpr]
  obtain ⟨i, hi, hreq⟩ := h1.impl r _ hd1 hr
  have hi' : d.impl_ = some i := hi
  have hreq' : ∀ q, q ∈ d.cells_required_ ↔ q ∈ i.GetReferencedCells lib := hreq
  simp only [Cell.UpdateDependencies.clearOld, GetCell_valid s r hv, hd, hd1, Cell.GetText, hi',
    Option.map_some']
  by_cases hemp : (setErase p d.cells_dependent_).isEmpty = true
  · rw [if_pos hemp]
    by_cases htext : (i.GetText lib).isEmpty = true
    · rw [if_pos htext]
      have hrefs := refs_nil_of_text_empty lib i htext
      have hreq0 : d.cells_required_ = [] := by
        apply List.eq_nil_iff_forall_not_mem.2
        intro q hq
        have := (hreq' q).1 hq
        rw [hrefs] at this
        cases this
      have hdep0 : setErase p d.cells_dependent_ = [] := List.isEmpty_iff.1 hemp
      obtain ⟨s2, hcall, hfind2, hbox2⟩ := nested_clear lib m _ r _ i hv hd1 hi hreq0 hdep0
      refine ⟨s2, hcall, ?_, ?_⟩
      · exact h1.eraseCell hr _ hd1 hreq0 hdep0 hfind2 (hbox2 h1.size h1.valid)
      · rw [hfind2, ← hp1]
        have hpr : ¬ p = r := fun hh => hr hh.symm
        simp [hpr]
    · rw [if_neg htext]
      exact ⟨_, rfl, h1, hp1⟩
  · rw [if_neg hemp]
    exact ⟨_, rfl, h1, hp1⟩

/-- The loop over the old references of the cell at `p`. -/
theorem Sheet.Hole.clearOldLoop {lib : FormulaLib A D} (m : Nat) (p : Position) (R : List Position)
    (cp : Cell A D) :
    ∀ (L X : List Position) (s : Sheet A D), s.Hole lib p X R → s.find p = some cp →
      (∀ r ∈ L, r ∈ cp.cells_required_ ∧ r ≠ p ∧ r ∉ X) → L.Nodup →
      ∃ s', Outcome.forEach (fun s1 old_ref =>
          Cell.UpdateDependencies.clearOld lib (Sheet.call lib (m + 1)) s1 p old_ref) L s = .ok s' ∧
        s'.Hole lib p (L.reverse ++ X) R ∧ s'.find p = s.find p := by
  intro L
  induction L with
  | nil =>
    intro X s h _ _ _
    exact ⟨s, rfl, by simpa using h, rfl⟩
  | cons r L ih =>
    intro X s h hcp hL hnd
    obtain ⟨hrp, hr, hrX⟩ := hL r (List.mem_cons_self _ _)
    obtain ⟨s1, hstep, h1, hp1⟩ := h.clearOld m r hr cp hcp hrp hrX
    have hnd' := List.nodup_cons.1 hnd
    obtain ⟨s', hloop, h', hp'⟩ := ih (r :: X) s1 h1 (hp1.trans hcp)
      (fun q hq => by
        obtain ⟨h1, h2, h3⟩ := hL q (List.mem_cons_of_mem _ hq)
        refine ⟨h1, h2, ?_⟩
        intro hmem
        rcases List.mem_cons.1 hmem with hqr | hqX
        · exact hnd'.1 (hqr ▸ hq)
        · exact h3 hqX)
      hnd'.2
    refine ⟨s', ?_, ?_, hp'.trans hp1⟩
    · rw [forEach_cons, hstep, bind_ok]
      exact hloop
    · simpa [List.reverse_cons, List.append_assoc] using h'

/-! ## Mutations of the cell being edited -/

/-- A change of the cell at `p` itself that keeps its dependents: the outgoing edges may be
replaced as long as live edges stay and every other edge is declared dangling. -/
theorem Sheet.Hole.modifySelf {lib : FormulaLib A D} {s : Sheet A D} {p : Position}
    {X R : List Position} (h : s.Hole lib p X R) (f : Cell A D → Cell A D) (X' : List Position)
    (hdepf : ∀ c, (f c).cells_dependent_ = c.cells_dependent_)
    (hnd : ∀ c, s.find p = some c → (f c).cells_required_.Nodup)
    (hout : ∀ c q, s.find p = some c → q ∈ (f c).cells_required_ → q ∈ R)
    (hlive : ∀ c q, s.find p = some c → q ∈ c.cells_required_ → q ∉ X →
      q ∈ (f c).cells_required_ ∧ q ∉ X')
    (hnew : ∀ c q, s.find p = some c → q ∈ (f c).cells_required_ →
      q ∈ X' ∨ (q ∈ c.cells_required_ ∧ q ∉ X)) :
    (s.modify p f).Hole lib p X' R := by
  have hoff := requiresOff_modify_self s p f
  have hdep := dependent_modify s p f hdepf
  refine ⟨?_, ?_, ?_, ?_, ?_, ?_, ?_, ?_, ?_, ?_, ?_⟩
  · intro a c' hc'
    obtain ⟨c, hc, _⟩ := find_modify_some hc'
    exact h.valid a c hc
  · rw [isSome_find_modify]; exact h.here
  · intro a c' hc' ha
    obtain ⟨c, hc, rfl⟩ := find_modify_some hc'
    simp only [ha, if_false]
    exact h.impl a c hc ha
  · intro a c' hc'
    obtain ⟨c, hc, rfl⟩ := find_modify_some hc'
    by_cases hap : a = p
    · subst hap
      simpa using hnd c hc
    · simpa [hap] using h.nodup a c hc
  · intro c' q hc' hq
    obtain ⟨c, hc, rfl⟩ := find_modify_some hc'
    simp only [if_true] at hq
    exact hout c q hc hq
  · intro a c' q hc' hq
    obtain ⟨c, hc, rfl⟩ := find_modify_some hc'
    by_cases hap : a = p
    · subst hap
      simp only [if_true] at hq
      rcases hnew c q hc hq with hX | ⟨hq1, hq2⟩
      · exact Or.inl ⟨rfl, hX⟩
      · rcases h.sym1 a c q hc hq1 with ⟨_, hX⟩ | ⟨d, hd, had⟩
        · exact absurd hX hq2
        · refine Or.inr ⟨_, find_modify_of_some f hd, ?_⟩
          split
          · rw [hdepf]; exact had
          · exact had
    · simp only [hap, if_false] at hq
      rcases h.sym1 a c q hc hq with ⟨ha, _⟩ | ⟨d, hd, had⟩
      · exact absurd ha hap
      · refine Or.inr ⟨_, find_modify_of_some f hd, ?_⟩
        split
        · rw [hdepf]; exact had
        · exact had
  · intro q d' a hd' ha
    obtain ⟨d, hd, rfl⟩ := find_modify_some hd'
    have ha' : a ∈ d.cells_dependent_ := by
      split at ha
      · rw [hdepf] at ha; exact ha
      · exact ha
    obtain ⟨⟨c, hc, hq⟩, hnX⟩ := h.sym2 q d a hd ha'
    by_cases hap : a = p
    · subst hap
      have hqX : q ∉ X := fun hqX => hnX ⟨rfl, hqX⟩
      obtain ⟨h1, h2⟩ := hlive c q hc hq hqX
      refine ⟨⟨_, find_modify_of_some f hc, ?_⟩, fun hh => h2 hh.2⟩
      simpa using h1
    · refine ⟨⟨_, find_modify_of_some f hc, ?_⟩, fun hh => hap hh.1⟩
      simpa [hap] using hq
  · rw [hoff]; exact h.acyclic
  · rw [hoff]; exact h.noreach
  · exact h.size.transferBox rfl (fun a => isSome_find_modify s p a _)
  · intro hl a c' hc' hap hnot
    obtain ⟨c, hc, rfl⟩ := find_modify_some hc'
    rw [hdep] at hnot
    simp only [hap, if_false]
    refine Sheet.CellCached.congr hl ?_ (h.cache hl a c hc hap hnot)
    intro g hg x hx
    apply view_modify_ne
    intro hxp
    subst hxp
    obtain ⟨i, hi, hreq⟩ := h.impl a c hc hap
    rw [hg] at hi
    cases hi
    have hx' : x ∈ c.cells_required_ := (hreq x).2 ((mem_GetReferencedCells lib g x).2 hx)
    rcases h.sym1 a c x hc hx' with ⟨ha, _⟩ | ⟨e, he, hae⟩
    · exact hap ha
    · exact hnot (Relation.TransGen.single ⟨e, he, hae⟩)

/-- A change of the implementation and the cache of the cell at `p`. -/
theorem Sheet.Hole.modifyBody {lib : FormulaLib A D} {s : Sheet A D} {p : Position}
    {X R : List Position} (h : s.Hole lib p X R) (f : Cell A D → Cell A D)
    (hreqf : ∀ c, (f c).cells_required_ = c.cells_required_)
    (hdepf : ∀ c, (f c).cells_dependent_ = c.cells_dependent_) :
    (s.modify p f).Hole lib p X R := by
  apply h.modifySelf f X hdepf
  · intro c hc; rw [hreqf]; exact h.nodup p c hc
  · intro c q hc hq; rw [hreqf] at hq; exact h.out c q hc hq
  · intro c q _ hq hX; rw [hreqf]; exact ⟨hq, hX⟩
  · intro c q _ hq
    rw [hreqf] at hq
    by_cases hX : q ∈ X
    · exact Or.inl hX
    · exact Or.inr ⟨hq, hX⟩

/-- After the loop over the old references, `cells_required_.clear()`: no edge leaves `p`. -/
theorem Sheet.Hole.clearRequired {lib : FormulaLib A D} {s : Sheet A D} {p : Position}
    {X R : List Position} (h : s.Hole lib p X R)
    (hX : ∀ c q, s.find p = some c → q ∈ c.cells_required_ → q ∈ X) :
    (s.modify p (fun c => { c with cells_required_ := [] })).Hole lib p [] R := by
  apply h.modifySelf (fun c => { c with cells_required_ := [] }) [] (fun _ => rfl)
  · intro c _; exact List.nodup_nil
  · intro c q _ hq; cases hq
  · intro c q hc hq hnX; exact absurd (hX c q hc hq) hnX
  · intro c q _ hq; cases hq

/-- In the loop over the new references, `cells_required_.insert(new_ref)`: an edge to `r`
that is not yet known on the far side. -/
theorem Sheet.Hole.addRequired {lib : FormulaLib A D} {s : Sheet A D} {p r : Position}
    {R : List Position} (h : s.Hole lib p [] R) (hrR : r ∈ R)
    (hr : ∀ c, s.find p = some c → r ∉ c.cells_required_) :
    (s.modify p (fun c => { c with cells_required_ := setInsert r c.cells_required_ })).Hole
      lib p [r] R := by
  apply h.modifySelf (fun c => { c with cells_required_ := setInsert r c.cells_required_ }) [r]
    (fun _ => rfl)
  · intro c hc; exact nodup_setInsert r _ (h.nodup p c hc)
  · intro c q hc hq
    rcases (mem_setInsert r q _).1 hq with hq | hq
    · exact h.out c q hc hq
    · exact hq ▸ hrR
  · intro c q hc hq _
    refine ⟨(mem_setInsert r q _).2 (Or.inl hq), ?_⟩
    intro hqr
    rw [List.mem_singleton] at hqr
    exact hr c hc (hqr ▸ hq)
  · intro c q _ hq
    rcases (mem_setInsert r q _).1 hq with hq | hq
    · exact Or.inr ⟨hq, by simp⟩
    · exact Or.inl (by simp [hq])

/-! ## Creation of a referenced cell and registration as a dependent -/

theorem find_some_of_ite_some {s s' : Sheet A D} {r : Position} {c0 : Cell A D}
    (hf : ∀ q, s'.find q = if q = r then some c0 else s.find q) {a : Position} {c : Cell A D}
    (hc : s'.find a = some c) : (a = r ∧ c = c0) ∨ (a ≠ r ∧ s.find a = some c) := by
  rw [hf] at hc
  by_cases ha : a = r
  · simp only [ha, if_true, Option.some.injEq] at hc
    exact Or.inl ⟨ha, hc.symm⟩
  · simp only [ha, if_false] at hc
    exact Or.inr ⟨ha, hc⟩

/-- A new empty cell without edges appears at a position that held none. -/
theorem Sheet.Hole.addCell {lib : FormulaLib A D} {s s' : Sheet A D} {p r : Position}
    {X R : List Position} (h : s.Hole lib p X R) (hv : r.IsValid = true) (hnone : s.find r = none)
    (c0 : Cell A D) (hi0 : c0.impl_ = some Impl.EmptyImpl) (hreq0 : c0.cells_required_ = [])
    (hdep0 : c0.cells_dependent_ = [])
    (hc0 : c0.cached_value_ = none ∨ c0.cached_value_ = some (Value.num lib.zero))
    (hf : ∀ q, s'.find q = if q = r then some c0 else s.find q) (hb : s'.Boxed) :
    s'.Hole lib p X R := by
  have hkeep : ∀ a c, s.find a = some c → s'.find a = some c := by
    intro a c hc
    rw [hf]
    have : a ≠ r := fun ha => by rw [ha, hnone] at hc; cases hc
    simp [this, hc]
  have hreqrel : s'.Requires = s.Requires := by
    funext x y
    apply propext
    constructor
    · rintro ⟨c, hc, hy⟩
      rcases find_some_of_ite_some hf hc with ⟨_, rfl⟩ | ⟨_, hc⟩
      · rw [hreq0] at hy; cases hy
      · exact ⟨c, hc, hy⟩
    · rintro ⟨c, hc, hy⟩
      exact ⟨c, hkeep x c hc, hy⟩
  have hdeprel : s'.Dependent = s.Dependent := by
    funext x y
    apply propext
    constructor
    · rintro ⟨c, hc, hy⟩
      rcases find_some_of_ite_some hf hc with ⟨_, rfl⟩ | ⟨_, hc⟩
      · rw [hdep0] at hy; cases hy
      · exact ⟨c, hc, hy⟩
    · rintro ⟨c, hc, hy⟩
      exact ⟨c, hkeep x c hc, hy⟩
  have hoff : s'.RequiresOff p = s.RequiresOff p := by
    funext x y
    simp only [Sheet.RequiresOff, hreqrel]
  refine ⟨?_, ?_, ?_, ?_, ?_, ?_, ?_, ?_, ?_, hb, ?_⟩
  · intro a c hc
    rcases find_some_of_ite_some hf hc with ⟨ha, _⟩ | ⟨_, hc⟩
    · exact ha ▸ hv
    · exact h.valid a c hc
  · obtain ⟨cp, hcp⟩ := Option.isSome_iff_exists.1 h.here
    rw [hkeep p cp hcp]; rfl
  · intro a c hc ha
    rcases find_some_of_ite_some hf hc with ⟨_, rfl⟩ | ⟨_, hc⟩
    · exact ⟨Impl.EmptyImpl, hi0, fun q => by simp [hreq0, Impl.GetReferencedCells]⟩
    · exact h.impl a c hc ha
  · intro a c hc
    rcases find_some_of_ite_some hf hc with ⟨_, rfl⟩ | ⟨_, hc⟩
    · rw [hreq0]; exact List.nodup_nil
    · exact h.nodup a c hc
  · intro c q hc hq
    rcases find_some_of_ite_some hf hc with ⟨_, rfl⟩ | ⟨_, hc⟩
    · rw [hreq0] at hq; cases hq
    · exact h.out c q hc hq
  · intro a c q hc hq
    rcases find_some_of_ite_some hf hc with ⟨_, rfl⟩ | ⟨_, hc⟩
    · rw [hreq0] at hq; cases hq
    · rcases h.sym1 a c q hc hq with h1 | ⟨d, hd, had⟩
      · exact Or.inl h1
      · exact Or.inr ⟨d, hkeep q d hd, had⟩
  · intro q d a hd ha
    rcases find_some_of_ite_some hf hd with ⟨_, rfl⟩ | ⟨_, hd⟩
    · rw [hdep0] at ha; cases ha
    · obtain ⟨⟨c, hc, hq⟩, hX⟩ := h.sym2 q d a hd ha
      exact ⟨⟨c, hkeep a c hc, hq⟩, hX⟩
  · rw [hoff]; exact h.acyclic
  · rw [hoff]; exact h.noreach
  · intro hl a c hc hap hnot
    rw [hdeprel] at hnot
    rcases find_some_of_ite_some hf hc with ⟨_, rfl⟩ | ⟨_, hc⟩
    · simp only [Sheet.CellCached, hi0]
      exact hc0
    · refine Sheet.CellCached.congr hl ?_ (h.cache hl a c hc hap hnot)
      intro g hg x hx
      obtain ⟨i, hi, hreq⟩ := h.impl a c hc hap
      rw [hg] at hi
      cases hi
      have hx' : x ∈ c.cells_required_ := (hreq x).2 ((mem_GetReferencedCells lib g x).2 hx)
      rcases h.sym1 a c x hc hx' with ⟨ha, _⟩ | ⟨e, he, _⟩
      · exact absurd ha hap
      · apply view_congr
        rw [hkeep x e he, he]

/-- In the loop over the new references, `cells_dependent_.insert(pos_)` on the referenced
cell: the edge from `p` to `r` is known on both sides. -/
theorem Sheet.Hole.addDependent {lib : FormulaLib A D} {s : Sheet A D} {p r : Position}
    {R : List Position} (h : s.Hole lib p [r] R)
    (hreq : ∃ c, s.find p = some c ∧ r ∈ c.cells_required_) (hex : (s.find r).isSome = true) :
    (s.modify r (fun c => { c with cells_dependent_ := setInsert p c.cells_dependent_ })).Hole
      lib p [] R := by
  have hoff := requiresOff_modify s p r
    (fun c => { c with cells_dependent_ := setInsert p c.cells_dependent_ }) (fun _ => rfl)
  have hview := view_modify s r
    (fun c => { c with cells_dependent_ := setInsert p c.cells_dependent_ }) (fun _ => rfl)
  refine ⟨?_, ?_, ?_, ?_, ?_, ?_, ?_, ?_, ?_, ?_, ?_⟩
  · intro a c' hc'
    obtain ⟨c, hc, _⟩ := find_modify_some hc'
    exact h.valid a c hc
  · rw [isSome_find_modify]; exact h.here
  · intro a c' hc' ha
    obtain ⟨c, hc, rfl⟩ := find_modify_some hc'
    obtain ⟨i, hi, hq⟩ := h.impl a c hc ha
    refine ⟨i, ?_, ?_⟩
    · split <;> simpa using hi
    · intro q; split <;> simpa using hq q
  · intro a c' hc'
    obtain ⟨c, hc, rfl⟩ := find_modify_some hc'
    split <;> simpa using h.nodup a c hc
  · intro c' q hc' hq
    obtain ⟨c, hc, rfl⟩ := find_modify_some hc'
    refine h.out c q hc ?_
    split at hq <;> simpa using hq
  · intro a c' q hc' hq
    obtain ⟨c, hc, rfl⟩ := find_modify_some hc'
    have hq' : q ∈ c.cells_required_ := by split at hq <;> simpa using hq
    right
    rcases h.sym1 a c q hc hq' with ⟨ha, hX⟩ | ⟨d, hd, had⟩
    · rw [List.mem_singleton] at hX
      subst hX; subst ha
      obtain ⟨d, hd⟩ := Option.isSome_iff_exists.1 hex
      refine ⟨_, find_modify_of_some _ hd, ?_⟩
      simp only [if_true]
      exact (mem_setInsert a a _).2 (Or.inr rfl)
    · refine ⟨_, find_modify_of_some _ hd, ?_⟩
      split
      · exact (mem_setInsert p a _).2 (Or.inl had)
      · exact had
  · intro q d' a hd' ha
    obtain ⟨d, hd, rfl⟩ := find_modify_some hd'
    refine ⟨?_, fun hh => by cases hh.2⟩
    have hkeep : ∀ c, s.find a = some c → q ∈ c.cells_required_ →
        ∃ c', (s.modify r (fun c =>
          { c with cells_dependent_ := setInsert p c.cells_dependent_ })).find a = some c' ∧
            q ∈ c'.cells_required_ := by
      intro c hc hq
      refine ⟨_, find_modify_of_some _ hc, ?_⟩
      split <;> simpa using hq
    by_cases hqr : q = r
    · simp only [hqr, if_true] at ha
      rcases (mem_setInsert p a _).1 ha with ha | ha
      · obtain ⟨⟨c, hc, hq⟩, _⟩ := h.sym2 q d a hd ha
        exact hkeep c hc hq
      · obtain ⟨c, hc, hq⟩ := hreq
        exact hkeep c (ha ▸ hc) (hqr ▸ hq)
    · simp only [hqr, if_false] at ha
      obtain ⟨⟨c, hc, hq⟩, _⟩ := h.sym2 q d a hd ha
      exact hkeep c hc hq
  · rw [hoff]; exact h.acyclic
  · rw [hoff]; exact h.noreach
  · exact h.size.transferBox rfl (fun a => isSome_find_modify s r a _)
  · intro hl a c' hc' hap hnot
    obtain ⟨c, hc, rfl⟩ := find_modify_some hc'
    have hold : ¬ Relation.TransGen s.Dependent p a := by
      intro hpa
      apply hnot
      refine Relation.TransGen.mono ?_ hpa
      rintro x y ⟨cx, hcx, hy⟩
      refine ⟨_, find_modify_of_some _ hcx, ?_⟩
      split
      · exact (mem_setInsert p y _).2 (Or.inl hy)
      · exact hy
    refine Sheet.CellCached.congr' hl ?_ ?_ ?_ (h.cache hl a c hc hap hold)
    · split <;> rfl
    · split <;> rfl
    · intro g _ x _
      rw [hview]

/-! ## The loop over the new references -/

/-- One turn of the loop over the new references of the cell at `p`. -/
theorem Sheet.Hole.addNew {lib : FormulaLib A D} {s : Sheet A D} {p : Position}
    {R : List Position} (h : s.Hole lib p [] R) (m : Nat) (r : Position) (hrR : r ∈ R)
    (hv : r.IsValid = true) (cp : Cell A D) (hcp : s.find p = some cp)
    (hnew : r ∉ cp.cells_required_) :
    ∃ s', Cell.UpdateDependencies.addNew (Sheet.call lib (m + 1)) s p r = .ok s' ∧
      s'.Hole lib p [] R ∧
      s'.find p = some { cp with cells_required_ := setInsert r cp.cells_required_ } := by
  have hrp : r ≠ p := fun hh => h.noreach r hrR (hh ▸ Relation.ReflTransGen.refl)
  have hpr : ¬ p = r := fun hh => hrp hh.symm
  have h1 := h.addRequired hrR (fun c hc => by rw [hcp] at hc; cases hc; exact hnew)
  have hp1 := find_modify_of_some (r := p)
    (fun c => { c with cells_required_ := setInsert r c.cells_required_ }) hcp
  simp only [if_true] at hp1
  have hr1 : (s.modify p (fun c => { c with cells_required_ := setInsert r c.cells_required_ })).find r
      = s.find r := by
    rw [find_modify]; simp [hrp]
  have hmem : r ∈ setInsert r cp.cells_required_ := (mem_setInsert r r _).2 (Or.inr rfl)
  simp only [Cell.UpdateDependencies.addNew, hv, if_true, GetCell_valid _ r hv, hr1]
  cases hsr : s.find r with
  | some d =>
    simp only
    refine ⟨_, rfl, h1.addDependent ⟨_, hp1, hmem⟩ (by rw [hr1, hsr]; rfl), ?_⟩
    rw [find_modify]
    simp [hpr, hp1]
  | none =>
    simp only
    obtain ⟨s2, hcall, hf2, hsz2⟩ := nested_set lib m _ r hv (hr1.trans hsr)
    have hbox2 := h1.size.insert hv hf2 hsz2
    have h2 := h1.addCell hv (hr1.trans hsr) (Cell.blank lib) rfl rfl rfl (Or.inr rfl) hf2 hbox2
    have hr2 : s2.find r = some (Cell.blank lib) := by rw [hf2]; simp
    have hp2 : s2.find p = some { cp with cells_required_ := setInsert r cp.cells_required_ } := by
      rw [hf2]; simp [hpr, hp1]
    rw [hcall, bind_ok]
    simp only [GetCell_valid _ r hv, hr2]
    refine ⟨_, rfl, h2.addDependent ⟨_, hp2, hmem⟩ (by rw [hr2]; rfl), ?_⟩
    rw [find_modify]
    simp [hpr, hp2]

/-- The loop over the new references of the cell at `p`: the referenced cells exist afterwards
and the required cells of `p` are extended by the list. -/
theorem Sheet.Hole.addNewLoop {lib : FormulaLib A D} (m : Nat) (p : Position) (R : List Position) :
    ∀ (L : List Position) (s : Sheet A D) (cp : Cell A D), s.Hole lib p [] R →
      s.find p = some cp →
      (∀ r ∈ L, r ∈ R ∧ r.IsValid = true ∧ r ∉ cp.cells_required_) → L.Nodup →
      ∃ s' cp', Outcome.forEach (fun s3 new_ref =>
          Cell.UpdateDependencies.addNew (Sheet.call lib (m + 1)) s3 p new_ref) L s = .ok s' ∧
        s'.Hole lib p [] R ∧ s'.find p = some cp' ∧ cp'.impl_ = cp.impl_ ∧
        cp'.cached_value_ = cp.cached_value_ ∧ cp'.cells_dependent_ = cp.cells_dependent_ ∧
        ∀ q, q ∈ cp'.cells_required_ ↔ q ∈ cp.cells_required_ ∨ q ∈ L := by
  intro L
  induction L with
  | nil =>
    intro s cp h hcp _ _
    exact ⟨s, cp, rfl, h, hcp, rfl, rfl, rfl, fun q => by simp⟩
  | cons r L ih =>
    intro s cp h hcp hL hnd
    obtain ⟨hrR, hv, hnew⟩ := hL r (List.mem_cons_self _ _)
    obtain ⟨s1, hstep, h1, hp1⟩ := h.addNew m r hrR hv cp hcp hnew
    have hnd' := List.nodup_cons.1 hnd
    obtain ⟨s', cp', hloop, h', hp', hi', hc', hd', hq'⟩ := ih s1 _ h1 hp1
      (fun q hq => by
        obtain ⟨h1, h2, h3⟩ := hL q (List.mem_cons_of_mem _ hq)
        refine ⟨h1, h2, ?_⟩
        intro hmem
        rcases (mem_setInsert r q _).1 hmem with hm | hm
        · exact h3 hm
        · exact hnd'.1 (hm ▸ hq))
      hnd'.2
    refine ⟨s', cp', ?_, h', hp', hi', hc', hd', ?_⟩
    · rw [forEach_cons, hstep, bind_ok]
      exact hloop
    · intro q
      rw [hq' q]
      simp only [mem_setInsert, List.mem_cons]
      tauto

/-! ## `Cell::UpdateDependencies` and `Cell::Clear` -/

/-- `Cell::UpdateDependencies` of the cell at `p`: the old edges are removed on both sides, the
new ones installed on both sides; implementation, cache and dependents of `p` are kept. -/
theorem Sheet.Hole.updateDependencies {lib : FormulaLib A D} {s : Sheet A D} {p : Position}
    {R : List Position} (h : s.Hole lib p [] R) (m : Nat) (cp : Cell A D)
    (hcp : s.find p = some cp) (L : List Position)
    (hL : ∀ r ∈ L, r ∈ R ∧ r.IsValid = true) (hnd : L.Nodup) :
    ∃ s' cp', Cell.UpdateDependencies lib (Sheet.call lib (m + 1)) s p L = .ok s' ∧
      s'.Hole lib p [] R ∧ s'.find p = some cp' ∧ cp'.impl_ = cp.impl_ ∧
      cp'.cached_value_ = cp.cached_value_ ∧ cp'.cells_dependent_ = cp.cells_dependent_ ∧
      ∀ q, q ∈ cp'.cells_required_ ↔ q ∈ L := by
  have hne : ∀ r ∈ cp.cells_required_, r ∈ cp.cells_required_ ∧ r ≠ p ∧ r ∉ ([] : List Position) := by
    intro r hr
    refine ⟨hr, ?_, by simp⟩
    intro hrp
    exact h.acyclicFull p (Relation.TransGen.single ⟨cp, hcp, hrp ▸ hr⟩)
  obtain ⟨s1, hloop1, h1, hp1⟩ :=
    Sheet.Hole.clearOldLoop m p R cp cp.cells_required_ [] s h hcp hne (h.nodup p cp hcp)
  have h2 := h1.clearRequired (by
    intro c q hc hq
    rw [hp1, hcp] at hc
    cases hc
    simpa using hq)
  have hp2 := find_modify_of_some (r := p) (fun c => { c with cells_required_ := [] })
    (hp1.trans hcp)
  simp only [if_true] at hp2
  obtain ⟨s3, cp3, hloop2, h3, hp3, hi3, hc3, hd3, hq3⟩ :=
    Sheet.Hole.addNewLoop m p R L _ _ h2 hp2
      (fun r hr => ⟨(hL r hr).1, (hL r hr).2, by simp⟩) hnd
  refine ⟨s3, cp3, ?_, h3, hp3, hi3, hc3, hd3, fun q => by simpa using hq3 q⟩
  simp only [Cell.UpdateDependencies, hcp]
  rw [hloop1, bind_ok]
  exact hloop2

/-- `Cell::Clear` of the cell at `p`, unless an evaluation trips an assertion: no edge leaves
`p` afterwards and its dependents are kept. A cell without dependents loses its
implementation; one with dependents becomes an empty cell with cache `0.0`, and the caches of
all other cells are in order. -/
theorem Sheet.Hole.clear {lib : FormulaLib A D} {s : Sheet A D} {p : Position}
    {R : List Position} (h : s.Hole lib p [] R) (m : Nat) (cp : Cell A D)
    (hcp : s.find p = some cp) (hi : cp.impl_.isSome = true) :
    (∃ s' cp', Cell.Clear lib (Sheet.call lib (m + 1)) s p = .ok s' ∧
      s'.Hole lib p [] R ∧ s'.find p = some cp' ∧ cp'.cells_required_ = [] ∧
      cp'.cells_dependent_ = cp.cells_dependent_ ∧
      ((cp.cells_dependent_ = [] ∧ cp'.impl_ = none) ∨
       (cp'.impl_ = some Impl.EmptyImpl ∧ cp'.cached_value_ = some (Value.num lib.zero) ∧
        (lib.Local → ∀ a c, s'.find a = some c → a ≠ p → s'.CellCached lib c)))) ∨
    (∃ s', Cell.Clear lib (Sheet.call lib (m + 1)) s p = .raise Exn.ValueAssertionFailed s') := by
  obtain ⟨s1, cp1, hupd, h1, hp1, _, _, hd1, hq1⟩ :=
    h.updateDependencies m cp hcp [] (by simp) List.nodup_nil
  have hreq1 : cp1.cells_required_ = [] :=
    List.eq_nil_iff_forall_not_mem.2 (fun q hq => by simpa using (hq1 q).1 hq)
  have hnone : cp.impl_.isNone = false := by
    cases hc : cp.impl_ with
    | none => rw [hc] at hi; cases hi
    | some i => rfl
  simp only [Cell.Clear, hcp, hnone, Bool.false_eq_true, if_false]
  rw [hupd, bind_ok]
  simp only [hp1, Cell.IsReferenced, hd1]
  by_cases hdep : cp.cells_dependent_ = []
  · have hif : (!cp.cells_dependent_.isEmpty) = false := by simp [hdep]
    simp only [hif, Bool.false_eq_true, if_false]
    left
    refine ⟨_, { cp1 with impl_ := none }, rfl,
      h1.modifyBody (fun c => { c with impl_ := none }) (fun _ => rfl) (fun _ => rfl), ?_,
      hreq1, hd1, Or.inl ⟨hdep, rfl⟩⟩
    simpa using find_modify_of_some (r := p) (fun c => { c with impl_ := none }) hp1
  · have hne : (!cp.cells_dependent_.isEmpty) = true := by
      cases hl : cp.cells_dependent_ with
      | nil => exact absurd hl hdep
      | cons x l => rfl
    simp only [hne, if_true]
    have h2 := h1.modifyBody
      (fun c => { c with impl_ := some Impl.EmptyImpl, cached_value_ := some (Value.num lib.zero) })
      (fun _ => rfl) (fun _ => rfl)
    have hp2 := find_modify_of_some (r := p)
      (fun c => { c with impl_ := some Impl.EmptyImpl, cached_value_ := some (Value.num lib.zero) })
      hp1
    simp only [if_true] at hp2
    rcases h2.updateDependentCache with ⟨s3, hudc, _, hp3, h3, hstrong, _⟩ | ⟨s3, hudc⟩
    · exact Or.inl ⟨s3, _, hudc, h3, hp3.trans hp2, hreq1, hd1, Or.inr ⟨rfl, rfl, hstrong⟩⟩
    · exact Or.inr ⟨s3, hudc⟩

/-! ## Between the invariant and its mid-edit form -/

theorem Sheet.Inv.toHole {lib : FormulaLib A D} {s : Sheet A D} (h : s.Inv lib) (p : Position)
    (cp : Cell A D) (hcp : s.find p = some cp) (R : List Position)
    (hout : ∀ q ∈ cp.cells_required_, q ∈ R)
    (hnr : ∀ r ∈ R, ¬ Relation.ReflTransGen s.Requires r p) : s.Hole lib p [] R := by
  refine ⟨h.valid, by simp [hcp], fun a c hc _ => h.impl a c hc, h.nodup, ?_, ?_, ?_, ?_, ?_,
    h.size, fun hl a c hc _ _ => h.cache hl a c hc⟩
  · intro c q hc hq
    rw [hcp] at hc
    cases hc
    exact hout q hq
  · intro a c q hc hq
    exact Or.inr (h.sym1 a c q hc hq)
  · intro q d a hd ha
    exact ⟨h.sym2 q d a hd ha, fun hh => by cases hh.2⟩
  · intro a ha
    exact h.acyclic a (Relation.TransGen.mono (fun _ _ hxy => hxy.2) ha)
  · intro r hr hreach
    exact hnr r hr (Relation.ReflTransGen.mono (fun _ _ hxy => hxy.2) hreach)

theorem Sheet.Hole.toInv {lib : FormulaLib A D} {s : Sheet A D} {p : Position}
    {R : List Position} (h : s.Hole lib p [] R) (cp : Cell A D) (hcp : s.find p = some cp)
    (i : Impl A) (hi : cp.impl_ = some i)
    (hreq : ∀ q, q ∈ cp.cells_required_ ↔ q ∈ i.GetReferencedCells lib)
    (hcache : lib.Local → ∀ a c, s.find a = some c → s.CellCached lib c) : s.Inv lib := by
  refine ⟨h.valid, ?_, h.nodup, ?_, ?_, h.acyclicFull, h.size, hcache⟩
  · intro a c hc
    by_cases ha : a = p
    · subst ha
      rw [hcp] at hc
      cases hc
      exact ⟨i, hi, hreq⟩
    · exact h.impl a c hc ha
  · intro a c q hc hq
    rcases h.sym1 a c q hc hq with ⟨_, hX⟩ | h1
    · cases hX
    · exact h1
  · intro q d a hd ha
    exact (h.sym2 q d a hd ha).1

/-- The old outgoing edges of a cell do not lead back to it. -/
theorem Sheet.Inv.noreach_old {lib : FormulaLib A D} {s : Sheet A D} (h : s.Inv lib)
    (p : Position) (cp : Cell A D) (hcp : s.find p = some cp) :
    ∀ r ∈ cp.cells_required_, ¬ Relation.ReflTransGen s.Requires r p := by
  intro r hr hreach
  exact h.acyclic p (Relation.TransGen.head' ⟨cp, hcp, hr⟩ hreach)

theorem Sheet.Inv.empty (lib : FormulaLib A D) : (Sheet.empty : Sheet A D).Inv lib := by
  refine ⟨?_, ?_, ?_, ?_, ?_, ?_, ?_, ?_⟩
  · intro a c hc; rw [find_empty] at hc; cases hc
  · intro a c hc; rw [find_empty] at hc; cases hc
  · intro a c hc; rw [find_empty] at hc; cases hc
  · intro a c q hc; rw [find_empty] at hc; cases hc
  · intro a c q hc; rw [find_empty] at hc; cases hc
  · intro a ha
    obtain ⟨b, hab, _⟩ := Relation.TransGen.head'_iff.1 ha
    obtain ⟨c, hc, _⟩ := hab
    rw [find_empty] at hc; cases hc
  · refine ⟨?_, fun _ => rfl, ?_⟩
    · intro a c hc; rw [find_empty] at hc; cases hc
    · intro a c hc; rw [find_empty] at hc; cases hc
  · intro _ a c hc; rw [find_empty] at hc; cases hc

/-- The graph walked by the cycle check is the requires graph. -/
theorem Sheet.Inv.refs_eq {lib : FormulaLib A D} {s : Sheet A D} (h : s.Inv lib) :
    s.Refs lib = s.Requires := by
  funext a b
  apply propext
  constructor
  · rintro ⟨c, refs, hc, hr, hb⟩
    obtain ⟨i, hi, hq⟩ := h.impl a c hc
    simp only [Cell.GetReferencedCells, hi, Option.map_some', Option.some.injEq] at hr
    exact ⟨c, hc, (hq b).2 (hr ▸ hb)⟩
  · rintro ⟨c, hc, hb⟩
    obtain ⟨i, hi, hq⟩ := h.impl a c hc
    exact ⟨c, i.GetReferencedCells lib, hc, by simp [Cell.GetReferencedCells, hi], (hq b).1 hb⟩

theorem Sheet.Inv.walkable {lib : FormulaLib A D} {s : Sheet A D} (h : s.Inv lib) :
    s.Walkable lib := by
  intro a c hc
  obtain ⟨i, hi, hq⟩ := h.impl a c hc
  refine ⟨i.GetReferencedCells lib, by simp [Cell.GetReferencedCells, hi], ?_⟩
  intro b hb
  obtain ⟨d, hd, _⟩ := h.sym1 a c b hc ((hq b).2 hb)
  exact h.valid b d hd

/-! ## The referenced cells are listed once each -/

theorem Position.lt_irrefl (a : Position) : a.lt a = false := by
  simp [Position.lt]

theorem Position.lt_trans {a b c : Position} (h1 : a.lt b = true) (h2 : b.lt c = true) :
    a.lt c = true := by
  simp only [Position.lt, Bool.or_eq_true, decide_eq_true_eq, Bool.and_eq_true] at *
  omega

theorem orderedInsert_sorted (a : Position) (l : List Position)
    (h : l.Pairwise (fun x y => x.lt y = true)) :
    (orderedInsert a l).Pairwise (fun x y => x.lt y = true) := by
  induction l with
  | nil => simp [orderedInsert]
  | cons b l ih =>
    obtain ⟨hb, hl⟩ := List.pairwise_cons.1 h
    unfold orderedInsert
    by_cases h1 : a.lt b = true
    · simp only [h1, if_true]
      refine List.pairwise_cons.2 ⟨?_, h⟩
      intro x hx
      rcases List.mem_cons.1 hx with hx | hx
      · exact hx ▸ h1
      · exact Position.lt_trans h1 (hb x hx)
    · by_cases h2 : b.lt a = true
      · have h1' : a.lt b = false := by simpa using h1
        simp only [h1', Bool.false_eq_true, if_false, h2, if_true]
        refine List.pairwise_cons.2 ⟨?_, ih hl⟩
        intro x hx
        rcases (mem_orderedInsert a x l).1 hx with hx | hx
        · exact hx ▸ h2
        · exact hb x hx
      · have h1' : a.lt b = false := by simpa using h1
        have h2' : b.lt a = false := by simpa using h2
        simp only [h1', h2', Bool.false_eq_true, if_false]
        exact h

theorem sorted_GetReferencedCells (lib : FormulaLib A D) (a : A) :
    (Formula.GetReferencedCells lib a).Pairwise (fun x y => x.lt y = true) := by
  unfold Formula.GetReferencedCells
  have : ∀ (l acc : List Position), acc.Pairwise (fun x y => x.lt y = true) →
      (l.foldl (fun acc q => orderedInsert q acc) acc).Pairwise (fun x y => x.lt y = true) := by
    intro l
    induction l with
    | nil => intro acc h; exact h
    | cons b l ih => intro acc h; exact ih _ (orderedInsert_sorted b acc h)
  exact this _ [] List.Pairwise.nil

theorem nodup_GetReferencedCells (lib : FormulaLib A D) (a : A) :
    (Formula.GetReferencedCells lib a).Nodup := by
  refine List.Pairwise.imp ?_ (sorted_GetReferencedCells lib a)
  intro x y hxy hEq
  rw [hEq, Position.lt_irrefl] at hxy
  cases hxy

/-! ## The start of `Sheet::SetCell` -/

theorem UpdateSize_eq_self (s : Sheet A D) (p : Position) (hr : p.row + 1 ≤ s.size_.rows)
    (hc : p.col + 1 ≤ s.size_.cols) : s.UpdateSize p = s := by
  unfold Sheet.UpdateSize
  simp only
  have h1 : ¬ p.row + 1 > s.size_.rows := by omega
  have h2 : ¬ p.col + 1 > s.size_.cols := by omega
  simp [h1, h2]

/-- A new empty cell without edges appears at a position that held none. -/
theorem Sheet.Inv.addFreshCell {lib : FormulaLib A D} {s s' : Sheet A D} {r : Position}
    (h : s.Inv lib) (hv : r.IsValid = true) (hnone : s.find r = none)
    (c0 : Cell A D) (hi0 : c0.impl_ = some Impl.EmptyImpl) (hreq0 : c0.cells_required_ = [])
    (hdep0 : c0.cells_dependent_ = [])
    (hc0 : c0.cached_value_ = none ∨ c0.cached_value_ = some (Value.num lib.zero))
    (hf : ∀ q, s'.find q = if q = r then some c0 else s.find q) (hb : s'.Boxed) :
    s'.Inv lib := by
  have hkeep : ∀ a c, s.find a = some c → s'.find a = some c := by
    intro a c hc
    rw [hf]
    have : a ≠ r := fun ha => by rw [ha, hnone] at hc; cases hc
    simp [this, hc]
  have hreqrel : s'.Requires = s.Requires := by
    funext x y
    apply propext
    constructor
    · rintro ⟨c, hc, hy⟩
      rcases find_some_of_ite_some hf hc with ⟨_, rfl⟩ | ⟨_, hc⟩
      · rw [hreq0] at hy; cases hy
      · exact ⟨c, hc, hy⟩
    · rintro ⟨c, hc, hy⟩
      exact ⟨c, hkeep x c hc, hy⟩
  refine ⟨?_, ?_, ?_, ?_, ?_, ?_, hb, ?_⟩
  · intro a c hc
    rcases find_some_of_ite_some hf hc with ⟨ha, _⟩ | ⟨_, hc⟩
    · exact ha ▸ hv
    · exact h.valid a c hc
  · intro a c hc
    rcases find_some_of_ite_some hf hc with ⟨_, rfl⟩ | ⟨_, hc⟩
    · exact ⟨Impl.EmptyImpl, hi0, fun q => by simp [hreq0, Impl.GetReferencedCells]⟩
    · exact h.impl a c hc
  · intro a c hc
    rcases find_some_of_ite_some hf hc with ⟨_, rfl⟩ | ⟨_, hc⟩
    · rw [hreq0]; exact List.nodup_nil
    · exact h.nodup a c hc
  · intro a c q hc hq
    rcases find_some_of_ite_some hf hc with ⟨_, rfl⟩ | ⟨_, hc⟩
    · rw [hreq0] at hq; cases hq
    · obtain ⟨d, hd, had⟩ := h.sym1 a c q hc hq
      exact ⟨d, hkeep q d hd, had⟩
  · intro q d a hd ha
    rcases find_some_of_ite_some hf hd with ⟨_, rfl⟩ | ⟨_, hd⟩
    · rw [hdep0] at ha; cases ha
    · obtain ⟨c, hc, hq⟩ := h.sym2 q d a hd ha
      exact ⟨c, hkeep a c hc, hq⟩
  · unfold Sheet.Acyclic
    rw [hreqrel]
    exact h.acyclic
  · intro hl a c hc
    rcases find_some_of_ite_some hf hc with ⟨_, rfl⟩ | ⟨_, hc⟩
    · simp only [Sheet.CellCached, hi0]
      exact hc0
    · refine Sheet.CellCached.congr hl ?_ (h.cache hl a c hc)
      intro g hg x hx
      obtain ⟨i, hi, hreq⟩ := h.impl a c hc
      rw [hg] at hi
      cases hi
      have hx' : x ∈ c.cells_required_ := (hreq x).2 ((mem_GetReferencedCells lib g x).2 hx)
      obtain ⟨e, he, _⟩ := h.sym1 a c x hc hx'
      apply view_congr
      rw [hkeep x e he, he]

theorem prepared_of_some (s : Sheet A D) (p : Position) (hb : s.Boxed) (c : Cell A D)
    (hc : s.find p = some c) : s.prepared p = s := by
  have := hb.1 p c hc
  unfold Sheet.prepared
  rw [UpdateSize_eq_self s p this.1 this.2]
  simp [hc]

theorem find_prepared_of_none (s : Sheet A D) (p : Position) (hc : s.find p = none) (q : Position) :
    (s.prepared p).find q = if q = p then some Cell.new else s.find q := by
  unfold Sheet.prepared
  simp only [find_UpdateSize, hc, Option.isNone_none, if_true]
  rw [find_emplace _ _ _ _ (by simpa using hc)]
  simp

theorem Sheet.Inv.prepared {lib : FormulaLib A D} {s : Sheet A D} (h : s.Inv lib) (p : Position)
    (hv : p.IsValid = true) : (s.prepared p).Inv lib := by
  cases hc : s.find p with
  | some c => rw [prepared_of_some s p h.size c hc]; exact h
  | none =>
    have hf := find_prepared_of_none s p hc
    have hsz : (s.prepared p).size_ = (s.UpdateSize p).size_ := by
      unfold Sheet.prepared
      simp [hc]
    exact h.addFreshCell hv hc Cell.new rfl rfl rfl (Or.inl rfl) hf (h.size.insert hv hf hsz)

theorem SetCell_body_eq (lib : FormulaLib A D) (nested : Sheet A D → Call → Outcome (Sheet A D))
    (s : Sheet A D) (p : Position) (t : String) (hv : p.IsValid = true) :
    Sheet.SetCell.body lib nested s p t = Cell.Set lib nested (s.prepared p) p t := by
  simp only [Sheet.SetCell.body, CheckSetPosition_valid p hv, Sheet.prepared]

theorem find_prepared_isSome (s : Sheet A D) (p : Position) :
    ((s.prepared p).find p).isSome = true := by
  unfold Sheet.prepared
  cases hc : s.find p with
  | some c => simp [hc]
  | none =>
    simp only [find_UpdateSize, hc, Option.isNone_none, if_true]
    rw [find_emplace _ _ _ _ (by simpa using hc)]
    simp

/-! ## `Cell::Set` -/

theorem Sheet.Inv.impl_isSome {lib : FormulaLib A D} {s : Sheet A D} (h : s.Inv lib)
    {p : Position} {cp : Cell A D} (hcp : s.find p = some cp) : cp.impl_.isSome = true := by
  obtain ⟨i, hi, _⟩ := h.impl p cp hcp
  simp [hi]

theorem isEmpty_empty : ("" : String).isEmpty = true := rfl

/-- `Cell::Set` with the empty text, unless an evaluation trips an assertion: the cell becomes
an empty cell with cache `0.0`, and the invariant holds again. -/
theorem Set_empty_inv {lib : FormulaLib A D} {s : Sheet A D} (h : s.Inv lib) (m : Nat)
    (p : Position) (cp : Cell A D) (hcp : s.find p = some cp) :
    (∃ s' c', Cell.Set lib (Sheet.call lib (m + 1)) s p "" = .ok s' ∧ s'.Inv lib ∧
      s'.find p = some c' ∧ c'.impl_ = some Impl.EmptyImpl ∧
      c'.cached_value_ = some (Value.num lib.zero) ∧ c'.cells_required_ = [] ∧
      c'.cells_dependent_ = cp.cells_dependent_) ∨
    (∃ s', Cell.Set lib (Sheet.call lib (m + 1)) s p "" = .raise Exn.ValueAssertionFailed s') := by
  have hole := h.toHole p cp hcp cp.cells_required_ (fun q hq => hq) (h.noreach_old p cp hcp)
  rcases hole.clear m cp hcp (h.impl_isSome hcp) with
    ⟨s1, cp1, hclear, h1, hp1, hreq1, hdep1, _⟩ | ⟨s1, hclear⟩
  swap
  · right
    refine ⟨s1, ?_⟩
    simp only [Cell.Set, isEmpty_empty, if_true]
    rw [hclear]
    rfl
  have h2 := h1.modifyBody
    (fun c => { c with impl_ := some Impl.EmptyImpl, cached_value_ := some (Value.num lib.zero) })
    (fun _ => rfl) (fun _ => rfl)
  have hp2 := find_modify_of_some (r := p)
    (fun c => { c with impl_ := some Impl.EmptyImpl, cached_value_ := some (Value.num lib.zero) })
    hp1
  simp only [if_true] at hp2
  rcases h2.updateDependentCache with ⟨s3, hudc, _, hp3, h3, hstrong, _⟩ | ⟨s3, hudc⟩
  swap
  · right
    refine ⟨s3, ?_⟩
    simp only [Cell.Set, isEmpty_empty, if_true]
    rw [hclear, bind_ok, bind_ok]
    exact hudc
  left
  have hp3' := hp3.trans hp2
  refine ⟨s3, _, ?_, ?_, hp3', rfl, rfl, hreq1, hdep1⟩
  · simp only [Cell.Set, isEmpty_empty, if_true]
    rw [hclear, bind_ok, bind_ok]
    exact hudc
  · refine h3.toInv _ hp3' Impl.EmptyImpl rfl ?_ ?_
    · intro q
      simp [hreq1, Impl.GetReferencedCells]
    · intro hl a c hc
      by_cases ha : a = p
      · subst ha
        rw [hp3'] at hc
        cases hc
        simp [Sheet.CellCached]
      · exact hstrong hl a c hc ha

theorem TryConvertTextDouble_eq (lib : FormulaLib A D) (s : Sheet A D) (p : Position)
    (c : Cell A D) (t : String) (hc : s.find p = some c) (hi : c.impl_ = some (Impl.TextImpl t)) :
    Cell.TryConvertTextDouble lib s p t =
      .ok (s.modify p (fun c => { c with cached_value_ := some (Cell.textCache lib t) })) := by
  simp only [Cell.TryConvertTextDouble, Cell.CacheImplValue, hc, hi, Cell.textCache, Impl.GetValue]
  cases hs : lib.stod t with
  | none => rfl
  | some vp =>
    obtain ⟨v, n⟩ := vp
    simp only
    split <;> rfl

/-- `Cell::Set` with a text that is neither empty nor a formula, unless an evaluation trips an
assertion: the cell becomes a text cell whose cache holds what `TryConvertTextDouble` stores,
and the invariant holds again. -/
theorem Set_text_inv {lib : FormulaLib A D} {s : Sheet A D} (h : s.Inv lib) (m : Nat)
    (p : Position) (cp : Cell A D) (hcp : s.find p = some cp) (t : String)
    (ht : t.isEmpty = false) (hnf : ¬ (t.length > 1 ∧ t.front = FORMULA_SIGN)) :
    (∃ s' c', Cell.Set lib (Sheet.call lib (m + 1)) s p t = .ok s' ∧ s'.Inv lib ∧
      s'.find p = some c' ∧ c'.impl_ = some (Impl.TextImpl t) ∧
      c'.cached_value_ = some (Cell.textCache lib t) ∧ c'.cells_required_ = [] ∧
      c'.cells_dependent_ = cp.cells_dependent_) ∨
    (∃ s', Cell.Set lib (Sheet.call lib (m + 1)) s p t = .raise Exn.ValueAssertionFailed s') := by
  have hole := h.toHole p cp hcp cp.cells_required_ (fun q hq => hq) (h.noreach_old p cp hcp)
  rcases hole.clear m cp hcp (h.impl_isSome hcp) with
    ⟨s1, cp1, hclear, h1, hp1, hreq1, hdep1, _⟩ | ⟨s1, hclear⟩
  swap
  · right
    refine ⟨s1, ?_⟩
    simp only [Cell.Set, ht, Bool.false_eq_true, if_false, hnf]
    rw [hclear]
    rfl
  have h2 := h1.modifyBody (fun c => { c with impl_ := some (Impl.TextImpl t) })
    (fun _ => rfl) (fun _ => rfl)
  have hp2 := find_modify_of_some (r := p) (fun c => { c with impl_ := some (Impl.TextImpl t) }) hp1
  simp only [if_true] at hp2
  have htry := TryConvertTextDouble_eq lib _ p _ t hp2 rfl
  have h3 := h2.modifyBody
    (fun c => { c with cached_value_ := some (Cell.textCache lib t) })
    (fun _ => rfl) (fun _ => rfl)
  have hp3 := find_modify_of_some (r := p)
    (fun c => { c with cached_value_ := some (Cell.textCache lib t) }) hp2
  simp only [if_true] at hp3
  rcases h3.updateDependentCache with ⟨s4, hudc, _, hp4, h4, hstrong, _⟩ | ⟨s4, hudc⟩
  swap
  · right
    refine ⟨s4, ?_⟩
    simp only [Cell.Set, ht, Bool.false_eq_true, if_false, hnf]
    rw [hclear, bind_ok, bind_ok, htry, bind_ok]
    exact hudc
  left
  have hp4' := hp4.trans hp3
  refine ⟨s4, _, ?_, ?_, hp4', rfl, rfl, hreq1, hdep1⟩
  · simp only [Cell.Set, ht, Bool.false_eq_true, if_false, hnf]
    rw [hclear, bind_ok, bind_ok, htry, bind_ok]
    exact hudc
  · refine h4.toInv _ hp4' (Impl.TextImpl t) rfl ?_ ?_
    · intro q
      simp [hreq1, Impl.GetReferencedCells]
    · intro hl a c hc
      by_cases ha : a = p
      · subst ha
        rw [hp4'] at hc
        cases hc
        simp only [Sheet.CellCached]
      · exact hstrong hl a c hc ha

theorem RecalculateCurrentCache_eq (lib : FormulaLib A D) (s : Sheet A D) (d : Position)
    (c : Cell A D) (i : Impl A) (v : Value D) (hc : s.find d = some c) (hi : c.impl_ = some i)
    (hv : i.GetValue lib (s.modify d (fun c => { c with cached_value_ := none })) = .ok v) :
    Cell.RecalculateCurrentCache lib s d =
      .ok ((s.modify d (fun c => { c with cached_value_ := none })).modify d
        (fun c => { c with cached_value_ := some v })) := by
  unfold Cell.RecalculateCurrentCache
  simp only [find_modify, if_true, hc, Option.map_some', hi, hv]

theorem RecalculateCurrentCache_raise (lib : FormulaLib A D) (s : Sheet A D) (d : Position)
    (c : Cell A D) (i : Impl A) (e : Exn) (hc : s.find d = some c) (hi : c.impl_ = some i)
    (hv : i.GetValue lib (s.modify d (fun c => { c with cached_value_ := none })) = .error e) :
    Cell.RecalculateCurrentCache lib s d =
      .raise Exn.ValueAssertionFailed (s.modify d (fun c => { c with cached_value_ := none })) := by
  have he := GetValue_error lib _ i e hv
  subst he
  unfold Cell.RecalculateCurrentCache
  simp only [find_modify, if_true, hc, Option.map_some', hi, hv]

theorem Set_formula_unfold (lib : FormulaLib A D) (nested : Sheet A D → Call → Outcome (Sheet A D))
    (s : Sheet A D) (p : Position) (t : String) (ht : t.isEmpty = false)
    (hf : t.length > 1 ∧ t.front = FORMULA_SIGN) :
    Cell.Set lib nested s p t =
      match lib.ParseFormulaAST (t.drop 1) with
      | none => .raise Exn.FormulaException s
      | some formula_ =>
        match Sheet.HasCircularDependency lib s p (Formula.GetReferencedCells lib formula_) with
        | .error e => .raise e s
        | .ok true => .raise Exn.CircularDependencyException s
        | .ok false =>
          ((((Cell.Clear lib nested s p).bind (fun s1 =>
            .ok (s1.modify p (fun c => { c with impl_ := some (Impl.FormulaImpl formula_) })))).bind (fun s2 =>
            Cell.UpdateDependencies lib nested s2 p (Formula.GetReferencedCells lib formula_))).bind (fun s3 =>
            Cell.RecalculateCurrentCache lib s3 p)).bind (fun s4 =>
            Cell.UpdateDependentCache lib s4 p) := by
  simp only [Cell.Set, ht, Bool.false_eq_true, if_false, hf, and_self, if_true]
  rfl

/-- The cycle check as `Cell::Set` runs it on a sheet in order: it returns, and it finds a
cycle exactly when the cell itself is referenced or a referenced position reaches it. -/
theorem Sheet.Inv.hasCircularDependency {lib : FormulaLib A D} (hpv : lib.ParsesValid)
    {s : Sheet A D} (h : s.Inv lib) (p : Position) (e : String) (a : A)
    (ha : lib.ParseFormulaAST e = some a) :
    ∃ b, Sheet.HasCircularDependency lib s p (Formula.GetReferencedCells lib a) = .ok b ∧
      (b = true ↔ ∃ r ∈ Formula.GetReferencedCells lib a, Relation.ReflTransGen s.Requires r p) := by
  have := HasCircularDependency_reach lib s p (Formula.GetReferencedCells lib a) h.walkable
    (fun r hr => hpv e a ha r ((mem_GetReferencedCells lib a r).1 hr))
  rw [h.refs_eq] at this
  exact this

/-- `Cell::Set` with a formula that parses and closes no cycle, unless an evaluation trips an
assertion: the cell becomes a formula cell whose required cells are the referenced cells and
whose cache is freshly evaluated, and the invariant holds again. -/
theorem Set_formula_inv {lib : FormulaLib A D} (hpv : lib.ParsesValid) {s : Sheet A D}
    (h : s.Inv lib) (m : Nat) (p : Position) (cp : Cell A D) (hcp : s.find p = some cp)
    (t : String) (ht : t.isEmpty = false) (hf : t.length > 1 ∧ t.front = FORMULA_SIGN) (a : A)
    (ha : lib.ParseFormulaAST (t.drop 1) = some a)
    (hno : ¬ ∃ r ∈ Formula.GetReferencedCells lib a, Relation.ReflTransGen s.Requires r p) :
    (∃ s' c', Cell.Set lib (Sheet.call lib (m + 1)) s p t = .ok s' ∧ s'.Inv lib ∧
      s'.find p = some c' ∧ c'.impl_ = some (Impl.FormulaImpl a) ∧
      (∀ q, q ∈ c'.cells_required_ ↔ q ∈ Formula.GetReferencedCells lib a) ∧
      c'.cells_dependent_ = cp.cells_dependent_) ∨
    (∃ s', Cell.Set lib (Sheet.call lib (m + 1)) s p t = .raise Exn.ValueAssertionFailed s') := by
  obtain ⟨b, hcirc, hb⟩ := h.hasCircularDependency hpv p _ a ha
  have hbf : b = false := by
    cases b with
    | false => rfl
    | true => exact absurd (hb.1 rfl) hno
  subst hbf
  have hole := h.toHole p cp hcp (cp.cells_required_ ++ Formula.GetReferencedCells lib a)
    (fun q hq => List.mem_append_left _ hq)
    (fun r hr => by
      rcases List.mem_append.1 hr with hr | hr
      · exact h.noreach_old p cp hcp r hr
      · exact fun hreach => hno ⟨r, hr, hreach⟩)
  have hset := Set_formula_unfold lib (Sheet.call lib (m + 1)) s p t ht hf
  rw [ha] at hset
  simp only [hcirc] at hset
  rcases hole.clear m cp hcp (h.impl_isSome hcp) with
    ⟨s1, cp1, hclear, h1, hp1, hreq1, hdep1, _⟩ | ⟨s1, hclear⟩
  swap
  · right
    refine ⟨s1, ?_⟩
    rw [hset, hclear]
    rfl
  have h2 := h1.modifyBody (fun c => { c with impl_ := some (Impl.FormulaImpl a) })
    (fun _ => rfl) (fun _ => rfl)
  have hp2 := find_modify_of_some (r := p)
    (fun c => { c with impl_ := some (Impl.FormulaImpl a) }) hp1
  simp only [if_true] at hp2
  obtain ⟨s3, cp3, hupd, h3, hp3, hi3, _, hd3, hq3⟩ :=
    h2.updateDependencies m _ hp2 (Formula.GetReferencedCells lib a)
      (fun r hr => ⟨List.mem_append_right _ hr,
        hpv _ a ha r ((mem_GetReferencedCells lib a r).1 hr)⟩)
      (nodup_GetReferencedCells lib a)
  have hi3' : cp3.impl_ = some (Impl.FormulaImpl a) := hi3
  cases hg : (Impl.FormulaImpl a).GetValue lib (s3.modify p (fun c => { c with cached_value_ := none })) with
  | error e =>
    right
    refine ⟨s3.modify p (fun c => { c with cached_value_ := none }), ?_⟩
    rw [hset, hclear, bind_ok, bind_ok, hupd, bind_ok,
      RecalculateCurrentCache_raise lib s3 p cp3 _ e hp3 hi3' hg]
    rfl
  | ok v =>
  have hrec := RecalculateCurrentCache_eq lib s3 p cp3 _ v hp3 hi3' hg
  have h4 := h3.modifyBody (fun c => { c with cached_value_ := none }) (fun _ => rfl) (fun _ => rfl)
  have hp4 := find_modify_of_some (r := p) (fun c => { c with cached_value_ := none }) hp3
  simp only [if_true] at hp4
  have h5 := h4.modifyBody
    (fun c => { c with cached_value_ := some v })
    (fun _ => rfl) (fun _ => rfl)
  have hp5 := find_modify_of_some (r := p)
    (fun c => { c with cached_value_ := some v })
    hp4
  simp only [if_true] at hp5
  rcases h5.updateDependentCache with ⟨s6, hudc, _, hp6, h6, hstrong, hsame⟩ | ⟨s6, hudc⟩
  swap
  · right
    refine ⟨s6, ?_⟩
    rw [hset, hclear, bind_ok, bind_ok, hupd, bind_ok, hrec, bind_ok]
    exact hudc
  left
  have hp6' := hp6.trans hp5
  refine ⟨s6, _, ?_, ?_, hp6', hi3', hq3, hd3.trans hdep1⟩
  · rw [hset, hclear, bind_ok, bind_ok, hupd, bind_ok, hrec, bind_ok]
    exact hudc
  · refine h6.toInv _ hp6' (Impl.FormulaImpl a) hi3' hq3 ?_
    intro hl x c hc
    by_cases hx : x = p
    · subst hx
      rw [hp6'] at hc
      cases hc
      simp only [Sheet.CellCached, hi3']
      refine ⟨v, ?_, rfl⟩
      simp only [Impl.GetValue] at hg
      rw [← hg]
      apply evaluate_congr hl a
      intro y hy
      have hyr : y ∈ Formula.GetReferencedCells lib a := (mem_GetReferencedCells lib a y).2 hy
      have hyp : y ≠ x := by
        intro hyx
        exact hno ⟨y, hyr, hyx ▸ Relation.ReflTransGen.refl⟩
      apply view_congr
      have hnot : ¬ Relation.TransGen ((s3.modify x (fun c => { c with cached_value_ := none })).modify x
          (fun c => { c with cached_value_ := some v })).Dependent x y := by
        intro hdep
        have hreq := h5.transGen_requires_of_dependent hdep
        exact h5.acyclicFull x (Relation.TransGen.head ⟨_, hp5, (hq3 y).2 hyr⟩ hreq)
      rw [hsame y hnot, find_modify, find_modify]
      simp [hyp]
    · exact hstrong hl x c hc hx

/-! ## Texts that start with the formula sign -/

theorem formula_text_isEmpty (e : String) : ("=" ++ e).isEmpty = false := by
  cases h : ("=" ++ e).isEmpty with
  | false => rfl
  | true =>
    have h1 := (String.isEmpty_iff _).1 h
    have h2 := congrArg String.data h1
    simp at h2

theorem formula_text_front (e : String) : ("=" ++ e).front = FORMULA_SIGN := by
  rw [String.front_eq]
  simp [FORMULA_SIGN]

theorem formula_text_drop (e : String) : ("=" ++ e).drop 1 = e := by
  rw [String.drop_eq]
  simp

theorem formula_text_length (e : String) (he : e ≠ "") : ("=" ++ e).length > 1 := by
  have : e.length ≠ 0 := by
    intro h0
    apply he
    have : e.data = [] := List.length_eq_zero.1 h0
    exact String.ext this
  simp only [String.length_append]
  have : ("=" : String).length = 1 := rfl
  omega

theorem isEmpty_eq_true_iff (t : String) : t.isEmpty = true ↔ t = "" := String.isEmpty_iff t

/-! ## `Sheet::SetCell` -/

theorem SetCell_eq_Set (lib : FormulaLib A D) (s : Sheet A D) (p : Position) (t : String)
    (hv : p.IsValid = true) :
    Sheet.SetCell lib s p t =
      Cell.Set lib (Sheet.call lib (s.cells_.length + 1 + 1)) (s.prepared p) p t := by
  simp only [Sheet.SetCell, Sheet.depth, Sheet.call]
  exact SetCell_body_eq lib _ s p t hv

theorem SetCell_invalid (lib : FormulaLib A D) (s : Sheet A D) (p : Position) (t : String)
    (hv : p.IsValid = false) :
    Sheet.SetCell lib s p t = .raise Exn.InvalidPositionException s := by
  simp [Sheet.SetCell, Sheet.depth, Sheet.call, Sheet.SetCell.body, Sheet.CheckSetPosition, hv]

theorem requires_prepared {lib : FormulaLib A D} {s : Sheet A D} (h : s.Inv lib) (p : Position) :
    (s.prepared p).Requires = s.Requires := by
  cases hc : s.find p with
  | some c => rw [prepared_of_some s p h.size c hc]
  | none =>
    have hf := find_prepared_of_none s p hc
    funext x y
    apply propext
    constructor
    · rintro ⟨c, hcx, hy⟩
      rcases find_some_of_ite_some hf hcx with ⟨_, rfl⟩ | ⟨_, hcx⟩
      · cases hy
      · exact ⟨c, hcx, hy⟩
    · rintro ⟨c, hcx, hy⟩
      refine ⟨c, ?_, hy⟩
      rw [hf]
      have : x ≠ p := fun hx => by rw [hx, hc] at hcx; cases hcx
      simp [this, hcx]

/-- Outcome of `SetCell` with a formula that parses, on a sheet in order: a
`CircularDependencyException` when a referenced position reaches the cell (the sheet then
being the prepared one), and otherwise, unless an evaluation trips an assertion, a normal
return to a sheet in order whose cell at the position holds the formula. -/
theorem SetCell_formula {lib : FormulaLib A D} (hpv : lib.ParsesValid) {s : Sheet A D}
    (h : s.Inv lib) (p : Position) (hv : p.IsValid = true) (e : String) (he : e ≠ "") (a : A)
    (ha : lib.ParseFormulaAST e = some a) :
    ((∃ r ∈ Formula.GetReferencedCells lib a, Relation.ReflTransGen s.Requires r p) →
      Sheet.SetCell lib s p ("=" ++ e) = .raise Exn.CircularDependencyException (s.prepared p)) ∧
    ((¬ ∃ r ∈ Formula.GetReferencedCells lib a, Relation.ReflTransGen s.Requires r p) →
      (∃ s' c', Sheet.SetCell lib s p ("=" ++ e) = .ok s' ∧ s'.Inv lib ∧
        s'.find p = some c' ∧ c'.impl_ = some (Impl.FormulaImpl a) ∧
        (∀ q, q ∈ c'.cells_required_ ↔ q ∈ Formula.GetReferencedCells lib a)) ∨
      (∃ s', Sheet.SetCell lib s p ("=" ++ e) = .raise Exn.ValueAssertionFailed s')) := by
  have h' := h.prepared p hv
  obtain ⟨cp, hcp⟩ := Option.isSome_iff_exists.1 (find_prepared_isSome s p)
  have ht := formula_text_isEmpty e
  have hf : ("=" ++ e).length > 1 ∧ ("=" ++ e).front = FORMULA_SIGN :=
    ⟨formula_text_length e he, formula_text_front e⟩
  have ha' : lib.ParseFormulaAST (("=" ++ e).drop 1) = some a := by
    rw [formula_text_drop]; exact ha
  rw [SetCell_eq_Set lib s p _ hv]
  constructor
  · intro hcyc
    obtain ⟨b, hcirc, hb⟩ := h'.hasCircularDependency hpv p e a ha
    rw [requires_prepared h p] at hb
    have hbt : b = true := hb.2 hcyc
    subst hbt
    rw [Set_formula_unfold lib _ _ p _ ht hf, ha']
    simp only [hcirc]
  · intro hno
    rw [← requires_prepared h p] at hno
    rcases Set_formula_inv hpv h' _ p cp hcp _ ht hf a ha' hno with
      ⟨s', c', hset, hinv, hp', hi', hq', _⟩ | ⟨s', hset⟩
    · exact Or.inl ⟨s', c', hset, hinv, hp', hi', hq'⟩
    · exact Or.inr ⟨s', hset⟩

theorem raise_assertion_continues {σ : Type} (s : σ) :
    (Outcome.raise Exn.ValueAssertionFailed s).continues = false := rfl

/-- `SetCell` keeps the invariant, whether it returns or raises an exception, unless an
evaluation trips an assertion, and raises nothing but `InvalidPositionException`,
`FormulaException` and `CircularDependencyException`. -/
theorem SetCell_inv {lib : FormulaLib A D} (hpv : lib.ParsesValid) {s : Sheet A D}
    (h : s.Inv lib) (p : Position) (t : String) :
    ((Sheet.SetCell lib s p t).continues = true → (Sheet.SetCell lib s p t).state.Inv lib) ∧
    ((Sheet.SetCell lib s p t).exn = none ∨
     (Sheet.SetCell lib s p t).exn = some Exn.InvalidPositionException ∨
     (Sheet.SetCell lib s p t).exn = some Exn.FormulaException ∨
     (Sheet.SetCell lib s p t).exn = some Exn.CircularDependencyException ∨
     (Sheet.SetCell lib s p t).exn = some Exn.ValueAssertionFailed) := by
  have hab : ∀ s' : Sheet A D,
      ((Outcome.raise Exn.ValueAssertionFailed s').continues = true →
        (Outcome.raise Exn.ValueAssertionFailed s').state.Inv lib) ∧
      ((Outcome.raise Exn.ValueAssertionFailed s').exn = none ∨
       (Outcome.raise Exn.ValueAssertionFailed s').exn = some Exn.InvalidPositionException ∨
       (Outcome.raise Exn.ValueAssertionFailed s').exn = some Exn.FormulaException ∨
       (Outcome.raise Exn.ValueAssertionFailed s').exn = some Exn.CircularDependencyException ∨
       (Outcome.raise Exn.ValueAssertionFailed s').exn = some Exn.ValueAssertionFailed) := by
    intro s'
    refine ⟨fun hc => ?_, Or.inr (Or.inr (Or.inr (Or.inr rfl)))⟩
    rw [raise_assertion_continues] at hc
    cases hc
  cases hv : p.IsValid with
  | false =>
    rw [SetCell_invalid lib s p t hv]
    exact ⟨fun _ => h, Or.inr (Or.inl rfl)⟩
  | true =>
    have h' := h.prepared p hv
    obtain ⟨cp, hcp⟩ := Option.isSome_iff_exists.1 (find_prepared_isSome s p)
    rw [SetCell_eq_Set lib s p t hv]
    cases ht : t.isEmpty with
    | true =>
      have : t = "" := (isEmpty_eq_true_iff t).1 ht
      subst this
      rcases Set_empty_inv h' (s.cells_.length + 1) p cp hcp with
        ⟨s', _, hset, hinv, _⟩ | ⟨s', hset⟩
      · rw [hset]
        exact ⟨fun _ => hinv, Or.inl rfl⟩
      · rw [hset]
        exact hab s'
    | false =>
      by_cases hf : t.length > 1 ∧ t.front = FORMULA_SIGN
      · cases ha : lib.ParseFormulaAST (t.drop 1) with
        | none =>
          rw [Set_formula_unfold lib _ _ p t ht hf, ha]
          exact ⟨fun _ => h', Or.inr (Or.inr (Or.inl rfl))⟩
        | some a =>
          obtain ⟨b, hcirc, hb⟩ := h'.hasCircularDependency hpv p _ a ha
          cases b with
          | true =>
            rw [Set_formula_unfold lib _ _ p t ht hf, ha]
            simp only [hcirc]
            exact ⟨fun _ => h', Or.inr (Or.inr (Or.inr (Or.inl rfl)))⟩
          | false =>
            have hno : ¬ ∃ r ∈ Formula.GetReferencedCells lib a,
                Relation.ReflTransGen (s.prepared p).Requires r p := by
              intro hc
              have := hb.2 hc
              cases this
            rcases Set_formula_inv hpv h' (s.cells_.length + 1) p cp hcp t ht hf a ha hno with
              ⟨s', _, hset, hinv, _⟩ | ⟨s', hset⟩
            · rw [hset]
              exact ⟨fun _ => hinv, Or.inl rfl⟩
            · rw [hset]
              exact hab s'
      · rcases Set_text_inv h' (s.cells_.length + 1) p cp hcp t ht hf with
          ⟨s', _, hset, hinv, _⟩ | ⟨s', hset⟩
        · rw [hset]
          exact ⟨fun _ => hinv, Or.inl rfl⟩
        · rw [hset]
          exact hab s'

/-! ## `Sheet::ClearCell` -/

/-- Removal of the edited cell itself, once it has no edges. -/
theorem Sheet.Hole.eraseSelf {lib : FormulaLib A D} {s s' : Sheet A D} {p : Position}
    {R : List Position} (h : s.Hole lib p [] R) (cp : Cell A D) (hcp : s.find p = some cp)
    (hreq : cp.cells_required_ = []) (hdep : cp.cells_dependent_ = [])
    (hf : ∀ q, s'.find q = if q = p then none else s.find q) (hb : s'.Boxed) : s'.Inv lib := by
  have hkeep : ∀ a c, s.find a = some c → a ≠ p → s'.find a = some c := by
    intro a c hc ha
    rw [hf]; simp [ha, hc]
  have hnodep : ∀ a, ¬ s.Dependent p a := by
    rintro a ⟨c, hc, ha⟩
    rw [hcp] at hc
    cases hc
    rw [hdep] at ha
    cases ha
  refine ⟨?_, ?_, ?_, ?_, ?_, ?_, hb, ?_⟩
  · intro a c hc
    exact h.valid a c (find_some_of_ite_none hf hc).2
  · intro a c hc
    obtain ⟨ha, hc⟩ := find_some_of_ite_none hf hc
    exact h.impl a c hc ha
  · intro a c hc
    exact h.nodup a c (find_some_of_ite_none hf hc).2
  · intro a c q hc hq
    obtain ⟨ha, hc⟩ := find_some_of_ite_none hf hc
    rcases h.sym1 a c q hc hq with ⟨_, hX⟩ | ⟨d, hd, had⟩
    · cases hX
    · refine ⟨d, hkeep q d hd ?_, had⟩
      intro hqp
      subst hqp
      exact hnodep a ⟨d, hd, had⟩
  · intro q d a hd ha
    obtain ⟨hq, hd⟩ := find_some_of_ite_none hf hd
    obtain ⟨⟨c, hc, hqc⟩, _⟩ := h.sym2 q d a hd ha
    refine ⟨c, hkeep a c hc ?_, hqc⟩
    intro hap
    subst hap
    rw [hcp] at hc
    cases hc
    rw [hreq] at hqc
    cases hqc
  · intro a ha
    apply h.acyclicFull a
    refine Relation.TransGen.mono ?_ ha
    rintro x y ⟨c, hc, hy⟩
    exact ⟨c, (find_some_of_ite_none hf hc).2, hy⟩
  · intro hl a c hc
    obtain ⟨ha, hc0⟩ := find_some_of_ite_none hf hc
    have hnot : ¬ Relation.TransGen s.Dependent p a := by
      intro hpa
      obtain ⟨b, hpb, _⟩ := Relation.TransGen.head'_iff.1 hpa
      exact hnodep b hpb
    refine Sheet.CellCached.congr hl ?_ (h.cache hl a c hc0 ha hnot)
    intro g hg x hx
    apply view_congr
    rw [hf]
    have hxp : x ≠ p := by
      intro hxp
      subst hxp
      obtain ⟨i, hi, hq⟩ := h.impl a c hc0 ha
      rw [hg] at hi
      cases hi
      have hx' : x ∈ c.cells_required_ := (hq x).2 ((mem_GetReferencedCells lib g x).2 hx)
      rcases h.sym1 a c x hc0 hx' with ⟨_, hX⟩ | ⟨e, he, hae⟩
      · cases hX
      · exact hnodep a ⟨e, he, hae⟩
    simp [hxp]

theorem ClearCell_invalid (lib : FormulaLib A D) (s : Sheet A D) (p : Position)
    (hv : p.IsValid = false) :
    Sheet.ClearCell lib s p = .raise Exn.InvalidPositionException s := by
  simp [Sheet.ClearCell, Sheet.depth, Sheet.call, Sheet.ClearCell.body, Sheet.CheckGetPosition,
    Sheet.CheckSetPosition, hv]

theorem ClearCell_absent (lib : FormulaLib A D) (s : Sheet A D) (p : Position)
    (hv : p.IsValid = true) (hc : s.find p = none) : Sheet.ClearCell lib s p = .ok s := by
  simp [Sheet.ClearCell, Sheet.depth, Sheet.call, Sheet.ClearCell.body,
    CheckGetPosition_valid s p hv, hc]

/-- `ClearCell` on an existing cell of a sheet in order: unless an evaluation trips an
assertion, it returns a sheet in order. A cell with dependents stays as an empty cell with
cache `0.0`; a cell without dependents is removed. -/
theorem ClearCell_present {lib : FormulaLib A D} {s : Sheet A D} (h : s.Inv lib) (p : Position)
    (cp : Cell A D) (hcp : s.find p = some cp) :
    (∃ s', Sheet.ClearCell lib s p = .ok s' ∧ s'.Inv lib ∧
      ((cp.cells_dependent_ = [] ∧ s'.find p = none) ∨
       (cp.cells_dependent_ ≠ [] ∧ ∃ c', s'.find p = some c' ∧ c'.impl_ = some Impl.EmptyImpl ∧
          c'.cached_value_ = some (Value.num lib.zero) ∧ c'.cells_required_ = [] ∧
          c'.cells_dependent_ = cp.cells_dependent_))) ∨
    (∃ s', Sheet.ClearCell lib s p = .raise Exn.ValueAssertionFailed s') := by
  have hv := h.valid p cp hcp
  have hole := h.toHole p cp hcp cp.cells_required_ (fun q hq => hq) (h.noreach_old p cp hcp)
  have hcall : Sheet.ClearCell lib s p =
      (Cell.Clear lib (Sheet.call lib (s.cells_.length + 1 + 1)) s p).bind (fun s1 =>
        match s1.find p with
        | none => .raise Exn.NullDereference s1
        | some cell =>
          if !cell.IsReferenced then
            let s2 := s1.erase p
            if p.row + 1 = s2.size_.rows ∨ p.col + 1 = s2.size_.cols then .ok s2.RecalculateSize
            else .ok s2
          else .ok s1) := by
    simp only [Sheet.ClearCell, Sheet.depth, Sheet.call, Sheet.ClearCell.body,
      CheckGetPosition_valid s p hv, hcp, Option.isSome_some]
  rcases hole.clear (s.cells_.length + 1) cp hcp (h.impl_isSome hcp) with
    ⟨s1, cp1, hclear, h1, hp1, hreq1, hdep1, hcase⟩ | ⟨s1, hclear⟩
  swap
  · right
    refine ⟨s1, ?_⟩
    rw [hcall, hclear]
    rfl
  left
  rw [hcall, hclear, bind_ok]
  simp only [hp1, Cell.IsReferenced, hdep1]
  by_cases hdep : cp.cells_dependent_ = []
  · have hif : (!!cp.cells_dependent_.isEmpty) = true := by simp [hdep]
    simp only [hif, if_true]
    have hfind : ∀ q, (s1.erase p).find q = if q = p then none else s1.find q := find_erase s1 p
    have hd1' : cp1.cells_dependent_ = [] := hdep1.trans hdep
    by_cases hedge : p.row + 1 = (s1.erase p).size_.rows ∨ p.col + 1 = (s1.erase p).size_.cols
    · simp only [hedge, if_true]
      have hfind' : ∀ q, (s1.erase p).RecalculateSize.find q = if q = p then none else s1.find q := by
        intro q; rw [find_RecalculateSize]; exact hfind q
      have hbox : (s1.erase p).RecalculateSize.Boxed := by
        apply RecalculateSize_boxed
        intro a c hc
        exact h1.valid a c (find_some_of_ite_none hfind hc).2
      refine ⟨_, rfl, h1.eraseSelf cp1 hp1 hreq1 hd1' hfind' hbox, Or.inl ⟨hdep, ?_⟩⟩
      rw [hfind']; simp
    · simp only [hedge, if_false]
      have hbox : (s1.erase p).Boxed :=
        h1.size.erase_inner hfind rfl (by simp [hp1]) (by simpa using hedge)
      refine ⟨_, rfl, h1.eraseSelf cp1 hp1 hreq1 hd1' hfind hbox, Or.inl ⟨hdep, ?_⟩⟩
      rw [hfind]; simp
  · have hif : (!!cp.cells_dependent_.isEmpty) = false := by
      cases hl : cp.cells_dependent_ with
      | nil => exact absurd hl hdep
      | cons x l => rfl
    simp only [hif, Bool.false_eq_true, if_false]
    rcases hcase with ⟨h0, _⟩ | ⟨hi1, hc1, hstrong⟩
    · exact absurd h0 hdep
    · refine ⟨s1, rfl, ?_, Or.inr ⟨hdep, cp1, hp1, hi1, hc1, hreq1, hdep1⟩⟩
      refine h1.toInv cp1 hp1 Impl.EmptyImpl hi1 ?_ ?_
      · intro q; simp [hreq1, Impl.GetReferencedCells]
      · intro hl a c hc
        by_cases ha : a = p
        · subst ha
          rw [hp1] at hc
          cases hc
          simp [Sheet.CellCached, hi1, hc1]
        · exact hstrong hl a c hc ha

/-- `ClearCell` keeps the invariant, unless an evaluation trips an assertion, and raises
nothing but `InvalidPositionException`. -/
theorem ClearCell_inv {lib : FormulaLib A D} {s : Sheet A D} (h : s.Inv lib) (p : Position) :
    ((Sheet.ClearCell lib s p).continues = true → (Sheet.ClearCell lib s p).state.Inv lib) ∧
    ((Sheet.ClearCell lib s p).exn = none ∨
     (Sheet.ClearCell lib s p).exn = some Exn.InvalidPositionException ∨
     (Sheet.ClearCell lib s p).exn = some Exn.ValueAssertionFailed) := by
  cases hv : p.IsValid with
  | false =>
    rw [ClearCell_invalid lib s p hv]
    exact ⟨fun _ => h, Or.inr (Or.inl rfl)⟩
  | true =>
    cases hc : s.find p with
    | none =>
      rw [ClearCell_absent lib s p hv hc]
      exact ⟨fun _ => h, Or.inl rfl⟩
    | some cp =>
      rcases ClearCell_present h p cp hc with ⟨s', hclear, hinv, _⟩ | ⟨s', hclear⟩
      · rw [hclear]
        exact ⟨fun _ => hinv, Or.inl rfl⟩
      · rw [hclear]
        refine ⟨fun hcont => ?_, Or.inr (Or.inr rfl)⟩
        rw [raise_assertion_continues] at hcont
        cases hcont

/-! ## Reachable sheets -/

/-- Every reachable sheet satisfies the invariant. -/
theorem Reachable.inv {lib : FormulaLib A D} (hpv : lib.ParsesValid) {s : Sheet A D}
    (h : Sheet.Reachable lib s) : s.Inv lib := by
  induction h with
  | empty => exact Sheet.Inv.empty lib
  | setCell s pos text _ hc ih => exact (SetCell_inv hpv ih pos text).1 hc
  | clearCell s pos _ hc ih => exact (ClearCell_inv ih pos).1 hc

/-! ## The small formula library -/

theorem Demo.cellOf_valid (c d : Char) (q : Position) (h : Demo.cellOf c d = some q) :
    q.IsValid = true := by
  unfold Demo.cellOf at h
  have hc : ∀ x, Demo.column c = some x → 0 ≤ x ∧ x ≤ 2 := by
    intro x hx
    unfold Demo.column at hx
    split at hx
    · cases hx; omega
    · split at hx
      · cases hx; omega
      · split at hx
        · cases hx; omega
        · cases hx
  have hd : ∀ y, Demo.row d = some y → 0 ≤ y ∧ y ≤ 2 := by
    intro y hy
    unfold Demo.row at hy
    split at hy
    · cases hy; omega
    · split at hy
      · cases hy; omega
      · split at hy
        · cases hy; omega
        · cases hy
  cases hx : Demo.column c with
  | none => simp [hx] at h
  | some x =>
    cases hy : Demo.row d with
    | none => simp [hx, hy] at h
    | some y =>
      simp only [hx, hy, Option.some.injEq] at h
      subst h
      have h1 := hc x hx
      have h2 := hd y hy
      simp only [Position.IsValid, MAX_ROWS, MAX_COLS, Bool.and_eq_true, decide_eq_true_eq]
      omega

theorem Demo.parseChars_valid : ∀ (n : Nat) (l : List Char) (a : List Position × Int),
    l.length ≤ n → Demo.parseChars l = some a → ∀ q ∈ a.1, q.IsValid = true := by
  intro n
  induction n with
  | zero =>
    intro l a hl h
    have : l = [] := List.length_eq_zero.1 (Nat.le_zero.1 hl)
    subst this
    simp [Demo.parseChars] at h
  | succ n ih =>
    intro l a hl h q hq
    match l, h with
    | [], h => simp [Demo.parseChars] at h
    | [d], h =>
      simp only [Demo.parseChars] at h
      split at h
      · cases h; cases hq
      · cases h
    | c :: d :: rest, h =>
      simp only [Demo.parseChars] at h
      cases hcell : Demo.cellOf c d with
      | some q0 =>
        simp only [hcell] at h
        match rest, h with
        | [], h =>
          cases h
          simp only [List.mem_singleton] at hq
          exact hq ▸ Demo.cellOf_valid c d q0 hcell
        | p :: rest1, h =>
          simp only at h
          split at h
          · cases hr : Demo.parseChars rest1 with
            | none => simp [hr] at h
            | some r =>
              simp only [hr, Option.map_some', Option.some.injEq] at h
              subst h
              rcases List.mem_cons.1 hq with hq | hq
              · exact hq ▸ Demo.cellOf_valid c d q0 hcell
              · refine ih rest1 r ?_ hr q hq
                simp only [List.length_cons] at hl
                omega
          · cases h
      | none =>
        simp only [hcell] at h
        split at h
        · cases hr : Demo.parseChars rest with
          | none => simp [hr] at h
          | some r =>
            simp only [hr, Option.map_some', Option.some.injEq] at h
            subst h
            refine ih rest r ?_ hr q hq
            simp only [List.length_cons] at hl
            omega
        · cases h

theorem Demo.lib_parsesValid : Demo.lib.ParsesValid := by
  intro e a h q hq
  exact Demo.parseChars_valid e.data.length e.data a (Nat.le_refl _) h q hq

theorem Demo.lib_local : Demo.lib.Local := by
  intro a v1 v2 h
  show Demo.execute a v1 = Demo.execute a v2
  unfold Demo.execute
  have hread : ∀ q ∈ a.1, Demo.read v1 q = Demo.read v2 q := by
    intro q hq
    unfold Demo.read
    rw [h q hq]
  generalize a.1 = l at hread
  induction l with
  | nil => rfl
  | cons q l ih =>
    simp only [List.foldr_cons]
    rw [hread q (List.mem_cons_self _ _), ih (fun x hx => hread x (List.mem_cons_of_mem _ hx))]

/-! ## Reachable sheets of the small library -/

theorem Demo.reachable_sheet1 : Sheet.Reachable Demo.lib Demo.sheet1 :=
  Sheet.Reachable.setCell Demo.sheet0 Demo.A1 "1" Sheet.Reachable.empty (by decide)

theorem Demo.reachable_sheet2 : Sheet.Reachable Demo.lib Demo.sheet2 :=
  Sheet.Reachable.setCell Demo.sheet1 Demo.A2 "=A1+1" Demo.reachable_sheet1 (by decide)

theorem Demo.reachable_sheet3 : Sheet.Reachable Demo.lib Demo.sheet3 :=
  Sheet.Reachable.setCell Demo.sheet2 Demo.A1 "2" Demo.reachable_sheet2 (by decide)

theorem Demo.reachable_sheetRef : Sheet.Reachable Demo.lib Demo.sheetRef :=
  Sheet.Reachable.setCell Demo.sheet0 Demo.A1 "=B1" Sheet.Reachable.empty (by decide)

theorem Demo.reachable_sheetRefused : Sheet.Reachable Demo.lib Demo.sheetRefused :=
  Sheet.Reachable.setCell Demo.sheetRef Demo.B1 "=A1" Demo.reachable_sheetRef (by decide)

/-! ## The claims about reachable sheets -/

/-- C2: in every sheet reachable from the empty sheet by `SetCell` and `ClearCell` calls,
those that raise an exception included, the graph with an edge from `p` to each position in the requires set
of the cell at `p` has no cycle. -/
theorem reachable_acyclic {lib : FormulaLib A D} (hpv : lib.ParsesValid) {s : Sheet A D}
    (hr : Sheet.Reachable lib s) : ∀ p, ¬ Relation.TransGen s.Requires p p :=
  (Reachable.inv hpv hr).acyclic

/-- C2, witness: the sheet after `A1 = "=B1"` and the refused `B1 = "=A1"`. -/
theorem reachable_acyclic_witness :
    Demo.lib.ParsesValid ∧ Sheet.Reachable Demo.lib Demo.sheetRefused ∧
    (Sheet.SetCell Demo.lib Demo.sheetRef Demo.B1 "=A1").exn = some Exn.CircularDependencyException ∧
    ∀ p, ¬ Relation.TransGen Demo.sheetRefused.Requires p p :=
  ⟨Demo.lib_parsesValid, Demo.reachable_sheetRefused, by decide,
    reachable_acyclic Demo.lib_parsesValid Demo.reachable_sheetRefused⟩

/-- C5: in every reachable sheet, for a cell at `p` and any position `q`: `q` is in the
requires set of the cell at `p` exactly when a cell exists at `q` whose dependents set
contains `p`. -/
theorem reachable_edge_symmetry {lib : FormulaLib A D} (hpv : lib.ParsesValid) {s : Sheet A D}
    (hr : Sheet.Reachable lib s) (p q : Position) (c : Cell A D) (hc : s.find p = some c) :
    q ∈ c.cells_required_ ↔ ∃ d, s.find q = some d ∧ p ∈ d.cells_dependent_ := by
  have h := Reachable.inv hpv hr
  constructor
  · exact h.sym1 p c q hc
  · rintro ⟨d, hd, hp⟩
    obtain ⟨c', hc', hq⟩ := h.sym2 q d p hd hp
    rw [hc] at hc'
    cases hc'
    exact hq

/-- C5, witness: the cell at `A2` of the sheet `A1 = "2"`, `A2 = "=A1+1"` and the position `A1`. -/
theorem reachable_edge_symmetry_witness :
    Demo.lib.ParsesValid ∧ Sheet.Reachable Demo.lib Demo.sheet3 ∧
    Demo.sheet3.find Demo.A2 = some Demo.cellA2 ∧
    (Demo.A1 ∈ [Demo.A1] ↔ ∃ d, Demo.sheet3.find Demo.A1 = some d ∧ Demo.A2 ∈ d.cells_dependent_) :=
  ⟨Demo.lib_parsesValid, Demo.reachable_sheet3, by decide,
    reachable_edge_symmetry Demo.lib_parsesValid Demo.reachable_sheet3 Demo.A2 Demo.A1 Demo.cellA2
      (by decide)⟩

/-- C6: after a `SetCell` or `ClearCell` that returns on a reachable sheet, every formula cell
of the sheet has a value, and it is the value of its formula evaluated against the sheet as it
is now, each referenced cell contributing its current `GetValue()`. -/
theorem formula_values_current {lib : FormulaLib A D} (hpv : lib.ParsesValid) (hl : lib.Local)
    {s : Sheet A D} (hr : Sheet.Reachable lib s) (pos : Position) (text : String) (s' : Sheet A D)
    (hop : Sheet.SetCell lib s pos text = .ok s' ∨ Sheet.ClearCell lib s pos = .ok s')
    (p : Position) (c : Cell A D) (a : A) (hc : s'.find p = some c)
    (hi : c.impl_ = some (Impl.FormulaImpl a)) :
    ∃ v, c.GetValue = some v ∧ Formula.Evaluate lib a s'.view = .ok v := by
  have hr' : Sheet.Reachable lib s' := by
    rcases hop with h | h
    · have := Sheet.Reachable.setCell s pos text hr (by rw [h]; rfl)
      rw [h] at this
      exact this
    · have := Sheet.Reachable.clearCell s pos hr (by rw [h]; rfl)
      rw [h] at this
      exact this
  have := (Reachable.inv hpv hr').cache hl p c hc
  simp only [Sheet.CellCached, hi] at this
  obtain ⟨v, hev, hv⟩ := this
  exact ⟨v, hv, hev⟩

/-- C6, witness: after `A1 = "1"`, `A2 = "=A1+1"`, setting `A1 = "2"` makes the value of `A2`
the number 3. -/
theorem formula_values_current_witness :
    Demo.lib.ParsesValid ∧ Demo.lib.Local ∧ Sheet.Reachable Demo.lib Demo.sheet2 ∧
    Sheet.SetCell Demo.lib Demo.sheet2 Demo.A1 "2" = .ok Demo.sheet3 ∧
    Demo.sheet3.find Demo.A2 = some Demo.cellA2 ∧
    Demo.cellA2.GetValue = some (Value.num 3) ∧
    (∃ v, Demo.cellA2.GetValue = some v ∧
      Formula.Evaluate Demo.lib ([Demo.A1], 1) Demo.sheet3.view = .ok v) :=
  ⟨Demo.lib_parsesValid, Demo.lib_local, Demo.reachable_sheet2, by decide, by decide, rfl,
    formula_values_current Demo.lib_parsesValid Demo.lib_local Demo.reachable_sheet2 Demo.A1 "2"
      Demo.sheet3 (Or.inl (by decide)) Demo.A2 Demo.cellA2 ([Demo.A1], 1) (by decide) rfl⟩

/-- C7, counterexample: after `SetCell(A1, "12")` the cache of the text cell holds the number
12, while the value of its body, the stored text, is the string `12`. -/
theorem numeric_text_cache_differs :
    Sheet.Reachable Demo.lib (Sheet.SetCell Demo.lib Demo.sheet0 Demo.A1 "12").state ∧
    (Sheet.SetCell Demo.lib Demo.sheet0 Demo.A1 "12").state.find Demo.A1 = some
      { impl_ := some (Impl.TextImpl "12"), cached_value_ := some (Value.num 12),
        cells_required_ := [], cells_dependent_ := [] } ∧
    (Impl.TextImpl "12").GetValue Demo.lib (Sheet.SetCell Demo.lib Demo.sheet0 Demo.A1 "12").state
      = .ok (Value.str "12") ∧
    (Value.num 12 : Value Int) ≠ Value.str "12" :=
  ⟨Sheet.Reachable.setCell Demo.sheet0 Demo.A1 "12" Sheet.Reachable.empty (by decide),
    by decide, rfl, by decide⟩

/-- C7 (amended): in every reachable sheet, a value `v` held by the cache of a cell is `0.0`
for an empty body; for a text body the number `d` when `std::stod` consumes the whole text and
otherwise the stored text with a leading apostrophe stripped; and for a formula body the value
of the formula evaluated against the sheet. -/
theorem reachable_cache_agrees {lib : FormulaLib A D} (hpv : lib.ParsesValid) (hl : lib.Local)
    {s : Sheet A D} (hr : Sheet.Reachable lib s) (p : Position) (c : Cell A D) (v : Value D)
    (hc : s.find p = some c) (hv : c.cached_value_ = some v) :
    (c.impl_ = some Impl.EmptyImpl ∧ v = Value.num lib.zero) ∨
    (∃ t, c.impl_ = some (Impl.TextImpl t) ∧
      ((∃ d, lib.stod t = some (d, t.length) ∧ v = Value.num d) ∨
       ((∀ d, lib.stod t ≠ some (d, t.length)) ∧
        v = (if t.front = ESCAPE_SIGN then Value.str (t.drop 1) else Value.str t)))) ∨
    (∃ a, c.impl_ = some (Impl.FormulaImpl a) ∧ Formula.Evaluate lib a s.view = .ok v) := by
  have h := Reachable.inv hpv hr
  have hcache := h.cache hl p c hc
  obtain ⟨i, hi, _⟩ := h.impl p c hc
  unfold Sheet.CellCached at hcache
  rw [hi] at hcache
  cases i with
  | EmptyImpl =>
    left
    simp only at hcache
    rw [hv] at hcache
    rcases hcache with h0 | h0
    · cases h0
    · exact ⟨hi, by simpa using h0⟩
  | TextImpl t =>
    right; left
    simp only at hcache
    rw [hv] at hcache
    have hv' : v = Cell.textCache lib t := by simpa using hcache
    refine ⟨t, hi, ?_⟩
    unfold Cell.textCache TextImpl.GetValue at hv'
    cases hs : lib.stod t with
    | none =>
      right
      rw [hs] at hv'
      exact ⟨fun d hd => (by cases hd), hv'⟩
    | some vp =>
      obtain ⟨d, n⟩ := vp
      rw [hs] at hv'
      simp only at hv'
      by_cases hn : n = t.length
      · left
        subst hn
        simp only [if_true] at hv'
        exact ⟨d, rfl, hv'⟩
      · right
        simp only [hn, if_false] at hv'
        refine ⟨fun d' hd' => ?_, hv'⟩
        simp only [Option.some.injEq, Prod.mk.injEq] at hd'
        exact hn hd'.2
  | FormulaImpl a =>
    right; right
    simp only at hcache
    obtain ⟨w, hev, hw⟩ := hcache
    rw [hv] at hw
    cases hw
    exact ⟨a, hi, hev⟩

/-- C7, witness: the text cell `A1 = "2"` of the sheet `A1 = "2"`, `A2 = "=A1+1"`. -/
theorem reachable_cache_agrees_witness :
    Demo.lib.ParsesValid ∧ Demo.lib.Local ∧ Sheet.Reachable Demo.lib Demo.sheet3 ∧
    Demo.sheet3.find Demo.A1 = some Demo.cellA1 ∧
    ((some (Impl.TextImpl "2") = some (Impl.EmptyImpl : Impl (List Position × Int)) ∧
        (Value.num 2 : Value Int) = Value.num Demo.lib.zero) ∨
     (∃ t, some (Impl.TextImpl "2") = some (Impl.TextImpl t : Impl (List Position × Int)) ∧
      ((∃ d, Demo.lib.stod t = some (d, t.length) ∧ (Value.num 2 : Value Int) = Value.num d) ∨
       ((∀ d, Demo.lib.stod t ≠ some (d, t.length)) ∧
        (Value.num 2 : Value Int) =
          (if t.front = ESCAPE_SIGN then Value.str (t.drop 1) else Value.str t)))) ∨
     (∃ a, some (Impl.TextImpl "2") = some (Impl.FormulaImpl a) ∧
        Formula.Evaluate Demo.lib a Demo.sheet3.view = .ok (Value.num 2))) :=
  ⟨Demo.lib_parsesValid, Demo.lib_local, Demo.reachable_sheet3, by decide,
    reachable_cache_agrees Demo.lib_parsesValid Demo.lib_local Demo.reachable_sheet3 Demo.A1
      Demo.cellA1 (Value.num 2) (by decide) rfl⟩

/-- Making the outgoing edges of the cell at `p` the list `R` closes a cycle exactly when `p`
is in `R` or a position of `R` reaches `p` along the edges there are. -/
theorem replaced_cyclic_iff {lib : FormulaLib A D} {s : Sheet A D} (h : s.Inv lib) (p : Position)
    (hp : (s.find p).isSome = true) (R : List Position) :
    (p ∈ R ∨ ∃ r ∈ R, Relation.TransGen s.Requires r p) ↔
      ¬ (s.modify p (fun c => { c with cells_required_ := R })).Acyclic := by
  obtain ⟨cp, hcp⟩ := Option.isSome_iff_exists.1 hp
  have hoff := requiresOff_modify_self s p (fun c => { c with cells_required_ := R })
  have hp' := find_modify_of_some (r := p) (fun c => { c with cells_required_ := R }) hcp
  simp only [if_true] at hp'
  constructor
  · intro hcyc hac
    have hreach : ∃ r ∈ R, Relation.ReflTransGen s.Requires r p := by
      rcases hcyc with h0 | ⟨r, hr, hrp⟩
      · exact ⟨p, h0, Relation.ReflTransGen.refl⟩
      · exact ⟨r, hr, hrp.to_reflTransGen⟩
    obtain ⟨r, hr, hrp⟩ := hreach
    have h1 := reach_off_of_reach s p r hrp
    rw [← hoff] at h1
    have h2 : Relation.ReflTransGen (s.modify p (fun c => { c with cells_required_ := R })).Requires r p :=
      Relation.ReflTransGen.mono (fun _ _ hxy => hxy.2) h1
    exact hac p (Relation.TransGen.head' ⟨_, hp', hr⟩ h2)
  · intro hnac
    by_contra hno
    apply hnac
    apply acyclic_of_off _ p R
    · rw [hoff]
      intro a ha
      exact h.acyclic a (Relation.TransGen.mono (fun _ _ hxy => hxy.2) ha)
    · rw [hoff]
      intro r hr hreach
      apply hno
      have h1 : Relation.ReflTransGen s.Requires r p :=
        Relation.ReflTransGen.mono (fun _ _ hxy => hxy.2) hreach
      rcases (reflTransGen_iff_eq_or_transGen _ _ _).1 h1 with h2 | h2
      · exact Or.inl (h2 ▸ hr)
      · exact Or.inr ⟨r, hr, h2⟩
    · intro c q hc hq
      rw [hp'] at hc
      cases hc
      exact hq

/-- C3: on a reachable sheet, for a valid position `p` and a text `"=" ++ e` whose expression
`e` parses to a formula with referenced positions `R`: `SetCell` raises
`CircularDependencyException` exactly when `p` is in `R` or a position of `R` reaches `p`
along the requires edges, which is exactly when replacing the outgoing edges of `p` by `R`
makes the requires graph cyclic; in particular a formula that references its own cell is
refused. -/
theorem SetCell_circular_iff {lib : FormulaLib A D} (hpv : lib.ParsesValid) {s : Sheet A D}
    (hr : Sheet.Reachable lib s) (p : Position) (hv : p.IsValid = true) (e : String)
    (he : e ≠ "") (a : A) (ha : lib.ParseFormulaAST e = some a) :
    ((Sheet.SetCell lib s p ("=" ++ e)).exn = some Exn.CircularDependencyException ↔
      (p ∈ Formula.GetReferencedCells lib a ∨
        ∃ r ∈ Formula.GetReferencedCells lib a, Relation.TransGen s.Requires r p)) ∧
    ((p ∈ Formula.GetReferencedCells lib a ∨
        ∃ r ∈ Formula.GetReferencedCells lib a, Relation.TransGen s.Requires r p) ↔
      ¬ ((s.prepared p).modify p
        (fun c => { c with cells_required_ := Formula.GetReferencedCells lib a })).Acyclic) ∧
    (p ∈ lib.GetCells a →
      (Sheet.SetCell lib s p ("=" ++ e)).exn = some Exn.CircularDependencyException) := by
  have h := Reachable.inv hpv hr
  obtain ⟨hyes, hno⟩ := SetCell_formula hpv h p hv e he a ha
  have hequiv : (∃ r ∈ Formula.GetReferencedCells lib a, Relation.ReflTransGen s.Requires r p) ↔
      (p ∈ Formula.GetReferencedCells lib a ∨
        ∃ r ∈ Formula.GetReferencedCells lib a, Relation.TransGen s.Requires r p) := by
    constructor
    · rintro ⟨r, hr, hreach⟩
      rcases (reflTransGen_iff_eq_or_transGen _ _ _).1 hreach with h2 | h2
      · exact Or.inl (h2 ▸ hr)
      · exact Or.inr ⟨r, hr, h2⟩
    · rintro (h0 | ⟨r, hr, hrp⟩)
      · exact ⟨p, h0, Relation.ReflTransGen.refl⟩
      · exact ⟨r, hr, hrp.to_reflTransGen⟩
  have hfirst : (Sheet.SetCell lib s p ("=" ++ e)).exn = some Exn.CircularDependencyException ↔
      (p ∈ Formula.GetReferencedCells lib a ∨
        ∃ r ∈ Formula.GetReferencedCells lib a, Relation.TransGen s.Requires r p) := by
    rw [← hequiv]
    constructor
    · intro hexn
      by_contra hnot
      rcases hno hnot with ⟨s', _, hset, _⟩ | ⟨s', hset⟩
      · rw [hset] at hexn
        cases hexn
      · rw [hset] at hexn
        cases hexn
    · intro hcyc
      rw [hyes hcyc]
      rfl
  refine ⟨hfirst, ?_, ?_⟩
  · have := replaced_cyclic_iff (h.prepared p hv) p (find_prepared_isSome s p)
      (Formula.GetReferencedCells lib a)
    rw [requires_prepared h p] at this
    exact this
  · intro hp
    exact hfirst.2 (Or.inl ((mem_GetReferencedCells lib a p).2 hp))

/-- C3, witness: `SetCell(A1, "=A1")` on the empty sheet. -/
theorem SetCell_circular_iff_witness :
    Demo.lib.ParsesValid ∧ Sheet.Reachable Demo.lib Demo.sheet0 ∧ Demo.A1.IsValid = true ∧
    "A1" ≠ "" ∧ Demo.lib.ParseFormulaAST "A1" = some ([Demo.A1], 0) ∧
    ((Sheet.SetCell Demo.lib Demo.sheet0 Demo.A1 ("=" ++ "A1")).exn
        = some Exn.CircularDependencyException ↔
      (Demo.A1 ∈ Formula.GetReferencedCells Demo.lib ([Demo.A1], 0) ∨
        ∃ r ∈ Formula.GetReferencedCells Demo.lib ([Demo.A1], 0),
          Relation.TransGen Demo.sheet0.Requires r Demo.A1)) ∧
    ((Demo.A1 ∈ Formula.GetReferencedCells Demo.lib ([Demo.A1], 0) ∨
        ∃ r ∈ Formula.GetReferencedCells Demo.lib ([Demo.A1], 0),
          Relation.TransGen Demo.sheet0.Requires r Demo.A1) ↔
      ¬ ((Demo.sheet0.prepared Demo.A1).modify Demo.A1
        (fun c => { c with cells_required_ :=
          Formula.GetReferencedCells Demo.lib ([Demo.A1], 0) })).Acyclic) ∧
    (Demo.A1 ∈ Demo.lib.GetCells ([Demo.A1], 0) →
      (Sheet.SetCell Demo.lib Demo.sheet0 Demo.A1 ("=" ++ "A1")).exn
        = some Exn.CircularDependencyException) :=
  ⟨Demo.lib_parsesValid, Sheet.Reachable.empty, by decide, by decide, by decide,
    SetCell_circular_iff Demo.lib_parsesValid Sheet.Reachable.empty Demo.A1 (by decide) "A1"
      (by decide) ([Demo.A1], 0) (by decide)⟩

/-! ## The printable size -/

theorem Sheet.Boxed.unique {s s' : Sheet A D} (h : s.Boxed) (h' : s'.Boxed)
    (hf : ∀ q, s'.find q = s.find q) : s'.size_ = s.size_ := by
  by_cases hex : ∃ b, (s.find b).isSome = true
  · obtain ⟨b, hb⟩ := hex
    obtain ⟨cb, hcb⟩ := Option.isSome_iff_exists.1 hb
    obtain ⟨⟨b1, hb1, hr1⟩, ⟨b2, hb2, hc2⟩⟩ := h.2.2 b cb hcb
    obtain ⟨⟨b1', hb1', hr1'⟩, ⟨b2', hb2', hc2'⟩⟩ := h'.2.2 b cb ((hf b).trans hcb)
    obtain ⟨c1, hc1⟩ := Option.isSome_iff_exists.1 hb1
    obtain ⟨c2, hcc2⟩ := Option.isSome_iff_exists.1 hb2
    obtain ⟨c1', hc1'⟩ := Option.isSome_iff_exists.1 hb1'
    obtain ⟨c2', hcc2'⟩ := Option.isSome_iff_exists.1 hb2'
    have e1 := (h'.1 b1 c1 ((hf b1).trans hc1)).1
    have e2 := (h'.1 b2 c2 ((hf b2).trans hcc2)).2
    have e3 := (h.1 b1' c1' ((hf b1').symm.trans hc1')).1
    have e4 := (h.1 b2' c2' ((hf b2').symm.trans hcc2')).2
    have hrows : s'.size_.rows = s.size_.rows := by omega
    have hcols : s'.size_.cols = s.size_.cols := by omega
    cases hs : s.size_
    cases hs' : s'.size_
    simp_all
  · have hnone : ∀ a, s.find a = none := by
      intro a
      cases ha : s.find a with
      | none => rfl
      | some c => exact absurd ⟨a, by simp [ha]⟩ hex
    rw [h.2.1 hnone, h'.2.1 (fun a => (hf a).trans (hnone a))]

/-- C9, counterexample: after `SetCell(C3, "")` on the empty sheet the only cell is the empty,
unreferenced cell at `C3`, and the printable size is 3 x 3, not 0 x 0. -/
theorem empty_cell_counts_in_size :
    Sheet.Reachable Demo.lib (Sheet.SetCell Demo.lib Demo.sheet0 Demo.C3 "").state ∧
    (Sheet.SetCell Demo.lib Demo.sheet0 Demo.C3 "").state.cells_ = [(Demo.C3, Cell.blank Demo.lib)] ∧
    (Cell.blank Demo.lib).impl_ = some Impl.EmptyImpl ∧
    (Cell.blank Demo.lib).cells_dependent_ = [] ∧
    (Sheet.SetCell Demo.lib Demo.sheet0 Demo.C3 "").state.GetPrintableSize = { rows := 3, cols := 3 } :=
  ⟨Sheet.Reachable.setCell Demo.sheet0 Demo.C3 "" Sheet.Reachable.empty (by decide),
    by decide, rfl, rfl, by decide⟩

/-- C9 (amended): in every reachable sheet, `GetPrintableSize()` is `1 + max row` by
`1 + max col` taken over all positions holding a cell, empty unreferenced cells included, and
0 by 0 when the sheet holds no cell: it is what a full recomputation yields. -/
theorem printable_size_recomputed {lib : FormulaLib A D} (hpv : lib.ParsesValid) {s : Sheet A D}
    (hr : Sheet.Reachable lib s) :
    s.GetPrintableSize = s.RecalculateSize.GetPrintableSize ∧
    s.GetPrintableSize =
      (if s.cells_.length = 0 then { rows := 0, cols := 0 }
       else { rows := s.cells_.foldl (fun m e => max m e.1.row) 0 + 1,
              cols := s.cells_.foldl (fun m e => max m e.1.col) 0 + 1 }) := by
  have h := Reachable.inv hpv hr
  have hrec := RecalculateSize_boxed s h.valid
  have huniq := h.size.unique hrec (fun q => find_RecalculateSize s q)
  have h1 : s.GetPrintableSize = s.RecalculateSize.GetPrintableSize := huniq.symm
  refine ⟨h1, ?_⟩
  rw [h1]
  unfold Sheet.GetPrintableSize Sheet.RecalculateSize
  simp only
  split <;> rfl

/-- C9, witness: the sheet `A1 = "2"`, `A2 = "=A1+1"`. -/
theorem printable_size_recomputed_witness :
    Demo.lib.ParsesValid ∧ Sheet.Reachable Demo.lib Demo.sheet3 ∧
    Demo.sheet3.GetPrintableSize = Demo.sheet3.RecalculateSize.GetPrintableSize ∧
    Demo.sheet3.GetPrintableSize =
      (if Demo.sheet3.cells_.length = 0 then { rows := 0, cols := 0 }
       else { rows := Demo.sheet3.cells_.foldl (fun m e => max m e.1.row) 0 + 1,
              cols := Demo.sheet3.cells_.foldl (fun m e => max m e.1.col) 0 + 1 }) :=
  ⟨Demo.lib_parsesValid, Demo.reachable_sheet3,
    printable_size_recomputed Demo.lib_parsesValid Demo.reachable_sheet3⟩

/-- C10: in every reachable sheet, every position at which `GetCell` returns a cell lies
inside the printable size; when some cell exists, a cell lies on the last printable row and a
cell on the last printable column, so that the size is `1 + max row` by `1 + max col` over
the existing cells; and the size is 0 by 0 when no cell exists. -/
theorem printable_size_bounding_box {lib : FormulaLib A D} (hpv : lib.ParsesValid)
    {s : Sheet A D} (hr : Sheet.Reachable lib s) :
    (∀ p c, s.GetCell p = .ok (some c) →
      p.row + 1 ≤ s.GetPrintableSize.rows ∧ p.col + 1 ≤ s.GetPrintableSize.cols) ∧
    ((∃ p c, s.GetCell p = .ok (some c)) →
      (∃ b c, s.GetCell b = .ok (some c) ∧ b.row + 1 = s.GetPrintableSize.rows) ∧
      (∃ b c, s.GetCell b = .ok (some c) ∧ b.col + 1 = s.GetPrintableSize.cols)) ∧
    ((∀ p c, s.GetCell p ≠ .ok (some c)) → s.GetPrintableSize = { rows := 0, cols := 0 }) := by
  have h := Reachable.inv hpv hr
  have hget : ∀ p c, s.GetCell p = .ok (some c) → s.find p = some c := by
    intro p c hg
    cases hv : p.IsValid with
    | false => rw [GetCell_invalid s p hv] at hg; cases hg
    | true =>
      rw [GetCell_valid s p hv] at hg
      injection hg
  have hget' : ∀ p c, s.find p = some c → s.GetCell p = .ok (some c) := by
    intro p c hc
    rw [GetCell_valid s p (h.valid p c hc), hc]
  refine ⟨?_, ?_, ?_⟩
  · intro p c hg
    exact h.size.1 p c (hget p c hg)
  · rintro ⟨p, c, hg⟩
    obtain ⟨⟨b1, hb1, hr1⟩, ⟨b2, hb2, hc2⟩⟩ := h.size.2.2 p c (hget p c hg)
    obtain ⟨c1, hc1⟩ := Option.isSome_iff_exists.1 hb1
    obtain ⟨c2', hc2'⟩ := Option.isSome_iff_exists.1 hb2
    exact ⟨⟨b1, c1, hget' b1 c1 hc1, hr1⟩, ⟨b2, c2', hget' b2 c2' hc2', hc2⟩⟩
  · intro hnone
    apply h.size.2.1
    intro a
    cases ha : s.find a with
    | none => rfl
    | some c => exact absurd (hget' a c ha) (hnone a c)

/-- C10, witness: the sheet `A1 = "2"`, `A2 = "=A1+1"`, of size 2 x 1. -/
theorem printable_size_bounding_box_witness :
    Demo.lib.ParsesValid ∧ Sheet.Reachable Demo.lib Demo.sheet3 ∧
    Demo.sheet3.GetPrintableSize = { rows := 2, cols := 1 } ∧
    ((∀ p c, Demo.sheet3.GetCell p = .ok (some c) →
      p.row + 1 ≤ Demo.sheet3.GetPrintableSize.rows ∧ p.col + 1 ≤ Demo.sheet3.GetPrintableSize.cols) ∧
    ((∃ p c, Demo.sheet3.GetCell p = .ok (some c)) →
      (∃ b c, Demo.sheet3.GetCell b = .ok (some c) ∧ b.row + 1 = Demo.sheet3.GetPrintableSize.rows) ∧
      (∃ b c, Demo.sheet3.GetCell b = .ok (some c) ∧ b.col + 1 = Demo.sheet3.GetPrintableSize.cols)) ∧
    ((∀ p c, Demo.sheet3.GetCell p ≠ .ok (some c)) →
      Demo.sheet3.GetPrintableSize = { rows := 0, cols := 0 })) :=
  ⟨Demo.lib_parsesValid, Demo.reachable_sheet3, by decide,
    printable_size_bounding_box Demo.lib_parsesValid Demo.reachable_sheet3⟩

/-! ## Cells behind the edges and the cached value -/

/-- C12: in every reachable sheet every position in the requires set of a cell, and every
position in its dependents set, holds a cell (`GetCell` returns a non-null pointer), and no
`SetCell` or `ClearCell` on a reachable sheet fails a non-null assertion or dereferences a
null pointer. -/
theorem required_cells_exist {lib : FormulaLib A D} (hpv : lib.ParsesValid) {s : Sheet A D}
    (hr : Sheet.Reachable lib s) :
    (∀ p c q, s.find p = some c → q ∈ c.cells_required_ → ∃ d, s.GetCell q = .ok (some d)) ∧
    (∀ p c q, s.find p = some c → q ∈ c.cells_dependent_ → ∃ d, s.GetCell q = .ok (some d)) ∧
    (∀ pos text, (Sheet.SetCell lib s pos text).exn ≠ some Exn.AssertionFailed ∧
      (Sheet.SetCell lib s pos text).exn ≠ some Exn.NullDereference) ∧
    (∀ pos, (Sheet.ClearCell lib s pos).exn ≠ some Exn.AssertionFailed ∧
      (Sheet.ClearCell lib s pos).exn ≠ some Exn.NullDereference) := by
  have h := Reachable.inv hpv hr
  refine ⟨?_, ?_, ?_, ?_⟩
  · intro p c q hc hq
    obtain ⟨d, hd, _⟩ := h.sym1 p c q hc hq
    exact ⟨d, by rw [GetCell_valid s q (h.valid q d hd), hd]⟩
  · intro p c q hc hq
    obtain ⟨d, hd, _⟩ := h.sym2 p c q hc hq
    exact ⟨d, by rw [GetCell_valid s q (h.valid q d hd), hd]⟩
  · intro pos text
    rcases (SetCell_inv hpv h pos text).2 with h1 | h1 | h1 | h1 | h1 <;>
      (rw [h1]; exact ⟨by decide, by decide⟩)
  · intro pos
    rcases (ClearCell_inv h pos).2 with h1 | h1 | h1 <;>
      (rw [h1]; exact ⟨by decide, by decide⟩)

/-- C12, witness: the sheet `A1 = "2"`, `A2 = "=A1+1"`. -/
theorem required_cells_exist_witness :
    Demo.lib.ParsesValid ∧ Sheet.Reachable Demo.lib Demo.sheet3 ∧
    Demo.sheet3.find Demo.A2 = some Demo.cellA2 ∧ Demo.A1 ∈ Demo.cellA2.cells_required_ ∧
    Demo.sheet3.GetCell Demo.A1 = .ok (some Demo.cellA1) ∧
    ((∀ p c q, Demo.sheet3.find p = some c → q ∈ c.cells_required_ →
        ∃ d, Demo.sheet3.GetCell q = .ok (some d)) ∧
    (∀ p c q, Demo.sheet3.find p = some c → q ∈ c.cells_dependent_ →
        ∃ d, Demo.sheet3.GetCell q = .ok (some d)) ∧
    (∀ pos text, (Sheet.SetCell Demo.lib Demo.sheet3 pos text).exn ≠ some Exn.AssertionFailed ∧
      (Sheet.SetCell Demo.lib Demo.sheet3 pos text).exn ≠ some Exn.NullDereference) ∧
    (∀ pos, (Sheet.ClearCell Demo.lib Demo.sheet3 pos).exn ≠ some Exn.AssertionFailed ∧
      (Sheet.ClearCell Demo.lib Demo.sheet3 pos).exn ≠ some Exn.NullDereference)) :=
  ⟨Demo.lib_parsesValid, Demo.reachable_sheet3, by decide, by decide, rfl,
    required_cells_exist Demo.lib_parsesValid Demo.reachable_sheet3⟩

/-- C13, the code at the failing input: on the empty sheet `SetCell(A1, "=A1")` raises
`CircularDependencyException` and leaves at `A1` the cell its constructor made, whose cache
is empty: `GetCell(A1)` is non-null and the assertion of `GetValue()` on it fails. A later
`SetCell(B1, "=A1")` reads that cell and trips the same assertion. -/
theorem GetValue_without_cache :
    (Sheet.SetCell Demo.lib Demo.sheet0 Demo.A1 "=A1").exn = some Exn.CircularDependencyException ∧
    Sheet.Reachable Demo.lib Demo.sheetLeft ∧
    Demo.sheetLeft.GetCell Demo.A1 = .ok (some Cell.new) ∧
    (Cell.new : Cell (List Position × Int) Int).GetValue = none ∧
    (Sheet.SetCell Demo.lib Demo.sheetLeft Demo.B1 "=A1").exn = some Exn.ValueAssertionFailed :=
  ⟨by decide, Sheet.Reachable.setCell Demo.sheet0 Demo.A1 "=A1" Sheet.Reachable.empty (by decide),
    rfl, rfl, by decide⟩

/-! ## The cell a returning `SetCell` leaves at its position -/

/-- A `SetCell` that returns on a sheet in order leaves a sheet in order; the cell at the
position keeps its dependents and has the body and the cache its text calls for: empty with
`0.0`, text with what `TryConvertTextDouble` stores, or the parsed formula. -/
theorem SetCell_returns {lib : FormulaLib A D} (hpv : lib.ParsesValid) {s : Sheet A D}
    (h : s.Inv lib) (p : Position) (t : String) (s' : Sheet A D)
    (hset : Sheet.SetCell lib s p t = .ok s') :
    p.IsValid = true ∧ s'.Inv lib ∧ ∃ cp c', (s.prepared p).find p = some cp ∧ s'.find p = some c' ∧
      c'.cells_dependent_ = cp.cells_dependent_ ∧
      ((t = "" ∧ c'.impl_ = some Impl.EmptyImpl ∧ c'.cached_value_ = some (Value.num lib.zero) ∧
          c'.cells_required_ = []) ∨
       (t.isEmpty = false ∧ ¬ (t.length > 1 ∧ t.front = FORMULA_SIGN) ∧
          c'.impl_ = some (Impl.TextImpl t) ∧ c'.cached_value_ = some (Cell.textCache lib t) ∧
          c'.cells_required_ = []) ∨
       (t.isEmpty = false ∧ (t.length > 1 ∧ t.front = FORMULA_SIGN) ∧
          ∃ a, lib.ParseFormulaAST (t.drop 1) = some a ∧ c'.impl_ = some (Impl.FormulaImpl a) ∧
            (∀ q, q ∈ c'.cells_required_ ↔ q ∈ Formula.GetReferencedCells lib a) ∧
            ¬ ∃ r ∈ Formula.GetReferencedCells lib a, Relation.ReflTransGen s.Requires r p)) := by
  cases hv : p.IsValid with
  | false =>
    rw [SetCell_invalid lib s p t hv] at hset
    cases hset
  | true =>
    refine ⟨rfl, ?_⟩
    have h' := h.prepared p hv
    obtain ⟨cp, hcp⟩ := Option.isSome_iff_exists.1 (find_prepared_isSome s p)
    rw [SetCell_eq_Set lib s p t hv] at hset
    cases ht : t.isEmpty with
    | true =>
      have : t = "" := (isEmpty_eq_true_iff t).1 ht
      subst this
      rcases Set_empty_inv h' (s.cells_.length + 1) p cp hcp with
        ⟨s1, c1, hset1, hinv, hp1, hi1, hc1, hr1, hd1⟩ | ⟨s1, hset1⟩
      · rw [hset1] at hset
        cases hset
        exact ⟨hinv, cp, c1, hcp, hp1, hd1, Or.inl ⟨rfl, hi1, hc1, hr1⟩⟩
      · rw [hset1] at hset
        cases hset
    | false =>
      by_cases hf : t.length > 1 ∧ t.front = FORMULA_SIGN
      · cases ha : lib.ParseFormulaAST (t.drop 1) with
        | none =>
          rw [Set_formula_unfold lib _ _ p t ht hf, ha] at hset
          cases hset
        | some a =>
          obtain ⟨b, hcirc, hb⟩ := h'.hasCircularDependency hpv p _ a ha
          cases b with
          | true =>
            rw [Set_formula_unfold lib _ _ p t ht hf, ha] at hset
            simp only [hcirc] at hset
            cases hset
          | false =>
            have hno : ¬ ∃ r ∈ Formula.GetReferencedCells lib a,
                Relation.ReflTransGen (s.prepared p).Requires r p := by
              intro hc
              have := hb.2 hc
              cases this
            rcases Set_formula_inv hpv h' (s.cells_.length + 1) p cp hcp t ht hf a ha hno with
              ⟨s1, c1, hset1, hinv, hp1, hi1, hq1, hd1⟩ | ⟨s1, hset1⟩
            · rw [hset1] at hset
              cases hset
              rw [requires_prepared h p] at hno
              exact ⟨hinv, cp, c1, hcp, hp1, hd1, Or.inr (Or.inr ⟨rfl, hf, a, rfl, hi1, hq1, hno⟩)⟩
            · rw [hset1] at hset
              cases hset
      · rcases Set_text_inv h' (s.cells_.length + 1) p cp hcp t ht hf with
          ⟨s1, c1, hset1, hinv, hp1, hi1, hc1, hr1, hd1⟩ | ⟨s1, hset1⟩
        · rw [hset1] at hset
          cases hset
          exact ⟨hinv, cp, c1, hcp, hp1, hd1, Or.inr (Or.inl ⟨rfl, hf, hi1, hc1, hr1⟩)⟩
        · rw [hset1] at hset
          cases hset

/-- A text that is not recognised as a formula raises neither `FormulaException` nor
`CircularDependencyException`. -/
theorem SetCell_text_exn {lib : FormulaLib A D} {s : Sheet A D}
    (h : s.Inv lib) (p : Position) (t : String) (hf : ¬ (t.length > 1 ∧ t.front = FORMULA_SIGN)) :
    (Sheet.SetCell lib s p t).exn ≠ some Exn.FormulaException ∧
    (Sheet.SetCell lib s p t).exn ≠ some Exn.CircularDependencyException := by
  cases hv : p.IsValid with
  | false =>
    rw [SetCell_invalid lib s p t hv]
    exact ⟨by simp [Outcome.exn], by simp [Outcome.exn]⟩
  | true =>
    have h' := h.prepared p hv
    obtain ⟨cp, hcp⟩ := Option.isSome_iff_exists.1 (find_prepared_isSome s p)
    rw [SetCell_eq_Set lib s p t hv]
    cases ht : t.isEmpty with
    | true =>
      have : t = "" := (isEmpty_eq_true_iff t).1 ht
      subst this
      rcases Set_empty_inv h' (s.cells_.length + 1) p cp hcp with
        ⟨s1, c1, hset1, _⟩ | ⟨s1, hset1⟩ <;>
        (rw [hset1]; exact ⟨by simp [Outcome.exn], by simp [Outcome.exn]⟩)
    | false =>
      rcases Set_text_inv h' (s.cells_.length + 1) p cp hcp t ht hf with
        ⟨s1, c1, hset1, _⟩ | ⟨s1, hset1⟩ <;>
        (rw [hset1]; exact ⟨by simp [Outcome.exn], by simp [Outcome.exn]⟩)

/-! ## Text and value after `SetCell` -/

theorem singleton_formula_sign : String.singleton FORMULA_SIGN = "=" := by decide

theorem front_escape_nonempty (t : String) (h : t.front = ESCAPE_SIGN) : t.isEmpty = false := by
  cases ht : t.isEmpty with
  | false => rfl
  | true =>
    have : t = "" := (isEmpty_eq_true_iff t).1 ht
    subst this
    exact absurd h (by decide)

theorem escape_ne_formula_sign : ESCAPE_SIGN ≠ FORMULA_SIGN := by decide

/-- The value `TryConvertTextDouble` stores when `std::stod` does not consume the whole text. -/
theorem textCache_of_partial (lib : FormulaLib A D) (t : String)
    (h : ∀ d, lib.stod t ≠ some (d, t.length)) :
    Cell.textCache lib t = if t.front = ESCAPE_SIGN then Value.str (t.drop 1) else Value.str t := by
  unfold Cell.textCache TextImpl.GetValue
  cases hs : lib.stod t with
  | none => rfl
  | some vp =>
    obtain ⟨d, n⟩ := vp
    simp only
    by_cases hn : n = t.length
    · subst hn
      exact absurd hs (h d)
    · rw [if_neg hn]

/-- The value `TryConvertTextDouble` stores when `std::stod` consumes the whole text. -/
theorem textCache_of_full (lib : FormulaLib A D) (t : String) (d : D)
    (h : lib.stod t = some (d, t.length)) : Cell.textCache lib t = Value.num d := by
  unfold Cell.textCache
  rw [h]
  simp

/-- C14: after a `SetCell(p, t)` that returns on a reachable sheet (the position is then
valid), `GetCell(p)` is non-null and its `GetText()` is `""` for the empty text, `t` itself
for a text that is not recognised as a formula, and `"="` followed by the printed expression of
the parsed formula for a formula. -/
theorem GetText_after_SetCell {lib : FormulaLib A D} (hpv : lib.ParsesValid) {s : Sheet A D}
    (hr : Sheet.Reachable lib s) (p : Position) (t : String) (s' : Sheet A D)
    (hset : Sheet.SetCell lib s p t = .ok s') :
    p.IsValid = true ∧ ∃ c, s'.GetCell p = .ok (some c) ∧
      (t = "" → c.GetText lib = some "") ∧
      (t ≠ "" → ¬ (t.length > 1 ∧ t.front = FORMULA_SIGN) → c.GetText lib = some t) ∧
      ((t.length > 1 ∧ t.front = FORMULA_SIGN) →
        ∃ a, lib.ParseFormulaAST (t.drop 1) = some a ∧
          c.GetText lib = some ("=" ++ lib.PrintFormula a)) := by
  obtain ⟨hv, _, cp, c, _, hc, _, hcase⟩ :=
    SetCell_returns hpv (Reachable.inv hpv hr) p t s' hset
  refine ⟨hv, c, by rw [GetCell_valid s' p hv, hc], ?_⟩
  rcases hcase with ⟨ht, hi, _⟩ | ⟨ht, hnf, hi, _⟩ | ⟨ht, hf, a, ha, hi, _⟩
  · subst ht
    refine ⟨fun _ => by simp [Cell.GetText, hi, Impl.GetText], fun hne => absurd rfl hne, ?_⟩
    intro hf
    exact absurd hf.1 (by decide)
  · have hne : t ≠ "" := by
      intro h0
      subst h0
      cases ht
    refine ⟨fun h0 => absurd h0 hne, fun _ _ => by simp [Cell.GetText, hi, Impl.GetText], ?_⟩
    intro hf
    exact absurd hf hnf
  · have hne : t ≠ "" := by
      intro h0
      subst h0
      cases ht
    refine ⟨fun h0 => absurd h0 hne, fun _ hnf => absurd hf hnf, fun _ => ⟨a, ha, ?_⟩⟩
    simp [Cell.GetText, hi, Impl.GetText, Formula.GetExpression, singleton_formula_sign]

/-- C14, witness: `SetCell(A2, "=A1+1")` on the sheet holding `A1 = "1"`; the text read back
is the formula sign and the printed sum. -/
theorem GetText_after_SetCell_witness :
    Demo.lib.ParsesValid ∧ Sheet.Reachable Demo.lib Demo.sheet1 ∧
    Sheet.SetCell Demo.lib Demo.sheet1 Demo.A2 "=A1+1" = .ok Demo.sheet2 ∧
    (Demo.sheet2.find Demo.A2).bind (Cell.GetText Demo.lib) = some "=A1+1" ∧
    (Demo.A2.IsValid = true ∧ ∃ c, Demo.sheet2.GetCell Demo.A2 = .ok (some c) ∧
      ("=A1+1" = "" → c.GetText Demo.lib = some "") ∧
      ("=A1+1" ≠ "" → ¬ (("=A1+1" : String).length > 1 ∧ ("=A1+1" : String).front = FORMULA_SIGN) →
        c.GetText Demo.lib = some "=A1+1") ∧
      ((("=A1+1" : String).length > 1 ∧ ("=A1+1" : String).front = FORMULA_SIGN) →
        ∃ a, Demo.lib.ParseFormulaAST (("=A1+1" : String).drop 1) = some a ∧
          c.GetText Demo.lib = some ("=" ++ Demo.lib.PrintFormula a))) :=
  ⟨Demo.lib_parsesValid, Demo.reachable_sheet1, by decide, by decide,
    GetText_after_SetCell Demo.lib_parsesValid Demo.reachable_sheet1 Demo.A2 "=A1+1" Demo.sheet2
      (by decide)⟩

theorem Demo.stod_sign : ∀ d, Demo.lib.stod "=" ≠ some (d, 1) := by
  intro d hd
  have hnone : Demo.lib.stod "=" = none := by decide
  rw [hnone] at hd
  cases hd

theorem Demo.stod_apostrophe :
    ∀ d, Demo.lib.stod "\x2712" ≠ some (d, ("\x2712" : String).length) := by
  intro d hd
  have hnone : Demo.lib.stod "\x2712" = none := by decide
  rw [hnone] at hd
  cases hd

/-- C15: on a reachable sheet, whatever cell the position held, a `SetCell(p, t)` that returns
leaves at `p` an empty body exactly when `t` is the empty string, a formula body exactly when
`t` begins with the formula sign and is longer than one character, and a text body otherwise;
for `t = "="`, which `std::stod` does not convert, the text and the value of the cell are both
`"="`; and a text that is not recognised as a formula raises neither `FormulaException` nor
`CircularDependencyException`. -/
theorem body_kind_by_text {lib : FormulaLib A D} (hpv : lib.ParsesValid) {s : Sheet A D}
    (hr : Sheet.Reachable lib s) (p : Position) (t : String) :
    (∀ s', Sheet.SetCell lib s p t = .ok s' → ∃ c, s'.find p = some c ∧
      (c.impl_ = some Impl.EmptyImpl ↔ t = "") ∧
      ((∃ a, c.impl_ = some (Impl.FormulaImpl a)) ↔ (t.length > 1 ∧ t.front = FORMULA_SIGN)) ∧
      ((∃ u, c.impl_ = some (Impl.TextImpl u)) ↔
        (t ≠ "" ∧ ¬ (t.length > 1 ∧ t.front = FORMULA_SIGN))) ∧
      (t = "=" → (∀ d, lib.stod "=" ≠ some (d, 1)) →
        c.impl_ = some (Impl.TextImpl "=") ∧ c.GetText lib = some "=" ∧
        c.GetValue = some (Value.str "="))) ∧
    (¬ (t.length > 1 ∧ t.front = FORMULA_SIGN) →
      (Sheet.SetCell lib s p t).exn ≠ some Exn.FormulaException ∧
      (Sheet.SetCell lib s p t).exn ≠ some Exn.CircularDependencyException) := by
  have h := Reachable.inv hpv hr
  refine ⟨?_, SetCell_text_exn h p t⟩
  intro s' hset
  obtain ⟨_, _, cp, c, _, hc, _, hcase⟩ := SetCell_returns hpv h p t s' hset
  refine ⟨c, hc, ?_⟩
  rcases hcase with ⟨ht, hi, _⟩ | ⟨ht, hnf, hi, hcache, _⟩ | ⟨ht, hf, a, ha, hi, _⟩
  · subst ht
    have hnf : ¬ (("" : String).length > 1 ∧ ("" : String).front = FORMULA_SIGN) := by decide
    refine ⟨⟨fun _ => rfl, fun _ => hi⟩, ⟨?_, fun hf => absurd hf hnf⟩, ⟨?_, fun hh => absurd rfl hh.1⟩, ?_⟩
    · rintro ⟨a, ha⟩
      rw [hi] at ha
      cases ha
    · rintro ⟨u, hu⟩
      rw [hi] at hu
      cases hu
    · intro h0
      exact absurd h0 (by decide)
  · have hne : t ≠ "" := by
      intro h0
      subst h0
      cases ht
    refine ⟨⟨?_, fun h0 => absurd h0 hne⟩, ⟨?_, fun hf => absurd hf hnf⟩,
      ⟨fun _ => ⟨hne, hnf⟩, fun _ => ⟨t, hi⟩⟩, ?_⟩
    · intro he
      rw [hi] at he
      cases he
    · rintro ⟨a, ha⟩
      rw [hi] at ha
      cases ha
    · intro h0 hstod
      subst h0
      refine ⟨hi, by simp [Cell.GetText, hi, Impl.GetText], ?_⟩
      rw [Cell.GetValue, hcache, textCache_of_partial lib "=" hstod]
      rfl
  · have hne : t ≠ "" := by
      intro h0
      subst h0
      cases ht
    refine ⟨⟨?_, fun h0 => absurd h0 hne⟩, ⟨fun _ => hf, fun _ => ⟨a, hi⟩⟩,
      ⟨?_, fun hh => absurd hf hh.2⟩, ?_⟩
    · intro he
      rw [hi] at he
      cases he
    · rintro ⟨u, hu⟩
      rw [hi] at hu
      cases hu
    · intro h0
      subst h0
      exact absurd hf.1 (by decide)

/-- C15, witness: `SetCell(A2, "=")` on the sheet holding `A1 = "1"`, `A2 = "=A1+1"`. -/
theorem body_kind_by_text_witness :
    Demo.lib.ParsesValid ∧ Sheet.Reachable Demo.lib Demo.sheet2 ∧
    (∃ s', Sheet.SetCell Demo.lib Demo.sheet2 Demo.A2 "=" = .ok s') ∧
    (∀ d, Demo.lib.stod "=" ≠ some (d, 1)) ∧
    ((∀ s', Sheet.SetCell Demo.lib Demo.sheet2 Demo.A2 "=" = .ok s' → ∃ c, s'.find Demo.A2 = some c ∧
      (c.impl_ = some Impl.EmptyImpl ↔ "=" = "") ∧
      ((∃ a, c.impl_ = some (Impl.FormulaImpl a)) ↔
        (("=" : String).length > 1 ∧ ("=" : String).front = FORMULA_SIGN)) ∧
      ((∃ u, c.impl_ = some (Impl.TextImpl u)) ↔
        ("=" ≠ "" ∧ ¬ (("=" : String).length > 1 ∧ ("=" : String).front = FORMULA_SIGN))) ∧
      ("=" = "=" → (∀ d, Demo.lib.stod "=" ≠ some (d, 1)) →
        c.impl_ = some (Impl.TextImpl "=") ∧ c.GetText Demo.lib = some "=" ∧
        c.GetValue = some (Value.str "="))) ∧
    (¬ (("=" : String).length > 1 ∧ ("=" : String).front = FORMULA_SIGN) →
      (Sheet.SetCell Demo.lib Demo.sheet2 Demo.A2 "=").exn ≠ some Exn.FormulaException ∧
      (Sheet.SetCell Demo.lib Demo.sheet2 Demo.A2 "=").exn ≠ some Exn.CircularDependencyException)) :=
  ⟨Demo.lib_parsesValid, Demo.reachable_sheet2,
    ⟨(Sheet.SetCell Demo.lib Demo.sheet2 Demo.A2 "=").state, by decide⟩, Demo.stod_sign,
    body_kind_by_text Demo.lib_parsesValid Demo.reachable_sheet2 Demo.A2 "="⟩

/-- C16: for a text `t` that begins with an apostrophe, which `std::stod` does not convert,
after a `SetCell(p, t)` that returns on a reachable sheet the cell at `p` is a text cell whose
`GetText()` is `t` and whose `GetValue()` is the string `t` without its first character. -/
theorem apostrophe_text {lib : FormulaLib A D} (hpv : lib.ParsesValid) {s : Sheet A D}
    (hr : Sheet.Reachable lib s) (p : Position) (t : String) (s' : Sheet A D)
    (ht : t.front = ESCAPE_SIGN) (hstod : ∀ d, lib.stod t ≠ some (d, t.length))
    (hset : Sheet.SetCell lib s p t = .ok s') :
    ∃ c, s'.GetCell p = .ok (some c) ∧ c.impl_ = some (Impl.TextImpl t) ∧
      c.GetText lib = some t ∧ c.GetValue = some (Value.str (t.drop 1)) := by
  obtain ⟨hv, _, cp, c, _, hc, _, hcase⟩ :=
    SetCell_returns hpv (Reachable.inv hpv hr) p t s' hset
  have hne := front_escape_nonempty t ht
  have hnf : ¬ (t.length > 1 ∧ t.front = FORMULA_SIGN) := by
    rintro ⟨_, hf⟩
    rw [ht] at hf
    exact escape_ne_formula_sign hf
  refine ⟨c, by rw [GetCell_valid s' p hv, hc], ?_⟩
  rcases hcase with ⟨h0, _⟩ | ⟨_, _, hi, hcache, _⟩ | ⟨_, hf, _⟩
  · subst h0
    cases hne
  · refine ⟨hi, by simp [Cell.GetText, hi, Impl.GetText], ?_⟩
    rw [Cell.GetValue, hcache, textCache_of_partial lib t hstod, if_pos ht]
  · exact absurd hf hnf

/-- C16, witness: `SetCell(A1, "'12")` on the empty sheet gives the string `12`, not a number. -/
theorem apostrophe_text_witness :
    Demo.lib.ParsesValid ∧ Sheet.Reachable Demo.lib Demo.sheet0 ∧
    ("\x2712" : String).front = ESCAPE_SIGN ∧
    (∀ d, Demo.lib.stod "\x2712" ≠ some (d, ("\x2712" : String).length)) ∧
    (("\x2712" : String).drop 1) = "12" ∧
    ∃ c, (Sheet.SetCell Demo.lib Demo.sheet0 Demo.A1 "\x2712").state.GetCell Demo.A1 = .ok (some c) ∧
      c.impl_ = some (Impl.TextImpl "\x2712") ∧
      c.GetText Demo.lib = some "\x2712" ∧ c.GetValue = some (Value.str (("\x2712" : String).drop 1)) :=
  ⟨Demo.lib_parsesValid, Sheet.Reachable.empty, by decide, Demo.stod_apostrophe, by decide,
    apostrophe_text Demo.lib_parsesValid Sheet.Reachable.empty Demo.A1 "\x2712"
      (Sheet.SetCell Demo.lib Demo.sheet0 Demo.A1 "\x2712").state (by decide)
      Demo.stod_apostrophe (by decide)⟩

/-- C17: for a text `t` that is neither empty nor recognised as a formula, after a
`SetCell(p, t)` that returns on a reachable sheet the `GetValue()` of the cell at `p` is the
number `d` when `std::stod` converts `t` to `d` and consumes every character, and otherwise,
also when `std::stod` converts a proper prefix only, the string `t` without a leading
apostrophe. -/
theorem text_value {lib : FormulaLib A D} (hpv : lib.ParsesValid) {s : Sheet A D}
    (hr : Sheet.Reachable lib s) (p : Position) (t : String) (s' : Sheet A D)
    (hne : t ≠ "") (hnf : ¬ (t.length > 1 ∧ t.front = FORMULA_SIGN))
    (hset : Sheet.SetCell lib s p t = .ok s') :
    ∃ c, s'.GetCell p = .ok (some c) ∧
      (∀ d, lib.stod t = some (d, t.length) → c.GetValue = some (Value.num d)) ∧
      ((∀ d, lib.stod t ≠ some (d, t.length)) →
        c.GetValue = some (if t.front = ESCAPE_SIGN then Value.str (t.drop 1) else Value.str t)) ∧
      (∀ d n, lib.stod t = some (d, n) → n ≠ t.length →
        c.GetValue = some (if t.front = ESCAPE_SIGN then Value.str (t.drop 1) else Value.str t)) := by
  obtain ⟨hv, _, cp, c, _, hc, _, hcase⟩ :=
    SetCell_returns hpv (Reachable.inv hpv hr) p t s' hset
  refine ⟨c, by rw [GetCell_valid s' p hv, hc], ?_⟩
  rcases hcase with ⟨h0, _⟩ | ⟨_, _, hi, hcache, _⟩ | ⟨_, hf, _⟩
  · exact absurd h0 hne
  · have hpart : (∀ d, lib.stod t ≠ some (d, t.length)) →
        c.GetValue = some (if t.front = ESCAPE_SIGN then Value.str (t.drop 1) else Value.str t) := by
      intro hno
      rw [Cell.GetValue, hcache, textCache_of_partial lib t hno]
    refine ⟨?_, hpart, ?_⟩
    · intro d hd
      rw [Cell.GetValue, hcache, textCache_of_full lib t d hd]
    · intro d n hd hn
      apply hpart
      intro d' hd'
      rw [hd] at hd'
      simp only [Option.some.injEq, Prod.mk.injEq] at hd'
      exact hn hd'.2
  · exact absurd hf hnf

/-- C17, witness: `SetCell(A1, "12abc")` on the empty sheet: `std::stod` converts the prefix
`12` only, and the value is the string `12abc`. -/
theorem text_value_witness :
    Demo.lib.ParsesValid ∧ Sheet.Reachable Demo.lib Demo.sheet0 ∧ "12abc" ≠ "" ∧
    ¬ (("12abc" : String).length > 1 ∧ ("12abc" : String).front = FORMULA_SIGN) ∧
    Demo.lib.stod "12abc" = some (12, 2) ∧
    ∃ c, (Sheet.SetCell Demo.lib Demo.sheet0 Demo.A1 "12abc").state.GetCell Demo.A1 = .ok (some c) ∧
      (∀ d, Demo.lib.stod "12abc" = some (d, ("12abc" : String).length) →
        c.GetValue = some (Value.num d)) ∧
      ((∀ d, Demo.lib.stod "12abc" ≠ some (d, ("12abc" : String).length)) →
        c.GetValue = some (if ("12abc" : String).front = ESCAPE_SIGN
          then Value.str (("12abc" : String).drop 1) else Value.str "12abc")) ∧
      (∀ d n, Demo.lib.stod "12abc" = some (d, n) → n ≠ ("12abc" : String).length →
        c.GetValue = some (if ("12abc" : String).front = ESCAPE_SIGN
          then Value.str (("12abc" : String).drop 1) else Value.str "12abc")) :=
  ⟨Demo.lib_parsesValid, Sheet.Reachable.empty, by decide, by decide, by decide,
    text_value Demo.lib_parsesValid Sheet.Reachable.empty Demo.A1 "12abc"
      (Sheet.SetCell Demo.lib Demo.sheet0 Demo.A1 "12abc").state (by decide) (by decide)
      (by decide)⟩

/-! ## The effect of `ClearCell` -/

/-- C18: for a cell at `p` of a reachable sheet, after a `ClearCell(p)` that returns no cell
has `p` among its dependents. If the cell had dependents, `GetCell(p)` is still non-null, with
an empty requires set, the same dependents, `GetText()` the empty string and `GetValue()` the
number `0.0`, and every dependent is a formula cell that reads `p` and whose value is its
formula evaluated on the new sheet, where `p` contributes `0.0`. If it had no dependents,
`GetCell(p)` is null. -/
theorem ClearCell_effect {lib : FormulaLib A D} (hpv : lib.ParsesValid) (hl : lib.Local)
    {s : Sheet A D} (hr : Sheet.Reachable lib s) (p : Position) (cp : Cell A D)
    (hcp : s.find p = some cp) (s' : Sheet A D) (hclear : Sheet.ClearCell lib s p = .ok s') :
    (∀ q d, s'.find q = some d → p ∉ d.cells_dependent_) ∧
    (cp.cells_dependent_ ≠ [] →
      ∃ c', s'.GetCell p = .ok (some c') ∧ c'.cells_required_ = [] ∧
        c'.cells_dependent_ = cp.cells_dependent_ ∧ c'.GetText lib = some "" ∧
        c'.GetValue = some (Value.num lib.zero) ∧
        s'.view p = some (some (Value.num lib.zero)) ∧
        ∀ d ∈ cp.cells_dependent_, ∃ cd a v, s'.find d = some cd ∧
          cd.impl_ = some (Impl.FormulaImpl a) ∧ p ∈ lib.GetCells a ∧
          Formula.Evaluate lib a s'.view = .ok v ∧ cd.GetValue = some v) ∧
    (cp.cells_dependent_ = [] → s'.GetCell p = .ok none) := by
  have h := Reachable.inv hpv hr
  have hv := h.valid p cp hcp
  rcases ClearCell_present h p cp hcp with ⟨s1, h1, hinv, hcase⟩ | ⟨s1, h1⟩
  swap
  · rw [h1] at hclear
    cases hclear
  rw [h1] at hclear
  cases hclear
  have hnoedge : ∀ c, s'.find p = some c → c.cells_required_ = [] := by
    intro c hc
    rcases hcase with ⟨_, hnone⟩ | ⟨_, c', hc', _, _, hreq, _⟩
    · rw [hnone] at hc
      cases hc
    · rw [hc'] at hc
      cases hc
      exact hreq
  refine ⟨?_, ?_, ?_⟩
  · intro q d hd hp
    obtain ⟨c, hc, hq⟩ := hinv.sym2 q d p hd hp
    rw [hnoedge c hc] at hq
    cases hq
  · intro hdep
    rcases hcase with ⟨h0, _⟩ | ⟨_, c', hc', hi, hcache, hreq, hd⟩
    · exact absurd h0 hdep
    · refine ⟨c', by rw [GetCell_valid s' p hv, hc'], hreq, hd,
        by simp [Cell.GetText, hi, Impl.GetText], hcache, by simp [Sheet.view, hc', hcache], ?_⟩
      intro d hdmem
      rw [← hd] at hdmem
      obtain ⟨cd, hcd, hpd⟩ := hinv.sym2 p c' d hc' hdmem
      obtain ⟨i, hi', hrefs⟩ := hinv.impl d cd hcd
      have hpi := (hrefs p).1 hpd
      cases i with
      | EmptyImpl => simp [Impl.GetReferencedCells] at hpi
      | TextImpl u => simp [Impl.GetReferencedCells] at hpi
      | FormulaImpl a =>
        have hcached := hinv.cache hl d cd hcd
        simp only [Sheet.CellCached, hi'] at hcached
        obtain ⟨v, hev, hcv⟩ := hcached
        exact ⟨cd, a, v, hcd, hi', (mem_GetReferencedCells lib a p).1 hpi, hev, hcv⟩
  · intro hdep
    rcases hcase with ⟨_, hnone⟩ | ⟨hne, _⟩
    · rw [GetCell_valid s' p hv, hnone]
    · exact absurd hdep hne

/-- C18, witness: `ClearCell(A1)` on the sheet `A1 = "2"`, `A2 = "=A1+1"` keeps `A1` as an
empty cell and makes the value of `A2` the number 1. -/
theorem ClearCell_effect_witness :
    Demo.lib.ParsesValid ∧ Demo.lib.Local ∧ Sheet.Reachable Demo.lib Demo.sheet3 ∧
    Demo.sheet3.find Demo.A1 = some Demo.cellA1 ∧
    ((Sheet.ClearCell Demo.lib Demo.sheet3 Demo.A1).state.find Demo.A2).bind Cell.GetValue
      = some (Value.num 1) ∧
    ((∀ q d, (Sheet.ClearCell Demo.lib Demo.sheet3 Demo.A1).state.find q = some d →
        Demo.A1 ∉ d.cells_dependent_) ∧
    (Demo.cellA1.cells_dependent_ ≠ [] →
      ∃ c', (Sheet.ClearCell Demo.lib Demo.sheet3 Demo.A1).state.GetCell Demo.A1 = .ok (some c') ∧
        c'.cells_required_ = [] ∧
        c'.cells_dependent_ = Demo.cellA1.cells_dependent_ ∧ c'.GetText Demo.lib = some "" ∧
        c'.GetValue = some (Value.num Demo.lib.zero) ∧
        (Sheet.ClearCell Demo.lib Demo.sheet3 Demo.A1).state.view Demo.A1
          = some (some (Value.num Demo.lib.zero)) ∧
        ∀ d ∈ Demo.cellA1.cells_dependent_, ∃ cd a v,
          (Sheet.ClearCell Demo.lib Demo.sheet3 Demo.A1).state.find d = some cd ∧
          cd.impl_ = some (Impl.FormulaImpl a) ∧ Demo.A1 ∈ Demo.lib.GetCells a ∧
          Formula.Evaluate Demo.lib a (Sheet.ClearCell Demo.lib Demo.sheet3 Demo.A1).state.view
            = .ok v ∧ cd.GetValue = some v) ∧
    (Demo.cellA1.cells_dependent_ = [] →
      (Sheet.ClearCell Demo.lib Demo.sheet3 Demo.A1).state.GetCell Demo.A1 = .ok none)) :=
  ⟨Demo.lib_parsesValid, Demo.lib_local, Demo.reachable_sheet3, by decide, by decide,
    ClearCell_effect Demo.lib_parsesValid Demo.lib_local Demo.reachable_sheet3 Demo.A1
      Demo.cellA1 (by decide) (Sheet.ClearCell Demo.lib Demo.sheet3 Demo.A1).state (by decide)⟩

/-! ## A cache update that finds every value current -/

theorem Sheet.Same.sameRefl (s : Sheet A D) : s.Same s := ⟨rfl, fun _ => rfl⟩

theorem Sheet.Same.sameTrans {s1 s2 s3 : Sheet A D} (h1 : s1.Same s2) (h2 : s2.Same s3) :
    s1.Same s3 :=
  ⟨h2.1.trans h1.1, fun q => (h2.2 q).trans (h1.2 q)⟩

theorem Sheet.Same.symm {s1 s2 : Sheet A D} (h : s1.Same s2) : s2.Same s1 :=
  ⟨h.1.symm, fun q => (h.2 q).symm⟩

theorem Sheet.Same.sameDependent {s s' : Sheet A D} (h : s.Same s') :
    s'.Dependent = s.Dependent := by
  funext x y
  simp only [Sheet.Dependent, h.2]

theorem Sheet.Same.sameRequires {s s' : Sheet A D} (h : s.Same s') :
    s'.Requires = s.Requires := by
  funext x y
  simp only [Sheet.Requires, h.2]

theorem Sheet.Same.view_eq {s s' : Sheet A D} (h : s.Same s') : s'.view = s.view := by
  funext x
  simp only [Sheet.view, h.2]

/-- A mutation that gives back the cell it finds leaves the sheet the same. -/
theorem same_modify_fixed (s : Sheet A D) (p : Position) (f : Cell A D → Cell A D)
    (hf : ∀ c, s.find p = some c → f c = c) : s.Same (s.modify p f) := by
  refine ⟨size_modify s p f, ?_⟩
  intro q
  rw [find_modify]
  by_cases hq : q = p
  · subst hq
    simp only [if_true]
    cases hc : s.find q with
    | none => rfl
    | some c => simp [hf c hc]
  · simp [hq]

theorem Sheet.DescCurrent.same {lib : FormulaLib A D} {s s' : Sheet A D} {p : Position}
    (h : s.DescCurrent lib p) (hs : s.Same s') : s'.DescCurrent lib p := by
  intro d hd
  rw [hs.sameDependent] at hd
  obtain ⟨hv, c, a, v, hc, hi, hself, hev, hcv⟩ := h d hd
  exact ⟨hv, c, a, v, (hs.2 d).trans hc, hi, hself, by rw [hs.view_eq]; exact hev, hcv⟩

theorem Sheet.DescCurrent.descend {lib : FormulaLib A D} {s : Sheet A D} {p d : Position}
    (h : s.DescCurrent lib p) (hd : s.Dependent p d) : s.DescCurrent lib d :=
  fun e he => h e (Relation.TransGen.head hd he)

/-- `Cell::UpdateDependentCache` below a cell whose transitive dependents all hold current
values returns and leaves the sheet the same. -/
theorem UpdateDependentCache_go_fixed (lib : FormulaLib A D) (hl : lib.Local) :
    ∀ (n : Nat) (s : Sheet A D) (p : Position), s.DescCurrent lib p →
      ¬ HasChain s.Dependent n p → (s.find p).isSome = true →
      ∃ s', Cell.UpdateDependentCache.go lib n s p = .ok s' ∧ s.Same s' := by
  intro n
  induction n with
  | zero =>
    intro s p _ hch _
    exact absurd (HasChain.zero p) hch
  | succ n ih =>
    intro s p hdesc hch hp
    obtain ⟨self, hself⟩ := Option.isSome_iff_exists.1 hp
    have key : ∀ (L : List Position) (s1 : Sheet A D), s.Same s1 →
        (∀ d ∈ L, s.Dependent p d) →
        ∃ s', Outcome.forEach (fun s1 dependent_pos =>
            match s1.GetCell dependent_pos with
            | .error e => .raise e s1
            | .ok none => .raise Exn.AssertionFailed s1
            | .ok (some _) =>
              (Cell.RecalculateCurrentCache lib s1 dependent_pos).bind (fun s2 =>
                Cell.UpdateDependentCache.go lib n s2 dependent_pos)) L s1 = .ok s' ∧
          s1.Same s' := by
      intro L
      induction L with
      | nil =>
        intro s1 _ _
        exact ⟨s1, rfl, Sheet.Same.sameRefl s1⟩
      | cons d L ihL =>
        intro s1 hs1 hL
        have hpd : s.Dependent p d := hL d (List.mem_cons_self _ _)
        obtain ⟨hvalid, c, a, v, hc, hi, hselfref, hev, hcv⟩ :=
          hdesc d (Relation.TransGen.single hpd)
        have hc1 : s1.find d = some c := (hs1.2 d).trans hc
        have hval : (Impl.FormulaImpl a).GetValue lib
            (s1.modify d (fun c => { c with cached_value_ := none })) = .ok v := by
          simp only [Impl.GetValue]
          rw [← hev]
          apply evaluate_congr hl a
          intro x hx
          have hxd : x ≠ d := fun hxd => hselfref (hxd ▸ hx)
          rw [view_modify_ne _ _ _ _ hxd, hs1.view_eq]
        have hrec := RecalculateCurrentCache_eq lib s1 d c _ v hc1 hi hval
        have hs12 : s1.Same ((s1.modify d (fun c => { c with cached_value_ := none })).modify d
            (fun c => { c with cached_value_ := some v })) := by
          refine ⟨by rw [size_modify, size_modify], ?_⟩
          intro q
          simp only [find_modify]
          by_cases hq : q = d
          · subst hq
            simp only [if_true, hc1, Option.map_some']
            congr 1
            cases c
            simp only at hcv
            subst hcv
            rfl
          · simp [hq]
        have hs02 := hs1.sameTrans hs12
        have hdesc2 := (hdesc.descend hpd).same hs02
        have hch2 : ¬ HasChain ((s1.modify d (fun c => { c with cached_value_ := none })).modify d
            (fun c => { c with cached_value_ := some v })).Dependent n d := by
          rw [hs02.sameDependent]
          exact HasChain.of_edge hpd hch
        have hp2 : (((s1.modify d (fun c => { c with cached_value_ := none })).modify d
            (fun c => { c with cached_value_ := some v })).find d).isSome = true := by
          rw [hs02.2 d, hc]
          rfl
        obtain ⟨s3, hgo, hs23⟩ := ih _ d hdesc2 hch2 hp2
        obtain ⟨s', hfe, hs3'⟩ := ihL s3 (hs02.sameTrans hs23)
          (fun d' hd' => hL d' (List.mem_cons_of_mem _ hd'))
        refine ⟨s', ?_, (hs12.sameTrans hs23).sameTrans hs3'⟩
        rw [forEach_cons, GetCell_valid s1 d hvalid, hc1]
        simp only
        rw [hrec, bind_ok, hgo, bind_ok]
        exact hfe
    obtain ⟨s', hfe, hs'⟩ := key self.cells_dependent_ s (Sheet.Same.sameRefl s)
      (fun d hd => ⟨self, hself, hd⟩)
    refine ⟨s', ?_, hs'⟩
    simp only [Cell.UpdateDependentCache.go, hself]
    exact hfe

/-! ## `ClearCell` twice -/

theorem Sheet.Inv.dependentIff {lib : FormulaLib A D} {s : Sheet A D} (h : s.Inv lib)
    (x d : Position) : s.Dependent x d ↔ s.Requires d x := by
  constructor
  · rintro ⟨c, hc, hd⟩
    exact h.sym2 x c d hc hd
  · rintro ⟨c, hc, hx⟩
    exact h.sym1 d c x hc hx

theorem Sheet.Inv.dependent_acyclic {lib : FormulaLib A D} {s : Sheet A D} (h : s.Inv lib)
    (a : Position) : ¬ Relation.TransGen s.Dependent a a := by
  have : s.Dependent = Function.swap s.Requires := by
    funext x d
    exact propext (h.dependentIff x d)
  rw [this, Relation.transGen_swap]
  exact h.acyclic a

/-- In a sheet in order every transitive dependent holds a current value. -/
theorem Sheet.Inv.descCurrent {lib : FormulaLib A D} (hl : lib.Local) {s : Sheet A D}
    (h : s.Inv lib) (p : Position) : s.DescCurrent lib p := by
  intro d hpd
  obtain ⟨x, _, hxd⟩ := Relation.TransGen.tail'_iff.1 hpd
  obtain ⟨c, hc, hxc⟩ := (h.dependentIff x d).1 hxd
  obtain ⟨i, hi, hreq⟩ := h.impl d c hc
  refine ⟨h.valid d c hc, ?_⟩
  cases i with
  | EmptyImpl => exact absurd ((hreq x).1 hxc) (by simp [Impl.GetReferencedCells])
  | TextImpl t => exact absurd ((hreq x).1 hxc) (by simp [Impl.GetReferencedCells])
  | FormulaImpl a =>
    have hcache := h.cache hl d c hc
    simp only [Sheet.CellCached, hi] at hcache
    obtain ⟨v, hev, hcv⟩ := hcache
    refine ⟨c, a, v, hc, hi, ?_, hev, hcv⟩
    intro hself
    have hd' : d ∈ c.cells_required_ := (hreq d).2 ((mem_GetReferencedCells lib a d).2 hself)
    exact h.acyclic d (Relation.TransGen.single ⟨c, hc, hd'⟩)

/-- In a sheet in order no chain of dependents is longer than the number of cells. -/
theorem Sheet.Inv.noChain {lib : FormulaLib A D} {s : Sheet A D} (h : s.Inv lib)
    (p : Position) (hp : (s.find p).isSome = true) :
    ¬ HasChain s.Dependent (s.cells_.length + 1) p := by
  intro hch
  obtain ⟨cp, hcp⟩ := Option.isSome_iff_exists.1 hp
  have := HasChain.bounded (s.cells_.map Prod.fst) h.dependent_acyclic
    (fun a b hab => by
      obtain ⟨c, hc, hb⟩ := hab
      obtain ⟨cb, hcb, _⟩ := h.sym2 a c b hc hb
      exact ⟨find_some_mem_keys s a c hc, find_some_mem_keys s b cb hcb⟩)
    hch (find_some_mem_keys s p cp hcp)
  simp only [List.length_map] at this
  omega

/-- `ClearCell` on an empty cell without outgoing edges that has dependents, in a sheet in
order: it returns and leaves the sheet the same. -/
theorem ClearCell_again {lib : FormulaLib A D} (hl : lib.Local) {s : Sheet A D} (h : s.Inv lib)
    (p : Position) (c : Cell A D) (hc : s.find p = some c)
    (hi : c.impl_ = some Impl.EmptyImpl) (hcache : c.cached_value_ = some (Value.num lib.zero))
    (hreq : c.cells_required_ = []) (hdep : c.cells_dependent_ ≠ []) :
    ∃ s', Sheet.ClearCell lib s p = .ok s' ∧ s.Same s' := by
  have hv := h.valid p c hc
  have hfix1 : (fun c : Cell A D => { c with cells_required_ := [] }) c = c := by
    cases c
    simp only at hreq
    subst hreq
    rfl
  have hfix2 : (fun c : Cell A D =>
      { c with impl_ := some Impl.EmptyImpl, cached_value_ := some (Value.num lib.zero) }) c = c := by
    cases c
    simp only at hi hcache
    subst hi hcache
    rfl
  have hsA : s.Same (s.modify p (fun c => { c with cells_required_ := [] })) :=
    same_modify_fixed s p _ (fun c0 hc0 => by rw [hc] at hc0; cases hc0; exact hfix1)
  have hcA : (s.modify p (fun c => { c with cells_required_ := [] })).find p = some c :=
    (hsA.2 p).trans hc
  have hsB : (s.modify p (fun c => { c with cells_required_ := [] })).Same
      (Cell.SetEmptyImpl lib (s.modify p (fun c => { c with cells_required_ := [] })) p) :=
    same_modify_fixed _ p _ (fun c0 hc0 => by rw [hcA] at hc0; cases hc0; exact hfix2)
  have hsAB := hsA.sameTrans hsB
  have hchain : ¬ HasChain (Cell.SetEmptyImpl lib
      (s.modify p (fun c => { c with cells_required_ := [] })) p).Dependent
      ((Cell.SetEmptyImpl lib (s.modify p (fun c => { c with cells_required_ := [] })) p).cells_.length + 1) p := by
    rw [hsAB.sameDependent]
    have hlen : (Cell.SetEmptyImpl lib
        (s.modify p (fun c => { c with cells_required_ := [] })) p).cells_.length = s.cells_.length := by
      simp [Cell.SetEmptyImpl, length_modify]
    rw [hlen]
    exact h.noChain p (by simp [hc])
  obtain ⟨sC, hgo, hsBC⟩ := UpdateDependentCache_go_fixed lib hl _ _ p
    ((h.descCurrent hl p).same hsAB) hchain (by rw [hsAB.2 p, hc]; rfl)
  have hsC := hsAB.sameTrans hsBC
  have href : c.IsReferenced = true := by
    unfold Cell.IsReferenced
    cases hl' : c.cells_dependent_ with
    | nil => exact absurd hl' hdep
    | cons x l => rfl
  have hupd : ∀ nested, Cell.UpdateDependencies lib nested s p [] =
      .ok (s.modify p (fun c => { c with cells_required_ := [] })) := by
    intro nested
    simp only [Cell.UpdateDependencies, hc, hreq, forEach_nil, bind_ok]
  have hclear : ∀ nested, Cell.Clear lib nested s p = .ok sC := by
    intro nested
    simp only [Cell.Clear, hc, hi, Option.isNone_some, Bool.false_eq_true, if_false, hupd, bind_ok,
      hcA, href, if_true]
    exact hgo
  refine ⟨sC, ?_, hsC⟩
  simp only [Sheet.ClearCell, Sheet.depth, Sheet.call, Sheet.ClearCell.body,
    CheckGetPosition_valid s p hv, hc, Option.isSome_some, hclear, bind_ok, (hsC.2 p).trans hc,
    href, Bool.not_true, Bool.false_eq_true, if_false]

/-- C19: on a reachable sheet and for a valid position, after a `ClearCell(p)` that returns a
second `ClearCell(p)` returns too and leaves the sheet as the first one left it: the same cell
(body, cached value and edge sets) at every position and the same printable size; and
`ClearCell` on a position that holds no cell returns the sheet unchanged. -/
theorem ClearCell_twice {lib : FormulaLib A D} (hpv : lib.ParsesValid) (hl : lib.Local)
    {s : Sheet A D} (hr : Sheet.Reachable lib s) (p : Position) (hv : p.IsValid = true) :
    (∀ s', Sheet.ClearCell lib s p = .ok s' →
      ∃ s'', Sheet.ClearCell lib s' p = .ok s'' ∧
        s''.GetPrintableSize = s'.GetPrintableSize ∧ ∀ q, s''.find q = s'.find q) ∧
    (s.find p = none → Sheet.ClearCell lib s p = .ok s) := by
  have h := Reachable.inv hpv hr
  refine ⟨?_, ClearCell_absent lib s p hv⟩
  intro s' hclear
  cases hcp : s.find p with
  | none =>
    rw [ClearCell_absent lib s p hv hcp] at hclear
    cases hclear
    exact ⟨s, ClearCell_absent lib s p hv hcp, rfl, fun _ => rfl⟩
  | some cp =>
    rcases ClearCell_present h p cp hcp with ⟨s1, h1, hinv, hcase⟩ | ⟨s1, h1⟩
    swap
    · rw [h1] at hclear
      cases hclear
    rw [h1] at hclear
    cases hclear
    rcases hcase with ⟨_, hnone⟩ | ⟨hne, c', hc', hi, hcache, hreq, hd⟩
    · exact ⟨s', ClearCell_absent lib s' p hv hnone, rfl, fun _ => rfl⟩
    · obtain ⟨s'', h2, hsame⟩ := ClearCell_again hl hinv p c' hc' hi hcache hreq (hd ▸ hne)
      exact ⟨s'', h2, hsame.1, hsame.2⟩

/-- C19, witness: `ClearCell(A1)` twice on the sheet `A1 = "2"`, `A2 = "=A1+1"`. -/
theorem ClearCell_twice_witness :
    Demo.lib.ParsesValid ∧ Demo.lib.Local ∧ Sheet.Reachable Demo.lib Demo.sheet3 ∧
    Demo.A1.IsValid = true ∧
    Sheet.ClearCell Demo.lib (Sheet.ClearCell Demo.lib Demo.sheet3 Demo.A1).state Demo.A1
      = .ok (Sheet.ClearCell Demo.lib Demo.sheet3 Demo.A1).state ∧
    ((∀ s', Sheet.ClearCell Demo.lib Demo.sheet3 Demo.A1 = .ok s' →
      ∃ s'', Sheet.ClearCell Demo.lib s' Demo.A1 = .ok s'' ∧
        s''.GetPrintableSize = s'.GetPrintableSize ∧ ∀ q, s''.find q = s'.find q) ∧
    (Demo.sheet3.find Demo.A1 = none → Sheet.ClearCell Demo.lib Demo.sheet3 Demo.A1 = .ok Demo.sheet3)) :=
  ⟨Demo.lib_parsesValid, Demo.lib_local, Demo.reachable_sheet3, by decide, by decide,
    ClearCell_twice Demo.lib_parsesValid Demo.lib_local Demo.reachable_sheet3 Demo.A1 (by decide)⟩

/-! ## What a call does to the cells at other positions -/

theorem GetText_congr (lib : FormulaLib A D) {c c' : Cell A D} (h : c'.impl_ = c.impl_) :
    c'.GetText lib = c.GetText lib := by
  simp only [Cell.GetText, h]

theorem CellStep.stepRefl (lib : FormulaLib A D) (o : Option (Cell A D)) : CellStep lib o o := by
  cases o with
  | none => exact trivial
  | some c => exact ⟨Or.inl rfl, fun h => h, fun h1 h2 => ⟨h1, h2⟩⟩

theorem CellStep.stepTrans {lib : FormulaLib A D} {o1 o2 o3 : Option (Cell A D)}
    (h1 : CellStep lib o1 o2) (h2 : CellStep lib o2 o3) : CellStep lib o1 o3 := by
  cases o1 with
  | none =>
    cases o2 with
    | none => exact h2
    | some c2 =>
      cases o3 with
      | none => exact trivial
      | some c3 =>
        obtain ⟨hi2, hd2, hc2⟩ := h1
        obtain ⟨hi, hc, hdef⟩ := h2
        have hi3 : c3.impl_ = some Impl.EmptyImpl := by
          rcases hi with h | ⟨_, h⟩
          · exact h.trans hi2
          · exact h
        exact ⟨hi3, fun hd3 => hd2 (hdef hi3 hd3).2, fun hc3 => hc2 (hc hc3)⟩
  | some c1 =>
    cases o2 with
    | none =>
      cases o3 with
      | none => exact h1
      | some c3 =>
        obtain ⟨hi3, hd3, hc3⟩ := h2
        exact ⟨Or.inr ⟨h1, hi3⟩, fun h => absurd h hc3, fun _ h => absurd h hd3⟩
    | some c2 =>
      obtain ⟨hi12, hc12, hdef12⟩ := h1
      have ht1 : c2.GetText lib = some "" → c1.GetText lib = some "" := by
        intro ht2
        rcases hi12 with h | ⟨h, _⟩
        · rw [← GetText_congr lib h]; exact ht2
        · exact h
      cases o3 with
      | none => exact ht1 h2
      | some c3 =>
        obtain ⟨hi23, hc23, hdef23⟩ := h2
        refine ⟨?_, fun h => hc12 (hc23 h), ?_⟩
        · rcases hi23 with h | ⟨ht2, h⟩
          · rcases hi12 with h' | ⟨ht, h'⟩
            · exact Or.inl (h.trans h')
            · exact Or.inr ⟨ht, h.trans h'⟩
          · exact Or.inr ⟨ht1 ht2, h⟩
        · intro hi3 hd3
          obtain ⟨hi2, hd2⟩ := hdef23 hi3 hd3
          exact hdef12 hi2 hd2

/-- A cell that keeps its body and its dependents and whose cache is not emptied took an
allowed step. -/
theorem CellStep.of_fields (lib : FormulaLib A D) {c c' : Cell A D} (hi : c'.impl_ = c.impl_)
    (hc : c'.cached_value_ = none → c.cached_value_ = none)
    (hd : c'.cells_dependent_ = c.cells_dependent_) : CellStep lib (some c) (some c') :=
  ⟨Or.inl hi, hc, fun h1 h2 => ⟨hi ▸ h1, hd ▸ h2⟩⟩

theorem Sheet.Steps.stepsRefl (lib : FormulaLib A D) (s : Sheet A D) : s.Steps lib s :=
  fun q => CellStep.stepRefl lib (s.find q)

theorem Sheet.Steps.stepsTrans {lib : FormulaLib A D} {s1 s2 s3 : Sheet A D} (h1 : s1.Steps lib s2)
    (h2 : s2.Steps lib s3) : s1.Steps lib s3 :=
  fun q => (h1 q).stepTrans (h2 q)

theorem Sheet.Steps.of_find {lib : FormulaLib A D} {s s' : Sheet A D}
    (h : ∀ q, s'.find q = s.find q) : s.Steps lib s' := by
  intro q
  rw [h q]
  exact CellStep.stepRefl lib _

/-- An in-place mutation that keeps the body and the dependents and does not empty the cache
is an allowed step of every cell. -/
theorem steps_modify (lib : FormulaLib A D) (s : Sheet A D) (p : Position)
    (f : Cell A D → Cell A D) (hi : ∀ c, (f c).impl_ = c.impl_)
    (hc : ∀ c, (f c).cached_value_ = none → c.cached_value_ = none)
    (hd : ∀ c, (f c).cells_dependent_ = c.cells_dependent_) : s.Steps lib (s.modify p f) := by
  intro q
  rw [find_modify]
  by_cases hq : q = p
  · subst hq
    simp only [if_true]
    cases hf : s.find q with
    | none => exact trivial
    | some c => exact CellStep.of_fields lib (hi c) (hc c) (hd c)
  · simp only [hq, if_false]
    exact CellStep.stepRefl lib _

theorem bind_eq_ok {σ : Type} {o : Outcome σ} {f : σ → Outcome σ} {s' : σ}
    (h : o.bind f = .ok s') : ∃ s1, o = .ok s1 ∧ f s1 = .ok s' := by
  cases o with
  | ok s1 => exact ⟨s1, rfl, h⟩
  | raise e s1 => cases h

/-- A loop whose body keeps a reflexive and transitive relation keeps it. -/
theorem forEach_rel {σ α : Type} (R : σ → σ → Prop) (hrefl : ∀ s, R s s)
    (htrans : ∀ s1 s2 s3, R s1 s2 → R s2 s3 → R s1 s3) (f : σ → α → Outcome σ)
    (hf : ∀ s x s', f s x = .ok s' → R s s') :
    ∀ (L : List α) (s s' : σ), Outcome.forEach f L s = .ok s' → R s s' := by
  intro L
  induction L with
  | nil =>
    intro s s' h
    cases h
    exact hrefl s
  | cons x L ih =>
    intro s s' h
    rw [forEach_cons] at h
    obtain ⟨s1, h1, h2⟩ := bind_eq_ok h
    exact htrans s s1 s' (hf s x s1 h1) (ih s1 s' h2)

/-- `Cell::RecalculateCurrentCache`, when it returns, changed the cache of one cell and left
it filled. -/
theorem RecalculateCurrentCache_steps (lib : FormulaLib A D) (s : Sheet A D) (d : Position)
    (s' : Sheet A D) (h : Cell.RecalculateCurrentCache lib s d = .ok s') : s.Steps lib s' := by
  unfold Cell.RecalculateCurrentCache at h
  simp only at h
  split at h
  · cases h
  · split at h
    · cases h
    · split at h
      · cases h
      · rename_i value _
        cases h
        intro q
        simp only [find_modify]
        by_cases hq : q = d
        · subst hq
          simp only [if_true]
          cases hf : s.find q with
          | none => exact trivial
          | some c => exact CellStep.of_fields lib rfl (fun hn => by simp at hn) rfl
        · simp only [hq, if_false]
          exact CellStep.stepRefl lib _

/-- `Cell::UpdateDependentCache`, when it returns, changed caches only and emptied none. -/
theorem UpdateDependentCache_go_steps (lib : FormulaLib A D) :
    ∀ (n : Nat) (s : Sheet A D) (p : Position) (s' : Sheet A D),
      Cell.UpdateDependentCache.go lib n s p = .ok s' → s.Steps lib s' := by
  intro n
  induction n with
  | zero =>
    intro s p s' h
    cases h
  | succ n ih =>
    intro s p s' h
    simp only [Cell.UpdateDependentCache.go] at h
    split at h
    · cases h
    · refine forEach_rel (Sheet.Steps lib) (Sheet.Steps.stepsRefl lib)
        (fun _ _ _ h1 h2 => h1.stepsTrans h2) _ ?_ _ s s' h
      intro s1 x s2 hx
      simp only at hx
      split at hx
      · cases hx
      · cases hx
      · obtain ⟨s3, h3, h4⟩ := bind_eq_ok hx
        exact (RecalculateCurrentCache_steps lib s1 x s3 h3).stepsTrans (ih s3 x s2 h4)

theorem GetCell_ok (s : Sheet A D) (q : Position) (o : Option (Cell A D))
    (h : s.GetCell q = .ok o) : s.find q = o := by
  unfold Sheet.GetCell Sheet.CheckGetPosition at h
  cases hc : Sheet.CheckSetPosition q with
  | error e => simp [hc] at h
  | ok u =>
    simp only [hc] at h
    cases hf : s.find q with
    | none =>
      simp only [hf, Option.isSome_none] at h
      cases h
      rfl
    | some c =>
      simp only [hf, Option.isSome_some] at h
      cases h
      rfl

theorem find_modify_ne (s : Sheet A D) (p q : Position) (f : Cell A D → Cell A D) (h : q ≠ p) :
    (s.modify p f).find q = s.find q := by
  simp [find_modify, h]

theorem GetText_empty_impl (lib : FormulaLib A D) (c : Cell A D)
    (h : c.impl_ = some Impl.EmptyImpl) : c.GetText lib = some "" := by
  simp [Cell.GetText, h, Impl.GetText]

/-- One round of the first loop of `Cell::UpdateDependencies`, when it returns: every cell took
an allowed step. -/
theorem clearOld_steps (lib : FormulaLib A D) (nested : Sheet A D → Call → Outcome (Sheet A D))
    (hn : Framed lib nested) (pos_ : Position) (s : Sheet A D) (old_ref : Position)
    (s' : Sheet A D) (h : Cell.UpdateDependencies.clearOld lib nested s pos_ old_ref = .ok s') :
    s.Steps lib s' := by
  unfold Cell.UpdateDependencies.clearOld at h
  split at h
  · cases h
  · cases h
  · simp only at h
    split at h
    · cases h
    · rename_i cell_cast hcast
      obtain ⟨c, hc, hcc⟩ := find_modify_some hcast
      simp only [if_true] at hcc
      have himpl : cell_cast.impl_ = c.impl_ := by rw [hcc]
      have hcache : cell_cast.cached_value_ = c.cached_value_ := by rw [hcc]
      have hother : ∀ q, q ≠ old_ref →
          (s.modify old_ref (fun c => { c with cells_dependent_ := setErase pos_ c.cells_dependent_ })).find q
            = s.find q := by
        intro q hq
        simp [find_modify, hq]
      have hstay : (cell_cast.impl_ = some Impl.EmptyImpl → cell_cast.cells_dependent_ = [] → False) →
          s.Steps lib (s.modify old_ref
            (fun c => { c with cells_dependent_ := setErase pos_ c.cells_dependent_ })) := by
        intro hno q
        by_cases hq : q = old_ref
        · subst hq
          rw [hc, hcast]
          exact ⟨Or.inl himpl, fun hnone => hcache ▸ hnone, fun h1 h2 => absurd h2 (hno h1)⟩
        · rw [hother q hq]
          exact CellStep.stepRefl lib _
      split at h
      · rename_i hdeps
        split at h
        · cases h
        · rename_i text htext
          split at h
          · rename_i hempty
            have ht : text = "" := (isEmpty_eq_true_iff text).1 hempty
            subst ht
            obtain ⟨hoff, hat, _⟩ := hn _ _ _ h
            intro q
            by_cases hq : q = old_ref
            · subst hq
              rw [hc]
              have htc : c.GetText lib = some "" := by
                rw [← GetText_congr lib himpl]; exact htext
              rcases hat q rfl with hnone | ⟨c'', hc'', hi'', hd'', hcv''⟩
              · rw [hnone]
                exact htc
              · rw [hc'']
                exact ⟨Or.inr ⟨htc, hi''⟩, fun hh => absurd hh hcv'', fun _ hh => absurd hh hd''⟩
            · have := hoff q hq
              rw [hother q hq] at this
              exact this
          · rename_i hnonempty
            cases h
            apply hstay
            intro hi _
            rw [GetText_empty_impl lib cell_cast hi] at htext
            cases htext
            exact hnonempty rfl
      · rename_i hdeps
        cases h
        apply hstay
        intro _ hd
        apply hdeps
        rw [hd]
        rfl

theorem setInsert_ne_nil (p : Position) (l : List Position) : setInsert p l ≠ [] := by
  intro h
  have := (mem_setInsert p p l).2 (Or.inr rfl)
  rw [h] at this
  cases this

/-- One round of the second loop of `Cell::UpdateDependencies`, when it returns: every cell
took an allowed step. -/
theorem addNew_steps (lib : FormulaLib A D) (nested : Sheet A D → Call → Outcome (Sheet A D))
    (hn : Framed lib nested) (pos_ : Position) (s : Sheet A D) (new_ref : Position)
    (s' : Sheet A D) (h : Cell.UpdateDependencies.addNew nested s pos_ new_ref = .ok s') :
    s.Steps lib s' := by
  unfold Cell.UpdateDependencies.addNew at h
  split at h
  swap
  · cases h
  simp only at h
  have h01 : s.Steps lib (s.modify pos_
      (fun c => { c with cells_required_ := setInsert new_ref c.cells_required_ })) :=
    steps_modify lib s pos_ _ (fun _ => rfl) (fun _ hh => hh) (fun _ => rfl)
  split at h
  · cases h
  · rename_i c1 hget
    cases h
    have hc1 := GetCell_ok _ _ _ hget
    refine h01.stepsTrans ?_
    intro q
    by_cases hq : q = new_ref
    · subst hq
      rw [hc1, find_modify_of_some _ hc1, if_pos rfl]
      exact ⟨Or.inl rfl, fun hh => hh, fun _ hh => absurd hh (setInsert_ne_nil _ _)⟩
    · rw [find_modify_ne _ _ _ _ hq]
      exact CellStep.stepRefl lib _
  · rename_i hget
    have hc1 := GetCell_ok _ _ _ hget
    obtain ⟨s2, hset, h2⟩ := bind_eq_ok h
    obtain ⟨hoff, _, hat⟩ := hn _ _ _ hset
    refine h01.stepsTrans ?_
    split at h2
    · cases h2
    · rename_i c2 hget2
      cases h2
      have hc2 := GetCell_ok _ _ _ hget2
      obtain ⟨hi2, hcv2⟩ := hat new_ref rfl c2 hc2
      intro q
      by_cases hq : q = new_ref
      · subst hq
        rw [hc1, find_modify_of_some _ hc2, if_pos rfl]
        exact ⟨hi2, setInsert_ne_nil _ _, hcv2⟩
      · rw [find_modify_ne _ _ _ _ hq]
        exact hoff q hq
    · rename_i hget2
      cases h2
      have hc2 := GetCell_ok _ _ _ hget2
      intro q
      by_cases hq : q = new_ref
      · subst hq
        rw [hc1, hc2]
        exact trivial
      · exact hoff q hq

/-- `Cell::UpdateDependencies`, when it returns: every cell took an allowed step. -/
theorem UpdateDependencies_steps (lib : FormulaLib A D)
    (nested : Sheet A D → Call → Outcome (Sheet A D)) (hn : Framed lib nested) (s : Sheet A D)
    (pos_ : Position) (new_refs : List Position) (s' : Sheet A D)
    (h : Cell.UpdateDependencies lib nested s pos_ new_refs = .ok s') : s.Steps lib s' := by
  unfold Cell.UpdateDependencies at h
  split at h
  · cases h
  · obtain ⟨s2, h1, h2⟩ := bind_eq_ok h
    have h12 := forEach_rel (Sheet.Steps lib) (Sheet.Steps.stepsRefl lib)
      (fun _ _ _ a b => a.stepsTrans b) _ (clearOld_steps lib nested hn pos_) _ _ _ h1
    have h23 : s2.Steps lib (s2.modify pos_ (fun c => { c with cells_required_ := [] })) :=
      steps_modify lib s2 pos_ _ (fun _ => rfl) (fun _ hh => hh) (fun _ => rfl)
    have h34 := forEach_rel (Sheet.Steps lib) (Sheet.Steps.stepsRefl lib)
      (fun _ _ _ a b => a.stepsTrans b) _ (addNew_steps lib nested hn pos_) _ _ _ h2
    exact (h12.stepsTrans h23).stepsTrans h34

theorem find_SetEmptyImpl_ne (lib : FormulaLib A D) (s : Sheet A D) (p q : Position) (h : q ≠ p) :
    (Cell.SetEmptyImpl lib s p).find q = s.find q :=
  find_modify_ne s p q _ h

/-- After `SetEmptyImpl` and a cache update that returns, a cell at the position is empty and
has a cached value. -/
theorem empty_after_update (lib : FormulaLib A D) (s1 s' : Sheet A D) (pos_ : Position)
    (h : Cell.UpdateDependentCache lib (Cell.SetEmptyImpl lib s1 pos_) pos_ = .ok s') :
    (Cell.SetEmptyImpl lib s1 pos_).Steps lib s' ∧
    ∀ c', s'.find pos_ = some c' → c'.impl_ = some Impl.EmptyImpl ∧ c'.cached_value_ ≠ none := by
  have hsteps := UpdateDependentCache_go_steps lib _ _ _ _ h
  refine ⟨hsteps, ?_⟩
  intro c' hc'
  have hq := hsteps pos_
  rw [hc'] at hq
  cases hf : s1.find pos_ with
  | none =>
    have : (Cell.SetEmptyImpl lib s1 pos_).find pos_ = none := by
      simp [Cell.SetEmptyImpl, find_modify, hf]
    rw [this] at hq
    exact ⟨hq.1, hq.2.2⟩
  | some c1 =>
    have : (Cell.SetEmptyImpl lib s1 pos_).find pos_ = some
        { c1 with impl_ := some Impl.EmptyImpl, cached_value_ := some (Value.num lib.zero) } := by
      simp [Cell.SetEmptyImpl, find_modify, hf]
    rw [this] at hq
    obtain ⟨hi, hcv, _⟩ := hq
    refine ⟨?_, fun hn => by simpa using hcv hn⟩
    rcases hi with hi | ⟨_, hi⟩
    · exact hi
    · exact hi

/-- `Cell::Clear`, when it returns: the cells at other positions took an allowed step, and a
cell left at the position with dependents is empty and has a cached value. -/
theorem Clear_frame (lib : FormulaLib A D) (nested : Sheet A D → Call → Outcome (Sheet A D))
    (hn : Framed lib nested) (s : Sheet A D) (pos_ : Position) (s' : Sheet A D)
    (h : Cell.Clear lib nested s pos_ = .ok s') :
    (∀ q, q ≠ pos_ → CellStep lib (s.find q) (s'.find q)) ∧
    (∀ c', s'.find pos_ = some c' → c'.cells_dependent_ ≠ [] →
      c'.impl_ = some Impl.EmptyImpl ∧ c'.cached_value_ ≠ none) := by
  unfold Cell.Clear at h
  split at h
  · cases h
  · split at h
    · cases h
    · obtain ⟨s1, h1, h2⟩ := bind_eq_ok h
      have h01 := UpdateDependencies_steps lib nested hn _ _ _ _ h1
      split at h2
      · cases h2
      · rename_i self1 hself1
        split at h2
        · obtain ⟨hsteps, hat⟩ := empty_after_update lib s1 s' pos_ h2
          refine ⟨?_, fun c' hc' _ => hat c' hc'⟩
          intro q hq
          have := hsteps q
          rw [find_SetEmptyImpl_ne lib s1 pos_ q hq] at this
          exact (h01 q).stepTrans this
        · rename_i href
          cases h2
          refine ⟨?_, ?_⟩
          · intro q hq
            rw [find_modify_ne _ _ _ _ hq]
            exact h01 q
          · intro c' hc' hdep
            rw [find_modify_of_some _ hself1, if_pos rfl] at hc'
            cases hc'
            exfalso
            apply href
            unfold Cell.IsReferenced
            cases hl : self1.cells_dependent_ with
            | nil => exact absurd hl hdep
            | cons x l => rfl

theorem TryConvertTextDouble_steps (lib : FormulaLib A D) (s : Sheet A D) (pos_ : Position)
    (text : String) (s' : Sheet A D) (h : Cell.TryConvertTextDouble lib s pos_ text = .ok s') :
    s.Steps lib s' := by
  have hcache : ∀ s', Cell.CacheImplValue lib s pos_ = .ok s' → s.Steps lib s' := by
    intro s' h
    unfold Cell.CacheImplValue at h
    split at h
    · cases h
    · split at h
      · cases h
      · split at h
        · cases h
        · cases h
          exact steps_modify lib s pos_ _ (fun _ => rfl) (fun _ hh => by simp at hh) (fun _ => rfl)
  unfold Cell.TryConvertTextDouble at h
  split at h
  · split at h
    · cases h
      exact steps_modify lib s pos_ _ (fun _ => rfl) (fun _ hh => by simp at hh) (fun _ => rfl)
    · exact hcache s' h
  · exact hcache s' h

/-- `Cell::Set`, when it returns: the cells at other positions took an allowed step, and after
the empty text a cell at the position is empty and has a cached value. -/
theorem Set_frame (lib : FormulaLib A D) (nested : Sheet A D → Call → Outcome (Sheet A D))
    (hn : Framed lib nested) (s : Sheet A D) (pos_ : Position) (text : String) (s' : Sheet A D)
    (h : Cell.Set lib nested s pos_ text = .ok s') :
    (∀ q, q ≠ pos_ → CellStep lib (s.find q) (s'.find q)) ∧
    (text = "" → ∀ c', s'.find pos_ = some c' →
      c'.impl_ = some Impl.EmptyImpl ∧ c'.cached_value_ ≠ none) := by
  unfold Cell.Set at h
  split at h
  · obtain ⟨s2, h12, h3⟩ := bind_eq_ok h
    obtain ⟨s1, h1, h2⟩ := bind_eq_ok h12
    cases h2
    obtain ⟨hoff, _⟩ := Clear_frame lib nested hn _ _ _ h1
    obtain ⟨hsteps, hat⟩ := empty_after_update lib s1 s' pos_ h3
    refine ⟨?_, fun _ => hat⟩
    intro q hq
    have := hsteps q
    rw [find_SetEmptyImpl_ne lib s1 pos_ q hq] at this
    exact (hoff q hq).stepTrans this
  · rename_i hne
    have hsecond : text = "" → ∀ c', s'.find pos_ = some c' →
        c'.impl_ = some Impl.EmptyImpl ∧ c'.cached_value_ ≠ none := by
      intro ht
      exact absurd ((isEmpty_eq_true_iff text).2 ht) hne
    refine ⟨?_, hsecond⟩
    split at h
    · split at h
      · cases h
      · simp only at h
        split at h
        · cases h
        · cases h
        · obtain ⟨s4, h1234, h5⟩ := bind_eq_ok h
          obtain ⟨s3, h123, h4⟩ := bind_eq_ok h1234
          obtain ⟨s2, h12, h3⟩ := bind_eq_ok h123
          obtain ⟨s1, h1, h2⟩ := bind_eq_ok h12
          cases h2
          obtain ⟨hoff, _⟩ := Clear_frame lib nested hn _ _ _ h1
          have h23 := UpdateDependencies_steps lib nested hn _ _ _ _ h3
          have h34 := RecalculateCurrentCache_steps lib _ _ _ h4
          have h45 := UpdateDependentCache_go_steps lib _ _ _ _ h5
          intro q hq
          have := ((h23.stepsTrans h34).stepsTrans h45) q
          rw [find_modify_ne _ _ _ _ hq] at this
          exact (hoff q hq).stepTrans this
    · obtain ⟨s3, h123, h4⟩ := bind_eq_ok h
      obtain ⟨s2, h12, h3⟩ := bind_eq_ok h123
      obtain ⟨s1, h1, h2⟩ := bind_eq_ok h12
      cases h2
      obtain ⟨hoff, _⟩ := Clear_frame lib nested hn _ _ _ h1
      have h23 := TryConvertTextDouble_steps lib _ _ _ _ h3
      have h34 := UpdateDependentCache_go_steps lib _ _ _ _ h4
      intro q hq
      have := (h23.stepsTrans h34) q
      rw [find_modify_ne _ _ _ _ hq] at this
      exact (hoff q hq).stepTrans this

/-- `Sheet::SetCell`, when it returns, with the nested calls framed. -/
theorem SetCell_body_frame (lib : FormulaLib A D) (nested : Sheet A D → Call → Outcome (Sheet A D))
    (hn : Framed lib nested) (s : Sheet A D) (pos : Position) (text : String) (s' : Sheet A D)
    (h : Sheet.SetCell.body lib nested s pos text = .ok s') :
    (∀ q, q ≠ pos → CellStep lib (s.find q) (s'.find q)) ∧
    (text = "" → ∀ c', s'.find pos = some c' →
      c'.impl_ = some Impl.EmptyImpl ∧ c'.cached_value_ ≠ none) := by
  unfold Sheet.SetCell.body at h
  split at h
  · cases h
  · simp only at h
    obtain ⟨hoff, hat⟩ := Set_frame lib nested hn _ _ _ _ h
    refine ⟨?_, hat⟩
    intro q hq
    have := hoff q hq
    have hfind : (if ((s.UpdateSize pos).find pos).isNone = true
        then (s.UpdateSize pos).emplace pos Cell.new else s.UpdateSize pos).find q = s.find q := by
      split
      · rename_i hnone
        rw [find_emplace _ _ _ _ (by simpa using hnone), if_neg hq, find_UpdateSize]
      · rw [find_UpdateSize]
    rw [hfind] at this
    exact this

/-- `Sheet::ClearCell`, when it returns, with the nested calls framed. -/
theorem ClearCell_body_frame (lib : FormulaLib A D)
    (nested : Sheet A D → Call → Outcome (Sheet A D)) (hn : Framed lib nested) (s : Sheet A D)
    (pos : Position) (s' : Sheet A D) (h : Sheet.ClearCell.body lib nested s pos = .ok s') :
    (∀ q, q ≠ pos → CellStep lib (s.find q) (s'.find q)) ∧
    (s'.find pos = none ∨ ∃ c', s'.find pos = some c' ∧ c'.impl_ = some Impl.EmptyImpl ∧
      c'.cells_dependent_ ≠ [] ∧ c'.cached_value_ ≠ none) := by
  unfold Sheet.ClearCell.body at h
  split at h
  · cases h
  · rename_i hcheck
    cases h
    refine ⟨fun q _ => CellStep.stepRefl lib _, Or.inl ?_⟩
    unfold Sheet.CheckGetPosition at hcheck
    split at hcheck
    · cases hcheck
    · cases hf : s.find pos with
      | none => rfl
      | some c => simp [hf] at hcheck
  · obtain ⟨s1, h1, h2⟩ := bind_eq_ok h
    obtain ⟨hoff, hat⟩ := Clear_frame lib nested hn _ _ _ h1
    split at h2
    · cases h2
    · rename_i cell hcell
      split at h2
      · simp only at h2
        split at h2
        · cases h2
          refine ⟨?_, Or.inl ?_⟩
          · intro q hq
            rw [find_RecalculateSize, find_erase, if_neg hq]
            exact hoff q hq
          · rw [find_RecalculateSize, find_erase, if_pos rfl]
        · cases h2
          refine ⟨?_, Or.inl ?_⟩
          · intro q hq
            rw [find_erase, if_neg hq]
            exact hoff q hq
          · rw [find_erase, if_pos rfl]
      · rename_i href
        cases h2
        refine ⟨hoff, Or.inr ⟨cell, hcell, ?_⟩⟩
        have hdep : cell.cells_dependent_ ≠ [] := by
          intro hd
          apply href
          simp [Cell.IsReferenced, hd]
        obtain ⟨hi, hcv⟩ := hat cell hcell hdep
        exact ⟨hi, hdep, hcv⟩

/-- Every call into the sheet is framed, whatever the depth granted. -/
theorem call_framed (lib : FormulaLib A D) : ∀ n, Framed lib (Sheet.call lib n) := by
  intro n
  induction n with
  | zero =>
    intro s c s' h
    cases c <;> cases h
  | succ n ih =>
    intro s c s' h
    cases c with
    | set pos text =>
      obtain ⟨hoff, hat⟩ := SetCell_body_frame lib _ ih s pos text s' h
      refine ⟨hoff, fun pos' hc => (by cases hc), ?_⟩
      intro pos' hc
      cases hc
      exact hat rfl
    | clear pos =>
      obtain ⟨hoff, hat⟩ := ClearCell_body_frame lib _ ih s pos s' h
      refine ⟨hoff, ?_, fun pos' hc => (by cases hc)⟩
      intro pos' hc
      cases hc
      exact hat

/-! ## Cells that are empty and unreferenced -/

theorem SetCell_frame (lib : FormulaLib A D) (s : Sheet A D) (pos : Position) (text : String)
    (s' : Sheet A D) (h : Sheet.SetCell lib s pos text = .ok s') :
    ∀ q, q ≠ pos → CellStep lib (s.find q) (s'.find q) :=
  (call_framed lib s.depth s (Call.set pos text) s' h).1

theorem ClearCell_frame (lib : FormulaLib A D) (s : Sheet A D) (pos : Position)
    (s' : Sheet A D) (h : Sheet.ClearCell lib s pos = .ok s') :
    (∀ q, q ≠ pos → CellStep lib (s.find q) (s'.find q)) ∧
    (s'.find pos = none ∨ ∃ c', s'.find pos = some c' ∧ c'.impl_ = some Impl.EmptyImpl ∧
      c'.cells_dependent_ ≠ [] ∧ c'.cached_value_ ≠ none) :=
  ⟨(call_framed lib s.depth s (Call.clear pos) s' h).1,
    (call_framed lib s.depth s (Call.clear pos) s' h).2.1 pos rfl⟩

/-- A cell that is default after an allowed step was default before. -/
theorem CellStep.default {lib : FormulaLib A D} {s s' : Sheet A D} {q : Position}
    (h : CellStep lib (s.find q) (s'.find q)) (hd : s'.Default q) : s.Default q := by
  obtain ⟨c', hc', hi, hdep⟩ := hd
  rw [hc'] at h
  cases hf : s.find q with
  | none =>
    rw [hf] at h
    exact absurd hdep h.2.1
  | some c =>
    rw [hf] at h
    obtain ⟨h1, h2⟩ := h.2.2 hi hdep
    exact ⟨c, hf, h1, h2⟩

theorem Sheet.ReachableNonEmpty.reachable {lib : FormulaLib A D} {s : Sheet A D}
    (h : Sheet.ReachableNonEmpty lib s) : Sheet.Reachable lib s := by
  induction h with
  | empty => exact Sheet.Reachable.empty
  | setCell s pos text s' _ _ hset ih =>
    have := Sheet.Reachable.setCell s pos text ih (by rw [hset]; rfl)
    rw [hset] at this
    exact this
  | clearCell s pos s' _ hclear ih =>
    have := Sheet.Reachable.clearCell s pos ih (by rw [hclear]; rfl)
    rw [hclear] at this
    exact this

/-- No default cell appears in a run of returning calls without `SetCell` of the empty text. -/
theorem Sheet.ReachableNonEmpty.noDefault {lib : FormulaLib A D} (hpv : lib.ParsesValid)
    {s : Sheet A D} (h : Sheet.ReachableNonEmpty lib s) : ∀ q, ¬ s.Default q := by
  induction h with
  | empty =>
    rintro q ⟨c, hc, _⟩
    rw [find_empty] at hc
    cases hc
  | setCell s pos text s' hr htext hset ih =>
    intro q hd
    by_cases hq : q = pos
    · subst hq
      obtain ⟨_, _, cp, c', _, hc', _, hcase⟩ :=
        SetCell_returns hpv (Reachable.inv hpv hr.reachable) q text s' hset
      obtain ⟨c, hc, hi, _⟩ := hd
      rw [hc'] at hc
      cases hc
      rcases hcase with ⟨h0, _⟩ | ⟨_, _, hi', _⟩ | ⟨_, _, a, _, hi', _⟩
      · exact htext h0
      · rw [hi] at hi'
        cases hi'
      · rw [hi] at hi'
        cases hi'
    · exact ih q ((SetCell_frame lib s pos text s' hset q hq).default hd)
  | clearCell s pos s' hr hclear ih =>
    intro q hd
    obtain ⟨hoff, hat⟩ := ClearCell_frame lib s pos s' hclear
    by_cases hq : q = pos
    · subst hq
      obtain ⟨c, hc, _, hdep⟩ := hd
      rcases hat with hnone | ⟨c', hc', _, hdep', _⟩
      · rw [hnone] at hc
        cases hc
      · rw [hc'] at hc
        cases hc
        exact hdep' hdep
    · exact ih q ((hoff q hq).default hd)

/-- C11, counterexample: after `SetCell(A1, "")` on the empty sheet, `GetCell(A1)` is a cell
with an empty body and no dependents. -/
theorem empty_unreferenced_cell :
    Sheet.Reachable Demo.lib (Sheet.SetCell Demo.lib Demo.sheet0 Demo.A1 "").state ∧
    ¬ (∀ p c, (Sheet.SetCell Demo.lib Demo.sheet0 Demo.A1 "").state.GetCell p = .ok (some c) →
      c.impl_ ≠ some Impl.EmptyImpl ∨ c.cells_dependent_ ≠ []) := by
  refine ⟨Sheet.Reachable.setCell Demo.sheet0 Demo.A1 "" Sheet.Reachable.empty (by decide), ?_⟩
  intro h
  have hc : (Sheet.SetCell Demo.lib Demo.sheet0 Demo.A1 "").state.GetCell Demo.A1
      = .ok (some (Cell.blank Demo.lib)) := rfl
  rcases h Demo.A1 _ hc with h1 | h1
  · exact h1 rfl
  · exact h1 rfl

/-- C11 (amended): in every sheet reached from the empty sheet by `ClearCell` calls that
return and by `SetCell` calls that return and whose text is not empty, every cell present has
a non-empty body or a non-empty dependents set. -/
theorem nonempty_runs_nondefault {lib : FormulaLib A D} (hpv : lib.ParsesValid) {s : Sheet A D}
    (hr : Sheet.ReachableNonEmpty lib s) (p : Position) (c : Cell A D)
    (hc : s.GetCell p = .ok (some c)) :
    c.impl_ ≠ some Impl.EmptyImpl ∨ c.cells_dependent_ ≠ [] := by
  have hfind := GetCell_ok s p _ hc
  by_cases hi : c.impl_ = some Impl.EmptyImpl
  · right
    intro hd
    exact hr.noDefault hpv p ⟨c, hfind, hi, hd⟩
  · exact Or.inl hi

theorem Demo.nonEmpty_sheet3 : Sheet.ReachableNonEmpty Demo.lib Demo.sheet3 :=
  Sheet.ReachableNonEmpty.setCell Demo.sheet2 Demo.A1 "2" Demo.sheet3
    (Sheet.ReachableNonEmpty.setCell Demo.sheet1 Demo.A2 "=A1+1" Demo.sheet2
      (Sheet.ReachableNonEmpty.setCell Demo.sheet0 Demo.A1 "1" Demo.sheet1
        Sheet.ReachableNonEmpty.empty (by decide) (by decide))
      (by decide) (by decide))
    (by decide) (by decide)

/-- C11 (amended), witness: the cell at `A1` of the sheet `A1 = "2"`, `A2 = "=A1+1"`. -/
theorem nonempty_runs_nondefault_witness :
    Demo.lib.ParsesValid ∧ Sheet.ReachableNonEmpty Demo.lib Demo.sheet3 ∧
    Demo.sheet3.GetCell Demo.A1 = .ok (some Demo.cellA1) ∧
    (Demo.cellA1.impl_ ≠ some Impl.EmptyImpl ∨ Demo.cellA1.cells_dependent_ ≠ []) :=
  ⟨Demo.lib_parsesValid, Demo.nonEmpty_sheet3, rfl,
    nonempty_runs_nondefault Demo.lib_parsesValid Demo.nonEmpty_sheet3 Demo.A1 Demo.cellA1 rfl⟩

/-! ## The texts of text cells -/

/-- The sheet a `SetCell` leaves when it raises an exception: the sheet before, or the sheet
with the cell its first statements create. -/
theorem SetCell_raise_state {lib : FormulaLib A D} (hpv : lib.ParsesValid) {s : Sheet A D}
    (h : s.Inv lib) (p : Position) (t : String) (e : Exn) (s' : Sheet A D)
    (hraise : Sheet.SetCell lib s p t = .raise e s') (hna : e.isAbort = false) :
    s' = s ∨ s' = s.prepared p := by
  cases hv : p.IsValid with
  | false =>
    rw [SetCell_invalid lib s p t hv] at hraise
    cases hraise
    exact Or.inl rfl
  | true =>
    have h' := h.prepared p hv
    obtain ⟨cp, hcp⟩ := Option.isSome_iff_exists.1 (find_prepared_isSome s p)
    rw [SetCell_eq_Set lib s p t hv] at hraise
    cases ht : t.isEmpty with
    | true =>
      have : t = "" := (isEmpty_eq_true_iff t).1 ht
      subst this
      rcases Set_empty_inv h' (s.cells_.length + 1) p cp hcp with
        ⟨s1, c1, hset1, _⟩ | ⟨s1, hset1⟩
      · rw [hset1] at hraise
        cases hraise
      · rw [hset1] at hraise
        cases hraise
        cases hna
    | false =>
      by_cases hf : t.length > 1 ∧ t.front = FORMULA_SIGN
      · cases ha : lib.ParseFormulaAST (t.drop 1) with
        | none =>
          rw [Set_formula_unfold lib _ _ p t ht hf, ha] at hraise
          cases hraise
          exact Or.inr rfl
        | some a =>
          obtain ⟨b, hcirc, hb⟩ := h'.hasCircularDependency hpv p _ a ha
          cases b with
          | true =>
            rw [Set_formula_unfold lib _ _ p t ht hf, ha] at hraise
            simp only [hcirc] at hraise
            cases hraise
            exact Or.inr rfl
          | false =>
            have hno : ¬ ∃ r ∈ Formula.GetReferencedCells lib a,
                Relation.ReflTransGen (s.prepared p).Requires r p := by
              intro hc
              have := hb.2 hc
              cases this
            rcases Set_formula_inv hpv h' (s.cells_.length + 1) p cp hcp t ht hf a ha hno with
              ⟨s1, c1, hset1, _⟩ | ⟨s1, hset1⟩
            · rw [hset1] at hraise
              cases hraise
            · rw [hset1] at hraise
              cases hraise
              cases hna
      · rcases Set_text_inv h' (s.cells_.length + 1) p cp hcp t ht hf with
          ⟨s1, c1, hset1, _⟩ | ⟨s1, hset1⟩
        · rw [hset1] at hraise
          cases hraise
        · rw [hset1] at hraise
          cases hraise
          cases hna

/-- A `ClearCell` that raises an exception leaves the sheet as it was. -/
theorem ClearCell_raise_state {lib : FormulaLib A D} {s : Sheet A D} (h : s.Inv lib)
    (p : Position) (e : Exn) (s' : Sheet A D)
    (hraise : Sheet.ClearCell lib s p = .raise e s') (hna : e.isAbort = false) : s' = s := by
  cases hv : p.IsValid with
  | false =>
    rw [ClearCell_invalid lib s p hv] at hraise
    cases hraise
    rfl
  | true =>
    cases hc : s.find p with
    | none =>
      rw [ClearCell_absent lib s p hv hc] at hraise
      cases hraise
    | some cp =>
      rcases ClearCell_present h p cp hc with ⟨s1, h1, _⟩ | ⟨s1, h1⟩
      · rw [h1] at hraise
        cases hraise
      · rw [h1] at hraise
        cases hraise
        cases hna

theorem Sheet.TextOK.preparedOK {s : Sheet A D} (h : s.TextOK) (hb : s.Boxed) (p : Position) :
    (s.prepared p).TextOK := by
  cases hc : s.find p with
  | some c => rw [prepared_of_some s p hb c hc]; exact h
  | none =>
    intro q c t hq hi
    rw [find_prepared_of_none s p hc] at hq
    by_cases hqp : q = p
    · rw [if_pos hqp] at hq
      cases hq
      cases hi
    · rw [if_neg hqp] at hq
      exact h q c t hq hi

/-- A text cell after an allowed step was the same text cell before. -/
theorem CellStep.textImpl {lib : FormulaLib A D} {o : Option (Cell A D)} {c' : Cell A D}
    {t : String} (h : CellStep lib o (some c')) (hi : c'.impl_ = some (Impl.TextImpl t)) :
    ∃ c, o = some c ∧ c.impl_ = some (Impl.TextImpl t) := by
  cases o with
  | none =>
    rw [h.1] at hi
    cases hi
  | some c =>
    rcases h.1 with h1 | ⟨_, h1⟩
    · exact ⟨c, rfl, h1 ▸ hi⟩
    · rw [h1] at hi
      cases hi

/-- In every reachable sheet a text cell holds a text that is not empty and not recognised as
a formula. -/
theorem Reachable.textOK {lib : FormulaLib A D} (hpv : lib.ParsesValid) {s : Sheet A D}
    (h : Sheet.Reachable lib s) : s.TextOK := by
  induction h with
  | empty =>
    intro q c t hq _
    rw [find_empty] at hq
    cases hq
  | setCell s pos text hr hcont ih =>
    have hinv := Reachable.inv hpv hr
    cases hout : Sheet.SetCell lib s pos text with
    | raise e s' =>
      rw [hout] at hcont
      simp only [Outcome.state]
      have hna : e.isAbort = false := by
        simpa [Outcome.continues] using hcont
      rcases SetCell_raise_state hpv hinv pos text e s' hout hna with h1 | h1
      · rw [h1]; exact ih
      · rw [h1]; exact ih.preparedOK hinv.size pos
    | ok s' =>
      simp only [Outcome.state]
      intro q c t hq hi
      by_cases hqp : q = pos
      · subst hqp
        obtain ⟨_, _, cp, c', _, hc', _, hcase⟩ := SetCell_returns hpv hinv q text s' hout
        rw [hc'] at hq
        cases hq
        rcases hcase with ⟨_, hi', _⟩ | ⟨ht, hnf, hi', _⟩ | ⟨_, _, a, _, hi', _⟩
        · rw [hi] at hi'
          cases hi'
        · rw [hi] at hi'
          cases hi'
          exact ⟨ht, hnf⟩
        · rw [hi] at hi'
          cases hi'
      · have hstep := SetCell_frame lib s pos text s' hout q hqp
        rw [hq] at hstep
        obtain ⟨c0, hc0, hi0⟩ := hstep.textImpl hi
        exact ih q c0 t hc0 hi0
  | clearCell s pos hr hcont ih =>
    have hinv := Reachable.inv hpv hr
    cases hout : Sheet.ClearCell lib s pos with
    | raise e s' =>
      rw [hout] at hcont
      simp only [Outcome.state]
      have hna : e.isAbort = false := by
        simpa [Outcome.continues] using hcont
      rw [ClearCell_raise_state hinv pos e s' hout hna]
      exact ih
    | ok s' =>
      simp only [Outcome.state]
      obtain ⟨hoff, hat⟩ := ClearCell_frame lib s pos s' hout
      intro q c t hq hi
      by_cases hqp : q = pos
      · subst hqp
        rcases hat with hnone | ⟨c', hc', hi', _⟩
        · rw [hnone] at hq
          cases hq
        · rw [hc'] at hq
          cases hq
          rw [hi] at hi'
          cases hi'
      · have hstep := hoff q hqp
        rw [hq] at hstep
        obtain ⟨c0, hc0, hi0⟩ := hstep.textImpl hi
        exact ih q c0 t hc0 hi0

/-! ## A sheet in order is determined by its bodies -/

theorem body_of_find {s : Sheet A D} {q : Position} {c : Cell A D} {i : Impl A}
    (hc : s.find q = some c) (hi : c.impl_ = some i) : s.body q = i := by
  simp [Sheet.body, hc, hi]

theorem body_of_none {s : Sheet A D} {q : Position} (hc : s.find q = none) :
    s.body q = Impl.EmptyImpl := by
  simp [Sheet.body, hc]

/-- In a reachable sheet a cell whose text is empty has the empty body. -/
theorem Sheet.Inv.textEmpty_impl {lib : FormulaLib A D} {s : Sheet A D} (h : s.Inv lib)
    (ht : s.TextOK) {q : Position} {c : Cell A D} (hc : s.find q = some c)
    (hte : c.GetText lib = some "") : c.impl_ = some Impl.EmptyImpl := by
  obtain ⟨i, hi, _⟩ := h.impl q c hc
  cases i with
  | EmptyImpl => exact hi
  | TextImpl t =>
    have hne := (ht q c t hc hi).1
    simp only [Cell.GetText, hi, Option.map_some', Impl.GetText, Option.some.injEq] at hte
    subst hte
    cases hne
  | FormulaImpl a =>
    have hne := formula_text_nonempty lib a
    simp only [Cell.GetText, hi, Option.map_some', Option.some.injEq] at hte
    rw [hte] at hne
    cases hne

/-- An allowed step from a reachable sheet keeps the body read at the position. -/
theorem CellStep.body_eq {lib : FormulaLib A D} {s s' : Sheet A D} (h : s.Inv lib)
    (ht : s.TextOK) (q : Position) (hstep : CellStep lib (s.find q) (s'.find q)) :
    s'.body q = s.body q := by
  cases hf : s.find q with
  | none =>
    rw [hf] at hstep
    cases hf' : s'.find q with
    | none => rw [body_of_none hf, body_of_none hf']
    | some c' =>
      rw [hf'] at hstep
      rw [body_of_none hf, body_of_find hf' hstep.1]
  | some c =>
    rw [hf] at hstep
    obtain ⟨i, hi, _⟩ := h.impl q c hf
    cases hf' : s'.find q with
    | none =>
      rw [hf'] at hstep
      have := h.textEmpty_impl ht hf hstep
      rw [body_of_none hf', body_of_find hf this]
    | some c' =>
      rw [hf'] at hstep
      rcases hstep.1 with h1 | ⟨h1, h2⟩
      · rw [body_of_find hf hi, body_of_find hf' (h1.trans hi)]
      · have := h.textEmpty_impl ht hf h1
        rw [body_of_find hf this, body_of_find hf' h2]

theorem Sheet.Inv.requires_body {lib : FormulaLib A D} {s : Sheet A D} (h : s.Inv lib)
    (p q : Position) : s.Requires p q ↔ q ∈ (s.body p).GetReferencedCells lib := by
  cases hf : s.find p with
  | none =>
    rw [body_of_none hf]
    constructor
    · rintro ⟨c, hc, _⟩
      rw [hf] at hc
      cases hc
    · intro hq
      simp [Impl.GetReferencedCells] at hq
  | some c =>
    obtain ⟨i, hi, hreq⟩ := h.impl p c hf
    rw [body_of_find hf hi]
    constructor
    · rintro ⟨c0, hc0, hq⟩
      rw [hf] at hc0
      cases hc0
      exact (hreq q).1 hq
    · intro hq
      exact ⟨c, hf, (hreq q).2 hq⟩

/-- In a sheet in order without default cells, a position holds a cell exactly when its body
is not empty or some cell requires it. -/
theorem Sheet.Inv.present_iff {lib : FormulaLib A D} {s : Sheet A D} (h : s.Inv lib)
    (hnd : ∀ q, ¬ s.Default q) (q : Position) :
    (s.find q).isSome = true ↔ (s.body q ≠ Impl.EmptyImpl ∨ ∃ r, s.Requires r q) := by
  constructor
  · intro hp
    obtain ⟨c, hc⟩ := Option.isSome_iff_exists.1 hp
    obtain ⟨i, hi, _⟩ := h.impl q c hc
    by_cases hie : i = Impl.EmptyImpl
    · subst hie
      right
      have hdep : c.cells_dependent_ ≠ [] := fun hd => hnd q ⟨c, hc, hi, hd⟩
      obtain ⟨r, hr⟩ := List.exists_mem_of_ne_nil _ hdep
      exact ⟨r, h.sym2 q c r hc hr⟩
    · left
      rw [body_of_find hc hi]
      exact hie
  · rintro (hb | ⟨r, c, hc, hq⟩)
    · cases hf : s.find q with
      | none => exact absurd (body_of_none hf) hb
      | some c => rfl
    · obtain ⟨d, hd, _⟩ := h.sym1 r c q hc hq
      simp [hd]

/-- Two sizes that are the bounding box of the same set of positions are equal. -/
theorem Sheet.Boxed.unique_of_isSome {s s' : Sheet A D} (h : s.Boxed) (h' : s'.Boxed)
    (hf : ∀ q, (s'.find q).isSome = (s.find q).isSome) : s'.size_ = s.size_ := by
  have hto : ∀ a, (s.find a).isSome = true → ∃ c, s'.find a = some c := by
    intro a ha
    exact Option.isSome_iff_exists.1 ((hf a).trans ha)
  have hfrom : ∀ a, (s'.find a).isSome = true → ∃ c, s.find a = some c := by
    intro a ha
    exact Option.isSome_iff_exists.1 ((hf a).symm.trans ha)
  by_cases hex : ∃ b, (s.find b).isSome = true
  · obtain ⟨b, hb⟩ := hex
    obtain ⟨cb, hcb⟩ := Option.isSome_iff_exists.1 hb
    obtain ⟨cb', hcb'⟩ := hto b hb
    obtain ⟨⟨b1, hb1, hr1⟩, ⟨b2, hb2, hc2⟩⟩ := h.2.2 b cb hcb
    obtain ⟨⟨b1', hb1', hr1'⟩, ⟨b2', hb2', hc2'⟩⟩ := h'.2.2 b cb' hcb'
    obtain ⟨c1, hc1⟩ := hto b1 hb1
    obtain ⟨c2, hcc2⟩ := hto b2 hb2
    obtain ⟨c1', hc1'⟩ := hfrom b1' hb1'
    obtain ⟨c2', hcc2'⟩ := hfrom b2' hb2'
    have e1 := (h'.1 b1 c1 hc1).1
    have e2 := (h'.1 b2 c2 hcc2).2
    have e3 := (h.1 b1' c1' hc1').1
    have e4 := (h.1 b2' c2' hcc2').2
    have hrows : s'.size_.rows = s.size_.rows := by omega
    have hcols : s'.size_.cols = s.size_.cols := by omega
    cases hs : s.size_
    cases hs' : s'.size_
    simp_all
  · have hnone : ∀ a, s.find a = none := by
      intro a
      cases ha : s.find a with
      | none => rfl
      | some c => exact absurd ⟨a, by simp [ha]⟩ hex
    have hnone' : ∀ a, s'.find a = none := by
      intro a
      cases ha : s'.find a with
      | none => rfl
      | some c =>
        have := hf a
        rw [ha, hnone a] at this
        cases this
    rw [h.2.1 hnone, h'.2.1 hnone']

theorem Sheet.Inv.requires_noChain {lib : FormulaLib A D} {s : Sheet A D} (h : s.Inv lib)
    (p : Position) (hp : (s.find p).isSome = true) :
    ¬ HasChain s.Requires (s.cells_.length + 1) p := by
  intro hch
  obtain ⟨cp, hcp⟩ := Option.isSome_iff_exists.1 hp
  have := HasChain.bounded (s.cells_.map Prod.fst) h.acyclic
    (fun a b hab => by
      obtain ⟨c, hc, hb⟩ := hab
      obtain ⟨cb, hcb, _⟩ := h.sym1 a c b hc hb
      exact ⟨find_some_mem_keys s a c hc, find_some_mem_keys s b cb hcb⟩)
    hch (find_some_mem_keys s p cp hcp)
  simp only [List.length_map] at this
  omega

/-! ## C21: the deduplicated, ordered reference list of a formula -/

/-- Two strictly ascending position lists with the same members are the same list. -/
theorem sorted_ext (l₁ l₂ : List Position)
    (h₁ : l₁.Pairwise (fun x y => x.lt y = true)) (h₂ : l₂.Pairwise (fun x y => x.lt y = true))
    (hm : ∀ q, q ∈ l₁ ↔ q ∈ l₂) : l₁ = l₂ := by
  haveI : IsAntisymm Position (fun x y => x.lt y = true) :=
    ⟨fun a b hab hba => by
      have h := Position.lt_trans hab hba
      rw [Position.lt_irrefl] at h
      cases h⟩
  have hn : ∀ l : List Position, l.Pairwise (fun x y => x.lt y = true) → l.Nodup := by
    intro l hl
    refine hl.imp ?_
    intro a b hab heq
    subst heq
    rw [Position.lt_irrefl] at hab
    cases hab
  exact List.eq_of_perm_of_sorted ((List.perm_ext_iff_of_nodup (hn l₁ h₁) (hn l₂ h₂)).2 hm) h₁ h₂

/-- C21: the list `Formula::GetReferencedCells()` returns has no duplicates, is strictly
ascending in the order of `Position`, and has exactly the members of the list the AST
`GetCells()` returns; two formulas whose `GetCells()` lists have the same members, in whatever
order and multiplicity, have the same `GetReferencedCells()` list. -/
theorem GetReferencedCells_canonical (lib : FormulaLib A D) (a : A) :
    (Formula.GetReferencedCells lib a).Nodup ∧
    (Formula.GetReferencedCells lib a).Pairwise (fun x y => x.lt y = true) ∧
    (∀ q, q ∈ Formula.GetReferencedCells lib a ↔ q ∈ lib.GetCells a) ∧
    (∀ b : A, (∀ q, q ∈ lib.GetCells a ↔ q ∈ lib.GetCells b) →
      Formula.GetReferencedCells lib a = Formula.GetReferencedCells lib b) := by
  refine ⟨nodup_GetReferencedCells lib a, sorted_GetReferencedCells lib a,
    mem_GetReferencedCells lib a, ?_⟩
  intro b hm
  refine sorted_ext _ _ (sorted_GetReferencedCells lib a) (sorted_GetReferencedCells lib b) ?_
  intro q
  rw [mem_GetReferencedCells, mem_GetReferencedCells]
  exact hm q

/-- Witness for C21: the references `B1, A1, B1` and the references `A1, B1` both give the
list `A1, B1`. -/
theorem GetReferencedCells_canonical_witness :
    (∀ q, q ∈ Demo.lib.GetCells ([Demo.B1, Demo.A1, Demo.B1], 0) ↔
      q ∈ Demo.lib.GetCells ([Demo.A1, Demo.B1], 0)) ∧
    Formula.GetReferencedCells Demo.lib ([Demo.B1, Demo.A1, Demo.B1], 0) = [Demo.A1, Demo.B1] ∧
    Formula.GetReferencedCells Demo.lib ([Demo.B1, Demo.A1, Demo.B1], 0) =
      Formula.GetReferencedCells Demo.lib ([Demo.A1, Demo.B1], 0) :=
  have hm : ∀ q, q ∈ Demo.lib.GetCells ([Demo.B1, Demo.A1, Demo.B1], 0) ↔
      q ∈ Demo.lib.GetCells ([Demo.A1, Demo.B1], 0) := by
    intro q
    simp [Demo.lib]
    tauto
  ⟨hm, by decide,
    (GetReferencedCells_canonical Demo.lib ([Demo.B1, Demo.A1, Demo.B1], 0)).2.2.2 _ hm⟩

/-! ## C23: rendering and comparison of `FormulaError` -/

/-- C23: `FormulaError::ToString` renders the category `Ref` as `#REF!`, `Value` as `#VALUE!`
and `Arithmetic` as `#ARITHM!`; different categories render differently; and `operator==`
holds exactly of two errors of the same category. -/
theorem FormulaError_ToString_opEq :
    FormulaError.ToString Category.Ref = "#REF!" ∧
    FormulaError.ToString Category.Value = "#VALUE!" ∧
    FormulaError.ToString Category.Arithmetic = "#ARITHM!" ∧
    Function.Injective FormulaError.ToString ∧
    (∀ lhs rhs : Category, FormulaError.opEq lhs rhs = true ↔
      FormulaError.GetCategory lhs = FormulaError.GetCategory rhs) ∧
    (∀ lhs rhs : Category, FormulaError.opEq lhs rhs = true ↔ lhs = rhs) := by
  refine ⟨rfl, rfl, rfl, ?_, ?_, ?_⟩
  · intro a b h
    cases a <;> cases b <;> first | rfl | (exact absurd h (by decide))
  · intro lhs rhs
    simp [FormulaError.opEq]
  · intro lhs rhs
    simp [FormulaError.opEq, FormulaError.GetCategory]


/-! ## C28: a refused `SetCell` on an existing cell -/

/-- C28: on a reachable sheet with a cell at `p`, a `SetCell(p, t)` that raises
`FormulaException` or `CircularDependencyException` leaves the sheet as it was: the cell map
with all bodies, caches and edges, and the printable size. -/
theorem SetCell_refused_unchanged {lib : FormulaLib A D} (hpv : lib.ParsesValid)
    {s : Sheet A D} (hr : Sheet.Reachable lib s) (p : Position) (cp : Cell A D)
    (hcp : s.find p = some cp) (t : String) (e : Exn) (s' : Sheet A D)
    (hraise : Sheet.SetCell lib s p t = .raise e s')
    (he : e = Exn.FormulaException ∨ e = Exn.CircularDependencyException) :
    s' = s ∧ s'.cells_ = s.cells_ ∧ s'.GetPrintableSize = s.GetPrintableSize := by
  have h := Reachable.inv hpv hr
  have hna : e.isAbort = false := by
    rcases he with rfl | rfl <;> rfl
  have hs : s' = s := by
    rcases SetCell_raise_state hpv h p t e s' hraise hna with h1 | h1
    · exact h1
    · rw [h1, prepared_of_some s p h.size cp hcp]
  subst hs
  exact ⟨rfl, rfl, rfl⟩

/-- Witness for C28: after `SetCell(A1, "=B1")` the cell at `B1` exists; `SetCell(B1, "=A1")`
raises `CircularDependencyException` and leaves the sheet as it was, where `A1` holds the
formula `B1` and requires `B1`, and `B1` is an empty cell with value 0. -/
theorem SetCell_refused_unchanged_witness :
    Demo.sheetRef.find Demo.B1 =
      some { impl_ := some Impl.EmptyImpl, cached_value_ := some (Value.num 0),
             cells_required_ := [], cells_dependent_ := [Demo.A1] } ∧
    Sheet.SetCell Demo.lib Demo.sheetRef Demo.B1 "=A1" =
      .raise Exn.CircularDependencyException Demo.sheetRefused ∧
    (Demo.sheetRefused.find Demo.A1).map (fun c => (c.impl_, c.cells_required_)) =
      some (some (Impl.FormulaImpl ([Demo.B1], 0)), [Demo.B1]) ∧
    (Demo.sheetRefused = Demo.sheetRef ∧ Demo.sheetRefused.cells_ = Demo.sheetRef.cells_ ∧
      Demo.sheetRefused.GetPrintableSize = Demo.sheetRef.GetPrintableSize) :=
  ⟨by decide, by decide, by decide,
    SetCell_refused_unchanged Demo.lib_parsesValid Demo.reachable_sheetRef Demo.B1
      { impl_ := some Impl.EmptyImpl, cached_value_ := some (Value.num 0),
        cells_required_ := [], cells_dependent_ := [Demo.A1] } (by decide) "=A1"
      Exn.CircularDependencyException Demo.sheetRefused (by decide) (Or.inr rfl)⟩

/-! ## C29: references dropped by a new body -/

/-- C29: let a `SetCell(p, t)` on a reachable sheet return, where a cell, a formula with
its required positions, was at `p`. For every position `q` the old cell required and the new
cell does not require: `p`
is not among the dependents of the cell at `q`, if one is left; if the cell at `q` was empty
and had no dependent other than `p`, no cell is left at `q` (`GetCell(q)` is null), and the
printable size is the one a recomputation over the cells left gives; and a text cell at `q` is
still there with its text. -/
theorem dropped_references_released {lib : FormulaLib A D} (hpv : lib.ParsesValid)
    {s : Sheet A D} (hr : Sheet.Reachable lib s) (p : Position) (cp : Cell A D)
    (hcp : s.find p = some cp) (t : String)
    (s' : Sheet A D) (hset : Sheet.SetCell lib s p t = .ok s') :
    s'.GetPrintableSize = s'.RecalculateSize.GetPrintableSize ∧
    ∃ c', s'.find p = some c' ∧
      ∀ q, q ∈ cp.cells_required_ → q ∉ c'.cells_required_ →
        (∀ d', s'.find q = some d' → p ∉ d'.cells_dependent_) ∧
        (∀ d, s.find q = some d → d.impl_ = some Impl.EmptyImpl →
          (∀ r ∈ d.cells_dependent_, r = p) → s'.GetCell q = .ok none) ∧
        (∀ d u, s.find q = some d → d.impl_ = some (Impl.TextImpl u) →
          ∃ d', s'.GetCell q = .ok (some d') ∧ d'.impl_ = some (Impl.TextImpl u)) := by
  have h := Reachable.inv hpv hr
  have ht := Reachable.textOK hpv hr
  obtain ⟨hpvalid, h', cp1, c', hcp1, hc', _, _⟩ := SetCell_returns hpv h p t s' hset
  have hframe := SetCell_frame lib s p t s' hset
  have hsize : s'.GetPrintableSize = s'.RecalculateSize.GetPrintableSize :=
    ((h'.size.unique (RecalculateSize_boxed s' h'.valid)
      (fun q => find_RecalculateSize s' q))).symm
  refine ⟨hsize, c', hc', ?_⟩
  intro q hq hnq
  have hqp : q ≠ p := by
    intro heq
    subst heq
    exact h.acyclic q (Relation.TransGen.single ⟨cp, hcp, hq⟩)
  obtain ⟨d0, hd0, hpd0⟩ := h.sym1 p cp q hcp hq
  have hqvalid : q.IsValid = true := h.valid q d0 hd0
  have hstep := hframe q hqp
  refine ⟨?_, ?_, ?_⟩
  · intro d' hd' hmem
    obtain ⟨c, hc, hqc⟩ := h'.sym2 q d' p hd' hmem
    rw [hc'] at hc
    cases hc
    exact hnq hqc
  · intro d hd hdi hdep
    rw [GetCell_valid s' q hqvalid]
    cases hf : s'.find q with
    | none => rfl
    | some d' =>
      exfalso
      have hbody := CellStep.body_eq h ht q hstep
      obtain ⟨i', hi', _⟩ := h'.impl q d' hf
      have hb' : s'.body q = i' := by simp [Sheet.body, hf, hi']
      have hb : s.body q = Impl.EmptyImpl := by simp [Sheet.body, hd, hdi]
      have hie : i' = Impl.EmptyImpl := by rw [← hb', hbody, hb]
      subst hie
      have hnodep : d'.cells_dependent_ = [] := by
        apply List.eq_nil_iff_forall_not_mem.2
        intro r hrm
        obtain ⟨cr, hcr, hqr⟩ := h'.sym2 q d' r hf hrm
        by_cases hrp : r = p
        · subst hrp
          rw [hc'] at hcr
          cases hcr
          exact hnq hqr
        · have hreq' : s'.Requires r q := ⟨cr, hcr, hqr⟩
          rw [h'.requires_body, CellStep.body_eq h ht r (hframe r hrp),
            ← h.requires_body] at hreq'
          obtain ⟨c0, hc0, hq0⟩ := hreq'
          obtain ⟨d1, hd1, hr1⟩ := h.sym1 r c0 q hc0 hq0
          rw [hd] at hd1
          cases hd1
          exact hrp (hdep r hr1)
      have hdef : s.Default q := CellStep.default hstep ⟨d', hf, hi', hnodep⟩
      obtain ⟨d2, hd2, _, hd2dep⟩ := hdef
      rw [hd0] at hd2
      cases hd2
      rw [hd2dep] at hpd0
      cases hpd0
  · intro d u hd hdi
    rw [GetCell_valid s' q hqvalid]
    have hbody := CellStep.body_eq h ht q hstep
    have hb : s.body q = Impl.TextImpl u := by simp [Sheet.body, hd, hdi]
    cases hf : s'.find q with
    | none =>
      rw [hb] at hbody
      simp [Sheet.body, hf] at hbody
    | some d' =>
      obtain ⟨i', hi', _⟩ := h'.impl q d' hf
      have hb' : s'.body q = i' := by simp [Sheet.body, hf, hi']
      refine ⟨d', rfl, ?_⟩
      rw [hi', ← hb', hbody, hb]

/-- Witness for C29: on the sheet with the formula `B1` at `A1`, `SetCell(A1, "1")` returns;
the empty cell at `B1`, which had no dependent but `A1`, is gone, and the printable size is
1 by 1. -/
theorem dropped_references_released_witness :
    Demo.sheetRef.find Demo.A1 = some Demo.cellRef ∧
    Sheet.SetCell Demo.lib Demo.sheetRef Demo.A1 "1" = .ok Demo.sheetDrop ∧
    Demo.sheetRef.GetPrintableSize = { rows := 1, cols := 2 } ∧
    Demo.sheetDrop.GetPrintableSize = { rows := 1, cols := 1 } ∧
    Demo.sheetDrop.find Demo.B1 = none ∧
    (Demo.sheetDrop.GetPrintableSize = Demo.sheetDrop.RecalculateSize.GetPrintableSize ∧
    ∃ c', Demo.sheetDrop.find Demo.A1 = some c' ∧
      ∀ q, q ∈ Demo.cellRef.cells_required_ → q ∉ c'.cells_required_ →
        (∀ d', Demo.sheetDrop.find q = some d' → Demo.A1 ∉ d'.cells_dependent_) ∧
        (∀ d, Demo.sheetRef.find q = some d → d.impl_ = some Impl.EmptyImpl →
          (∀ r ∈ d.cells_dependent_, r = Demo.A1) → Demo.sheetDrop.GetCell q = .ok none) ∧
        (∀ d u, Demo.sheetRef.find q = some d → d.impl_ = some (Impl.TextImpl u) →
          ∃ d', Demo.sheetDrop.GetCell q = .ok (some d') ∧
            d'.impl_ = some (Impl.TextImpl u))) :=
  ⟨by decide, by decide, by decide, by decide, by decide,
    dropped_references_released Demo.lib_parsesValid Demo.reachable_sheetRef Demo.A1
      Demo.cellRef (by decide) "1" Demo.sheetDrop (by decide)⟩

/-! ## C30: the cycle check terminates on every sheet -/

/-- The loop never runs out of iterations when granted more than the length of the stack plus
the references of the cells not yet visited, whatever the sheet holds. -/
theorem loop_terminates (lib : FormulaLib A D) (s : Sheet A D) (start : Position) :
    ∀ (n : Nat) (visited stack : List Position),
      stack.length + Sheet.HasCircularDependency.potential lib visited s.cells_ < n →
      Sheet.HasCircularDependency.loop lib s start n visited stack ≠ .error Exn.DepthExhausted := by
  intro n
  induction n with
  | zero => intro visited stack h; omega
  | succ n ih =>
    intro visited stack hn
    cases stack with
    | nil => simp [Sheet.HasCircularDependency.loop]
    | cons current stack =>
      simp only [Sheet.HasCircularDependency.loop]
      simp only [List.length_cons] at hn
      by_cases h1 : current = start
      · simp [h1]
      · simp only [h1, if_false]
        by_cases h2 : current ∈ visited
        · simp only [h2, if_true]
          exact ih visited stack (by omega)
        · simp only [h2, if_false]
          cases hv : current.IsValid with
          | false =>
            rw [GetCell_invalid s current hv]
            simp
          | true =>
            rw [GetCell_valid s current hv]
            cases hf : s.find current with
            | none =>
              simp only
              have := potential_mono lib visited current s.cells_
              exact ih (current :: visited) stack (by omega)
            | some cell =>
              simp only
              cases hr : cell.GetReferencedCells lib with
              | none => simp
              | some refs =>
                simp only
                have := potential_visit lib visited current s.cells_ cell refs h2 hf hr
                apply ih
                simp only [List.length_append, List.length_reverse]; omega

/-- Once the loop ends without running out of iterations, more iterations change nothing. -/
theorem loop_fuel (lib : FormulaLib A D) (s : Sheet A D) (start : Position) :
    ∀ (n m : Nat) (visited stack : List Position), n ≤ m →
      Sheet.HasCircularDependency.loop lib s start n visited stack ≠ .error Exn.DepthExhausted →
      Sheet.HasCircularDependency.loop lib s start m visited stack =
        Sheet.HasCircularDependency.loop lib s start n visited stack := by
  intro n
  induction n with
  | zero => intro m visited stack _ h; exact absurd rfl h
  | succ n ih =>
    intro m visited stack hnm h
    obtain ⟨m, rfl⟩ : ∃ k, m = k + 1 := ⟨m - 1, by omega⟩
    cases stack with
    | nil => rfl
    | cons current stack =>
      simp only [Sheet.HasCircularDependency.loop] at h ⊢
      by_cases h1 : current = start
      · simp [h1]
      · simp only [h1, if_false] at h ⊢
        by_cases h2 : current ∈ visited
        · simp only [h2, if_true] at h ⊢
          exact ih m visited stack (by omega) h
        · simp only [h2, if_false] at h ⊢
          cases hg : s.GetCell current with
          | error e => rfl
          | ok o =>
            simp only [hg] at h ⊢
            cases o with
            | none => exact ih m _ _ (by omega) h
            | some cell =>
              simp only at h ⊢
              cases hr : cell.GetReferencedCells lib with
              | none => rfl
              | some refs =>
                simp only [hr] at h ⊢
                exact ih m _ _ (by omega) h

/-- C30: `Sheet::HasCircularDependency(start, refs)` ends on every sheet, for every `start` and
every `refs`, whether or not the requires graph has a cycle: the loop needs no more iterations
than the length of `refs` plus the references of all cells, each cell being expanded at most
once, so that granting more iterations changes nothing; and when every cell has a body and
all positions in `refs` and in the cells are valid, the check returns a truth value. -/
theorem HasCircularDependency_terminates (lib : FormulaLib A D) (s : Sheet A D)
    (start : Position) (refs : List Position) :
    Sheet.HasCircularDependency lib s start refs ≠ .error Exn.DepthExhausted ∧
    (∀ n, Sheet.HasCircularDependency.bound lib s refs ≤ n →
      Sheet.HasCircularDependency.loop lib s start n [] refs.reverse =
        Sheet.HasCircularDependency lib s start refs) ∧
    (s.Walkable lib → (∀ r ∈ refs, r.IsValid = true) →
      ∃ b, Sheet.HasCircularDependency lib s start refs = .ok b) := by
  have h1 : Sheet.HasCircularDependency lib s start refs ≠ .error Exn.DepthExhausted :=
    loop_terminates lib s start _ [] refs.reverse
      (by simp only [Sheet.HasCircularDependency.bound, potential_nil, List.length_reverse]; omega)
  refine ⟨h1, fun n hn => loop_fuel lib s start _ n [] refs.reverse hn h1, ?_⟩
  intro hs hv
  obtain ⟨b, hb, _⟩ := HasCircularDependency_reach lib s start refs hs hv
  exact ⟨b, hb⟩

/-- Witness for C30: on a sheet where `A1` requires `B1` and `B1` requires `A1`, the check of
`C3` against `[A1]` returns `false`. -/
theorem HasCircularDependency_terminates_witness :
    Demo.sheetCycle.Walkable Demo.lib ∧ (∀ r ∈ [Demo.A1], r.IsValid = true) ∧
    Demo.sheetCycle.Requires Demo.A1 Demo.B1 ∧ Demo.sheetCycle.Requires Demo.B1 Demo.A1 ∧
    Sheet.HasCircularDependency Demo.lib Demo.sheetCycle Demo.C3 [Demo.A1] = .ok false ∧
    ∃ b, Sheet.HasCircularDependency Demo.lib Demo.sheetCycle Demo.C3 [Demo.A1] = .ok b :=
  have hw : Demo.sheetCycle.Walkable Demo.lib := by
    intro a c h
    have hm := find_eq_some_mem _ _ _ h
    simp only [Demo.sheetCycle, List.mem_cons, Prod.mk.injEq, List.mem_singleton,
      List.not_mem_nil, or_false] at hm
    rcases hm with ⟨_, rfl⟩ | ⟨_, rfl⟩
    · exact ⟨[Demo.B1], by decide, by decide⟩
    · exact ⟨[Demo.A1], by decide, by decide⟩
  ⟨hw, by decide, ⟨_, rfl, by decide⟩, ⟨_, rfl, by decide⟩, rfl,
    (HasCircularDependency_terminates Demo.lib Demo.sheetCycle Demo.C3 [Demo.A1]).2.2 hw
      (by decide)⟩

/-! ## The graph the cache update walks -/

/-- C32: in every reachable sheet the stored set `cells_required_` of every cell has exactly
the members of the list `GetReferencedCells()` of the cell returns, which is defined, and no
member twice; it is empty for every cell with an empty body or a text. -/
theorem required_matches_referenced {lib : FormulaLib A D} (hpv : lib.ParsesValid)
    {s : Sheet A D} (hr : Sheet.Reachable lib s) (p : Position) (c : Cell A D)
    (hc : s.find p = some c) :
    (∃ refs, c.GetReferencedCells lib = some refs ∧
      (∀ q, q ∈ c.cells_required_ ↔ q ∈ refs) ∧
      (∀ q, s.Requires p q ↔ s.Refs lib p q)) ∧
    c.cells_required_.Nodup ∧
    (c.impl_ = some Impl.EmptyImpl → c.cells_required_ = []) ∧
    (∀ t, c.impl_ = some (Impl.TextImpl t) → c.cells_required_ = []) := by
  have h := Reachable.inv hpv hr
  obtain ⟨i, hi, hreq⟩ := h.impl p c hc
  have hrefs : c.GetReferencedCells lib = some (i.GetReferencedCells lib) := by
    simp [Cell.GetReferencedCells, hi]
  refine ⟨⟨_, hrefs, hreq, ?_⟩, h.nodup p c hc, ?_, ?_⟩
  · intro q
    constructor
    · rintro ⟨c1, hc1, hq⟩
      rw [hc] at hc1
      cases hc1
      exact ⟨c, _, hc, hrefs, (hreq q).1 hq⟩
    · rintro ⟨c1, refs, hc1, hr1, hq⟩
      rw [hc] at hc1
      cases hc1
      rw [hrefs] at hr1
      cases hr1
      exact ⟨c, hc, (hreq q).2 hq⟩
  · intro he
    rw [hi] at he
    cases he
    exact List.eq_nil_iff_forall_not_mem.2 (fun q hq => by
      have := (hreq q).1 hq
      simp [Impl.GetReferencedCells] at this)
  · intro t ht
    rw [hi] at ht
    cases ht
    exact List.eq_nil_iff_forall_not_mem.2 (fun q hq => by
      have := (hreq q).1 hq
      simp [Impl.GetReferencedCells] at this)

/-- Witness for C32: the cell `A2 = "=A1+1"` of the sheet `A1 = "2"`, `A2 = "=A1+1"`. -/
theorem required_matches_referenced_witness :
    Demo.lib.ParsesValid ∧ Sheet.Reachable Demo.lib Demo.sheet3 ∧
    Demo.sheet3.find Demo.A2 = some Demo.cellA2 ∧
    Demo.cellA2.GetReferencedCells Demo.lib = some [Demo.A1] ∧
    Demo.cellA2.cells_required_ = [Demo.A1] ∧
    ((∃ refs, Demo.cellA2.GetReferencedCells Demo.lib = some refs ∧
      (∀ q, q ∈ Demo.cellA2.cells_required_ ↔ q ∈ refs) ∧
      (∀ q, Demo.sheet3.Requires Demo.A2 q ↔ Demo.sheet3.Refs Demo.lib Demo.A2 q)) ∧
    Demo.cellA2.cells_required_.Nodup ∧
    (Demo.cellA2.impl_ = some Impl.EmptyImpl → Demo.cellA2.cells_required_ = []) ∧
    (∀ t, Demo.cellA2.impl_ = some (Impl.TextImpl t) → Demo.cellA2.cells_required_ = [])) :=
  ⟨Demo.lib_parsesValid, Demo.reachable_sheet3, by decide, by decide, rfl,
    required_matches_referenced Demo.lib_parsesValid Demo.reachable_sheet3 Demo.A2 Demo.cellA2
      (by decide)⟩

/-- C33: in every reachable sheet, the sheets left by calls that return or raise an exception
included, every cell `GetCell` returns has a body, so that its `GetText()` and
`GetReferencedCells()` are defined; the sheet a `SetCell` or `ClearCell` leaves when it returns
or raises `InvalidPositionException`, `FormulaException` or `CircularDependencyException` is
such a sheet; no `SetCell` or `ClearCell` on a reachable sheet fails a non-null assertion,
and the condition `impl_ != nullptr` asserted at the start of `Cell::Clear` holds of every
cell. -/
theorem bodies_never_null {lib : FormulaLib A D} (hpv : lib.ParsesValid) {s : Sheet A D}
    (hr : Sheet.Reachable lib s) :
    (∀ p c, s.GetCell p = .ok (some c) →
      ∃ i, c.impl_ = some i ∧ c.GetText lib = some (i.GetText lib) ∧
        c.GetReferencedCells lib = some (i.GetReferencedCells lib)) ∧
    (∀ pos text, (Sheet.SetCell lib s pos text).continues = true →
      ∀ p c, (Sheet.SetCell lib s pos text).state.GetCell p = .ok (some c) →
        c.impl_.isSome = true) ∧
    (∀ pos, (Sheet.ClearCell lib s pos).continues = true →
      ∀ p c, (Sheet.ClearCell lib s pos).state.GetCell p = .ok (some c) →
        c.impl_.isSome = true) ∧
    (∀ pos text, (Sheet.SetCell lib s pos text).exn ≠ some Exn.AssertionFailed) ∧
    (∀ pos, (Sheet.ClearCell lib s pos).exn ≠ some Exn.AssertionFailed) ∧
    (∀ p c, s.find p = some c → c.impl_.isNone = false) := by
  have h := Reachable.inv hpv hr
  have hbody : ∀ s1 : Sheet A D, s1.Inv lib → ∀ p c, s1.GetCell p = .ok (some c) →
      ∃ i, c.impl_ = some i := by
    intro s1 h1 p c hg
    obtain ⟨i, hi, _⟩ := h1.impl p c (GetCell_ok s1 p _ hg)
    exact ⟨i, hi⟩
  refine ⟨?_, ?_, ?_, ?_, ?_, ?_⟩
  · intro p c hg
    obtain ⟨i, hi⟩ := hbody s h p c hg
    exact ⟨i, hi, by simp [Cell.GetText, hi], by simp [Cell.GetReferencedCells, hi]⟩
  · intro pos text hcont p c hg
    obtain ⟨i, hi⟩ := hbody _ ((SetCell_inv hpv h pos text).1 hcont) p c hg
    rw [hi]; rfl
  · intro pos hcont p c hg
    obtain ⟨i, hi⟩ := hbody _ ((ClearCell_inv h pos).1 hcont) p c hg
    rw [hi]; rfl
  · intro pos text
    rcases (SetCell_inv hpv h pos text).2 with h1 | h1 | h1 | h1 | h1 <;>
      (rw [h1]; decide)
  · intro pos
    rcases (ClearCell_inv h pos).2 with h1 | h1 | h1 <;> (rw [h1]; decide)
  · intro p c hc
    obtain ⟨i, hi, _⟩ := h.impl p c hc
    rw [hi]; rfl

/-- Witness for C33: the sheet `A1 = "2"`, `A2 = "=A1+1"`, whose cell at `A2` has the text
`=A1+1`. -/
theorem bodies_never_null_witness :
    Demo.lib.ParsesValid ∧ Sheet.Reachable Demo.lib Demo.sheet3 ∧
    Demo.sheet3.GetCell Demo.A2 = .ok (some Demo.cellA2) ∧
    Demo.cellA2.GetText Demo.lib = some "=A1+1" ∧
    ∀ p c, Demo.sheet3.GetCell p = .ok (some c) →
      ∃ i, c.impl_ = some i ∧ c.GetText Demo.lib = some (i.GetText Demo.lib) ∧
        c.GetReferencedCells Demo.lib = some (i.GetReferencedCells Demo.lib) :=
  ⟨Demo.lib_parsesValid, Demo.reachable_sheet3, rfl, by decide,
    (bodies_never_null Demo.lib_parsesValid Demo.reachable_sheet3).1⟩

/-! ## The cache update and the assertion of `Cell::GetValue` -/

theorem Sheet.Kept.keptRefl (s : Sheet A D) : s.Kept s :=
  ⟨Sheet.SameShape.refl s, fun _ c c' hc hc' h => by rw [hc] at hc'; cases hc'; exact h⟩

theorem Sheet.Kept.keptTrans {s1 s2 s3 : Sheet A D} (h1 : s1.Kept s2) (h2 : s2.Kept s3) :
    s1.Kept s3 := by
  refine ⟨h1.1.trans h2.1, ?_⟩
  intro q c c'' hc hc'' hne
  obtain ⟨c', hc', _⟩ := h1.1.find_some hc
  exact h2.2 q c' c'' hc' hc'' (h1.2 q c c' hc hc' hne)

theorem Sheet.AbortedAt.after {lib : FormulaLib A D} {s1 s2 s' : Sheet A D} {d : Position}
    (h1 : s1.Kept s2) (h2 : s2.AbortedAt lib s' d) : s1.AbortedAt lib s' d := by
  obtain ⟨hs, hk, hex⟩ := h2
  refine ⟨h1.1.trans hs, ?_, hex⟩
  intro q c c'' hq hc hc'' hne
  obtain ⟨c', hc', _⟩ := h1.1.find_some hc
  exact hk q c' c'' hq hc' hc'' (h1.2 q c c' hc hc' hne)

/-- The recomputation of a formula cell: it stores a value, or the evaluation trips the
assertion and the cache of the cell stays reset; no other cell changes. -/
theorem RecalculateCurrentCache_run (lib : FormulaLib A D) (s : Sheet A D) (d : Position)
    (c : Cell A D) (a : A) (hc : s.find d = some c)
    (hi : c.impl_ = some (Impl.FormulaImpl a)) :
    (∃ s2 v, Cell.RecalculateCurrentCache lib s d = .ok s2 ∧ s.SameShape s2 ∧
      (∀ q, q ≠ d → s2.find q = s.find q) ∧
      s2.find d = some { c with cached_value_ := some v }) ∨
    (∃ s2, Cell.RecalculateCurrentCache lib s d = .raise Exn.ValueAssertionFailed s2 ∧
      s.SameShape s2 ∧ (∀ q, q ≠ d → s2.find q = s.find q) ∧
      s2.find d = some { c with cached_value_ := none } ∧
      lib.Execute a s2.view = .error Thrown.assertion) := by
  have hfind1 : ∀ q, q ≠ d →
      (s.modify d (fun c => { c with cached_value_ := none })).find q = s.find q := by
    intro q hq
    simp [find_modify, hq]
  cases hg : (Impl.FormulaImpl a).GetValue lib
      (s.modify d (fun c => { c with cached_value_ := none })) with
  | error e =>
    right
    refine ⟨s.modify d (fun c => { c with cached_value_ := none }),
      RecalculateCurrentCache_raise lib s d c _ e hc hi hg, sameShape_modify_cache s d none,
      hfind1, by simp [find_modify, hc], ?_⟩
    simp only [Impl.GetValue, Formula.Evaluate] at hg
    split at hg
    · cases hg
    · cases hg
    · assumption
  | ok v =>
    left
    refine ⟨_, v, RecalculateCurrentCache_eq lib s d c _ v hc hi hg,
      (sameShape_modify_cache s d none).trans (sameShape_modify_cache _ d _), ?_, ?_⟩
    · intro q hq
      simp [find_modify, hq]
    · simp [find_modify, hc]

/-- The run of `Cell::UpdateDependentCache`: it returns and no cache that was filled is empty
afterwards, or it ends in the assertion tripped by the evaluation of a transitive dependent. -/
theorem UpdateDependentCache_go_run (lib : FormulaLib A D) :
    ∀ (n : Nat) (s : Sheet A D) (p : Position), s.DescOK lib p → ¬ HasChain s.Dependent n p →
      (s.find p).isSome = true →
      (∃ s', Cell.UpdateDependentCache.go lib n s p = .ok s' ∧ s.Kept s') ∨
      (∃ s' d, Cell.UpdateDependentCache.go lib n s p = .raise Exn.ValueAssertionFailed s' ∧
        Relation.TransGen s.Dependent p d ∧ s.AbortedAt lib s' d) := by
  intro n
  induction n with
  | zero => intro s p _ h _; exact absurd (HasChain.zero p) h
  | succ n ih =>
    intro s p hd hch hp
    obtain ⟨self, hself⟩ := Option.isSome_iff_exists.1 hp
    have key : ∀ (L : List Position) (s1 : Sheet A D), s.SameShape s1 →
        (∀ d ∈ L, s.Dependent p d) →
        (∃ s', Outcome.forEach (fun s1 dependent_pos =>
            match s1.GetCell dependent_pos with
            | .error e => .raise e s1
            | .ok none => .raise Exn.AssertionFailed s1
            | .ok (some _) =>
              (Cell.RecalculateCurrentCache lib s1 dependent_pos).bind (fun s2 =>
                Cell.UpdateDependentCache.go lib n s2 dependent_pos)) L s1 = .ok s' ∧
          s1.Kept s') ∨
        (∃ s' d, Outcome.forEach (fun s1 dependent_pos =>
            match s1.GetCell dependent_pos with
            | .error e => .raise e s1
            | .ok none => .raise Exn.AssertionFailed s1
            | .ok (some _) =>
              (Cell.RecalculateCurrentCache lib s1 dependent_pos).bind (fun s2 =>
                Cell.UpdateDependentCache.go lib n s2 dependent_pos)) L s1
            = .raise Exn.ValueAssertionFailed s' ∧
          Relation.TransGen s.Dependent p d ∧ s1.AbortedAt lib s' d) := by
      intro L
      induction L with
      | nil =>
        intro s1 _ _
        exact Or.inl ⟨s1, rfl, Sheet.Kept.keptRefl s1⟩
      | cons d L ihL =>
        intro s1 hs1 hL
        have hpd : s.Dependent p d := hL d (List.mem_cons_self _ _)
        have htd : Relation.TransGen s.Dependent p d := Relation.TransGen.single hpd
        obtain ⟨hvalid, hacd, c, a, hc, hi, hrefs⟩ := hd d htd
        obtain ⟨c1, hc1, hst1⟩ := hs1.find_some hc
        have hi1 : c1.impl_ = some (Impl.FormulaImpl a) := (strip_eq_fields hst1).1.trans hi
        have hstart : Outcome.forEach (fun s1 dependent_pos =>
            match s1.GetCell dependent_pos with
            | .error e => .raise e s1
            | .ok none => .raise Exn.AssertionFailed s1
            | .ok (some _) =>
              (Cell.RecalculateCurrentCache lib s1 dependent_pos).bind (fun s2 =>
                Cell.UpdateDependentCache.go lib n s2 dependent_pos)) (d :: L) s1
            = ((Cell.RecalculateCurrentCache lib s1 d).bind (fun s2 =>
                Cell.UpdateDependentCache.go lib n s2 d)).bind (Outcome.forEach (fun s1 dependent_pos =>
            match s1.GetCell dependent_pos with
            | .error e => .raise e s1
            | .ok none => .raise Exn.AssertionFailed s1
            | .ok (some _) =>
              (Cell.RecalculateCurrentCache lib s1 dependent_pos).bind (fun s2 =>
                Cell.UpdateDependentCache.go lib n s2 dependent_pos)) L) := by
          rw [forEach_cons, GetCell_valid s1 d hvalid, hc1]
        rcases RecalculateCurrentCache_run lib s1 d c1 a hc1 hi1 with
          ⟨s2, v2, hrec, hshape12, hfind2, hc2⟩ | ⟨s2, hrec, hshape12, hfind2, hc2, hex⟩
        swap
        · right
          refine ⟨s2, d, by rw [hstart, hrec]; rfl, htd, hshape12, ?_, _, a, hc2, hi1, rfl, hex⟩
          intro q cq cq' hq hcq hcq' hne
          rw [hfind2 q hq, hcq] at hcq'
          cases hcq'
          exact hne
        have hk12 : s1.Kept s2 := by
          refine ⟨hshape12, ?_⟩
          intro q cq cq' hcq hcq' hne
          by_cases hq : q = d
          · subst hq
            rw [hc2] at hcq'
            cases hcq'
            simp
          · rw [hfind2 q hq, hcq] at hcq'
            cases hcq'
            exact hne
        have hs02 : s.SameShape s2 := hs1.trans hshape12
        have hdep2 : s2.Dependent = s.Dependent := hs02.dependent_eq
        have hd2 : s2.DescOK lib d := hs02.descOK lib (hd.step htd)
        have hch2 : ¬ HasChain s2.Dependent n d := by
          rw [hdep2]; exact HasChain.of_edge hpd hch
        have hp2 : (s2.find d).isSome = true := by simp [hc2]
        rcases ih s2 d hd2 hch2 hp2 with ⟨s3, hgo, hk23⟩ | ⟨s3, d', hgo, htd', hab⟩
        swap
        · right
          rw [hdep2] at htd'
          exact ⟨s3, d', by rw [hstart, hrec, bind_ok, hgo]; rfl, htd.trans htd',
            hab.after hk12⟩
        have hs03 : s.SameShape s3 := hs02.trans hk23.1
        rcases ihL s3 hs03 (fun d' hd' => hL d' (List.mem_cons_of_mem _ hd')) with
          ⟨s', hfe, hk3⟩ | ⟨s', d', hfe, htd', hab⟩
        · left
          exact ⟨s', by rw [hstart, hrec, bind_ok, hgo, bind_ok]; exact hfe,
            (hk12.keptTrans hk23).keptTrans hk3⟩
        · right
          exact ⟨s', d', by rw [hstart, hrec, bind_ok, hgo, bind_ok]; exact hfe, htd',
            hab.after (hk12.keptTrans hk23)⟩
    rcases key self.cells_dependent_ s (Sheet.SameShape.refl s)
      (fun d hd => ⟨self, hself, hd⟩) with ⟨s', hfe, hk⟩ | ⟨s', d, hfe, htd, hab⟩
    · left
      refine ⟨s', ?_, hk⟩
      simp only [Cell.UpdateDependentCache.go, hself]
      exact hfe
    · right
      refine ⟨s', d, ?_, htd, hab⟩
      simp only [Cell.UpdateDependentCache.go, hself]
      exact hfe

/-- A run that ends in the assertion has read a cell whose cache was empty before the run. -/
theorem Sheet.AbortedAt.reads_empty {lib : FormulaLib A D} (ha : lib.AssertsOnEmpty)
    {s s' : Sheet A D} {p d : Position} (hd : s.DescOK lib p)
    (htd : Relation.TransGen s.Dependent p d) (hab : s.AbortedAt lib s' d) :
    ∃ c a x cx, s.find d = some c ∧ c.impl_ = some (Impl.FormulaImpl a) ∧ x ∈ lib.GetCells a ∧
      s.find x = some cx ∧ cx.cached_value_ = none := by
  obtain ⟨hs, hk, c', a, hc', hi', _, hex⟩ := hab
  obtain ⟨x, hx, hv⟩ := ha a s'.view hex
  obtain ⟨_, hacd, c0, a0, hc0, hi0, hrefs⟩ := hd d htd
  obtain ⟨c1, hc1, hst⟩ := hs.find_some hc0
  rw [hc'] at hc1
  cases hc1
  have ha0 : a0 = a := by
    have := ((strip_eq_fields hst).1.trans hi0).symm.trans hi'
    simpa using this
  subst ha0
  have hxd : x ≠ d := fun h => hacd (Relation.TransGen.single (h ▸ hrefs x hx))
  cases hfx : s'.find x with
  | none => simp [Sheet.view, hfx] at hv
  | some cx' =>
    have hcx' : cx'.cached_value_ = none := by simpa [Sheet.view, hfx] using hv
    obtain ⟨cx, hcx, _⟩ := hs.find_some' hfx
    refine ⟨c0, a0, x, cx, hc0, hi0, hx, hcx, ?_⟩
    by_contra hne
    exact hk x cx cx' hxd hcx hfx hne hcx'

/-- With every cell the transitive dependents read holding a cached value, the cache update
returns. -/
theorem UpdateDependentCache_go_returns {lib : FormulaLib A D} (ha : lib.AssertsOnEmpty)
    (n : Nat) (s : Sheet A D) (p : Position) (hd : s.DescOK lib p)
    (hch : ¬ HasChain s.Dependent n p) (hp : (s.find p).isSome = true)
    (hin : s.InputsCached lib p) :
    ∃ s', Cell.UpdateDependentCache.go lib n s p = .ok s' ∧ s.Kept s' := by
  rcases UpdateDependentCache_go_run lib n s p hd hch hp with h | ⟨s', d, _, htd, hab⟩
  · exact h
  · obtain ⟨c, a, x, cx, hc, hi, hx, hcx, hnone⟩ := hab.reads_empty ha hd htd
    exact absurd hnone (hin d c a x cx htd hc hi hx hcx)

theorem Demo.lib_assertsOnEmpty : Demo.lib.AssertsOnEmpty := by
  intro a v h
  change Demo.execute a v = .error Thrown.assertion at h
  show ∃ q ∈ a.1, v q = some none
  unfold Demo.execute at h
  generalize a.1 = l at h
  induction l with
  | nil => cases h
  | cons q l ih =>
    simp only [List.foldr_cons] at h
    generalize List.foldr _ _ l = acc at h ih
    cases hr : Demo.read v q with
    | error e =>
      rw [hr] at h
      simp only at h
      cases h
      refine ⟨q, List.mem_cons_self _ _, ?_⟩
      unfold Demo.read at hr
      split at hr <;> first | assumption | cases hr
    | ok x =>
      rw [hr] at h
      cases acc with
      | ok y => cases h
      | error e =>
        simp only at h
        cases h
        obtain ⟨x, hx, hv⟩ := ih rfl
        exact ⟨x, List.mem_cons_of_mem _ hx, hv⟩

theorem Sheet.Hole.dependentAcyclicHole {lib : FormulaLib A D} {s : Sheet A D} {p : Position}
    {R : List Position} (h : s.Hole lib p [] R) (a : Position) :
    ¬ Relation.TransGen s.Dependent a a :=
  fun ha => h.acyclicFull a ((h.transGen_dependent_iff a a).1 ha)

theorem Sheet.Hole.descOKHole {lib : FormulaLib A D} {s : Sheet A D} {p : Position}
    {R : List Position} (h : s.Hole lib p [] R) : s.DescOK lib p := by
  intro d hpd
  obtain ⟨x, _, hxd⟩ := Relation.TransGen.tail'_iff.1 hpd
  have hdp : d ≠ p := fun hd => h.dependentAcyclicHole p (hd ▸ hpd)
  obtain ⟨cx, hcx, hdx⟩ := hxd
  obtain ⟨⟨c, hc, hxc⟩, _⟩ := h.sym2 x cx d hcx hdx
  obtain ⟨i, hi, hreq⟩ := h.impl d c hc hdp
  refine ⟨h.valid d c hc, h.dependentAcyclicHole d, c, ?_⟩
  cases i with
  | EmptyImpl => exact absurd ((hreq x).1 hxc) (by simp [Impl.GetReferencedCells])
  | TextImpl t => exact absurd ((hreq x).1 hxc) (by simp [Impl.GetReferencedCells])
  | FormulaImpl a =>
    refine ⟨a, hc, hi, fun y hy => ?_⟩
    have hy' : y ∈ c.cells_required_ :=
      (hreq y).2 ((mem_GetReferencedCells lib a y).2 hy)
    rcases h.sym1 d c y hc hy' with ⟨hd, _⟩ | ⟨e, he, hde⟩
    · exact absurd hd hdp
    · exact ⟨e, he, hde⟩

theorem Sheet.Hole.noChainHole {lib : FormulaLib A D} {s : Sheet A D} {p : Position}
    {R : List Position} (h : s.Hole lib p [] R) :
    ¬ HasChain s.Dependent (s.cells_.length + 1) p := by
  intro hch
  obtain ⟨cp, hcp⟩ := Option.isSome_iff_exists.1 h.here
  have := HasChain.bounded (s.cells_.map Prod.fst) h.dependentAcyclicHole
    (fun a b hab => by
      obtain ⟨c, hc, hb⟩ := hab
      obtain ⟨⟨cb, hcb, _⟩, _⟩ := h.sym2 a c b hc hb
      exact ⟨find_some_mem_keys s a c hc, find_some_mem_keys s b cb hcb⟩)
    hch (find_some_mem_keys s p cp hcp)
  simp only [List.length_map] at this
  omega

/-- A formula cell at a position other than that of the call was a formula cell, with the same
formula, before. -/
theorem CellStep.formula_before {lib : FormulaLib A D} {o : Option (Cell A D)} {c : Cell A D}
    {a : A} (h : CellStep lib o (some c)) (hi : c.impl_ = some (Impl.FormulaImpl a)) :
    ∃ c0, o = some c0 ∧ c0.impl_ = some (Impl.FormulaImpl a) := by
  cases o with
  | none =>
    rw [h.1] at hi
    cases hi
  | some c0 =>
    refine ⟨c0, rfl, ?_⟩
    rcases h.1 with h1 | ⟨_, h1⟩
    · rw [← h1]; exact hi
    · rw [h1] at hi
      cases hi

/-- While the cell at `p` is edited, the transitive dependents of `p` and what they require
are those of the sheet before the call; so if none of them required a cell without cached
value then, `p` apart, none reads one now, the cache at `p` being filled. -/
theorem Sheet.Hole.inputsCached {lib : FormulaLib A D} {s sk : Sheet A D} {p : Position}
    {R : List Position} (h : s.Inv lib) (hk : sk.Hole lib p [] R)
    (hst : ∀ q, q ≠ p → CellStep lib (s.find q) (sk.find q))
    (hpc : ∀ cp, sk.find p = some cp → cp.cached_value_ ≠ none)
    (hH : ∀ d x cx, Relation.TransGen s.Dependent p d → s.Requires d x → x ≠ p →
      s.find x = some cx → cx.cached_value_ ≠ none) :
    sk.InputsCached lib p := by
  have hreq : ∀ y cy a x, y ≠ p → sk.find y = some cy → cy.impl_ = some (Impl.FormulaImpl a) →
      x ∈ lib.GetCells a → s.Requires y x := by
    intro y cy a x hyp hcy hi hx
    have hy := hst y hyp
    rw [hcy] at hy
    obtain ⟨c0, hc0, hi0⟩ := hy.formula_before hi
    obtain ⟨i0, hi0', hr0⟩ := h.impl y c0 hc0
    rw [hi0] at hi0'
    cases hi0'
    exact ⟨c0, hc0, (hr0 x).2 ((mem_GetReferencedCells lib a x).2 hx)⟩
  have hedge : ∀ x y, y ≠ p → sk.Dependent x y → s.Dependent x y := by
    rintro x y hyp ⟨cx, hcx, hy⟩
    obtain ⟨⟨cy, hcy, hxr⟩, _⟩ := hk.sym2 x cx y hcx hy
    obtain ⟨i, hi, hr⟩ := hk.impl y cy hcy hyp
    have hxi := (hr x).1 hxr
    cases i with
    | EmptyImpl => simp [Impl.GetReferencedCells] at hxi
    | TextImpl t => simp [Impl.GetReferencedCells] at hxi
    | FormulaImpl a =>
      obtain ⟨c0, hc0, hx0⟩ := hreq y cy a x hyp hcy hi ((mem_GetReferencedCells lib a x).1 hxi)
      obtain ⟨d, hd, hyd⟩ := h.sym1 y c0 x hc0 hx0
      exact ⟨d, hd, hyd⟩
  have hne : ∀ d, Relation.TransGen sk.Dependent p d → d ≠ p :=
    fun d hd hdp => hk.dependentAcyclicHole p (hdp ▸ hd)
  have hdesc : ∀ d, Relation.TransGen sk.Dependent p d → Relation.TransGen s.Dependent p d := by
    intro d hd
    induction hd with
    | single hpd => exact Relation.TransGen.single (hedge _ _ (hne _ (Relation.TransGen.single hpd)) hpd)
    | tail hpb hbd ih =>
      exact Relation.TransGen.tail ih (hedge _ _ (hne _ (Relation.TransGen.tail hpb hbd)) hbd)
  intro d c a x cx htd hc hi hx hcx
  have hdp : d ≠ p := fun hd => hk.dependentAcyclicHole p (hd ▸ htd)
  by_cases hxp : x = p
  · subst hxp
    exact hpc cx hcx
  · have hx' := hst x hxp
    rw [hcx] at hx'
    cases hfx : s.find x with
    | none =>
      rw [hfx] at hx'
      exact hx'.2.2
    | some cx0 =>
      rw [hfx] at hx'
      intro hnone
      exact hH d x cx0 (hdesc d htd) (hreq d c a x hdp hc hi hx) hxp hfx (hx'.2.1 hnone)

/-- The cache update of the cell being edited returns when no transitive dependent required a
cell without cached value before the call. -/
theorem Sheet.Hole.updateDependentCache_returns {lib : FormulaLib A D}
    (ha : lib.AssertsOnEmpty) {s sk : Sheet A D} {p : Position} {R : List Position}
    (h : s.Inv lib) (hk : sk.Hole lib p [] R)
    (hst : ∀ q, q ≠ p → CellStep lib (s.find q) (sk.find q))
    (hpc : ∀ cp, sk.find p = some cp → cp.cached_value_ ≠ none)
    (hH : ∀ d x cx, Relation.TransGen s.Dependent p d → s.Requires d x → x ≠ p →
      s.find x = some cx → cx.cached_value_ ≠ none) :
    ∃ s', Cell.UpdateDependentCache lib sk p = .ok s' := by
  obtain ⟨s', hgo, _⟩ := UpdateDependentCache_go_returns ha (sk.cells_.length + 1) sk p
    hk.descOKHole hk.noChainHole hk.here (hk.inputsCached h hst hpc hH)
  exact ⟨s', hgo⟩

/-- `Cell::Clear` of the cell being edited returns under the same condition. -/
theorem Sheet.Hole.clear_returns {lib : FormulaLib A D} (ha : lib.AssertsOnEmpty)
    {s : Sheet A D} {p : Position} {R : List Position} (hinv : s.Inv lib)
    (h : s.Hole lib p [] R) (m : Nat) (cp : Cell A D)
    (hcp : s.find p = some cp) (hi : cp.impl_.isSome = true)
    (hH : ∀ d x cx, Relation.TransGen s.Dependent p d → s.Requires d x → x ≠ p →
      s.find x = some cx → cx.cached_value_ ≠ none) :
    ∃ s', Cell.Clear lib (Sheet.call lib (m + 1)) s p = .ok s' := by
  obtain ⟨s1, cp1, hupd, h1, hp1, _, _, hd1, hq1⟩ :=
    h.updateDependencies m cp hcp [] (by simp) List.nodup_nil
  have hst1 := UpdateDependencies_steps lib _ (call_framed lib (m + 1)) s p [] s1 hupd
  have hnone : cp.impl_.isNone = false := by
    cases hc : cp.impl_ with
    | none => rw [hc] at hi; cases hi
    | some i => rfl
  simp only [Cell.Clear, hcp, hnone, Bool.false_eq_true, if_false]
  rw [hupd, bind_ok]
  simp only [hp1, Cell.IsReferenced, hd1]
  by_cases hdep : cp.cells_dependent_ = []
  · have hif : (!cp.cells_dependent_.isEmpty) = false := by simp [hdep]
    simp only [hif, Bool.false_eq_true, if_false]
    exact ⟨_, rfl⟩
  · have hne : (!cp.cells_dependent_.isEmpty) = true := by
      cases hl : cp.cells_dependent_ with
      | nil => exact absurd hl hdep
      | cons x l => rfl
    simp only [hne, if_true]
    have h2 := h1.modifyBody
      (fun c => { c with impl_ := some Impl.EmptyImpl, cached_value_ := some (Value.num lib.zero) })
      (fun _ => rfl) (fun _ => rfl)
    have hp2 := find_modify_of_some (r := p)
      (fun c => { c with impl_ := some Impl.EmptyImpl, cached_value_ := some (Value.num lib.zero) })
      hp1
    simp only [if_true] at hp2
    have hst2 : ∀ q, q ≠ p → CellStep lib (s.find q) ((s1.modify p (fun c =>
        { c with impl_ := some Impl.EmptyImpl,
                 cached_value_ := some (Value.num lib.zero) })).find q) := by
      intro q hq
      rw [find_modify_ne _ _ _ _ hq]
      exact hst1 q
    exact h2.updateDependentCache_returns ha hinv hst2
      (fun cp2 hcp2 => by
        cases hp2.symm.trans hcp2
        simp)
      hH

/-- `Cell::Set` with a formula that parses and closes no cycle, no transitive dependent of
the cell requiring a cell without cached value: the call returns, or the evaluation of the
new formula itself trips the assertion. -/
theorem Set_formula_returns {lib : FormulaLib A D} (hpv : lib.ParsesValid)
    (hae : lib.AssertsOnEmpty) {s : Sheet A D} (h : s.Inv lib) (m : Nat) (p : Position)
    (cp : Cell A D) (hcp : s.find p = some cp) (t : String) (ht : t.isEmpty = false)
    (hf : t.length > 1 ∧ t.front = FORMULA_SIGN) (a : A)
    (ha : lib.ParseFormulaAST (t.drop 1) = some a)
    (hno : ¬ ∃ r ∈ Formula.GetReferencedCells lib a, Relation.ReflTransGen s.Requires r p)
    (hH : ∀ d x cx, Relation.TransGen s.Dependent p d → s.Requires d x → x ≠ p →
      s.find x = some cx → cx.cached_value_ ≠ none) :
    (∃ s', Cell.Set lib (Sheet.call lib (m + 1)) s p t = .ok s') ∨
    (∃ s', Cell.Set lib (Sheet.call lib (m + 1)) s p t = .raise Exn.ValueAssertionFailed s' ∧
      lib.Execute a s'.view = .error Thrown.assertion) := by
  obtain ⟨b, hcirc, hb⟩ := h.hasCircularDependency hpv p _ a ha
  have hbf : b = false := by
    cases b with
    | false => rfl
    | true => exact absurd (hb.1 rfl) hno
  subst hbf
  have hole := h.toHole p cp hcp (cp.cells_required_ ++ Formula.GetReferencedCells lib a)
    (fun q hq => List.mem_append_left _ hq)
    (fun r hr => by
      rcases List.mem_append.1 hr with hr | hr
      · exact h.noreach_old p cp hcp r hr
      · exact fun hreach => hno ⟨r, hr, hreach⟩)
  have hset := Set_formula_unfold lib (Sheet.call lib (m + 1)) s p t ht hf
  rw [ha] at hset
  simp only [hcirc] at hset
  obtain ⟨s1, hclear⟩ := hole.clear_returns hae h m cp hcp (h.impl_isSome hcp) hH
  rcases hole.clear m cp hcp (h.impl_isSome hcp) with
    ⟨s1', cp1, hclear', h1, hp1, hreq1, hdep1, _⟩ | ⟨s1', hclear'⟩
  swap
  · rw [hclear] at hclear'
    cases hclear'
  rw [hclear] at hclear'
  cases hclear'
  have hst01 := (Clear_frame lib _ (call_framed lib (m + 1)) s p s1 hclear).1
  have h2 := h1.modifyBody (fun c => { c with impl_ := some (Impl.FormulaImpl a) })
    (fun _ => rfl) (fun _ => rfl)
  have hp2 := find_modify_of_some (r := p)
    (fun c => { c with impl_ := some (Impl.FormulaImpl a) }) hp1
  simp only [if_true] at hp2
  obtain ⟨s3, cp3, hupd, h3, hp3, hi3, _, hd3, hq3⟩ :=
    h2.updateDependencies m _ hp2 (Formula.GetReferencedCells lib a)
      (fun r hr => ⟨List.mem_append_right _ hr,
        hpv _ a ha r ((mem_GetReferencedCells lib a r).1 hr)⟩)
      (nodup_GetReferencedCells lib a)
  have hi3' : cp3.impl_ = some (Impl.FormulaImpl a) := hi3
  have hst23 := UpdateDependencies_steps lib _ (call_framed lib (m + 1)) _ p _ s3 hupd
  have hst03 : ∀ q, q ≠ p → CellStep lib (s.find q) (s3.find q) := by
    intro q hq
    have h12 := hst23 q
    rw [find_modify_ne _ _ _ _ hq] at h12
    exact (hst01 q hq).stepTrans h12
  cases hg : (Impl.FormulaImpl a).GetValue lib
      (s3.modify p (fun c => { c with cached_value_ := none })) with
  | error e =>
    right
    have hrec := RecalculateCurrentCache_raise lib s3 p cp3 _ e hp3 hi3' hg
    refine ⟨s3.modify p (fun c => { c with cached_value_ := none }), ?_, ?_⟩
    · rw [hset, hclear, bind_ok, bind_ok, hupd, bind_ok, hrec]
      rfl
    · simp only [Impl.GetValue, Formula.Evaluate] at hg
      split at hg
      · cases hg
      · cases hg
      · assumption
  | ok v =>
    left
    have hrec := RecalculateCurrentCache_eq lib s3 p cp3 _ v hp3 hi3' hg
    have h4 := h3.modifyBody (fun c => { c with cached_value_ := none })
      (fun _ => rfl) (fun _ => rfl)
    have hp4 := find_modify_of_some (r := p) (fun c => { c with cached_value_ := none }) hp3
    simp only [if_true] at hp4
    have h5 := h4.modifyBody
      (fun c => { c with cached_value_ := some v })
      (fun _ => rfl) (fun _ => rfl)
    have hp5 := find_modify_of_some (r := p)
      (fun c => { c with cached_value_ := some v })
      hp4
    simp only [if_true] at hp5
    obtain ⟨s6, hudc⟩ := h5.updateDependentCache_returns hae h
      (fun q hq => by
        rw [find_modify_ne _ _ _ _ hq, find_modify_ne _ _ _ _ hq]
        exact hst03 q hq)
      (fun cp5 hcp5 => by
        rw [hp5] at hcp5
        cases hcp5
        simp)
      hH
    refine ⟨s6, ?_⟩
    rw [hset, hclear, bind_ok, bind_ok, hupd, bind_ok, hrec, bind_ok]
    exact hudc

/-- `SetCell` with a formula that parses and closes no cycle, at a valid position of a sheet
in order, no transitive dependent of the position requiring a cell without cached value: the
call returns, or the evaluation of the new formula itself trips the assertion. -/
theorem SetCell_formula_returns {lib : FormulaLib A D} (hpv : lib.ParsesValid)
    (hae : lib.AssertsOnEmpty) {s : Sheet A D} (h : s.Inv lib) (p : Position)
    (hv : p.IsValid = true) (e : String) (he : e ≠ "") (a : A)
    (ha : lib.ParseFormulaAST e = some a)
    (hno : ¬ ∃ r ∈ Formula.GetReferencedCells lib a, Relation.ReflTransGen s.Requires r p)
    (hH : ∀ d x cx, Relation.TransGen s.Dependent p d → s.Requires d x → x ≠ p →
      s.find x = some cx → cx.cached_value_ ≠ none) :
    (∃ s', Sheet.SetCell lib s p ("=" ++ e) = .ok s') ∨
    (∃ s', Sheet.SetCell lib s p ("=" ++ e) = .raise Exn.ValueAssertionFailed s' ∧
      lib.Execute a s'.view = .error Thrown.assertion) := by
  have h' := h.prepared p hv
  obtain ⟨cp, hcp⟩ := Option.isSome_iff_exists.1 (find_prepared_isSome s p)
  have ht := formula_text_isEmpty e
  have hf : ("=" ++ e).length > 1 ∧ ("=" ++ e).front = FORMULA_SIGN :=
    ⟨formula_text_length e he, formula_text_front e⟩
  have ha' : lib.ParseFormulaAST (("=" ++ e).drop 1) = some a := by
    rw [formula_text_drop]; exact ha
  have hH' : ∀ d x cx, Relation.TransGen (s.prepared p).Dependent p d →
      (s.prepared p).Requires d x → x ≠ p → (s.prepared p).find x = some cx →
      cx.cached_value_ ≠ none := by
    cases hc : s.find p with
    | some c => rw [prepared_of_some s p h.size c hc]; exact hH
    | none =>
      intro d x cx htd
      obtain ⟨b, ⟨c, hcb, hb⟩, _⟩ := Relation.TransGen.head'_iff.1 htd
      rw [find_prepared_of_none s p hc p] at hcb
      simp only [if_true] at hcb
      cases hcb
      cases hb
  rw [SetCell_eq_Set lib s p _ hv]
  rw [← requires_prepared h p] at hno
  exact Set_formula_returns hpv hae h' _ p cp hcp _ ht hf a ha' hno hH'

/-! ## Evaluation errors are values -/

/-- Evaluation errors are values: when the evaluation of the AST throws a `FormulaError`,
`Formula::Evaluate` and `FormulaImpl::GetValue` return that error as a value, and the
recalculation of the cache of a formula cell stores it and returns. On a reachable sheet, for
a formula that parses and
closes no cycle at the valid position `p` and whose evaluation on the sheet the call leaves
throws the error `fe`: if no transitive dependent of `p` requires a cell, other than `p`,
without cached value, `SetCell` returns and the cell at `p` holds the formula and has the
value `fe`. After any `SetCell` that returns, a formula cell whose evaluation throws `fe` has
the value `fe`. Without the condition on the cached values the call returns or ends in the
failed assertion of `Cell::GetValue`; and no `SetCell` on a reachable sheet lets a
`FormulaError` escape as an exception. The parser yields valid references only, and the
evaluator reads the listed cells only and trips the assertion on empty caches only. -/
theorem formula_error_is_value {lib : FormulaLib A D} (hpv : lib.ParsesValid)
    (hl : lib.Local) (hae : lib.AssertsOnEmpty) :
    (∀ (a : A) (view : Position → Option (Option (Value D))) (fe : Category),
      lib.Execute a view = .error (Thrown.formulaError fe) →
      Formula.Evaluate lib a view = .ok (Value.err fe)) ∧
    (∀ (a : A) (s : Sheet A D) (fe : Category),
      lib.Execute a s.view = .error (Thrown.formulaError fe) →
      (Impl.FormulaImpl a).GetValue lib s = .ok (Value.err fe)) ∧
    (∀ (s : Sheet A D) (d : Position) (c : Cell A D) (a : A) (fe : Category),
      s.find d = some c → c.impl_ = some (Impl.FormulaImpl a) →
      lib.Execute a (s.modify d (fun c => { c with cached_value_ := none })).view =
        .error (Thrown.formulaError fe) →
      ∃ s', Cell.RecalculateCurrentCache lib s d = .ok s' ∧
        (s'.find d).map Cell.GetValue = some (some (Value.err fe))) ∧
    (∀ s : Sheet A D, Sheet.Reachable lib s → ∀ (p : Position) (e : String) (a : A)
      (fe : Category),
      p.IsValid = true → e ≠ "" → lib.ParseFormulaAST e = some a →
      (¬ ∃ r ∈ Formula.GetReferencedCells lib a, Relation.ReflTransGen s.Requires r p) →
      (∀ d x cx, Relation.TransGen s.Dependent p d → s.Requires d x → x ≠ p →
        s.find x = some cx → cx.cached_value_ ≠ none) →
      lib.Execute a (Sheet.SetCell lib s p ("=" ++ e)).state.view =
        .error (Thrown.formulaError fe) →
      ∃ s' c', Sheet.SetCell lib s p ("=" ++ e) = .ok s' ∧ s'.find p = some c' ∧
        c'.impl_ = some (Impl.FormulaImpl a) ∧ c'.GetValue = some (Value.err fe)) ∧
    (∀ s : Sheet A D, Sheet.Reachable lib s → ∀ (p : Position) (t : String) (s' : Sheet A D),
      Sheet.SetCell lib s p t = .ok s' →
      ∀ (q : Position) (c : Cell A D) (a : A) (fe : Category), s'.find q = some c →
        c.impl_ = some (Impl.FormulaImpl a) →
        lib.Execute a s'.view = .error (Thrown.formulaError fe) →
        c.GetValue = some (Value.err fe)) ∧
    (∀ s : Sheet A D, Sheet.Reachable lib s → ∀ (p : Position) (e : String) (a : A),
      p.IsValid = true → e ≠ "" → lib.ParseFormulaAST e = some a →
      (¬ ∃ r ∈ Formula.GetReferencedCells lib a, Relation.ReflTransGen s.Requires r p) →
      (∃ s', Sheet.SetCell lib s p ("=" ++ e) = .ok s') ∨
      (∃ s', Sheet.SetCell lib s p ("=" ++ e) = .raise Exn.ValueAssertionFailed s')) ∧
    (∀ s : Sheet A D, Sheet.Reachable lib s → ∀ (p : Position) (t : String),
      (Sheet.SetCell lib s p t).exn ≠ some Exn.FormulaErrorThrown) := by
  have hev : ∀ (a : A) (view : Position → Option (Option (Value D))) (fe : Category),
      lib.Execute a view = .error (Thrown.formulaError fe) →
      Formula.Evaluate lib a view = .ok (Value.err fe) := by
    intro a view fe h
    simp only [Formula.Evaluate, h]
  have hstored : ∀ s : Sheet A D, Sheet.Reachable lib s →
      ∀ (p : Position) (t : String) (s' : Sheet A D), Sheet.SetCell lib s p t = .ok s' →
      ∀ (q : Position) (c : Cell A D) (a : A) (fe : Category), s'.find q = some c →
        c.impl_ = some (Impl.FormulaImpl a) →
        lib.Execute a s'.view = .error (Thrown.formulaError fe) →
        c.GetValue = some (Value.err fe) := by
    intro s hr p t s' hset q c a fe hc hi hx
    have hinv := (SetCell_returns hpv (Reachable.inv hpv hr) p t s' hset).2.1
    have hcache := hinv.cache hl q c hc
    simp only [Sheet.CellCached, hi] at hcache
    obtain ⟨v, hv, hcv⟩ := hcache
    rw [hev a _ fe hx] at hv
    cases hv
    exact hcv
  refine ⟨hev, fun a s fe h => hev a s.view fe h, ?_, ?_, hstored, ?_, ?_⟩
  · intro s d c a fe hc hi hx
    have hv : (Impl.FormulaImpl a).GetValue lib
        (s.modify d (fun c => { c with cached_value_ := none })) = .ok (Value.err fe) :=
      hev a _ fe hx
    refine ⟨_, RecalculateCurrentCache_eq lib s d c _ _ hc hi hv, ?_⟩
    simp [find_modify, hc, Cell.GetValue]
  · intro s hr p e a fe hv he ha hn hH hx
    have hinv := Reachable.inv hpv hr
    rcases SetCell_formula_returns hpv hae hinv p hv e he a ha hn hH with
      ⟨s', hset⟩ | ⟨s', hset, hex⟩
    · rcases (SetCell_formula hpv hinv p hv e he a ha).2 hn with
        ⟨s'', c', hset', hinv', hc', hi', _⟩ | ⟨s'', hset'⟩
      · rw [hset] at hset'
        cases hset'
        rw [hset] at hx
        exact ⟨s', c', hset, hc', hi', hstored s hr p _ s' hset p c' a fe hc' hi' hx⟩
      · rw [hset] at hset'
        cases hset'
    · rw [hset] at hx
      rw [show (Outcome.raise Exn.ValueAssertionFailed s').state = s' from rfl, hex] at hx
      cases hx
  · intro s hr p e a hv he ha hn
    rcases (SetCell_formula hpv (Reachable.inv hpv hr) p hv e he a ha).2 hn with
      ⟨s', _, h, _⟩ | ⟨s', h⟩
    · exact Or.inl ⟨s', h⟩
    · exact Or.inr ⟨s', h⟩
  · intro s hr p t h
    rcases (SetCell_inv hpv (Reachable.inv hpv hr) p t).2 with h1 | h1 | h1 | h1 | h1 <;>
      rw [h1] at h <;> cases h

theorem Demo.reachable_sheetText : Sheet.Reachable Demo.lib Demo.sheetText :=
  Sheet.Reachable.setCell Demo.sheet0 Demo.A1 "x" Sheet.Reachable.empty (by decide)

/-- On the sheet with the text `x` at `A1`, where `A2` has no dependents, the formula `A1`
throws `#VALUE!`; `SetCell(A2, "=A1")` returns and the cell at `A2` has this error as value. -/
theorem formula_error_is_value_example :
    Demo.lib.ParsesValid ∧ Demo.lib.Local ∧ Demo.lib.AssertsOnEmpty ∧
    Sheet.Reachable Demo.lib Demo.sheetText ∧
    Sheet.SetCell Demo.lib Demo.sheetText Demo.A2 "=A1" = .ok Demo.sheetErr ∧
    Demo.sheetErr.find Demo.A2 = some Demo.cellErr ∧
    Demo.lib.Execute ([Demo.A1], 0) Demo.sheetErr.view =
      .error (Thrown.formulaError Category.Value) ∧
    Demo.cellErr.GetValue = some (Value.err Category.Value) ∧
    ∃ s' c', Sheet.SetCell Demo.lib Demo.sheetText Demo.A2 ("=" ++ "A1") = .ok s' ∧
      s'.find Demo.A2 = some c' ∧ c'.impl_ = some (Impl.FormulaImpl ([Demo.A1], 0)) ∧
      c'.GetValue = some (Value.err Category.Value) :=
  ⟨Demo.lib_parsesValid, Demo.lib_local, Demo.lib_assertsOnEmpty, Demo.reachable_sheetText,
    by decide, by decide, rfl, rfl,
    (formula_error_is_value Demo.lib_parsesValid Demo.lib_local
      Demo.lib_assertsOnEmpty).2.2.2.1 Demo.sheetText Demo.reachable_sheetText Demo.A2 "A1"
      ([Demo.A1], 0) Category.Value (by decide) (by decide) (by decide)
      (by
        rintro ⟨r, hr, hreach⟩
        have hr1 : r = Demo.A1 := by
          have : Formula.GetReferencedCells Demo.lib ([Demo.A1], 0) = [Demo.A1] := by decide
          rw [this] at hr
          simpa using hr
        subst hr1
        rcases (reflTransGen_iff_eq_or_transGen _ _ _).1 hreach with h | h
        · exact absurd h (by decide)
        · obtain ⟨b, hb, _⟩ := Relation.TransGen.head'_iff.1 h
          obtain ⟨c, hc, hq⟩ := hb
          have hall : Demo.sheetText.cells_.all (fun e => e.2.cells_required_.isEmpty) = true := by
            decide
          have := List.all_eq_true.1 hall _ (find_eq_some_mem Demo.sheetText _ c hc)
          simp only [List.isEmpty_iff] at this
          rw [this] at hq
          cases hq)
      (fun d x cx htd _ _ _ => by
        obtain ⟨b, ⟨c, hc, _⟩, _⟩ := Relation.TransGen.head'_iff.1 htd
        have h1 : Demo.sheetText.find Demo.A2 = none := by decide
        rw [h1] at hc
        cases hc)
      rfl⟩

/-! ## C22: a formula whose evaluation throws -/

theorem Sheet.Stays.staysRefl (s : Sheet A D) (q : Position) : s.Stays s q :=
  fun c hc => ⟨c, hc, rfl, fun _ => rfl⟩

theorem Sheet.Stays.staysTrans {s1 s2 s3 : Sheet A D} {q : Position} (h1 : s1.Stays s2 q)
    (h2 : s2.Stays s3 q) : s1.Stays s3 q := by
  intro c hc
  obtain ⟨c2, hc2, hi2, hv2⟩ := h1 c hc
  obtain ⟨c3, hc3, hi3, hv3⟩ := h2 c2 hc2
  exact ⟨c3, hc3, hi3.trans hi2, fun he => (hv3 (hi2.trans he)).trans (hv2 he)⟩

theorem Sheet.Stays.of_eq {s s' : Sheet A D} {q : Position} (h : s'.find q = s.find q) :
    s.Stays s' q :=
  fun c hc => ⟨c, h.trans hc, rfl, fun _ => rfl⟩

theorem stays_modify (s : Sheet A D) (p : Position) (f : Cell A D → Cell A D)
    (hi : ∀ c, (f c).impl_ = c.impl_) (hc : ∀ c, (f c).cached_value_ = c.cached_value_)
    (q : Position) : s.Stays (s.modify p f) q := by
  intro c hcq
  by_cases hq : q = p
  · subst hq
    refine ⟨f c, ?_, hi c, fun _ => hc c⟩
    have := find_modify_of_some (r := q) f hcq
    simpa using this
  · exact ⟨c, (find_modify_ne s p q f hq).trans hcq, rfl, fun _ => rfl⟩

/-- One pass of the loop over the old references: only the cell at `old_ref` changes, and it
stays when it has a dependent other than `p`. -/
theorem Sheet.Hole.clearOld_stays {lib : FormulaLib A D} {s : Sheet A D} {p : Position}
    {X R : List Position} (h : s.Hole lib p X R) (m : Nat) (r : Position) (hr : r ≠ p)
    (cp : Cell A D) (hcp : s.find p = some cp) (hrp : r ∈ cp.cells_required_) (hrX : r ∉ X)
    (s' : Sheet A D)
    (hs' : Cell.UpdateDependencies.clearOld lib (Sheet.call lib (m + 1)) s p r = .ok s') :
    (∀ q, q ≠ r → s'.find q = s.find q) ∧
    (∀ d, s.find r = some d → (∃ x ∈ d.cells_dependent_, x ≠ p) → s.Stays s' r) := by
  rcases h.sym1 p cp r hcp hrp with ⟨_, hX⟩ | ⟨d, hd, _⟩
  · exact absurd hX hrX
  have hv : r.IsValid = true := h.valid r d hd
  have h1 := h.dropDependent hr
  have hd1 := find_modify_of_some (r := r)
    (fun c => { c with cells_dependent_ := setErase p c.cells_dependent_ }) hd
  simp only [if_true] at hd1
  obtain ⟨i, hi, hreq⟩ := h1.impl r _ hd1 hr
  have hi' : d.impl_ = some i := hi
  have hreq' : ∀ q, q ∈ d.cells_required_ ↔ q ∈ i.GetReferencedCells lib := hreq
  have hmod : ∀ q, q ≠ r →
      (s.modify r (fun c => { c with cells_dependent_ := setErase p c.cells_dependent_ })).find q
        = s.find q := fun q hq => find_modify_ne s r q _ hq
  have hstay : s.Stays
      (s.modify r (fun c => { c with cells_dependent_ := setErase p c.cells_dependent_ })) r :=
    by apply stays_modify <;> (intro _; rfl)
  simp only [Cell.UpdateDependencies.clearOld, GetCell_valid s r hv, hd, hd1, Cell.GetText, hi',
    Option.map_some'] at hs'
  by_cases hemp : (setErase p d.cells_dependent_).isEmpty = true
  · rw [if_pos hemp] at hs'
    by_cases htext : (i.GetText lib).isEmpty = true
    · rw [if_pos htext] at hs'
      have hrefs := refs_nil_of_text_empty lib i htext
      have hreq0 : d.cells_required_ = [] := by
        apply List.eq_nil_iff_forall_not_mem.2
        intro q hq
        have := (hreq' q).1 hq
        rw [hrefs] at this
        cases this
      have hdep0 : setErase p d.cells_dependent_ = [] := List.isEmpty_iff.1 hemp
      obtain ⟨s2, hcall, hfind2, _⟩ := nested_clear lib m _ r _ i hv hd1 hi hreq0 hdep0
      rw [hcall] at hs'
      cases hs'
      constructor
      · intro q hq
        rw [hfind2 q]
        simp only [hq, if_false]
        exact hmod q hq
      · intro d0 hd0 ⟨x, hx, hxp⟩
        rw [hd] at hd0
        cases hd0
        have : x ∈ setErase p d.cells_dependent_ := (mem_setErase p x _).2 ⟨hx, hxp⟩
        rw [hdep0] at this
        cases this
    · rw [if_neg htext] at hs'
      cases hs'
      exact ⟨hmod, fun _ _ _ => hstay⟩
  · rw [if_neg hemp] at hs'
    cases hs'
    exact ⟨hmod, fun _ _ _ => hstay⟩

/-- The loop over the old references of the cell at `p` leaves in place every cell that is
not among them or has a dependent other than `p`. -/
theorem Sheet.Hole.clearOldLoop_stays {lib : FormulaLib A D} (m : Nat) (p : Position)
    (R : List Position) (cp : Cell A D) :
    ∀ (L X : List Position) (s : Sheet A D), s.Hole lib p X R → s.find p = some cp →
      (∀ r ∈ L, r ∈ cp.cells_required_ ∧ r ≠ p ∧ r ∉ X) → L.Nodup →
      ∀ s', Outcome.forEach (fun s1 old_ref =>
          Cell.UpdateDependencies.clearOld lib (Sheet.call lib (m + 1)) s1 p old_ref) L s = .ok s' →
        ∀ q c, s.find q = some c → (q ∉ L ∨ ∃ x ∈ c.cells_dependent_, x ≠ p) →
          s.Stays s' q := by
  intro L
  induction L with
  | nil =>
    intro X s _ _ _ _ s' hs' q c _ _
    cases hs'
    exact Sheet.Stays.staysRefl s q
  | cons r L ih =>
    intro X s h hcp hL hnd s' hs' q c hc hq
    obtain ⟨hrp, hr, hrX⟩ := hL r (List.mem_cons_self _ _)
    rw [forEach_cons] at hs'
    obtain ⟨s1, hstep, hrest⟩ := bind_eq_ok hs'
    obtain ⟨s1', hstep', h1, hp1⟩ := h.clearOld m r hr cp hcp hrp hrX
    rw [hstep] at hstep'
    cases hstep'
    obtain ⟨hoff, hat⟩ := h.clearOld_stays m r hr cp hcp hrp hrX s1 hstep
    have hnd' := List.nodup_cons.1 hnd
    have hL' : ∀ q ∈ L, q ∈ cp.cells_required_ ∧ q ≠ p ∧ q ∉ r :: X := by
      intro q hq
      obtain ⟨h1, h2, h3⟩ := hL q (List.mem_cons_of_mem _ hq)
      refine ⟨h1, h2, ?_⟩
      intro hmem
      rcases List.mem_cons.1 hmem with hqr | hqX
      · exact hnd'.1 (hqr ▸ hq)
      · exact h3 hqX
    by_cases hqr : q = r
    · subst hqr
      have hdep : ∃ x ∈ c.cells_dependent_, x ≠ p := by
        rcases hq with hq | hq
        · exact absurd (List.mem_cons_self _ _) hq
        · exact hq
      have hs1 := hat c hc hdep
      obtain ⟨c1, hc1, _, _⟩ := hs1 c hc
      exact hs1.staysTrans
        (ih (q :: X) s1 h1 (hp1.trans hcp) hL' hnd'.2 s' hrest q c1 hc1 (Or.inl hnd'.1))
    · have hc1 : s1.find q = some c := (hoff q hqr).trans hc
      have hq' : q ∉ L ∨ ∃ x ∈ c.cells_dependent_, x ≠ p := by
        rcases hq with hq | hq
        · exact Or.inl (fun hm => hq (List.mem_cons_of_mem _ hm))
        · exact Or.inr hq
      exact (Sheet.Stays.of_eq (hoff q hqr)).staysTrans
        (ih (r :: X) s1 h1 (hp1.trans hcp) hL' hnd'.2 s' hrest q c hc1 hq')

/-- One pass of the loop over the new references leaves every cell in place. -/
theorem addNew_stays (lib : FormulaLib A D) (m : Nat) (s : Sheet A D) (p r : Position)
    (s' : Sheet A D)
    (hs' : Cell.UpdateDependencies.addNew (Sheet.call lib (m + 1)) s p r = .ok s')
    (q : Position) : s.Stays s' q := by
  unfold Cell.UpdateDependencies.addNew at hs'
  by_cases hv : r.IsValid = true
  swap
  · simp only [hv, Bool.false_eq_true, if_false] at hs'
    cases hs'
  simp only [hv, if_true, GetCell_valid _ r hv] at hs'
  have hst1 : s.Stays
      (s.modify p (fun c => { c with cells_required_ := setInsert r c.cells_required_ })) q :=
    by apply stays_modify <;> (intro _; rfl)
  cases hsr : (s.modify p
      (fun c => { c with cells_required_ := setInsert r c.cells_required_ })).find r with
  | some d =>
    simp only [hsr] at hs'
    cases hs'
    exact hst1.staysTrans (by apply stays_modify <;> (intro _; rfl))
  | none =>
    simp only [hsr] at hs'
    obtain ⟨s2, hcall, hf2, _⟩ := nested_set lib m _ r hv hsr
    rw [hcall, bind_ok] at hs'
    have hr2 : s2.find r = some (Cell.blank lib) := by rw [hf2]; simp
    simp only [GetCell_valid _ r hv, hr2] at hs'
    cases hs'
    refine hst1.staysTrans (Sheet.Stays.staysTrans ?_
      (by apply stays_modify <;> (intro _; rfl)))
    intro c hc
    have hqr : q ≠ r := by
      intro hqr
      rw [hqr, hsr] at hc
      cases hc
    refine ⟨c, ?_, rfl, fun _ => rfl⟩
    rw [hf2]
    simp [hqr, hc]

/-- `Cell::UpdateDependencies` of the cell being edited leaves in place every cell that the
cell does not require or that has a dependent other than it. -/
theorem Sheet.Hole.updateDependencies_stays {lib : FormulaLib A D} {s : Sheet A D}
    {p : Position} {R : List Position} (h : s.Hole lib p [] R) (m : Nat) (cp : Cell A D)
    (hcp : s.find p = some cp) (L : List Position) (s' : Sheet A D)
    (hs' : Cell.UpdateDependencies lib (Sheet.call lib (m + 1)) s p L = .ok s')
    (q : Position) (c : Cell A D) (hc : s.find q = some c)
    (hq : q ∉ cp.cells_required_ ∨ ∃ x ∈ c.cells_dependent_, x ≠ p) : s.Stays s' q := by
  have hne : ∀ r ∈ cp.cells_required_,
      r ∈ cp.cells_required_ ∧ r ≠ p ∧ r ∉ ([] : List Position) := by
    intro r hr
    refine ⟨hr, ?_, by simp⟩
    intro hrp
    exact h.acyclicFull p (Relation.TransGen.single ⟨cp, hcp, hrp ▸ hr⟩)
  simp only [Cell.UpdateDependencies, hcp] at hs'
  obtain ⟨s2, hl1, hl2⟩ := bind_eq_ok hs'
  have hst1 := Sheet.Hole.clearOldLoop_stays m p R cp cp.cells_required_ [] s h hcp hne
    (h.nodup p cp hcp) s2 hl1 q c hc hq
  have hst2 := forEach_rel (fun (a b : Sheet A D) => a.Stays b q)
    (fun a => Sheet.Stays.staysRefl a q) (fun _ _ _ x y => x.staysTrans y) _
    (fun a x b hab => addNew_stays lib m a p x b hab q) _ _ _ hl2
  have hmid : s2.Stays (s2.modify p (fun c => { c with cells_required_ := [] })) q := by
    apply stays_modify <;> (intro _; rfl)
  exact hst1.staysTrans (hmid.staysTrans hst2)

/-- The cache update of the cell being edited leaves every cell in place. -/
theorem Sheet.Hole.updateDependentCache_stays {lib : FormulaLib A D} {s : Sheet A D}
    {p : Position} {R : List Position} (h : s.Hole lib p [] R) (s' : Sheet A D)
    (hs' : Cell.UpdateDependentCache lib s p = .ok s') (q : Position) : s.Stays s' q := by
  rcases h.updateDependentCache with ⟨s'', hudc, hshape, _, _, _, hsame⟩ | ⟨s'', hudc⟩
  swap
  · rw [hs'] at hudc
    cases hudc
  rw [hs'] at hudc
  cases hudc
  intro c hc
  obtain ⟨c', hc', hst⟩ := hshape.find_some hc
  refine ⟨c', hc', (strip_eq_fields hst).1, fun he => ?_⟩
  have hnot : ¬ Relation.TransGen s.Dependent p q := by
    intro hpq
    obtain ⟨_, _, c0, a, hc0, hi0, _⟩ := h.descOKHole q hpq
    rw [hc] at hc0
    cases hc0
    rw [he] at hi0
    cases hi0
  rw [hsame q hnot, hc] at hc'
  cases hc'
  rfl

/-- `Cell::Clear` of the cell being edited leaves in place every other cell that the cell
does not require or that has a dependent other than it. -/
theorem Sheet.Hole.clear_stays {lib : FormulaLib A D} {s : Sheet A D} {p : Position}
    {R : List Position} (h : s.Hole lib p [] R) (m : Nat) (cp : Cell A D)
    (hcp : s.find p = some cp) (hi : cp.impl_.isSome = true) (s' : Sheet A D)
    (hs' : Cell.Clear lib (Sheet.call lib (m + 1)) s p = .ok s')
    (q : Position) (c : Cell A D) (hqp : q ≠ p) (hc : s.find q = some c)
    (hq : q ∉ cp.cells_required_ ∨ ∃ x ∈ c.cells_dependent_, x ≠ p) : s.Stays s' q := by
  obtain ⟨s1, cp1, hupd, h1, hp1, _, _, hd1, hq1⟩ :=
    h.updateDependencies m cp hcp [] (by simp) List.nodup_nil
  have hst1 := h.updateDependencies_stays m cp hcp [] s1 hupd q c hc hq
  have hnone : cp.impl_.isNone = false := by
    cases hc : cp.impl_ with
    | none => rw [hc] at hi; cases hi
    | some i => rfl
  simp only [Cell.Clear, hcp, hnone, Bool.false_eq_true, if_false] at hs'
  rw [hupd, bind_ok] at hs'
  simp only [hp1, Cell.IsReferenced, hd1] at hs'
  by_cases hdep : cp.cells_dependent_ = []
  · have hif : (!cp.cells_dependent_.isEmpty) = false := by simp [hdep]
    simp only [hif, Bool.false_eq_true, if_false] at hs'
    cases hs'
    exact hst1.staysTrans (Sheet.Stays.of_eq (find_modify_ne _ _ _ _ hqp))
  · have hne : (!cp.cells_dependent_.isEmpty) = true := by
      cases hl : cp.cells_dependent_ with
      | nil => exact absurd hl hdep
      | cons x l => rfl
    simp only [hne, if_true] at hs'
    have h2 := h1.modifyBody
      (fun c => { c with impl_ := some Impl.EmptyImpl, cached_value_ := some (Value.num lib.zero) })
      (fun _ => rfl) (fun _ => rfl)
    exact hst1.staysTrans ((Sheet.Stays.of_eq (find_modify_ne _ _ _ _ hqp)).staysTrans
      (h2.updateDependentCache_stays s' hs' q))
/-- `Cell::Set`, when it returns on a sheet in order, leaves in place every other cell that
the cell did not require or that has a dependent other than it. -/
theorem Set_stays {lib : FormulaLib A D} (hpv : lib.ParsesValid) {s : Sheet A D}
    (h : s.Inv lib) (m : Nat) (p : Position) (cp : Cell A D) (hcp : s.find p = some cp)
    (t : String) (s' : Sheet A D)
    (hs' : Cell.Set lib (Sheet.call lib (m + 1)) s p t = .ok s')
    (q : Position) (c : Cell A D) (hqp : q ≠ p) (hc : s.find q = some c)
    (hq : q ∉ cp.cells_required_ ∨ ∃ x ∈ c.cells_dependent_, x ≠ p) : s.Stays s' q := by
  cases ht : t.isEmpty with
  | true =>
    have hole := h.toHole p cp hcp cp.cells_required_ (fun q hq => hq) (h.noreach_old p cp hcp)
    simp only [Cell.Set, ht, if_true] at hs'
    obtain ⟨s2, h12, h3⟩ := bind_eq_ok hs'
    obtain ⟨s1, hclear, h2e⟩ := bind_eq_ok h12
    cases h2e
    rcases hole.clear m cp hcp (h.impl_isSome hcp) with
      ⟨s1', cp1, hclear', h1, hp1, _⟩ | ⟨s1', hclear'⟩
    swap
    · rw [hclear] at hclear'
      cases hclear'
    rw [hclear] at hclear'
    cases hclear'
    have hst1 := hole.clear_stays m cp hcp (h.impl_isSome hcp) s1 hclear q c hqp hc hq
    have h2 := h1.modifyBody
      (fun c => { c with impl_ := some Impl.EmptyImpl, cached_value_ := some (Value.num lib.zero) })
      (fun _ => rfl) (fun _ => rfl)
    exact hst1.staysTrans ((Sheet.Stays.of_eq (find_modify_ne _ _ _ _ hqp)).staysTrans
      (h2.updateDependentCache_stays s' h3 q))
  | false =>
    by_cases hf : t.length > 1 ∧ t.front = FORMULA_SIGN
    · rw [Set_formula_unfold lib _ s p t ht hf] at hs'
      cases ha : lib.ParseFormulaAST (t.drop 1) with
      | none =>
        rw [ha] at hs'
        cases hs'
      | some a =>
        rw [ha] at hs'
        obtain ⟨b, hcirc, hb⟩ := h.hasCircularDependency hpv p _ a ha
        simp only [hcirc] at hs'
        cases b with
        | true => cases hs'
        | false =>
          have hno : ¬ ∃ r ∈ Formula.GetReferencedCells lib a,
              Relation.ReflTransGen s.Requires r p := fun hx => by
            have := hb.2 hx
            cases this
          have hole := h.toHole p cp hcp
            (cp.cells_required_ ++ Formula.GetReferencedCells lib a)
            (fun q hq => List.mem_append_left _ hq)
            (fun r hr => by
              rcases List.mem_append.1 hr with hr | hr
              · exact h.noreach_old p cp hcp r hr
              · exact fun hreach => hno ⟨r, hr, hreach⟩)
          simp only at hs'
          obtain ⟨s4, h123, hudc⟩ := bind_eq_ok hs'
          obtain ⟨s3, h12, hrec⟩ := bind_eq_ok h123
          obtain ⟨s2, h1e, hupd⟩ := bind_eq_ok h12
          obtain ⟨s1, hclear, h2e⟩ := bind_eq_ok h1e
          cases h2e
          rcases hole.clear m cp hcp (h.impl_isSome hcp) with
            ⟨s1', cp1, hclear', h1, hp1, hreq1, _⟩ | ⟨s1', hclear'⟩
          swap
          · rw [hclear] at hclear'
            cases hclear'
          rw [hclear] at hclear'
          cases hclear'
          have hst1 := hole.clear_stays m cp hcp (h.impl_isSome hcp) s1 hclear q c hqp hc hq
          obtain ⟨c1, hc1, _, _⟩ := hst1 c hc
          have h2 := h1.modifyBody (fun c => { c with impl_ := some (Impl.FormulaImpl a) })
            (fun _ => rfl) (fun _ => rfl)
          have hp2 := find_modify_of_some (r := p)
            (fun c => { c with impl_ := some (Impl.FormulaImpl a) }) hp1
          simp only [if_true] at hp2
          have hc2 : (s1.modify p
              (fun c => { c with impl_ := some (Impl.FormulaImpl a) })).find q = some c1 :=
            (find_modify_ne _ _ _ _ hqp).trans hc1
          have hst23 := h2.updateDependencies_stays m _ hp2 _ s3 hupd q c1 hc2
            (Or.inl (by simp [hreq1]))
          obtain ⟨s3', cp3, hupd', h3, hp3, hi3, _⟩ :=
            h2.updateDependencies m _ hp2 (Formula.GetReferencedCells lib a)
              (fun r hr => ⟨List.mem_append_right _ hr,
                hpv _ a ha r ((mem_GetReferencedCells lib a r).1 hr)⟩)
              (nodup_GetReferencedCells lib a)
          rw [hupd] at hupd'
          cases hupd'
          have hi3' : cp3.impl_ = some (Impl.FormulaImpl a) := hi3
          cases hg : (Impl.FormulaImpl a).GetValue lib
              (s3.modify p (fun c => { c with cached_value_ := none })) with
          | error e =>
            rw [RecalculateCurrentCache_raise lib s3 p cp3 _ e hp3 hi3' hg] at hrec
            cases hrec
          | ok v =>
            rw [RecalculateCurrentCache_eq lib s3 p cp3 _ v hp3 hi3' hg] at hrec
            cases hrec
            have h4 := h3.modifyBody (fun c => { c with cached_value_ := none })
              (fun _ => rfl) (fun _ => rfl)
            have h5 := h4.modifyBody (fun c => { c with cached_value_ := some v })
              (fun _ => rfl) (fun _ => rfl)
            have hst34 : s3.Stays ((s3.modify p (fun c => { c with cached_value_ := none })).modify p
                (fun c => { c with cached_value_ := some v })) q :=
              Sheet.Stays.of_eq (by rw [find_modify_ne _ _ _ _ hqp, find_modify_ne _ _ _ _ hqp])
            exact hst1.staysTrans ((Sheet.Stays.of_eq (find_modify_ne _ _ _ _ hqp)).staysTrans
              (hst23.staysTrans (hst34.staysTrans (h5.updateDependentCache_stays s' hudc q))))
    · have hole := h.toHole p cp hcp cp.cells_required_ (fun q hq => hq)
        (h.noreach_old p cp hcp)
      simp only [Cell.Set, ht, Bool.false_eq_true, if_false, hf] at hs'
      obtain ⟨s3, h12, hudc⟩ := bind_eq_ok hs'
      obtain ⟨s2, h1e, htry⟩ := bind_eq_ok h12
      obtain ⟨s1, hclear, h2e⟩ := bind_eq_ok h1e
      cases h2e
      rcases hole.clear m cp hcp (h.impl_isSome hcp) with
        ⟨s1', cp1, hclear', h1, hp1, _⟩ | ⟨s1', hclear'⟩
      swap
      · rw [hclear] at hclear'
        cases hclear'
      rw [hclear] at hclear'
      cases hclear'
      have hst1 := hole.clear_stays m cp hcp (h.impl_isSome hcp) s1 hclear q c hqp hc hq
      have h2 := h1.modifyBody (fun c => { c with impl_ := some (Impl.TextImpl t) })
        (fun _ => rfl) (fun _ => rfl)
      have hp2 := find_modify_of_some (r := p)
        (fun c => { c with impl_ := some (Impl.TextImpl t) }) hp1
      simp only [if_true] at hp2
      rw [TryConvertTextDouble_eq lib _ p _ t hp2 rfl] at htry
      cases htry
      have h3 := h2.modifyBody
        (fun c => { c with cached_value_ := some (Cell.textCache lib t) })
        (fun _ => rfl) (fun _ => rfl)
      have hst13 : s1.Stays ((s1.modify p
          (fun c => { c with impl_ := some (Impl.TextImpl t) })).modify p
          (fun c => { c with cached_value_ := some (Cell.textCache lib t) })) q :=
        Sheet.Stays.of_eq (by rw [find_modify_ne _ _ _ _ hqp, find_modify_ne _ _ _ _ hqp])
      exact hst1.staysTrans (hst13.staysTrans (h3.updateDependentCache_stays s' hudc q))

/-- `SetCell`, when it returns on a sheet in order, leaves in place every other cell that
the cell at the position did not require or that has a dependent other than it. -/
theorem SetCell_stays {lib : FormulaLib A D} (hpv : lib.ParsesValid) {s : Sheet A D}
    (h : s.Inv lib) (p : Position) (t : String) (s' : Sheet A D)
    (hs' : Sheet.SetCell lib s p t = .ok s') (q : Position) (c : Cell A D) (hqp : q ≠ p)
    (hc : s.find q = some c)
    (hq : ¬ s.Requires p q ∨ ∃ x ∈ c.cells_dependent_, x ≠ p) : s.Stays s' q := by
  cases hv : p.IsValid with
  | false =>
    rw [SetCell_invalid lib s p t hv] at hs'
    cases hs'
  | true =>
    have h' := h.prepared p hv
    obtain ⟨cp, hcp⟩ := Option.isSome_iff_exists.1 (find_prepared_isSome s p)
    rw [SetCell_eq_Set lib s p t hv] at hs'
    have hfq : (s.prepared p).find q = s.find q := by
      cases hp : s.find p with
      | some c0 => rw [prepared_of_some s p h.size c0 hp]
      | none =>
        rw [find_prepared_of_none s p hp q]
        simp [hqp]
    have hq' : q ∉ cp.cells_required_ ∨ ∃ x ∈ c.cells_dependent_, x ≠ p := by
      rcases hq with hq | hq
      · left
        intro hm
        apply hq
        rw [← requires_prepared h p]
        exact ⟨cp, hcp, hm⟩
      · exact Or.inr hq
    exact (Sheet.Stays.of_eq hfq).staysTrans
      (Set_stays hpv h' _ p cp hcp t s' hs' q c hqp (hfq.trans hc) hq')

/-! ## Setting a cell and setting it back -/

/-- Two sheets in order that read the same body at every position, hold cells at the same
positions and agree on the cached values of their empty cells, agree on every body and every
cached value and have the same printable size. -/
theorem same_observables {lib : FormulaLib A D} (hl : lib.Local) {s s' : Sheet A D}
    (h : s.Inv lib) (h' : s'.Inv lib) (hb : ∀ q, s'.body q = s.body q)
    (hpres : ∀ q, (s'.find q).isSome = (s.find q).isSome)
    (hemp : ∀ q c c', s.find q = some c → s'.find q = some c' →
      c.impl_ = some Impl.EmptyImpl → c'.cached_value_ = c.cached_value_) :
    s'.size_ = s.size_ ∧ (∀ q, (s'.find q).isSome = (s.find q).isSome) ∧
    ∀ q c c', s.find q = some c → s'.find q = some c' →
      c'.impl_ = c.impl_ ∧ c'.cached_value_ = c.cached_value_ := by
  have himpl : ∀ q c c', s.find q = some c → s'.find q = some c' → c'.impl_ = c.impl_ := by
    intro q c c' hc hc'
    obtain ⟨i, hi, _⟩ := h.impl q c hc
    obtain ⟨i', hi', _⟩ := h'.impl q c' hc'
    have := hb q
    rw [body_of_find hc hi, body_of_find hc' hi'] at this
    rw [hi, hi', this]
  have hcache : ∀ (n : Nat) (q : Position) (c c' : Cell A D), ¬ HasChain s.Requires n q →
      s.find q = some c → s'.find q = some c' → c'.cached_value_ = c.cached_value_ := by
    intro n
    induction n with
    | zero =>
      intro q _ _ hch
      exact absurd (HasChain.zero q) hch
    | succ n ih =>
      intro q c c' hch hc hc'
      obtain ⟨i, hi, hrefs⟩ := h.impl q c hc
      have hi' : c'.impl_ = some i := (himpl q c c' hc hc').trans hi
      have hc1 := h.cache hl q c hc
      have hc2 := h'.cache hl q c' hc'
      simp only [Sheet.CellCached, hi] at hc1
      simp only [Sheet.CellCached, hi'] at hc2
      cases i with
      | EmptyImpl => exact hemp q c c' hc hc' hi
      | TextImpl t =>
        simp only at hc1 hc2
        rw [hc1, hc2]
      | FormulaImpl a =>
        simp only at hc1 hc2
        obtain ⟨v, hev, hv⟩ := hc1
        obtain ⟨v', hev', hv'⟩ := hc2
        have hview : ∀ x ∈ lib.GetCells a, s'.view x = s.view x := by
          intro x hx
          have hqx : s.Requires q x :=
            ⟨c, hc, (hrefs x).2 ((mem_GetReferencedCells lib a x).2 hx)⟩
          have hchx : ¬ HasChain s.Requires n x := HasChain.of_edge hqx hch
          have hp := hpres x
          cases hfx : s.find x with
          | none =>
            rw [hfx] at hp
            cases hfx' : s'.find x with
            | none => simp [Sheet.view, hfx, hfx']
            | some cx' => rw [hfx'] at hp; cases hp
          | some cx =>
            rw [hfx] at hp
            cases hfx' : s'.find x with
            | none => rw [hfx'] at hp; cases hp
            | some cx' =>
              have := ih x cx cx' hchx hfx hfx'
              simp [Sheet.view, hfx, hfx', this]
        rw [evaluate_congr hl a hview, hev] at hev'
        cases hev'
        rw [hv, hv']
  refine ⟨h.size.unique_of_isSome h'.size hpres, hpres, ?_⟩
  intro q c c' hc hc'
  exact ⟨himpl q c c' hc hc',
    hcache _ q c c' (h.requires_noChain q (by simp [hc])) hc hc'⟩

/-- The cache of an empty cell of a sheet in order is empty or holds `0.0`. -/
theorem Sheet.Inv.emptyCache {lib : FormulaLib A D} (hl : lib.Local) {s : Sheet A D}
    (h : s.Inv lib) {q : Position} {c : Cell A D} (hc : s.find q = some c)
    (hi : c.impl_ = some Impl.EmptyImpl) :
    c.cached_value_ = none ∨ c.cached_value_ = some (Value.num lib.zero) := by
  have := h.cache hl q c hc
  simpa only [Sheet.CellCached, hi] using this

/-- On a reachable sheet: a `SetCell(p, t)` on a position that holds a cell with a cached
value, followed by a `SetCell` of the text the cell had, both returning, leaves cells at the
same positions with the same bodies and cached values and the same printable size, when the
cells the old cell required hold cached values and no cell the new cell requires was an empty
cell without dependents. The text of a formula cell is taken to parse back to its formula. -/
theorem SetCell_back {lib : FormulaLib A D} (hpv : lib.ParsesValid) (hl : lib.Local)
    {s : Sheet A D} (hr : Sheet.Reachable lib s)
    (p : Position) (cp : Cell A D) (text : String) (hcp : s.find p = some cp)
    (htext : cp.GetText lib = some text) (hcvp : cp.cached_value_ ≠ none)
    (hreqc : ∀ q c, s.Requires p q → s.find q = some c → c.cached_value_ ≠ none)
    (hrt : ∀ a, cp.impl_ = some (Impl.FormulaImpl a) →
      lib.PrintFormula a ≠ "" ∧ lib.ParseFormulaAST (lib.PrintFormula a) = some a)
    (t : String) (s1 s2 : Sheet A D) (h1 : Sheet.SetCell lib s p t = .ok s1)
    (h2 : Sheet.SetCell lib s1 p text = .ok s2)
    (hnew : ∀ q, s1.Requires p q → ¬ s.Default q) :
    s2.size_ = s.size_ ∧ (∀ q, (s2.find q).isSome = (s.find q).isSome) ∧
    ∀ q c c', s.find q = some c → s2.find q = some c' →
      c'.impl_ = c.impl_ ∧ c'.cached_value_ = c.cached_value_ := by
  have hinv := Reachable.inv hpv hr
  have htok := Reachable.textOK hpv hr
  have hr1 : Sheet.Reachable lib s1 := by
    have := Sheet.Reachable.setCell s p t hr (by rw [h1]; rfl)
    rw [h1] at this
    exact this
  have hinv1 := Reachable.inv hpv hr1
  have htok1 := Reachable.textOK hpv hr1
  obtain ⟨_, _, cp0, c1, hcp0, hc1, hd1, _⟩ := SetCell_returns hpv hinv p t s1 h1
  rw [prepared_of_some s p hinv.size cp hcp, hcp] at hcp0
  cases hcp0
  obtain ⟨_, hinv2, cp1, c2, hcp1, hc2, hd2, hcase⟩ := SetCell_returns hpv hinv1 p text s2 h2
  rw [prepared_of_some s1 p hinv1.size c1 hc1, hc1] at hcp1
  cases hcp1
  have hf1 := SetCell_frame lib s p t s1 h1
  have hf2 := SetCell_frame lib s1 p text s2 h2
  obtain ⟨i, hi, _⟩ := hinv.impl p cp hcp
  have hbody_p : c2.impl_ = some i ∧ (i = Impl.EmptyImpl →
      c2.cached_value_ = some (Value.num lib.zero)) := by
    cases i with
    | EmptyImpl =>
      have ht : text = "" := by
        simpa [Cell.GetText, hi, Impl.GetText] using htext.symm
      subst ht
      rcases hcase with ⟨_, hi2, hv2, _⟩ | ⟨hne, _⟩ | ⟨hne, _⟩
      · exact ⟨hi2, fun _ => hv2⟩
      · cases hne
      · cases hne
    | TextImpl u =>
      have ht : text = u := by
        simpa [Cell.GetText, hi, Impl.GetText] using htext.symm
      subst ht
      obtain ⟨hne, hnf⟩ := htok p cp text hcp hi
      rcases hcase with ⟨h0, _⟩ | ⟨_, _, hi2, _⟩ | ⟨_, hf, _⟩
      · subst h0
        cases hne
      · exact ⟨hi2, fun h => by cases h⟩
      · exact absurd hf hnf
    | FormulaImpl a =>
      obtain ⟨hpne, hparse⟩ := hrt a hi
      have ht : text = "=" ++ lib.PrintFormula a := by
        simpa [Cell.GetText, hi, Impl.GetText, Formula.GetExpression, singleton_formula_sign]
          using htext.symm
      subst ht
      have hfl : ("=" ++ lib.PrintFormula a).length > 1 ∧
          ("=" ++ lib.PrintFormula a).front = FORMULA_SIGN :=
        ⟨formula_text_length _ hpne, formula_text_front _⟩
      rcases hcase with ⟨h0, _⟩ | ⟨_, hnf, _⟩ | ⟨_, _, a', ha', hi2, _⟩
      · have := formula_text_isEmpty (lib.PrintFormula a)
        rw [h0] at this
        cases this
      · exact absurd hfl hnf
      · rw [formula_text_drop, hparse] at ha'
        cases ha'
        exact ⟨hi2, fun h => by cases h⟩
  have hb : ∀ q, s2.body q = s.body q := by
    intro q
    by_cases hq : q = p
    · subst hq
      rw [body_of_find hc2 hbody_p.1, body_of_find hcp hi]
    · exact ((hf2 q hq).body_eq hinv1 htok1 q).trans ((hf1 q hq).body_eq hinv htok q)
  have hreq : s2.Requires = s.Requires := by
    funext x y
    apply propext
    rw [hinv2.requires_body, hinv.requires_body, hb]
  have hreq1 : ∀ x y, x ≠ p → (s1.Requires x y ↔ s.Requires x y) := by
    intro x y hx
    rw [hinv1.requires_body, hinv.requires_body, (hf1 x hx).body_eq hinv htok x]
  have hstep : ∀ q, q ≠ p → CellStep lib (s.find q) (s2.find q) :=
    fun q hq => (hf1 q hq).stepTrans (hf2 q hq)
  -- a cell that the second call could remove or refill has a dependent other than `p`
  have hother : ∀ q c cq1, q ≠ p → s.find q = some c → s1.find q = some cq1 →
      ¬ s.Requires p q → c.impl_ = some Impl.EmptyImpl → s1.Requires p q →
      ∃ x ∈ cq1.cells_dependent_, x ≠ p := by
    intro q c cq1 hqp hc hcq1 hrq hie hrq1
    have hnd : c.cells_dependent_ ≠ [] := fun hd => hnew q hrq1 ⟨c, hc, hie, hd⟩
    obtain ⟨x, hx⟩ := List.exists_mem_of_ne_nil _ hnd
    have hxq : s.Requires x q := hinv.sym2 q c x hc hx
    have hxp : x ≠ p := fun hxp => hrq (hxp ▸ hxq)
    obtain ⟨cx, hcx, hqx⟩ := (hreq1 x q hxp).2 hxq
    obtain ⟨d, hd, hxd⟩ := hinv1.sym1 x cx q hcx hqx
    rw [hcq1] at hd
    cases hd
    exact ⟨x, hxd, hxp⟩
  -- every cell other than `p` that was there stays, an empty one with its cache
  have hkeep : ∀ q c, q ≠ p → s.find q = some c → ¬ s.Requires p q → s.Stays s2 q := by
    intro q c hqp hc hrq
    have hst1 := SetCell_stays hpv hinv p t s1 h1 q c hqp hc (Or.inl hrq)
    obtain ⟨cq1, hcq1, hi1, _⟩ := hst1 c hc
    by_cases hrq1 : s1.Requires p q
    · by_cases hie : c.impl_ = some Impl.EmptyImpl
      · exact hst1.staysTrans (SetCell_stays hpv hinv1 p text s2 h2 q cq1 hqp hcq1
          (Or.inr (hother q c cq1 hqp hc hcq1 hrq hie hrq1)))
      · -- a cell with a text or a formula is never removed
        intro c0 hc0
        rw [hc] at hc0
        cases hc0
        have hs := hstep q hqp
        rw [hc] at hs
        cases hf : s2.find q with
        | none =>
          rw [hf] at hs
          exact absurd (hinv.textEmpty_impl htok hc hs) hie
        | some c' =>
          rw [hf] at hs
          refine ⟨c', rfl, ?_, fun he => absurd he hie⟩
          rcases hs.1 with h0 | ⟨h0, _⟩
          · exact h0
          · exact absurd (hinv.textEmpty_impl htok hc h0) hie
    · exact hst1.staysTrans (SetCell_stays hpv hinv1 p text s2 h2 q cq1 hqp hcq1
        (Or.inl hrq1))
  have hpres : ∀ q, (s2.find q).isSome = (s.find q).isSome := by
    intro q
    by_cases hqp : q = p
    · subst hqp
      rw [hc2, hcp]
      rfl
    cases hf : s.find q with
    | none =>
      cases hf2' : s2.find q with
      | none => rfl
      | some c' =>
        exfalso
        have hs := hstep q hqp
        rw [hf, hf2'] at hs
        obtain ⟨x, hx⟩ := List.exists_mem_of_ne_nil _ hs.2.1
        have hxq : s2.Requires x q := hinv2.sym2 q c' x hf2' hx
        rw [hreq] at hxq
        obtain ⟨cx, hcx, hqx⟩ := hxq
        obtain ⟨d, hd, _⟩ := hinv.sym1 x cx q hcx hqx
        rw [hf] at hd
        cases hd
    | some c =>
      by_cases hrq : s.Requires p q
      · have hrq2 : s2.Requires p q := by rw [hreq]; exact hrq
        obtain ⟨c2', hc2', hm⟩ := hrq2
        obtain ⟨d, hd, _⟩ := hinv2.sym1 p c2' q hc2' hm
        rw [hd]
        rfl
      · obtain ⟨c', hc', _⟩ := hkeep q c hqp hf hrq c hf
        rw [hc']
        rfl
  have hemp : ∀ q c c', s.find q = some c → s2.find q = some c' →
      c.impl_ = some Impl.EmptyImpl → c'.cached_value_ = c.cached_value_ := by
    intro q c c' hc hc' hie
    by_cases hqp : q = p
    · subst hqp
      rw [hcp] at hc
      cases hc
      rw [hc2] at hc'
      cases hc'
      rw [hi] at hie
      cases hie
      rcases hinv.emptyCache hl hcp hi with h0 | h0
      · exact absurd h0 hcvp
      · rw [hbody_p.2 rfl, h0]
    by_cases hrq : s.Requires p q
    · have hcv := hreqc q c hrq hc
      have hs := hstep q hqp
      rw [hc, hc'] at hs
      have hie' : c'.impl_ = some Impl.EmptyImpl := by
        rcases hs.1 with h0 | ⟨_, h0⟩
        · exact h0.trans hie
        · exact h0
      rcases hinv.emptyCache hl hc hie with h0 | h0
      · exact absurd h0 hcv
      · rcases hinv2.emptyCache hl hc' hie' with h0' | h0'
        · exact absurd (hs.2.1 h0') hcv
        · rw [h0, h0']
    · obtain ⟨c'', hc'', _, hv⟩ := hkeep q c hqp hc hrq c hc
      rw [hc'] at hc''
      cases hc''
      exact hv hie
  exact same_observables hl hinv hinv2 hb hpres hemp
/-- C20, counterexample: on the empty sheet `SetCell(B1, "=A1")` followed by `SetCell(B1, "")`,
the empty string being the text of the absent cell, both return, and afterwards `GetCell(B1)` is
non-null and the printable size is 1 x 2, where before no cell existed and the size was 0 x 0.
Where a cell exists at the position, the two calls return and the sheet differs afterwards
in three more cases: the cell at `B1` left without cached value by a refused `SetCell` has
the value 0 afterwards; the empty cell without dependents at `A1` is gone; and the cell at
`C3` that the formula `B1+C3` at `A2` requires, left without cached value by a refused
`SetCell`, has the value 0. -/
theorem SetCell_back_leaves_cell :
    (Sheet.Reachable Demo.lib Demo.sheet0 ∧ Demo.B1.IsValid = true ∧ Demo.B1 ≠ Demo.A1 ∧
      Demo.sheet0.GetCell Demo.B1 = .ok none ∧
      Demo.sheet0.GetPrintableSize = { rows := 0, cols := 0 } ∧
      (Sheet.SetCell Demo.lib Demo.sheet0 Demo.B1 "=A1").exn = none ∧
      (Sheet.SetCell Demo.lib (Sheet.SetCell Demo.lib Demo.sheet0 Demo.B1 "=A1").state Demo.B1
        "").exn = none ∧
      (Demo.setAndBack Demo.sheet0 Demo.B1 "").GetCell Demo.B1 = .ok (some (Cell.blank Demo.lib)) ∧
      (Demo.setAndBack Demo.sheet0 Demo.B1 "").GetPrintableSize = { rows := 1, cols := 2 }) ∧
    (Sheet.Reachable Demo.lib Demo.sheetLeftB1 ∧
      (Demo.sheetLeftB1.find Demo.B1).bind (Cell.GetText Demo.lib) = some "" ∧
      (Sheet.SetCell Demo.lib Demo.sheetLeftB1 Demo.B1 "=A1").exn = none ∧
      (Sheet.SetCell Demo.lib (Sheet.SetCell Demo.lib Demo.sheetLeftB1 Demo.B1 "=A1").state
        Demo.B1 "").exn = none ∧
      (Demo.sheetLeftB1.find Demo.B1).map Cell.GetValue = some none ∧
      ((Demo.setAndBack Demo.sheetLeftB1 Demo.B1 "").find Demo.B1).map Cell.GetValue =
        some (some (Value.num 0))) ∧
    (Sheet.Reachable Demo.lib Demo.sheetBlankA1 ∧
      (Demo.sheetBlankA1.find Demo.B1).bind (Cell.GetText Demo.lib) = some "x" ∧
      (Sheet.SetCell Demo.lib Demo.sheetBlankA1 Demo.B1 "=A1").exn = none ∧
      (Sheet.SetCell Demo.lib (Sheet.SetCell Demo.lib Demo.sheetBlankA1 Demo.B1 "=A1").state
        Demo.B1 "x").exn = none ∧
      Demo.sheetBlankA1.GetCell Demo.A1 = .ok (some (Cell.blank Demo.lib)) ∧
      (Demo.setAndBack Demo.sheetBlankA1 Demo.B1 "x").GetCell Demo.A1 = .ok none) ∧
    (Sheet.Reachable Demo.lib Demo.sheetMasked ∧
      (Demo.sheetMasked.find Demo.A2).bind (Cell.GetText Demo.lib) = some "=B1+C3+0" ∧
      (Demo.sheetMasked.find Demo.A2).map Cell.GetValue =
        some (some (Value.err Category.Value)) ∧
      (Sheet.SetCell Demo.lib Demo.sheetMasked Demo.A2 "=A1").exn = none ∧
      (Sheet.SetCell Demo.lib (Sheet.SetCell Demo.lib Demo.sheetMasked Demo.A2 "=A1").state
        Demo.A2 "=B1+C3+0").exn = none ∧
      (Demo.sheetMasked.find Demo.C3).map Cell.GetValue = some none ∧
      ((Demo.setAndBack Demo.sheetMasked Demo.A2 "=B1+C3+0").find Demo.C3).map Cell.GetValue =
        some (some (Value.num 0))) :=
  ⟨⟨Sheet.Reachable.empty, by decide, by decide, rfl, rfl, by decide, by decide, rfl,
      by decide⟩,
    ⟨Sheet.Reachable.setCell Demo.sheet0 Demo.B1 "=B1" Sheet.Reachable.empty (by decide),
      by decide, by decide, by decide, by decide, by decide⟩,
    ⟨Sheet.Reachable.setCell _ Demo.B1 "x"
        (Sheet.Reachable.setCell Demo.sheet0 Demo.A1 "" Sheet.Reachable.empty (by decide))
        (by decide),
      by decide, by decide, by decide, rfl, rfl⟩,
    ⟨Sheet.Reachable.setCell _ Demo.A2 "=B1+C3"
        (Sheet.Reachable.setCell _ Demo.B1 "x"
          (Sheet.Reachable.setCell Demo.sheet0 Demo.C3 "=C3" Sheet.Reachable.empty (by decide))
          (by decide))
        (by decide),
      by decide, by decide, by decide, by decide, by decide, by decide⟩⟩

/-- C20 (amended): on a reachable sheet, for a position `p` that holds a cell with a cached
value and the text `s` (a formula text being taken to parse back to its formula), every cell
that the cell at `p` requires holding a cached value and no cell that the formula `A1`
references being an empty cell without dependents: if `SetCell(p, "=A1")` and then
`SetCell(p, s)` both return, the sheet has the same printable size as before and, at every
position, a cell exactly when it had one, with the same `GetText()` and the same
`GetValue()`. -/
theorem SetCell_formula_and_back {lib : FormulaLib A D} (hpv : lib.ParsesValid) (hl : lib.Local)
    {s : Sheet A D} (hr : Sheet.Reachable lib s)
    (p : Position) (cp : Cell A D) (text : String) (hcp : s.find p = some cp)
    (htext : cp.GetText lib = some text) (hcvp : cp.GetValue ≠ none)
    (hreqc : ∀ q c, s.Requires p q → s.find q = some c → c.GetValue ≠ none)
    (hA1 : ∀ a, lib.ParseFormulaAST "A1" = some a → ∀ q ∈ lib.GetCells a, ¬ s.Default q)
    (hrt : ∀ a, cp.impl_ = some (Impl.FormulaImpl a) →
      lib.PrintFormula a ≠ "" ∧ lib.ParseFormulaAST (lib.PrintFormula a) = some a)
    (s1 s2 : Sheet A D) (h1 : Sheet.SetCell lib s p "=A1" = .ok s1)
    (h2 : Sheet.SetCell lib s1 p text = .ok s2) :
    s2.GetPrintableSize = s.GetPrintableSize ∧
    ∀ q, (s2.find q).isSome = (s.find q).isSome ∧
      (s2.find q).bind (Cell.GetText lib) = (s.find q).bind (Cell.GetText lib) ∧
      (s2.find q).bind Cell.GetValue = (s.find q).bind Cell.GetValue := by
  have hinv := Reachable.inv hpv hr
  have hnew : ∀ q, s1.Requires p q → ¬ s.Default q := by
    rintro q ⟨c, hc, hm⟩
    obtain ⟨_, _, cp0, c1, _, hc1, _, hcase⟩ := SetCell_returns hpv hinv p "=A1" s1 h1
    rw [hc1] at hc
    cases hc
    rcases hcase with ⟨h0, _⟩ | ⟨_, hnf, _⟩ | ⟨_, _, a, ha, _, hreq, _⟩
    · exact absurd h0 (by decide)
    · exact absurd (by decide) hnf
    · have hd : ("=A1" : String).drop 1 = "A1" := by decide
      rw [hd] at ha
      exact hA1 a ha q ((mem_GetReferencedCells lib a q).1 ((hreq q).1 hm))
  obtain ⟨hsz, hpres, hcells⟩ :=
    SetCell_back hpv hl hr p cp text hcp htext hcvp hreqc hrt "=A1" s1 s2 h1 h2 hnew
  refine ⟨hsz, fun q => ⟨hpres q, ?_⟩⟩
  have hp := hpres q
  cases hf : s.find q with
  | none =>
    rw [hf] at hp
    cases hf2 : s2.find q with
    | none => exact ⟨rfl, rfl⟩
    | some c2 => rw [hf2] at hp; cases hp
  | some c =>
    rw [hf] at hp
    cases hf2 : s2.find q with
    | none => rw [hf2] at hp; cases hp
    | some c2 =>
      obtain ⟨hi, hc⟩ := hcells q c c2 hf hf2
      exact ⟨by simp [GetText_congr lib hi], by simp [Cell.GetValue, hc]⟩

/-- C20 (amended), witness: on the sheet `A1 = "1"`, `A2 = "x"` with an empty cell without
dependents at `C3`, the text cell at `A2` is set to `"=A1"` and back; the sheet is as before,
the cell at `C3` included. -/
theorem SetCell_formula_and_back_witness :
    Demo.lib.ParsesValid ∧ Demo.lib.Local ∧ Sheet.Reachable Demo.lib Demo.sheetMixed ∧
    Demo.sheetMixed.find Demo.A2 = some Demo.cellTextX ∧
    Demo.cellTextX.GetText Demo.lib = some "x" ∧
    Demo.sheetMixed.find Demo.C3 = some (Cell.blank Demo.lib) ∧
    Sheet.SetCell Demo.lib Demo.sheetMixed Demo.A2 "=A1" =
      .ok (Sheet.SetCell Demo.lib Demo.sheetMixed Demo.A2 "=A1").state ∧
    Sheet.SetCell Demo.lib (Sheet.SetCell Demo.lib Demo.sheetMixed Demo.A2 "=A1").state
      Demo.A2 "x" = .ok (Demo.setAndBack Demo.sheetMixed Demo.A2 "x") ∧
    (Demo.setAndBack Demo.sheetMixed Demo.A2 "x").GetPrintableSize =
      Demo.sheetMixed.GetPrintableSize ∧
    ∀ q, ((Demo.setAndBack Demo.sheetMixed Demo.A2 "x").find q).isSome =
        (Demo.sheetMixed.find q).isSome ∧
      ((Demo.setAndBack Demo.sheetMixed Demo.A2 "x").find q).bind (Cell.GetText Demo.lib)
        = (Demo.sheetMixed.find q).bind (Cell.GetText Demo.lib) ∧
      ((Demo.setAndBack Demo.sheetMixed Demo.A2 "x").find q).bind Cell.GetValue
        = (Demo.sheetMixed.find q).bind Cell.GetValue :=
  ⟨Demo.lib_parsesValid, Demo.lib_local,
    Sheet.Reachable.setCell _ Demo.C3 ""
      (Sheet.Reachable.setCell _ Demo.A2 "x" Demo.reachable_sheet1 (by decide)) (by decide),
    by decide, by decide, by decide, by decide, by decide,
    SetCell_formula_and_back (s := Demo.sheetMixed) Demo.lib_parsesValid Demo.lib_local
      (Sheet.Reachable.setCell _ Demo.C3 ""
        (Sheet.Reachable.setCell _ Demo.A2 "x" Demo.reachable_sheet1 (by decide)) (by decide))
      Demo.A2 Demo.cellTextX "x" (by decide) (by decide) (by decide)
      (fun q c hrq _ => by
        obtain ⟨c0, hc0, hm⟩ := hrq
        have h0 : Demo.sheetMixed.find Demo.A2 = some Demo.cellTextX := by decide
        cases h0.symm.trans hc0
        cases hm)
      (fun a ha q hq => by
        have h0 : Demo.lib.ParseFormulaAST "A1" = some ([Demo.A1], 0) := by decide
        rw [h0] at ha
        cases ha
        have hq1 : q = Demo.A1 := by simpa [Demo.lib] using hq
        subst hq1
        rintro ⟨c, hc, hi, _⟩
        have h1 : (Demo.sheetMixed.find Demo.A1).bind (fun c => c.impl_) =
            some (Impl.TextImpl "1") := by decide
        have h2 : Demo.sheetMixed.find Demo.A1 = some c := hc
        rw [h2, Option.some_bind, hi] at h1
        cases h1)
      (fun a ha => by
        have h0 : Demo.cellTextX.impl_ = some (Impl.TextImpl "x") := rfl
        rw [h0] at ha
        cases ha)
      (Sheet.SetCell Demo.lib Demo.sheetMixed Demo.A2 "=A1").state
      (Demo.setAndBack Demo.sheetMixed Demo.A2 "x") (by decide) (by decide)⟩

end Spreadsheet

namespace Containers

variable {T : Type}

/-! ## Arrays -/

theorem length_make (ops : TypeOps T) (n : Nat) : (ArrayPtr.make ops n).length = n := by
  simp [ArrayPtr.make]

theorem write_eq (a : List T) (k : Nat) (x : T) (h : k < a.length) :
    ArrayPtr.write a k x = .ok (a.set k x) := by
  simp [ArrayPtr.write, h]

theorem load_eq (ops : TypeOps T) (a : List T) (first last : Nat) (h : last ≤ a.length) :
    ArrayPtr.load ops a first last = .ok ((a.take last).drop first) := by
  simp [ArrayPtr.load, h]

theorem take_drop_mid (l1 l2 : List T) (x : T) (m : Nat) :
    (l1 ++ x :: l2).take (l1.length + 1) = l1 ++ [x] ∧
    (l1 ++ x :: l2).drop (l1.length + 1 + m) = l2.drop m := by
  constructor
  · rw [List.take_append_eq_append_take]
    simp
  · rw [List.drop_append_eq_append_drop]
    have e : l1.length + 1 + m - l1.length = m + 1 := by omega
    rw [List.drop_of_length_le (by omega), e]
    simp

/-- A copy that fits overwrites the cells from `k` on and nothing else. -/
theorem store_eq (src : List T) : ∀ (dst : List T) (k : Nat), k + src.length ≤ dst.length →
    ArrayPtr.store src dst k = .ok (dst.take k ++ src ++ dst.drop (k + src.length)) := by
  induction src with
  | nil =>
    intro dst k _
    simp [ArrayPtr.store]
  | cons x src ih =>
    intro dst k h
    simp only [List.length_cons] at h
    have hk : k < dst.length := by omega
    simp only [ArrayPtr.store, write_eq dst k x hk]
    rw [ih (dst.set k x) (k + 1) (by simp only [List.length_set]; omega)]
    congr 1
    have hset : dst.set k x = dst.take k ++ x :: dst.drop (k + 1) := by
      rw [List.set_eq_take_append_cons_drop, if_pos hk]
    have hl : (dst.take k).length = k := by simp only [List.length_take]; omega
    have hmid := take_drop_mid (dst.take k) (dst.drop (k + 1)) x src.length
    rw [hl] at hmid
    rw [hset, hmid.1, hmid.2, List.drop_drop]
    have e3 : k + (x :: src).length = k + 1 + src.length := by
      simp only [List.length_cons]; omega
    simp only [e3, List.append_assoc, List.singleton_append]

theorem take_set_self (l : List T) : ∀ (n : Nat) (x : T), (l.set n x).take n = l.take n := by
  induction l with
  | nil => intro n x; simp
  | cons y l ih =>
    intro n x
    cases n with
    | zero => simp
    | succ n => simp [ih]

/-! ## `ResizeAndFill` -/

theorem length_elems (v : SimpleVector T) (hs : v.size_ ≤ v.ptr_data_.length) :
    v.elems.length = v.size_ := by
  simp only [SimpleVector.elems, List.length_take]
  omega

theorem SizeCapacityCheck_eq (v : SimpleVector T) (n c : Nat) (h : n ≤ c) :
    v.SizeCapacityCheck n c = { v with size_ := n, capacity_ := c } := by
  unfold SimpleVector.SizeCapacityCheck
  cases v with
  | mk a sz cp =>
    by_cases h1 : sz = n <;> by_cases h2 : cp = c <;> simp [h1, h2, h]

/-- The new array of `ResizeAndFill` has `new_capacity` cells and starts with the old
elements followed by `Type()` up to `new_size`. -/
theorem ResizeAndFill_ok (ops : TypeOps T) (v : SimpleVector T) (n c : Nat) (pb : Bool)
    (hs : v.size_ ≤ v.ptr_data_.length) (h1 : v.size_ ≤ c) (h2 : n ≤ c)
    (h3 : pb = true → v.size_ ≤ n ∧ n < c) :
    ∃ a, v.ResizeAndFill ops n c pb = .ok { ptr_data_ := a, size_ := n, capacity_ := c } ∧
      a.length = c ∧
      a.take (max v.size_ n) = v.elems ++ List.replicate (n - v.size_) ops.dflt := by
  have hlen := length_elems v hs
  have hload : ArrayPtr.load ops v.ptr_data_ 0 v.size_ = .ok v.elems := by
    rw [load_eq ops _ _ _ hs]; rfl
  have hst1 : ArrayPtr.store v.elems (ArrayPtr.make ops c) 0 =
      .ok (v.elems ++ (ArrayPtr.make ops c).drop v.size_) := by
    rw [store_eq _ _ _ (by rw [hlen, length_make]; omega)]
    simp [hlen]
  have hl1 : (v.elems ++ (ArrayPtr.make ops c).drop v.size_).length = c := by
    simp only [List.length_append, hlen, List.length_drop, length_make]; omega
  have hst2 := store_eq (List.replicate (n - v.size_) ops.dflt)
    (v.elems ++ (ArrayPtr.make ops c).drop v.size_) v.size_
    (by rw [hl1, List.length_replicate]; omega)
  have htake : (v.elems ++ (ArrayPtr.make ops c).drop v.size_).take v.size_ = v.elems := by
    rw [List.take_append_eq_append_take, hlen, List.take_of_length_le (by omega)]
    simp
  rw [htake, List.length_replicate] at hst2
  have hmax : max v.size_ n = v.size_ + (n - v.size_) := by omega
  have hl2 : (v.elems ++ List.replicate (n - v.size_) ops.dflt ++
      (v.elems ++ (ArrayPtr.make ops c).drop v.size_).drop (v.size_ + (n - v.size_))).length
      = c := by
    simp only [List.length_append, hlen, List.length_drop, length_make, List.length_replicate]
    omega
  have ht2 : (v.elems ++ List.replicate (n - v.size_) ops.dflt ++
      (v.elems ++ (ArrayPtr.make ops c).drop v.size_).drop (v.size_ + (n - v.size_))).take
        (max v.size_ n) = v.elems ++ List.replicate (n - v.size_) ops.dflt := by
    rw [List.take_append_eq_append_take, List.take_of_length_le
      (by simp only [List.length_append, hlen, List.length_replicate]; omega)]
    simp only [List.length_append, hlen, List.length_replicate, hmax, Nat.sub_self,
      List.take_zero, List.append_nil]
  unfold SimpleVector.ResizeAndFill
  simp only [hload, hst1, hst2, SizeCapacityCheck_eq v n c h2]
  cases pb with
  | false =>
    exact ⟨_, rfl, hl2, ht2⟩
  | true =>
    obtain ⟨h4, h5⟩ := h3 rfl
    simp only [if_true]
    rw [write_eq _ _ _ (by rw [hl2]; exact h5)]
    refine ⟨_, rfl, by rw [List.length_set, hl2], ?_⟩
    have hmn : max v.size_ n = n := by omega
    rw [hmn] at ht2 ⊢
    rw [take_set_self, ht2]

/-! ## Reading elements -/

theorem At_of_elems (ops : TypeOps T) (v : SimpleVector T) (i : Nat) (x : T) (hi : i < v.size_)
    (hx : v.elems[i]? = some x) : v.At ops i = .ok x := by
  have hx' : v.ptr_data_[i]? = some x := by
    simpa [SimpleVector.elems, List.getElem?_take, hi] using hx
  simp [SimpleVector.At, ArrayPtr.read, hx', Nat.not_le.2 hi]

theorem elems_of_lt (v : SimpleVector T) (hs : v.size_ ≤ v.ptr_data_.length) (i : Nat)
    (hi : i < v.size_) : ∃ x, v.elems[i]? = some x := by
  have hl : i < v.elems.length := by rw [length_elems v hs]; exact hi
  exact ⟨v.elems[i], List.getElem?_eq_getElem hl⟩

/-- C24: `SimpleVector::At(index)` raises `std::out_of_range` exactly when
`index >= GetSize()`; below the size it does what `operator[]` does, and on a vector whose
elements fit in its array this is the return of the element at `index`. `At` only reads. -/
theorem At_out_of_range_iff (ops : TypeOps T) (v : SimpleVector T) (index : Nat) :
    (v.At ops index = .error Fault.out_of_range ↔ index ≥ v.GetSize) ∧
    (index < v.GetSize → v.At ops index = v.opIndex ops index) ∧
    (v.WF → index < v.GetSize →
      ∃ x, v.elems[index]? = some x ∧ v.At ops index = .ok x ∧
        v.opIndex ops index = .ok x) := by
  refine ⟨?_, ?_, ?_⟩
  · constructor
    · intro h
      by_contra hlt
      simp only [SimpleVector.GetSize] at hlt
      simp only [SimpleVector.At, hlt, if_false, ArrayPtr.read] at h
      cases hr : v.ptr_data_[index]? with
      | none =>
        rw [hr] at h
        cases he : v.ptr_data_.isEmpty <;> simp [he] at h
      | some x => rw [hr] at h; cases h
    · intro h
      simp only [SimpleVector.GetSize] at h
      simp [SimpleVector.At, h]
  · intro h
    simp only [SimpleVector.GetSize] at h
    simp [SimpleVector.At, SimpleVector.opIndex, h, Nat.not_le.2 h]
  · intro hwf h
    simp only [SimpleVector.GetSize] at h
    obtain ⟨x, hx⟩ := elems_of_lt v (by rw [hwf.1]; exact hwf.2) index h
    have hat := At_of_elems ops v index x h hx
    refine ⟨x, hx, hat, ?_⟩
    rw [← hat]
    simp [SimpleVector.At, SimpleVector.opIndex, h, Nat.not_le.2 h]

/-- Witness for C24: in the vector `1, 2, 3` with a fourth cell, `At(1)` returns 2 and `At(3)`
raises. -/
theorem At_out_of_range_iff_witness :
    (⟨[1, 2, 3, 9], 3, 4⟩ : SimpleVector Int).WF ∧
    (⟨[1, 2, 3, 9], 3, 4⟩ : SimpleVector Int).At Demo.intOps 3 = .error Fault.out_of_range ∧
    (⟨[1, 2, 3, 9], 3, 4⟩ : SimpleVector Int).At Demo.intOps 1 = .ok 2 ∧
    ∃ x, (⟨[1, 2, 3, 9], 3, 4⟩ : SimpleVector Int).elems[1]? = some x ∧
      (⟨[1, 2, 3, 9], 3, 4⟩ : SimpleVector Int).At Demo.intOps 1 = .ok x ∧
      (⟨[1, 2, 3, 9], 3, 4⟩ : SimpleVector Int).opIndex Demo.intOps 1 = .ok x :=
  ⟨by decide, rfl, rfl,
    (At_out_of_range_iff Demo.intOps (⟨[1, 2, 3, 9], 3, 4⟩ : SimpleVector Int) 1).2.2
      (by decide) (by decide)⟩

/-! ## `Resize` -/

/-- C25: on a vector whose elements fit in its array, `Resize(n)` returns and leaves `n`
elements: the first `n` old elements followed by `n - |xs|` values `Type()`, whatever the
cells behind the old elements held; so the elements below `min(|xs|, n)` are the old ones and
those from `|xs|` to `n - 1` are `Type()`. -/
theorem Resize_elems (ops : TypeOps T) (v : SimpleVector T) (n : Nat) (hwf : v.WF) :
    ∃ v', v.Resize ops n = .ok v' ∧ v'.GetSize = n ∧ v'.WF ∧
      v'.elems = v.elems.take n ++ List.replicate (n - v.GetSize) ops.dflt ∧
      (∀ i, i < min v.GetSize n → v'.At ops i = v.At ops i) ∧
      (∀ i, v.GetSize ≤ i → i < n → v'.At ops i = .ok ops.dflt) := by
  simp only [SimpleVector.GetSize]
  obtain ⟨hlen, hsz⟩ := hwf
  have hs : v.size_ ≤ v.ptr_data_.length := by omega
  have hel := length_elems v hs
  have key : ∃ v', v.Resize ops n = .ok v' ∧ v'.size_ = n ∧ v'.WF ∧
      v'.elems = v.elems.take n ++ List.replicate (n - v.size_) ops.dflt := by
    unfold SimpleVector.Resize
    by_cases h1 : n < v.size_
    · simp only [h1, if_true]
      refine ⟨_, rfl, rfl, ⟨hlen, by simp only; omega⟩, ?_⟩
      have e : n - v.size_ = 0 := by omega
      simp only [SimpleVector.elems, e, List.replicate_zero, List.append_nil, List.take_take]
      congr 1
      omega
    · simp only [h1, if_false]
      have hmax : max v.size_ n = n := by omega
      have htk : v.elems.take n = v.elems := List.take_of_length_le (by omega)
      by_cases h2 : n ≤ v.capacity_
      · simp only [h2, if_true]
        obtain ⟨a, ha, hal, hat⟩ := ResizeAndFill_ok ops v n n false hs (by omega)
          (Nat.le_refl n) (by simp)
        rw [hmax] at hat
        exact ⟨_, ha, rfl, ⟨hal, Nat.le_refl n⟩, by rw [htk]; exact hat⟩
      · simp only [h2, if_false]
        obtain ⟨a, ha, hal, hat⟩ := ResizeAndFill_ok ops v n
          (max n (v.capacity_ * 2 % SIZE_MODULUS)) false hs (by omega) (by omega) (by simp)
        rw [hmax] at hat
        exact ⟨_, ha, rfl, ⟨hal, by simp only; omega⟩, by rw [htk]; exact hat⟩
  obtain ⟨v', hres, hsize, hwf', helems⟩ := key
  refine ⟨v', hres, hsize, hwf', helems, ?_, ?_⟩
  · intro i hi
    obtain ⟨x, hx⟩ := elems_of_lt v hs i (by omega)
    rw [At_of_elems ops v i x (by omega) hx]
    apply At_of_elems ops v' i x (by omega)
    rw [helems, List.getElem?_append_left (by simp only [List.length_take]; omega),
      List.getElem?_take_of_lt (by omega)]
    exact hx
  · intro i h1 h2
    apply At_of_elems ops v' i _ (by omega)
    have htl : (v.elems.take n).length = v.size_ := by
      simp only [List.length_take]; omega
    rw [helems, List.getElem?_append_right (by omega), htl]
    exact List.getElem?_replicate_of_lt (by omega)

/-- Witness for C25: the vector `1, 2, 3` shrunk to `1` keeps `2, 3` in its cells; `Resize(3)`
then gives `1, 0, 0`. -/
theorem Resize_elems_witness :
    (⟨[1, 2, 3, 9], 1, 4⟩ : SimpleVector Int).WF ∧
    (⟨[1, 2, 3, 9], 3, 4⟩ : SimpleVector Int).Resize Demo.intOps 1 = .ok ⟨[1, 2, 3, 9], 1, 4⟩ ∧
    (⟨[1, 2, 3, 9], 1, 4⟩ : SimpleVector Int).Resize Demo.intOps 3 = .ok ⟨[1, 0, 0], 3, 3⟩ ∧
    ∃ v', (⟨[1, 2, 3, 9], 1, 4⟩ : SimpleVector Int).Resize Demo.intOps 3 = .ok v' ∧
      v'.GetSize = 3 ∧ v'.WF ∧
      v'.elems = (⟨[1, 2, 3, 9], 1, 4⟩ : SimpleVector Int).elems.take 3 ++
        List.replicate (3 - (⟨[1, 2, 3, 9], 1, 4⟩ : SimpleVector Int).GetSize)
          Demo.intOps.dflt ∧
      (∀ i, i < min (⟨[1, 2, 3, 9], 1, 4⟩ : SimpleVector Int).GetSize 3 →
        v'.At Demo.intOps i = (⟨[1, 2, 3, 9], 1, 4⟩ : SimpleVector Int).At Demo.intOps i) ∧
      (∀ i, (⟨[1, 2, 3, 9], 1, 4⟩ : SimpleVector Int).GetSize ≤ i → i < 3 →
        v'.At Demo.intOps i = .ok Demo.intOps.dflt) :=
  ⟨by decide, rfl, rfl, Resize_elems Demo.intOps ⟨[1, 2, 3, 9], 1, 4⟩ 3 (by decide)⟩

/-! ## `PushBack` -/

theorem take_succ_set (a : List T) (k : Nat) (x : T) (hk : k < a.length) :
    (a.set k x).take (k + 1) = a.take k ++ [x] := by
  have hl : (a.take k).length = k := by simp only [List.length_take]; omega
  have hmid := (take_drop_mid (a.take k) (a.drop (k + 1)) x 0).1
  rw [hl] at hmid
  rw [List.set_eq_take_append_cons_drop, if_pos hk, hmid]

/-- Capacity after an insertion: doubled when the vector was full, 1 when it had no cell. -/
theorem grow_ok (ops : TypeOps T) (v : SimpleVector T) (pb : Bool) (hwf : v.WF)
    (hcap : 2 * v.capacity_ < SIZE_MODULUS) (hpos : 0 < v.capacity_) :
    ∃ a c, (if v.size_ = v.capacity_ then
          v.ResizeAndFill ops v.size_ (2 * v.capacity_ % SIZE_MODULUS) pb else .ok v) =
        .ok { ptr_data_ := a, size_ := v.size_, capacity_ := c } ∧
      c = (if v.size_ = v.capacity_ then 2 * v.capacity_ else v.capacity_) ∧
      a.length = c ∧ v.size_ < c ∧ a.take v.size_ = v.elems := by
  obtain ⟨hlen, hsz⟩ := hwf
  by_cases hfull : v.size_ = v.capacity_
  · simp only [hfull, if_true, Nat.mod_eq_of_lt hcap]
    obtain ⟨a, ha, hal, hat⟩ := ResizeAndFill_ok ops v v.size_ (2 * v.capacity_) pb
      (by omega) (by omega) (by omega) (fun _ => ⟨Nat.le_refl _, by omega⟩)
    rw [hfull] at ha
    refine ⟨a, _, ha, rfl, hal, by omega, ?_⟩
    simpa [hfull] using hat
  · simp only [hfull, if_false]
    refine ⟨v.ptr_data_, v.capacity_, rfl, rfl, hlen, by omega, rfl⟩

/-- A vector with capacity has an array. -/
theorem isEmpty_false (v : SimpleVector T) (hwf : v.WF) (hpos : 0 < v.capacity_) :
    v.ptr_data_.isEmpty = false := by
  have h1 := hwf.1
  cases h : v.ptr_data_ with
  | nil => rw [h] at h1; simp at h1; omega
  | cons y l => rfl

/-- What `PushBack` leaves when the read of its argument gives `x`: the old elements followed
by `x`, and the capacity doubled when the vector was full. -/
theorem PushBack_read (ops : TypeOps T) (v : SimpleVector T) (item : Ref T) (x : T)
    (hwf : v.WF) (hcap : 2 * v.GetCapacity < SIZE_MODULUS)
    (hr : item.read ops v.ptr_data_ (decide (v.size_ ≠ v.capacity_)) = .ok x) :
    ∃ v', v.PushBack ops item = .ok v' ∧ v'.elems = v.elems ++ [x] ∧
      v'.GetSize = v.GetSize + 1 ∧ v'.WF ∧
      v'.GetCapacity = (if v.GetSize = v.GetCapacity then
        (if v.GetCapacity = 0 then 1 else 2 * v.GetCapacity) else v.GetCapacity) := by
  simp only [SimpleVector.GetSize, SimpleVector.GetCapacity] at hcap ⊢
  have hwf0 := hwf
  obtain ⟨hlen, hsz⟩ := hwf
  unfold SimpleVector.PushBack
  by_cases h0 : v.size_ = 0 ∧ v.capacity_ = 0
  · have hr0 : item.read ops v.ptr_data_ false = .ok x := by
      simpa [h0.1, h0.2] using hr
    simp only [h0, and_self, if_true, hr0]
    have hel : v.elems = [] := by simp [SimpleVector.elems, h0.1]
    refine ⟨⟨[x], 1, 1⟩, ?_, ?_, rfl, ⟨rfl, Nat.le_refl 1⟩, rfl⟩
    · simp [SimpleVector.Initialize, ArrayPtr.make, ArrayPtr.write, List.range_succ]
    · rw [hel]; rfl
  · have hpos : 0 < v.capacity_ := by omega
    simp only [h0, if_false]
    obtain ⟨a, c, hg, hc, hal, hlt, hat⟩ := grow_ok ops v true hwf0 hcap hpos
    have hc2 : c ≤ 2 * v.capacity_ := by
      rw [hc]; split_ifs <;> omega
    rw [hg]
    simp only [hr, write_eq a v.size_ x (by omega), Nat.mod_eq_of_lt (show v.size_ + 1 <
      SIZE_MODULUS by omega)]
    refine ⟨_, rfl, ?_, rfl, ⟨by simp only [List.length_set]; exact hal, by simp only; omega⟩,
      ?_⟩
    · simp only [SimpleVector.elems]
      rw [take_succ_set a v.size_ x (by omega), hat]
      rfl
    · simp only [hc]
      have : ¬ v.capacity_ = 0 := by omega
      simp [this]

/-- With an argument that is no part of the vector, `PushBack(item)` returns and leaves the
old elements followed by `item`; the size grows by one; the capacity doubles when the vector
was full, becoming 1 when it was 0, and stays otherwise. -/
theorem PushBack_ok (ops : TypeOps T) (v : SimpleVector T) (item : T) (hwf : v.WF)
    (hcap : 2 * v.GetCapacity < SIZE_MODULUS) :
    ∃ v', v.PushBack ops (Ref.value item) = .ok v' ∧ v'.elems = v.elems ++ [item] ∧
      v'.GetSize = v.GetSize + 1 ∧ v'.WF ∧
      v'.GetCapacity = (if v.GetSize = v.GetCapacity then
        (if v.GetCapacity = 0 then 1 else 2 * v.GetCapacity) else v.GetCapacity) :=
  PushBack_read ops v (Ref.value item) item hwf hcap rfl

/-- With an element of the vector itself as argument and room left, `PushBack(v[i])` appends
that element. -/
theorem PushBack_elem_room (ops : TypeOps T) (v : SimpleVector T) (i : Nat) (x : T)
    (hwf : v.WF) (hcap : 2 * v.GetCapacity < SIZE_MODULUS) (hroom : v.GetSize ≠ v.GetCapacity)
    (hx : v.elems[i]? = some x) :
    ∃ v', v.PushBack ops (Ref.elem i) = .ok v' ∧ v'.elems = v.elems ++ [x] ∧
      v'.GetSize = v.GetSize + 1 ∧ v'.WF ∧ v'.GetCapacity = v.GetCapacity := by
  simp only [SimpleVector.GetSize, SimpleVector.GetCapacity] at hroom
  have hx' : v.ptr_data_[i]? = some x := by
    simp only [SimpleVector.elems, List.getElem?_take] at hx
    split_ifs at hx
    exact hx
  obtain ⟨v', h1, h2, h3, h4, h5⟩ := PushBack_read ops v (Ref.elem i) x hwf hcap
    (by simp [Ref.read, hroom, ArrayPtr.read, hx'])
  refine ⟨v', h1, h2, h3, h4, ?_⟩
  rw [h5]
  simp [SimpleVector.GetSize, SimpleVector.GetCapacity, hroom]

/-- With an element of the vector itself as argument and no room left, `PushBack(v[i])`
appends what the read of the released array gives. -/
theorem PushBack_elem_full (ops : TypeOps T) (v : SimpleVector T) (i : Nat)
    (hwf : v.WF) (hcap : 2 * v.GetCapacity < SIZE_MODULUS) (hfull : v.GetSize = v.GetCapacity)
    (hpos : 0 < v.GetCapacity) :
    ∃ v', v.PushBack ops (Ref.elem i) = .ok v' ∧ v'.elems = v.elems ++ [ops.released i] ∧
      v'.GetSize = v.GetSize + 1 ∧ v'.WF ∧ v'.GetCapacity = 2 * v.GetCapacity := by
  simp only [SimpleVector.GetSize, SimpleVector.GetCapacity] at hfull hpos
  have hne := isEmpty_false v hwf hpos
  obtain ⟨v', h1, h2, h3, h4, h5⟩ := PushBack_read ops v (Ref.elem i) (ops.released i) hwf hcap
    (by simp [Ref.read, hfull, hne])
  refine ⟨v', h1, h2, h3, h4, ?_⟩
  rw [h5]
  have : ¬ v.capacity_ = 0 := by omega
  simp [SimpleVector.GetSize, SimpleVector.GetCapacity, hfull, this]

/-- C27, the defect: on the full vector `1, 2, 3` the call `v.PushBack(v[2])` appends what the
read of the array released by `ResizeAndFill` gives, whatever that is, here -3, and not the
element 3 that `v[2]` returns; with the value 3 held outside the vector, and with `v[2]` on a
vector that has room left, the element appended is 3. -/
theorem PushBack_reads_released_array :
    (⟨[1, 2, 3], 3, 3⟩ : SimpleVector Int).WF ∧
    (⟨[1, 2, 3], 3, 3⟩ : SimpleVector Int).opIndex Demo.intOps 2 = .ok 3 ∧
    (⟨[1, 2, 3], 3, 3⟩ : SimpleVector Int).PushBack Demo.intOps (Ref.elem 2) =
      .ok ⟨[1, 2, 3, -3, 104, 105], 4, 6⟩ ∧
    (∀ ops : TypeOps Int, ∃ v', (⟨[1, 2, 3], 3, 3⟩ : SimpleVector Int).PushBack ops (Ref.elem 2)
      = .ok v' ∧ v'.elems = [1, 2, 3, ops.released 2]) ∧
    (⟨[1, 2, 3], 3, 3⟩ : SimpleVector Int).PushBack Demo.intOps (Ref.value 3) =
      .ok ⟨[1, 2, 3, 3, 104, 105], 4, 6⟩ ∧
    (⟨[1, 2, 3, 9], 3, 4⟩ : SimpleVector Int).PushBack Demo.intOps (Ref.elem 2) =
      .ok ⟨[1, 2, 3, 3], 4, 4⟩ :=
  ⟨by decide, rfl, rfl, fun _ => ⟨_, rfl, rfl⟩, rfl, rfl⟩

/-! ## `Insert` -/

/-- Capacity the insertions leave. -/
theorem shift_ok (ops : TypeOps T) (v : SimpleVector T) (pos : Nat) (value : Ref T) (x : T)
    (temp : SimpleVector T) (hwf : v.WF) (hcap : 2 * v.capacity_ < SIZE_MODULUS)
    (hpos : pos < v.size_) (htl : temp.ptr_data_.length = v.size_ - pos)
    (hts : temp.size_ = v.size_ - pos)
    (hr : value.read ops v.ptr_data_ (decide (v.size_ ≠ v.capacity_)) = .ok x) :
    ∃ v', SimpleVector.Insert.shift ops v pos value temp = .ok (v', pos) ∧
      v'.elems = v.elems.take pos ++ [x] ++ v.elems.drop pos ∧
      v'.size_ = v.size_ + 1 ∧ v'.WF ∧
      v'.capacity_ = (if v.size_ = v.capacity_ then 2 * v.capacity_ else v.capacity_) := by
  have hwf0 := hwf
  obtain ⟨hlen, hsz⟩ := hwf
  have hs : v.size_ ≤ v.ptr_data_.length := by omega
  have hel := length_elems v hs
  have hload : ArrayPtr.load ops v.ptr_data_ pos v.size_ = .ok (v.elems.drop pos) := by
    rw [load_eq ops _ _ _ hs]; rfl
  have hsl : (v.elems.drop pos).length = v.size_ - pos := by
    simp only [List.length_drop, hel]
  have hst : ArrayPtr.store (v.elems.drop pos) temp.ptr_data_ 0 = .ok (v.elems.drop pos) := by
    have hdrop : temp.ptr_data_.drop (0 + (v.elems.drop pos).length) = [] :=
      List.drop_of_length_le (by rw [hsl, htl]; omega)
    rw [store_eq _ _ _ (by rw [hsl, htl]; omega), hdrop]
    simp
  have hload2 : ArrayPtr.load ops (v.elems.drop pos) 0 temp.size_ = .ok (v.elems.drop pos) := by
    rw [load_eq ops _ _ _ (by rw [hsl, hts]), List.take_of_length_le (by rw [hsl, hts])]
    rfl
  obtain ⟨a, c, hg, hc, hal, hlt, hat⟩ := grow_ok ops v false hwf0 hcap (by omega)
  have hg' : (if v.size_ = v.capacity_ then
      v.ResizeAndFill ops v.size_ (v.capacity_ * 2 % SIZE_MODULUS) false else .ok v) =
      .ok { ptr_data_ := a, size_ := v.size_, capacity_ := c } := by
    rw [Nat.mul_comm]; exact hg
  have hc2 : c ≤ 2 * v.capacity_ := by
    rw [hc]; split_ifs <;> omega
  have hst2 := store_eq (v.elems.drop pos) (a.set pos x) (pos + 1)
    (by rw [hsl, List.length_set]; omega)
  unfold SimpleVector.Insert.shift
  simp only [hload, hst, hg', hr, write_eq a pos x (by omega), hload2, hst2,
    Nat.mod_eq_of_lt (show v.size_ + 1 < SIZE_MODULUS by omega)]
  refine ⟨_, rfl, ?_, rfl, ⟨?_, by simp only; omega⟩, by simp only [hc]⟩
  · simp only [SimpleVector.elems]
    have hap : a.take pos = v.elems.take pos := by
      rw [← hat, List.take_take]; congr 1; omega
    have hX : (a.set pos x).take (pos + 1) = v.elems.take pos ++ [x] := by
      rw [take_succ_set a pos x (by omega), hap]
    rw [hX]
    exact List.take_left' (by
      simp only [List.length_append, List.length_take, hel, List.length_drop,
        List.length_singleton]; omega)
  · simp only [List.length_append, List.length_take, List.length_set, hsl, List.length_drop,
      hal]
    omega

/-- The claimed capacity after an insertion. -/
theorem capacity_cases (v : SimpleVector T) (h : 0 < v.size_) (hsz : v.size_ ≤ v.capacity_) :
    (if v.size_ = v.capacity_ then 2 * v.capacity_ else v.capacity_) =
      (if v.size_ = v.capacity_ then (if v.capacity_ = 0 then 1 else 2 * v.capacity_)
        else v.capacity_) := by
  have : ¬ v.capacity_ = 0 := by omega
  simp [this]

/-- The overload `Insert(ConstIterator, Type&&)` does what is asked of an insertion when the
read of its argument gives `x`: `x` stands at index `pos` between the old elements, the
iterator returned has index `pos`, and the capacity doubles when the vector was full,
becoming 1 when it was 0, and stays otherwise. -/
theorem InsertMove_ok (ops : TypeOps T) (v : SimpleVector T) (pos : Nat) (value : Ref T)
    (x : T) (hwf : v.WF) (hcap : 2 * v.GetCapacity < SIZE_MODULUS) (hpos : pos ≤ v.GetSize)
    (hr : value.read ops v.ptr_data_ (decide (v.size_ ≠ v.capacity_)) = .ok x) :
    ∃ v', v.InsertMove ops pos value = .ok (v', pos) ∧
      v'.elems = v.elems.take pos ++ [x] ++ v.elems.drop pos ∧
      v'.GetSize = v.GetSize + 1 ∧ v'.WF ∧
      v'.GetCapacity = (if v.GetSize = v.GetCapacity then
        (if v.GetCapacity = 0 then 1 else 2 * v.GetCapacity) else v.GetCapacity) := by
  have hs : v.size_ ≤ v.ptr_data_.length := by rw [hwf.1]; exact hwf.2
  have hel := length_elems v hs
  unfold SimpleVector.InsertMove
  simp only [SimpleVector.GetSize] at hpos
  simp only [hpos, not_true_eq_false, if_false]
  by_cases hend : v.size_ = 0 ∨ pos = v.size_
  · simp only [hend, if_true]
    obtain ⟨v', hpb, he, hsize, hwf', hc⟩ := PushBack_read ops v value x hwf hcap hr
    have hp : pos = v.size_ := by omega
    simp only [SimpleVector.GetSize] at hsize
    rw [hpb]
    simp only [hsize, Nat.add_sub_cancel]
    refine ⟨v', by rw [hp], ?_, hsize, hwf', hc⟩
    rw [he, hp, List.take_of_length_le (by omega), List.drop_of_length_le (by omega)]
    simp
  · simp only [hend, if_false]
    have hlt : pos < v.size_ := by omega
    obtain ⟨a, ha, hal, _⟩ := ResizeAndFill_ok ops (SimpleVector.empty : SimpleVector T)
      (v.size_ - pos) (v.size_ - pos) false (by simp [SimpleVector.empty])
      (by simp [SimpleVector.empty]) (Nat.le_refl _) (by simp)
    rw [ha]
    obtain ⟨v', hsh, he, hsize, hwf', hc⟩ := shift_ok ops v pos value x
      { ptr_data_ := a, size_ := v.size_ - pos, capacity_ := v.size_ - pos } hwf hcap hlt
      hal rfl hr
    refine ⟨v', hsh, he, hsize, hwf', ?_⟩
    simp only [SimpleVector.GetCapacity, SimpleVector.GetSize]
    rw [← capacity_cases v (by omega) hwf.2]
    exact hc

theorem ofSize_ok (ops : TypeOps T) (n : Nat) :
    SimpleVector.ofSize ops n =
      .ok { ptr_data_ := List.replicate n ops.dflt, size_ := n, capacity_ := n } := by
  unfold SimpleVector.ofSize
  simp only [SimpleVector.Initialize]
  rw [store_eq _ _ _ (by simp only [List.length_replicate, length_make]; omega),
    List.drop_of_length_le (by simp only [List.length_replicate, length_make]; omega)]
  simp

/-- The read of the assertion of `Insert(ConstIterator, const Type&)` returns on every vector
that has an array, also at the end of a full one, where the cell read lies behind the array. -/
theorem read_at_pos (ops : TypeOps T) (v : SimpleVector T) (pos : Nat) (hwf : v.WF)
    (hnn : 0 < v.capacity_) : ∃ y, ArrayPtr.read ops v.ptr_data_ pos = .ok y := by
  unfold ArrayPtr.read
  cases h : v.ptr_data_[pos]? with
  | some y => exact ⟨y, rfl⟩
  | none =>
    have hne := isEmpty_false v hwf hnn
    exact ⟨ops.outside pos, by simp [hne]⟩

/-- The overload `Insert(ConstIterator, const Type&)` does the same on every vector that has
an array, the element type comparing every value equal to itself. -/
theorem Insert_ok (ops : TypeOps T) (v : SimpleVector T) (pos : Nat) (value : Ref T) (x : T)
    (hwf : v.WF) (hcap : 2 * v.GetCapacity < SIZE_MODULUS) (hpos : pos ≤ v.GetSize)
    (heq : ∀ y, ops.eq y y = true) (hnn : 0 < v.GetCapacity)
    (hr : value.read ops v.ptr_data_ (decide (v.size_ ≠ v.capacity_)) = .ok x) :
    ∃ v', v.Insert ops pos value = .ok (v', pos) ∧
      v'.elems = v.elems.take pos ++ [x] ++ v.elems.drop pos ∧
      v'.GetSize = v.GetSize + 1 ∧ v'.WF ∧
      v'.GetCapacity = (if v.GetSize = v.GetCapacity then
        (if v.GetCapacity = 0 then 1 else 2 * v.GetCapacity) else v.GetCapacity) := by
  have hs : v.size_ ≤ v.ptr_data_.length := by rw [hwf.1]; exact hwf.2
  have hel := length_elems v hs
  simp only [SimpleVector.GetSize, SimpleVector.GetCapacity] at hpos hnn
  obtain ⟨y, hread⟩ := read_at_pos ops v pos hwf hnn
  unfold SimpleVector.Insert
  simp only [hpos, not_true_eq_false, if_false, hread, heq, Bool.true_eq_false]
  by_cases hend : v.size_ = 0 ∨ pos = v.size_
  · simp only [hend, if_true]
    obtain ⟨v', hpb, he, hsize, hwf', hc⟩ := PushBack_read ops v value x hwf hcap hr
    have hp : pos = v.size_ := by omega
    simp only [SimpleVector.GetSize] at hsize
    rw [hpb]
    simp only [hsize, Nat.add_sub_cancel]
    refine ⟨v', by rw [hp], ?_, hsize, hwf', hc⟩
    rw [he, hp, List.take_of_length_le (by omega), List.drop_of_length_le (by omega)]
    simp
  · simp only [hend, if_false, ofSize_ok]
    have hlt : pos < v.size_ := by omega
    obtain ⟨v', hsh, he, hsize, hwf', hc⟩ := shift_ok ops v pos value x
      { ptr_data_ := List.replicate (v.size_ - pos) ops.dflt, size_ := v.size_ - pos,
        capacity_ := v.size_ - pos } hwf hcap hlt (by simp) rfl hr
    refine ⟨v', hsh, he, hsize, hwf', ?_⟩
    simp only [SimpleVector.GetCapacity, SimpleVector.GetSize]
    rw [← capacity_cases v (by omega) hwf.2]
    exact hc

/-- On a vector without array the assertion `ptr_data_[pos - begin()] == *pos` of
`Insert(ConstIterator, const Type&)` reads through the null pointer. -/
theorem Insert_null (ops : TypeOps T) (v : SimpleVector T) (value : Ref T) (hwf : v.WF)
    (h0 : v.GetCapacity = 0) : v.Insert ops 0 value = .error Fault.InvalidAccess := by
  simp only [SimpleVector.GetCapacity] at h0
  have hnil : v.ptr_data_ = [] := List.length_eq_zero.1 (by rw [hwf.1, h0])
  simp [SimpleVector.Insert, ArrayPtr.read, hnil]

/-- C26, the defect: on the vector `SimpleVector()`, which is full with capacity 0,
`Insert(begin(), 7)` through the overload taking `const Type&` evaluates its assertion
`ptr_data_[pos - begin()] == *pos` on the null pointer and inserts nothing, while the overload
taking `Type&&` leaves the vector `7` with capacity 1 and returns index 0. At the end of the
full vector `1, 2, 3` the same assertion reads the cell behind the array and both overloads
insert. With the element `v[2]` of the full vector `1, 2, 3` as argument, `Insert(begin(),
v[2])` inserts what the read of the released array gives, here -3, and not 3. -/
theorem Insert_into_full_reads_outside :
    (SimpleVector.empty : SimpleVector Int).WF ∧
    (SimpleVector.empty : SimpleVector Int).Insert Demo.intOps 0 (Ref.value 7) =
      .error Fault.InvalidAccess ∧
    (SimpleVector.empty : SimpleVector Int).InsertMove Demo.intOps 0 (Ref.value 7) =
      .ok (⟨[7], 1, 1⟩, 0) ∧
    ArrayPtr.read Demo.intOps [1, 2, 3] 3 = .ok (Demo.intOps.outside 3) ∧
    (⟨[1, 2, 3], 3, 3⟩ : SimpleVector Int).Insert Demo.intOps 3 (Ref.value 7) =
      .ok (⟨[1, 2, 3, 7, 104, 105], 4, 6⟩, 3) ∧
    (⟨[1, 2, 3], 3, 3⟩ : SimpleVector Int).InsertMove Demo.intOps 3 (Ref.value 7) =
      .ok (⟨[1, 2, 3, 7, 104, 105], 4, 6⟩, 3) ∧
    (⟨[1, 2, 3], 3, 3⟩ : SimpleVector Int).Insert Demo.intOps 0 (Ref.elem 2) =
      .ok (⟨[-3, 1, 2, 3, 104, 105], 4, 6⟩, 0) ∧
    (⟨[1, 2, 3], 3, 3⟩ : SimpleVector Int).Insert Demo.intOps 0 (Ref.value 3) =
      .ok (⟨[3, 1, 2, 3, 104, 105], 4, 6⟩, 0) :=
  ⟨by decide, rfl, rfl, rfl, rfl, rfl, rfl, rfl⟩

/-! ## C34: the capacity after `Resize` -/

/-- C34, counterexample: the vector `1` with capacity 4 has capacity 3 after `Resize(3)`,
although 3 fits in the capacity it had. -/
theorem Resize_lowers_capacity :
    (⟨[1, 2, 3, 9], 1, 4⟩ : SimpleVector Int).WF ∧
    (⟨[1, 2, 3, 9], 1, 4⟩ : SimpleVector Int).Resize Demo.intOps 3 = .ok ⟨[1, 0, 0], 3, 3⟩ ∧
    (⟨[1, 2, 3, 9], 1, 4⟩ : SimpleVector Int).GetSize ≤ 3 ∧
    3 ≤ (⟨[1, 2, 3, 9], 1, 4⟩ : SimpleVector Int).GetCapacity ∧
    ¬ ((⟨[1, 2, 3, 9], 1, 4⟩ : SimpleVector Int).GetCapacity ≤
        (⟨[1, 0, 0], 3, 3⟩ : SimpleVector Int).GetCapacity) ∧
    (⟨[1, 0, 0], 3, 3⟩ : SimpleVector Int).GetCapacity ≠
      (⟨[1, 2, 3, 9], 1, 4⟩ : SimpleVector Int).GetCapacity :=
  ⟨by decide, rfl, by decide, by decide, by decide, by decide⟩

/-- C34 (amended): on a vector whose elements fit in its array, `Resize(n)` returns and
leaves the capacity unchanged when `n` is below the size, makes it `n` when `n` is at least
the size and at most the capacity, and makes it the larger of `n` and twice the capacity when
`n` exceeds the capacity; so the capacity is at least `n` afterwards, it is not lowered when
`n` is below the size or at least the capacity, and it is lowered to `n` when the size grows
to an `n` below the capacity. -/
theorem Resize_capacity (ops : TypeOps T) (v : SimpleVector T) (n : Nat) (hwf : v.WF) :
    ∃ v', v.Resize ops n = .ok v' ∧
      v'.GetCapacity = (if n < v.GetSize then v.GetCapacity
        else if n ≤ v.GetCapacity then n
        else max n (v.GetCapacity * 2 % SIZE_MODULUS)) ∧
      n ≤ v'.GetCapacity ∧
      (n < v.GetSize ∨ v.GetCapacity ≤ n → v.GetCapacity ≤ v'.GetCapacity) ∧
      (v.GetSize ≤ n → n < v.GetCapacity → v'.GetCapacity = n) := by
  simp only [SimpleVector.GetSize, SimpleVector.GetCapacity]
  obtain ⟨hlen, hsz⟩ := hwf
  have hs : v.size_ ≤ v.ptr_data_.length := by omega
  have key : ∃ v', v.Resize ops n = .ok v' ∧
      v'.capacity_ = (if n < v.size_ then v.capacity_
        else if n ≤ v.capacity_ then n
        else max n (v.capacity_ * 2 % SIZE_MODULUS)) := by
    unfold SimpleVector.Resize
    by_cases h1 : n < v.size_
    · simp only [h1, if_true]
      exact ⟨_, rfl, rfl⟩
    · simp only [h1, if_false]
      by_cases h2 : n ≤ v.capacity_
      · simp only [h2, if_true]
        obtain ⟨a, ha, _⟩ := ResizeAndFill_ok ops v n n false hs (by omega)
          (Nat.le_refl n) (by simp)
        exact ⟨_, ha, rfl⟩
      · simp only [h2, if_false]
        obtain ⟨a, ha, _⟩ := ResizeAndFill_ok ops v n
          (max n (v.capacity_ * 2 % SIZE_MODULUS)) false hs (by omega) (by omega) (by simp)
        exact ⟨_, ha, rfl⟩
  obtain ⟨v', hres, hcap⟩ := key
  refine ⟨v', hres, hcap, ?_, ?_, ?_⟩
  · rw [hcap]; split_ifs <;> omega
  · intro h; rw [hcap]; split_ifs <;> omega
  · intro h1 h2
    rw [hcap, if_neg (by omega), if_pos (by omega)]

/-- Witness for C34 (amended): `Resize(3)` on the vector `1` with capacity 4. -/
theorem Resize_capacity_witness :
    (⟨[1, 2, 3, 9], 1, 4⟩ : SimpleVector Int).WF ∧
    (⟨[1, 2, 3, 9], 1, 4⟩ : SimpleVector Int).Resize Demo.intOps 3 = .ok ⟨[1, 0, 0], 3, 3⟩ ∧
    ∃ v', (⟨[1, 2, 3, 9], 1, 4⟩ : SimpleVector Int).Resize Demo.intOps 3 = .ok v' ∧
      v'.GetCapacity = (if 3 < (⟨[1, 2, 3, 9], 1, 4⟩ : SimpleVector Int).GetSize then
          (⟨[1, 2, 3, 9], 1, 4⟩ : SimpleVector Int).GetCapacity
        else if 3 ≤ (⟨[1, 2, 3, 9], 1, 4⟩ : SimpleVector Int).GetCapacity then 3
        else max 3 ((⟨[1, 2, 3, 9], 1, 4⟩ : SimpleVector Int).GetCapacity * 2
          % SIZE_MODULUS)) ∧
      3 ≤ v'.GetCapacity ∧
      (3 < (⟨[1, 2, 3, 9], 1, 4⟩ : SimpleVector Int).GetSize ∨
          (⟨[1, 2, 3, 9], 1, 4⟩ : SimpleVector Int).GetCapacity ≤ 3 →
        (⟨[1, 2, 3, 9], 1, 4⟩ : SimpleVector Int).GetCapacity ≤ v'.GetCapacity) ∧
      ((⟨[1, 2, 3, 9], 1, 4⟩ : SimpleVector Int).GetSize ≤ 3 →
        3 < (⟨[1, 2, 3, 9], 1, 4⟩ : SimpleVector Int).GetCapacity → v'.GetCapacity = 3) :=
  ⟨by decide, rfl, Resize_capacity Demo.intOps ⟨[1, 2, 3, 9], 1, 4⟩ 3 (by decide)⟩

/-! ## `Vector::Emplace` -/

theorem collect_map_some (xs : List T) : collect (xs.map some) = some xs := by
  induction xs with
  | nil => rfl
  | cons x xs ih => simp [collect, ih]

/-- The objects of a range inside the elements of a buffer. -/
theorem objects_front (ys : List T) (c : List (Option T)) (first m : Nat)
    (h : first + m ≤ ys.length) :
    objects (ys.map some ++ c) first m = .ok ((ys.drop first).take m) := by
  have hlen : first + m ≤ (ys.map some ++ c).length := by
    simp only [List.length_append, List.length_map]; omega
  have hcells : ((ys.map some ++ c).drop first).take m = ((ys.drop first).take m).map some := by
    rw [List.drop_append_of_le_length (by simp only [List.length_map]; omega),
      List.take_append_of_le_length (by simp only [List.length_drop, List.length_map]; omega),
      List.map_take, List.map_drop]
  simp only [objects, hlen, if_true, hcells, collect_map_some]

/-- Writing a block over a block of the same length. -/
theorem store_block (ys a b c : List T) (h : ys.length = b.length) :
    ArrayPtr.store ys (a ++ b ++ c) a.length = .ok (a ++ ys ++ c) := by
  rw [store_eq _ _ _ (by simp only [List.length_append]; omega)]
  congr 2
  · rw [List.append_assoc, List.take_left']
    rfl
  · rw [h, ← List.length_append, List.drop_left']
    rfl

theorem set_block (a c : List T) (x y : T) :
    (a ++ x :: c).set a.length y = a ++ y :: c := by
  induction a with
  | nil => rfl
  | cons z a ih => simp [ih]

theorem getElem?_block (a c : List T) (x : T) : (a ++ x :: c)[a.length]? = some x := by
  induction a with
  | nil => simp
  | cons z a ih => simpa using ih

/-- The branch without reallocation, inserting before an element: the buffer holds
`pre ++ y0 :: ytail`, which is also `pre ++ mid ++ [last]`, and has a further cell. -/
theorem inPlace_before (pre mid ytail : List T) (y0 last value : T) (r0 : Option T)
    (rest : List (Option T)) (cap : Nat) (hY : mid ++ [last] = y0 :: ytail)
    (hcap : (pre ++ y0 :: ytail).length < cap) :
    Vector.Emplace.inPlace
        ⟨⟨(pre ++ y0 :: ytail).map some ++ r0 :: rest, cap⟩, (pre ++ y0 :: ytail).length⟩
        pre.length value =
      .ok ⟨(pre ++ value :: (y0 :: ytail)).map some ++ rest, cap⟩ := by
  have hlen : ytail.length = mid.length := by
    have := congrArg List.length hY
    simp only [List.length_append, List.length_cons, List.length_nil] at this
    omega
  have hne : ¬ pre.length = (pre ++ y0 :: ytail).length := by
    simp only [List.length_append, List.length_cons]; omega
  -- the last element
  have hxs : pre ++ y0 :: ytail = (pre ++ mid) ++ [last] := by
    rw [List.append_assoc, hY]
  have hidx : (pre ++ y0 :: ytail).length - 1 = (pre ++ mid).length := by
    rw [hxs]; simp
  have hlast : ((pre ++ y0 :: ytail).map some ++ r0 :: rest)[(pre ++ mid).length]? =
      some (some last) := by
    rw [hxs, List.map_append, List.append_assoc]
    have := getElem?_block ((pre ++ mid).map some) ([] ++ r0 :: rest) (some last)
    simpa using this
  have hread : RawMemory.opIndex
      (⟨(pre ++ y0 :: ytail).map some ++ r0 :: rest, cap⟩ : RawMemory T)
      ((pre ++ y0 :: ytail).length - 1) = .ok last := by
    simp only [RawMemory.opIndex, hidx, hlast]
    rw [if_pos (by rw [← hidx]; omega)]
  have hadd : RawMemory.opAdd
      (⟨(pre ++ y0 :: ytail).map some ++ r0 :: rest, cap⟩ : RawMemory T)
      (pre ++ y0 :: ytail).length = .ok (pre ++ y0 :: ytail).length := by
    simp only [RawMemory.opAdd]
    rw [if_pos (by omega)]
  have hcons : RawMemory.construct
      (⟨(pre ++ y0 :: ytail).map some ++ r0 :: rest, cap⟩ : RawMemory T)
      (pre ++ y0 :: ytail).length last =
      .ok ⟨(pre ++ y0 :: ytail).map some ++ some last :: rest, cap⟩ := by
    simp only [RawMemory.construct]
    rw [if_pos (by simp only [List.length_append, List.length_map, List.length_cons]; omega)]
    have := set_block ((pre ++ y0 :: ytail).map some) rest r0 (some last)
    rw [List.length_map] at this
    rw [this]
  -- the shift
  have hobj1 : objects ((pre ++ y0 :: ytail).map some ++ some last :: rest) pre.length
      ((pre ++ y0 :: ytail).length - 1 - pre.length) = .ok mid := by
    rw [objects_front _ _ _ _ (by simp only [List.length_append, List.length_cons]; omega)]
    have e : (pre ++ y0 :: ytail).length - 1 - pre.length = mid.length := by
      simp only [List.length_append, List.length_cons]; omega
    rw [e, List.drop_left, ← hY, List.take_left]
  have hobj2 : ∃ zs, objects ((pre ++ y0 :: ytail).map some ++ some last :: rest)
      ((pre ++ y0 :: ytail).length - mid.length) mid.length = .ok zs :=
    ⟨_, objects_front _ _ _ _ (by simp only [List.length_append, List.length_cons]; omega)⟩
  obtain ⟨zs, hzs⟩ := hobj2
  have hpos : (pre ++ y0 :: ytail).length - mid.length = (pre.map some ++ [some y0]).length := by
    simp only [List.length_append, List.length_cons, List.length_map, List.length_nil]; omega
  have hstore : ArrayPtr.store (mid.map some)
      ((pre ++ y0 :: ytail).map some ++ some last :: rest)
      ((pre ++ y0 :: ytail).length - mid.length) =
      .ok (pre.map some ++ [some y0] ++ mid.map some ++ some last :: rest) := by
    have hb : (pre ++ y0 :: ytail).map some ++ some last :: rest =
        (pre.map some ++ [some y0]) ++ ytail.map some ++ (some last :: rest) := by
      simp
    rw [hpos, hb]
    exact store_block _ _ _ _ (by simp only [List.length_map]; omega)
  have hmb : move_backward ((pre ++ y0 :: ytail).map some ++ some last :: rest) pre.length
      ((pre ++ y0 :: ytail).length - 1) (pre ++ y0 :: ytail).length =
      .ok (pre.map some ++ [some y0] ++ mid.map some ++ some last :: rest) := by
    simp only [move_backward, hobj1]
    rw [if_neg (by simp only [List.length_append, List.length_cons]; omega)]
    simp only [hzs, hstore]
  have hassign : RawMemory.assign
      (⟨pre.map some ++ [some y0] ++ mid.map some ++ some last :: rest, cap⟩ : RawMemory T)
      pre.length value =
      .ok ⟨(pre ++ value :: (y0 :: ytail)).map some ++ rest, cap⟩ := by
    have hb : pre.map some ++ [some y0] ++ mid.map some ++ some last :: rest =
        pre.map some ++ some y0 :: (mid.map some ++ some last :: rest) := by simp
    have hg := getElem?_block (pre.map some) (mid.map some ++ some last :: rest) (some y0)
    have hs := set_block (pre.map some) (mid.map some ++ some last :: rest) (some y0)
      (some value)
    rw [List.length_map] at hg hs
    simp only [RawMemory.assign, hb, hg, hs]
    rw [if_pos (by simp only [List.length_append, List.length_cons] at hcap; omega)]
    congr 2
    rw [← hY]
    simp
  simp only [Vector.Emplace.inPlace, hne, if_false, hread, hadd, hcons, hmb, hassign]

/-- The branch without reallocation, inserting at the end. -/
theorem inPlace_end (xs : List T) (value : T) (r0 : Option T) (rest : List (Option T))
    (cap : Nat) (hcap : xs.length < cap) :
    Vector.Emplace.inPlace ⟨⟨xs.map some ++ r0 :: rest, cap⟩, xs.length⟩ xs.length value =
      .ok ⟨(xs ++ [value]).map some ++ rest, cap⟩ := by
  have hs := set_block (xs.map some) rest r0 (some value)
  rw [List.length_map] at hs
  have hadd : RawMemory.opAdd (⟨xs.map some ++ r0 :: rest, cap⟩ : RawMemory T) xs.length =
      .ok xs.length := by
    simp only [RawMemory.opAdd]
    rw [if_pos (by omega)]
  have hcons : RawMemory.construct (⟨xs.map some ++ r0 :: rest, cap⟩ : RawMemory T)
      xs.length value = .ok ⟨(xs ++ [value]).map some ++ rest, cap⟩ := by
    simp only [RawMemory.construct]
    rw [if_pos (by simp only [List.length_append, List.length_map, List.length_cons]; omega),
      hs]
    simp
  simp only [Vector.Emplace.inPlace, if_true, hadd, hcons]

/-- The reallocating branch. -/
theorem reallocate_ok (pre post : List T) (value : T) (rest : List (Option T)) (cap : Nat)
    (h2 : 2 * (pre ++ post).length < SIZE_MODULUS) :
    Vector.Emplace.reallocate ⟨⟨(pre ++ post).map some ++ rest, cap⟩, (pre ++ post).length⟩
        pre.length value =
      .ok ⟨(pre ++ value :: post).map some ++
          List.replicate ((if (pre ++ post).length = 0 then 1 else 2 * (pre ++ post).length)
            - (pre ++ post).length - 1) none,
        if (pre ++ post).length = 0 then 1 else 2 * (pre ++ post).length⟩ := by
  have hmod : (pre ++ post).length * 2 % SIZE_MODULUS = 2 * (pre ++ post).length := by
    rw [Nat.mul_comm]; exact Nat.mod_eq_of_lt h2
  generalize hc : (if (pre ++ post).length = 0 then 1 else 2 * (pre ++ post).length) = c
  have hcn : (pre ++ post).length < c := by
    rw [← hc]; split_ifs <;> omega
  have hn : (pre ++ post).length = pre.length + post.length := List.length_append _ _
  have hrep : (List.replicate c (none : Option T)) =
      List.replicate pre.length none ++
        none :: (List.replicate post.length none ++
          List.replicate (c - (pre ++ post).length - 1) none) := by
    have e : c = pre.length + (1 + (post.length + (c - (pre ++ post).length - 1))) := by omega
    conv_lhs => rw [e]
    rw [List.replicate_add, List.replicate_add, List.replicate_add]
    rfl
  have hcons : RawMemory.construct (RawMemory.make c : RawMemory T) pre.length value =
      .ok ⟨List.replicate pre.length none ++
        some value :: (List.replicate post.length none ++
          List.replicate (c - (pre ++ post).length - 1) none), c⟩ := by
    simp only [RawMemory.construct, RawMemory.make, List.length_replicate]
    rw [if_pos (by omega)]
    have hs := set_block (List.replicate pre.length (none : Option T))
      (List.replicate post.length none ++
        List.replicate (c - (pre ++ post).length - 1) none) none (some value)
    rw [List.length_replicate] at hs
    rw [hrep, hs]
  have hobj1 : objects ((pre ++ post).map some ++ rest) 0 pre.length = .ok pre := by
    rw [objects_front _ _ _ _ (by omega)]
    simp
  have hobj2 : objects ((pre ++ post).map some ++ rest) pre.length
      ((pre ++ post).length - pre.length) = .ok post := by
    rw [objects_front _ _ _ _ (by omega)]
    have e : (pre ++ post).length - pre.length = post.length := by omega
    rw [e, List.drop_left, List.take_length]
  have hst1 : ArrayPtr.store (pre.map some)
      (List.replicate pre.length none ++
        some value :: (List.replicate post.length none ++
          List.replicate (c - (pre ++ post).length - 1) none)) 0 =
      .ok (pre.map some ++ some value :: (List.replicate post.length none ++
          List.replicate (c - (pre ++ post).length - 1) none)) := by
    have := store_block (pre.map some) [] (List.replicate pre.length none)
      (some value :: (List.replicate post.length none ++
          List.replicate (c - (pre ++ post).length - 1) none))
      (by simp only [List.length_map, List.length_replicate])
    simpa using this
  have hst2 : ArrayPtr.store (post.map some)
      (pre.map some ++ some value :: (List.replicate post.length none ++
          List.replicate (c - (pre ++ post).length - 1) none)) (pre.length + 1) =
      .ok ((pre ++ value :: post).map some ++
        List.replicate (c - (pre ++ post).length - 1) none) := by
    have := store_block (post.map some) (pre.map some ++ [some value])
      (List.replicate post.length none)
      (List.replicate (c - (pre ++ post).length - 1) none)
      (by simp only [List.length_map, List.length_replicate])
    simpa using this
  have hadd : RawMemory.opAdd (RawMemory.make c : RawMemory T) pre.length = .ok pre.length := by
    simp only [RawMemory.opAdd, RawMemory.make]
    rw [if_pos (by omega)]
  have hc' : (if (pre ++ post).length = 0 then 1
      else (pre ++ post).length * 2 % SIZE_MODULUS) = c := by
    rw [hmod]; exact hc
  simp only [Vector.Emplace.reallocate, hc', hadd, hcons, uninitialized_move_n, hobj1, hst1,
    hobj2, hst2]

/-- C35: when the vector holds the elements `xs`, `k <= |xs|`, and twice the size is a
`size_t`, `Emplace(begin() + k, v)` returns the iterator of index `k` and leaves the vector
holding `xs[0..k) ++ [v] ++ xs[k..)`, whichever branch it takes: with `size == capacity` it
moves to a new buffer of capacity 1 or `2 * size`, otherwise it shifts in place and keeps the
capacity. -/
theorem Emplace_inserts (v : Vector T) (xs : List T) (k : Nat) (value : T) (h : v.Holds xs)
    (hk : k ≤ xs.length) (h2 : 2 * xs.length < SIZE_MODULUS) :
    ∃ v', v.Emplace k value = .ok (v', k) ∧
      v'.Holds (xs.take k ++ [value] ++ xs.drop k) ∧
      v'.Capacity = (if v.Size = v.Capacity then (if v.Size = 0 then 1 else 2 * v.Size)
        else v.Capacity) := by
  obtain ⟨⟨buf, cap⟩, n⟩ := v
  obtain ⟨hn, htake, hlen⟩ := h
  simp only at hn htake hlen
  subst hn
  have hbuf : buf = xs.map some ++ buf.drop xs.length := by
    rw [← htake, List.take_append_drop]
  have hxs : xs = xs.take k ++ xs.drop k := (List.take_append_drop k xs).symm
  have hpre : (xs.take k).length = k := by simp only [List.length_take]; omega
  have hM : 1 < SIZE_MODULUS := by decide
  have hsucc : (xs.length + 1) % SIZE_MODULUS = xs.length + 1 := Nat.mod_eq_of_lt (by omega)
  have hys : (xs.take k ++ [value] ++ xs.drop k).length = xs.length + 1 := by
    simp only [List.length_append, List.length_take, List.length_drop, List.length_singleton]
    omega
  simp only [Vector.Emplace, hk, not_true_eq_false, if_false, hsucc, Vector.Size,
    Vector.Capacity, RawMemory.Capacity]
  by_cases hfull : xs.length = cap
  · simp only [hfull, if_true]
    have hre := reallocate_ok (xs.take k) (xs.drop k) value (buf.drop xs.length) cap
      (by rw [← hxs]; exact h2)
    rw [← hxs, hpre, ← hbuf, hfull] at hre
    rw [hre]
    refine ⟨_, rfl, ⟨?_, ?_, ?_⟩, rfl⟩
    · simp only [hys, hfull]
    · simp only
      rw [show cap + 1 = ((xs.take k ++ value :: xs.drop k).map some).length by
        simp only [List.length_map, List.length_append, List.length_cons, List.length_take,
          List.length_drop]; omega]
      rw [List.take_left]
      simp
    · simp only [List.length_append, List.length_map, List.length_cons, List.length_take,
        List.length_drop, List.length_replicate]
      split_ifs <;> omega
  · simp only [hfull, if_false]
    have hlt : xs.length < cap := by
      have : xs.length ≤ buf.length := by
        have := congrArg List.length htake
        simp only [List.length_take, List.length_map] at this
        omega
      omega
    obtain ⟨r0, rest, hrest⟩ : ∃ r0 rest, buf.drop xs.length = r0 :: rest := by
      cases hd : buf.drop xs.length with
      | nil =>
        have := congrArg List.length hd
        simp only [List.length_drop, List.length_nil] at this
        omega
      | cons r0 rest => exact ⟨r0, rest, rfl⟩
    rw [hrest] at hbuf
    have hcaplen : cap = xs.length + 1 + rest.length := by
      have := congrArg List.length hbuf
      simp only [List.length_append, List.length_map, List.length_cons] at this
      omega
    by_cases hend : k = xs.length
    · have hin := inPlace_end xs value r0 rest cap hlt
      rw [← hbuf, ← hend] at hin
      rw [hend] at hin ⊢
      rw [hin]
      refine ⟨_, rfl, ⟨?_, ?_, ?_⟩, rfl⟩
      · simp only [List.take_length, List.drop_length, List.append_nil, List.length_append,
          List.length_singleton]
      · simp only [List.take_length, List.drop_length, List.append_nil]
        rw [show xs.length + 1 = ((xs ++ [value]).map some).length by simp, List.take_left]
      · simp only [List.length_append, List.length_map, List.length_singleton]
        omega
    · have hklt : k < xs.length := by omega
      obtain ⟨y0, ytail, hy⟩ : ∃ y0 ytail, xs.drop k = y0 :: ytail := by
        cases hd : xs.drop k with
        | nil =>
          have := congrArg List.length hd
          simp only [List.length_drop, List.length_nil] at this
          omega
        | cons y0 ytail => exact ⟨y0, ytail, rfl⟩
      have hY : (y0 :: ytail).dropLast ++ [(y0 :: ytail).getLast (by simp)] = y0 :: ytail :=
        List.dropLast_append_getLast _
      have hxs2 : xs = xs.take k ++ y0 :: ytail := by rw [← hy]; exact hxs
      have hin := inPlace_before (xs.take k) _ ytail y0 _ value r0 rest cap hY
        (by rw [← hxs2]; exact hlt)
      rw [← hxs2, hpre, ← hbuf] at hin
      rw [hin, hy]
      refine ⟨_, rfl, ⟨?_, ?_, ?_⟩, rfl⟩
      · simp only [List.length_append, List.length_take, List.length_cons,
          List.length_singleton, List.length_nil]
        have := congrArg List.length hy
        simp only [List.length_drop, List.length_cons] at this
        omega
      · simp only
        have e : xs.length + 1 = ((xs.take k ++ value :: y0 :: ytail).map some).length := by
          have := congrArg List.length hy
          simp only [List.length_drop, List.length_cons] at this
          simp only [List.length_map, List.length_append, List.length_take, List.length_cons]
          omega
        rw [e, List.take_left]
        simp
      · have := congrArg List.length hy
        simp only [List.length_drop, List.length_cons] at this
        simp only [List.length_append, List.length_map, List.length_take, List.length_cons,
          List.length_nil]
        omega

/-- Witness for C35: `Emplace(begin() + 1, 7)` on the vector `1, 2, 3`, once with capacity 3
(reallocation to capacity 6) and once with capacity 4 (shift in place), gives `1, 7, 2, 3`
and index 1 both times. -/
theorem Emplace_inserts_witness :
    (⟨⟨[some 1, some 2, some 3], 3⟩, 3⟩ : Vector Int).Holds [1, 2, 3] ∧
    (⟨⟨[some 1, some 2, some 3, none], 4⟩, 3⟩ : Vector Int).Holds [1, 2, 3] ∧
    (⟨⟨[some 1, some 2, some 3], 3⟩, 3⟩ : Vector Int).Emplace 1 7 =
      .ok (⟨⟨[some 1, some 7, some 2, some 3, none, none], 6⟩, 4⟩, 1) ∧
    (⟨⟨[some 1, some 2, some 3, none], 4⟩, 3⟩ : Vector Int).Emplace 1 7 =
      .ok (⟨⟨[some 1, some 7, some 2, some 3], 4⟩, 4⟩, 1) ∧
    (∃ v', (⟨⟨[some 1, some 2, some 3], 3⟩, 3⟩ : Vector Int).Emplace 1 7 = .ok (v', 1) ∧
      v'.Holds ([1, 2, 3].take 1 ++ [7] ++ [1, 2, 3].drop 1) ∧
      v'.Capacity = (if (⟨⟨[some 1, some 2, some 3], 3⟩, 3⟩ : Vector Int).Size =
          (⟨⟨[some 1, some 2, some 3], 3⟩, 3⟩ : Vector Int).Capacity then
        (if (⟨⟨[some 1, some 2, some 3], 3⟩, 3⟩ : Vector Int).Size = 0 then 1
          else 2 * (⟨⟨[some 1, some 2, some 3], 3⟩, 3⟩ : Vector Int).Size)
        else (⟨⟨[some 1, some 2, some 3], 3⟩, 3⟩ : Vector Int).Capacity)) :=
  ⟨by decide, by decide, rfl, rfl,
    Emplace_inserts ⟨⟨[some 1, some 2, some 3], 3⟩, 3⟩ [1, 2, 3] 1 7 (by decide) (by decide)
      (by decide)⟩

end Containers

namespace Json

variable {R : Type}

/-! ## C36: the builder once its root is complete -/

/-- After a single root value every method but `Build` throws `std::logic_error` and leaves
the builder as it is. -/
theorem single_value_blocks (b : Builder R) (h : b.single_value_input_ = true) (input : Node R)
    (key : String) :
    b.Value input = .raise Error.logic_error b ∧
    b.Key key = .raise Error.logic_error b ∧
    b.StartDict = .raise Error.logic_error b ∧
    b.StartArray = .raise Error.logic_error b ∧
    b.EndDict = .raise Error.logic_error b ∧
    b.EndArray = .raise Error.logic_error b := by
  refine ⟨?_, ?_, ?_, ?_, ?_, ?_⟩ <;>
    simp [Builder.Value, Builder.Key, Builder.StartDict, Builder.StartArray, Builder.EndDict,
      Builder.EndArray, Builder.CheckSingleValue, h, Step.bind]

/-- After the root array or dictionary has been closed, `Value`, `Key`, `EndDict` and
`EndArray` throw `std::logic_error` and leave the builder as it is, while `StartDict` and
`StartArray` return and open a structure. -/
theorem closed_root_blocks (b : Builder R) (h1 : b.root_started_ = true)
    (h2 : b.opened_structures_ = []) (h3 : b.single_value_input_ = false)
    (h4 : b.dict_key_expected_ = false) (input : Node R) (key : String) :
    b.Value input = .raise Error.logic_error b ∧
    b.Key key = .raise Error.logic_error b ∧
    b.EndDict = .raise Error.logic_error b ∧
    b.EndArray = .raise Error.logic_error b ∧
    b.StartDict = .ok { b with opened_structures_ := [StructureValue.dict []],
                               dict_key_expected_ := true } ∧
    b.StartArray = .ok { b with opened_structures_ := [StructureValue.array []] } := by
  refine ⟨?_, ?_, ?_, ?_, ?_, ?_⟩ <;>
    simp [Builder.Value, Builder.Key, Builder.StartDict, Builder.StartArray, Builder.EndDict,
      Builder.EndArray, Builder.CheckSingleValue, Builder.CheckKeyInput, h1, h2, h3, h4,
      Step.bind]

/-- C36, the defect: after `StartArray().Value(1).EndArray()` the root array `[1]` is
complete and `Build()` returns it; `Value`, `Key`, `EndDict` and `EndArray` then throw
`std::logic_error`, but `StartArray()` and `StartDict()` return and open a new structure, and
after `StartArray().EndArray()` the root is the empty array, which `Build()` returns. -/
theorem closed_root_reopened :
    ((Builder.init.StartArray.bind (fun b => b.Value (Node.int 1))).bind
        (fun b => b.EndArray)) = .ok Demo.closedArray ∧
    Demo.closedArray.Build = .ok (Node.array [Node.int 1]) ∧
    Demo.closedArray.Value (Node.int 2) = .raise Error.logic_error Demo.closedArray ∧
    Demo.closedArray.EndArray = .raise Error.logic_error Demo.closedArray ∧
    Demo.closedArray.StartArray = .ok Demo.reopenedArray ∧
    Demo.closedArray.StartDict = .ok Demo.reopenedDict ∧
    Demo.reopenedArray.EndArray = .ok Demo.replacedRoot ∧
    Demo.replacedRoot.Build = .ok (Node.array []) :=
  ⟨rfl, rfl, rfl, rfl, rfl, rfl, rfl, rfl⟩

/-! ## C37: `Build` -/

theorem CreateNodeFromValue_eq (value : Node R) : Builder.CreateNodeFromValue value = value := by
  cases value <;> rfl

/-- What `Build` checks: it throws `std::logic_error` when a key is expected or nothing has
been given yet, and otherwise returns the root as it is. -/
theorem Build_eq (b : Builder R) :
    b.Build = (if b.dict_key_expected_ = true ∨ b.root_started_ = false then
      .error Error.logic_error else .ok b.root_) := by
  simp only [Builder.Build, Builder.CheckKeyInput, CreateNodeFromValue_eq]
  cases h1 : b.dict_key_expected_ <;> cases h2 : b.root_started_ <;> simp [h2]

/-- C37, the defect: `Build()` throws `std::logic_error` on the new builder and after
`StartDict()`, and returns the complete roots `[1]` and the dictionary with `a` at 1; but
after `StartArray().StartArray().EndArray()`, where the root array is still open, and after
`StartDict().Key("a")`, it returns the null node instead of throwing. -/
theorem Build_of_open_structure :
    (Builder.init : Builder Int).Build = .error Error.logic_error ∧
    ((Builder.init : Builder Int).StartDict.state).Build = .error Error.logic_error ∧
    Demo.closedArray.Build = .ok (Node.array [Node.int 1]) ∧
    ((((Builder.init : Builder Int).StartDict.bind (fun b => b.Key "a")).bind
        (fun b => b.Value (Node.int 1))).bind (fun b => b.EndDict)) = .ok Demo.closedDict ∧
    Demo.closedDict.Build = .ok (Node.dict [("a", Node.int 1)]) ∧
    ((Builder.init.StartArray.bind (fun b => b.StartArray)).bind (fun b => b.EndArray)) =
      .ok Demo.openArray ∧
    Demo.openArray.opened_structures_ = [StructureValue.array [Node.array []]] ∧
    Demo.openArray.Build = .ok Node.null ∧
    (((Builder.init : Builder Int).StartDict.bind (fun b => b.Key "a")).state).Build =
      .ok Node.null :=
  ⟨rfl, rfl, rfl, rfl, rfl, rfl, rfl, rfl, rfl⟩

/-! ## C38: a string printed and read back -/

/-- What `PrintNodeString` writes for one character. -/
theorem put_eq (out : List Char) (c : Char) :
    PrintNodeString.put out c = out ++ PrintNodeString.put [] c := by
  unfold PrintNodeString.put
  split_ifs <;> simp

theorem foldl_put (input : List Char) : ∀ out : List Char,
    input.foldl PrintNodeString.put out =
      out ++ (input.map (PrintNodeString.put [])).flatten := by
  induction input with
  | nil => intro out; simp
  | cons c input ih =>
    intro out
    rw [List.foldl_cons, ih, put_eq]
    simp

/-- Reading back what was written for one character appends the character. -/
theorem loop_put (c : Char) (it s : List Char) :
    LoadStringFromInput.loop (PrintNodeString.put [] c ++ it) s =
      LoadStringFromInput.loop it (s ++ [c]) := by
  have hq : BACKSLASH ≠ QUOTE := by decide
  have e1 : ¬ ('r' = 'n') := by decide
  have e2 : ¬ ('r' = 't') := by decide
  have e3 : ¬ ('t' = 'n') := by decide
  have e4 : ¬ (QUOTE = 'n') := by decide
  have e5 : ¬ (QUOTE = 't') := by decide
  have e6 : ¬ (QUOTE = 'r') := by decide
  have e7 : ¬ (BACKSLASH = 'n') := by decide
  have e8 : ¬ (BACKSLASH = 't') := by decide
  have e9 : ¬ (BACKSLASH = 'r') := by decide
  unfold PrintNodeString.put
  by_cases h1 : c = CR
  · subst h1
    simp only [if_true, List.nil_append, List.cons_append]
    rw [LoadStringFromInput.loop.eq_def]
    simp only [hq, e1, e2, if_false, if_true]
  · by_cases h2 : c = LF
    · subst h2
      simp only [h1, if_false, if_true, List.nil_append, List.cons_append]
      rw [LoadStringFromInput.loop.eq_def]
      simp only [hq, if_false, if_true]
    · by_cases h3 : c = TAB
      · subst h3
        simp only [h1, h2, if_false, if_true, List.nil_append, List.cons_append]
        rw [LoadStringFromInput.loop.eq_def]
        simp only [hq, e3, if_false, if_true]
      · by_cases h4 : c = QUOTE
        · subst h4
          simp only [h1, h2, h3, if_false, if_true, List.nil_append, List.cons_append]
          rw [LoadStringFromInput.loop.eq_def]
          simp only [hq, e4, e5, e6, if_false, if_true]
        · by_cases h5 : c = BACKSLASH
          · subst h5
            simp only [h1, h2, h3, h4, if_false, if_true, List.nil_append, List.cons_append]
            rw [LoadStringFromInput.loop.eq_def]
            simp only [hq, e7, e8, e9, if_false, if_true]
          · simp only [h1, h2, h3, h4, h5, if_false, List.nil_append, List.cons_append]
            rw [LoadStringFromInput.loop.eq_def]
            simp only [h1, h2, h4, h5, if_false, or_self]

theorem loop_body (input : List Char) : ∀ (it s : List Char),
    LoadStringFromInput.loop ((input.map (PrintNodeString.put [])).flatten ++ QUOTE :: it) s =
      .ok (s ++ input, it) := by
  induction input with
  | nil =>
    intro it s
    simp only [List.map_nil, List.flatten_nil, List.nil_append, List.append_nil]
    rw [LoadStringFromInput.loop.eq_def]
    simp
  | cons c input ih =>
    intro it s
    simp only [List.map_cons, List.flatten_cons, List.append_assoc]
    rw [loop_put, ih]
    simp

/-- C38: for every string `s`, the text `PrintNodeString(s)` writes starts with a double quote,
and `LoadStringFromInput` applied to the stream behind this quote, whatever follows the text,
returns `s` and leaves the stream just behind the closing quote. -/
theorem string_round_trip (s it : List Char) :
    (PrintNodeString s []).head? = some QUOTE ∧
    LoadStringFromInput ((PrintNodeString s []).tail ++ it) = .ok (s, it) := by
  have hp : PrintNodeString s [] =
      QUOTE :: ((s.map (PrintNodeString.put [])).flatten ++ [QUOTE]) := by
    unfold PrintNodeString
    rw [foldl_put]
    simp
  rw [hp]
  refine ⟨rfl, ?_⟩
  unfold LoadStringFromInput
  rw [List.tail_cons, List.append_assoc]
  have := loop_body s it []
  simpa using this

end Json

namespace Transport

variable {G : Type}

/-! ## Maps -/

theorem find_assign {K V : Type} [DecidableEq K] (key : K) (value : V) (k : K) :
    ∀ m : List (K × V), Map.find k (Map.assign key value m) =
      if k = key then some value else Map.find k m := by
  intro m
  induction m with
  | nil =>
    by_cases h : k = key
    · simp [Map.assign, Map.find, h]
    · simp [Map.assign, Map.find, h, Ne.symm h]
  | cons e rest ih =>
    simp only [Map.assign]
    by_cases h1 : e.1 = key
    · by_cases h : k = key
      · simp [Map.find, h1, h]
      · have h2 : ¬ e.1 = k := fun he => h (he ▸ h1)
        simp [Map.find, h1, h, Ne.symm h, h2]
    · simp only [h1, if_false, Map.find]
      by_cases h2 : e.1 = k
      · have h : ¬ k = key := fun hk => h1 (h2.trans hk)
        simp [h2, h]
      · simp [h2, ih]

theorem find_append {K V : Type} [DecidableEq K] (k : K) (m m' : List (K × V)) :
    Map.find k (m ++ m') = (Map.find k m).orElse (fun _ => Map.find k m') := by
  induction m with
  | nil => simp [Map.find]
  | cons e rest ih =>
    by_cases h : e.1 = k
    · simp [Map.find, h]
    · simp [Map.find, h, ih]

theorem find_insert {K V : Type} [DecidableEq K] (key : K) (value : V) (k : K)
    (m : List (K × V)) : Map.find k (Map.insert key value m) =
      if k = key ∧ (Map.find key m).isNone = true then some value else Map.find k m := by
  unfold Map.insert
  cases hf : Map.find key m with
  | some v => simp
  | none =>
    simp only [find_append, Map.find, Option.isNone_none, and_true]
    by_cases h : k = key
    · subst h
      simp [hf]
    · simp only [h, Ne.symm h, if_false]
      cases Map.find k m <;> rfl

/-! ## C39: real distances between stops -/

theorem Get_eq (tc : TransportCatalogue G) (x y : String) :
    tc.GetRealDistanceForStop x y =
      match Map.find (x, y) tc.stops_real_dist_ with
      | none => .error Fault.logic_error
      | some distance => .ok distance := rfl

/-- C39, counterexample: in a catalogue with the stop `A` and the distance 5 from `A` to `A`,
`SetRealDistanceForStop("A", "A", 7)` leaves the distance 7 from `A` to `A`: the distance of
the reverse pair, here the pair itself, had a value and does not keep it. -/
theorem self_distance_overwritten :
    Demo.loop5.GetRealDistanceForStop "A" "A" = .ok 5 ∧
    ∃ tc', Demo.loop5.SetRealDistanceForStop "A" "A" 7 = .ok tc' ∧
      tc'.GetRealDistanceForStop "A" "A" = .ok 7 ∧
      tc'.GetRealDistanceForStop "A" "A" ≠ Demo.loop5.GetRealDistanceForStop "A" "A" :=
  ⟨rfl, _, rfl, rfl, by
    intro h
    have h5 : Demo.loop5.GetRealDistanceForStop "A" "A" = .ok 5 := rfl
    rw [h5] at h
    have h7 : ∀ x : Int, (Except.ok 7 : Except Fault Int) = .ok x → x = 7 := by
      intro x hx; cases hx; rfl
    exact absurd (h7 5 h) (by decide)⟩

/-- C39 (amended): in a catalogue that stores every stop under its name and contains the
stops `a` and `b`, `SetRealDistanceForStop(a, b, d)` returns and changes distances only;
afterwards the distance from `a` to `b` is `d`; for `a` other than `b` the distance from `b` to
`a` is `d` if none was stored before and is the one stored before otherwise; the distance of
every other ordered pair is as before; and `GetRealDistanceForStop` throws `std::logic_error`
exactly for the ordered pairs without a stored distance. -/
theorem SetRealDistance_effect (tc : TransportCatalogue G) (hn : tc.Named) (a b : String)
    (sa sb : Stop G) (ha : tc.GetStop a = some sa) (hb : tc.GetStop b = some sb) (d : Int) :
    ∃ tc', tc.SetRealDistanceForStop a b d = .ok tc' ∧ tc'.stops_ = tc.stops_ ∧
      tc'.GetRealDistanceForStop a b = .ok d ∧
      (a ≠ b → tc.GetRealDistanceForStop b a = .error Fault.logic_error →
        tc'.GetRealDistanceForStop b a = .ok d) ∧
      (a ≠ b → ∀ v, tc.GetRealDistanceForStop b a = .ok v →
        tc'.GetRealDistanceForStop b a = .ok v) ∧
      (∀ x y, (x, y) ≠ (a, b) → (x, y) ≠ (b, a) →
        tc'.GetRealDistanceForStop x y = tc.GetRealDistanceForStop x y) ∧
      (∀ x y, tc'.GetRealDistanceForStop x y = .error Fault.logic_error ↔
        Map.find (x, y) tc'.stops_real_dist_ = none) ∧
      (∀ x y, (∃ v, tc'.GetRealDistanceForStop x y = .ok v) ↔
        (Map.find (x, y) tc'.stops_real_dist_).isSome = true) := by
  have hna := hn a sa ha
  have hnb := hn b sb hb
  refine ⟨⟨tc.stops_, Map.insert (b, a) d (Map.assign (a, b) d tc.stops_real_dist_)⟩,
    ?_, rfl, ?_, ?_, ?_, ?_, ?_, ?_⟩
  · simp only [TransportCatalogue.SetRealDistanceForStop, ha, hb, hna, hnb]
  · simp only [Get_eq, find_insert, find_assign]
    by_cases hab : a = b
    · subst hab
      simp
    · have : ¬ ((a, b) = (b, a)) := by
        intro h
        exact hab (congrArg Prod.fst h)
      simp [this]
  · intro hab hnone
    have hf : Map.find (b, a) tc.stops_real_dist_ = none := by
      rw [Get_eq] at hnone
      cases hm : Map.find (b, a) tc.stops_real_dist_ with
      | none => rfl
      | some v => rw [hm] at hnone; cases hnone
    have hne : ¬ ((b, a) = (a, b)) := fun h => hab (congrArg Prod.snd h)
    simp [Get_eq, find_insert, find_assign, hne, hf]
  · intro hab v hv
    have hf : Map.find (b, a) tc.stops_real_dist_ = some v := by
      rw [Get_eq] at hv
      cases hm : Map.find (b, a) tc.stops_real_dist_ with
      | none => rw [hm] at hv; cases hv
      | some w => rw [hm] at hv; cases hv; rfl
    have hne : ¬ ((b, a) = (a, b)) := fun h => hab (congrArg Prod.snd h)
    simp [Get_eq, find_insert, find_assign, hne, hf]
  · intro x y h1 h2
    simp only [Get_eq, find_insert, find_assign, h1, h2, false_and, if_false]
  · intro x y
    rw [Get_eq]
    cases Map.find (x, y)
      (Map.insert (b, a) d (Map.assign (a, b) d tc.stops_real_dist_)) <;> simp
  · intro x y
    rw [Get_eq]
    cases Map.find (x, y)
      (Map.insert (b, a) d (Map.assign (a, b) d tc.stops_real_dist_)) <;> simp

/-- Witness for C39 (amended): in a catalogue with the stops `A` and `B` and the distance 5
from `B` to `A`, `SetRealDistanceForStop("A", "B", 7)` leaves 7 from `A` to `B` and 5 from
`B` to `A`. -/
theorem SetRealDistance_effect_witness :
    Demo.two.Named ∧
    (∃ tc', Demo.two.SetRealDistanceForStop "A" "B" 7 = .ok tc' ∧
      tc'.GetRealDistanceForStop "A" "B" = .ok 7 ∧
      tc'.GetRealDistanceForStop "B" "A" = .ok 5 ∧
      tc'.GetRealDistanceForStop "A" "A" = .error Fault.logic_error) ∧
    ∃ tc', Demo.two.SetRealDistanceForStop "A" "B" 7 = .ok tc' ∧
      tc'.stops_ = Demo.two.stops_ ∧ tc'.GetRealDistanceForStop "A" "B" = .ok 7 :=
  have hn : Demo.two.Named := by
    intro key stop h
    simp only [TransportCatalogue.GetStop, Demo.two, Map.find] at h
    split_ifs at h with h1 h2
    · cases h; exact h1
    · cases h; exact h2
  ⟨hn, ⟨_, rfl, rfl, rfl, rfl⟩,
    (SetRealDistance_effect Demo.two hn "A" "B" _ _ rfl rfl 7).imp
      (fun _ h => ⟨h.1, h.2.1, h.2.2.1⟩)⟩

end Transport
